import Mathlib

/-!
# Xcoin consensus core: a shallow embedding of `src/main.cpp`

The definitions below follow the C++ functions of `src/main.cpp` statement by
statement.  Unbounded GMP integers (`mpz`) are `Int`, exact rationals (`mpq`)
are `ℚ`, 32-bit and 64-bit machine integers are `Int`/`Nat` with explicit
wrap-around where a computation can leave the machine range.  Functions that
can raise a C++ exception return an `Option`/sum type whose failure value
stands for the exception.

Declarations that live in headers outside `src/` (`main.h`, `script.h`,
`serialize.h`, `bignum.h`) are either parameters (`Consts`, `Env`, `Policy`,
`WorkParams`, `AcceptParams`) or carry a doc
comment that says which words of the specification they were modelled from.

The globals that the memory pool and the chain logic update are fields of explicit
states (`CTxMemPool`, `ChainState`, `OrphanPool`, `NodeState`).  The unit table of
the wallet front end (`src/qt/freicoinunits.cpp`) is the namespace `XcoinUnits`.  A pointer to a block-index node is the list
of the node and its ancestors along `pprev` (`BlockPtr`), so that walking `pprev`
is structural recursion and every loop over it is a total function.
-/

namespace Xcoin

/-! ## Constants of `main.h` -/

/-- Modelled from the spec: the compile-time constants that `main.cpp` reads
from `main.h`, which is outside the excerpt.  They are kept as parameters. -/
structure Consts where
  MAX_BLOCK_SIZE : Nat
  MAX_BLOCK_SIGOPS : Nat
  /-- largest amount, as a 64-bit count of base units -/
  I64_MAX_MONEY : Int
  /-- largest amount, as an exact rational -/
  MPQ_MAX_MONEY : ℚ
  COINBASE_MATURITY : Int
  /-- demurrage denominator `R` -/
  DEMURRAGE_RATE : Nat
  /-- height at which the initial distribution ends -/
  EQ_HEIGHT : Int
  TITHE_AMOUNT : ℚ
  INITIAL_SUBSIDY : ℚ
  DIFF_FILTER_THRESHOLD : Int

/-- Values of the Freicoin lineage this code base derives from; used only to
evaluate the definitions on concrete inputs.  The genesis coinbase built in
`LoadBlockIndex` agrees with them: its last output, 49603174604, is `TITHE_AMOUNT`
rounded up, and its other outputs sum to 25453671567, just under
`INITIAL_SUBSIDY + MPQ_MAX_MONEY / DEMURRAGE_RATE`. -/
def sampleConsts : Consts where
  MAX_BLOCK_SIZE := 1000000
  MAX_BLOCK_SIGOPS := 20000
  I64_MAX_MONEY := 9999999999999999
  MPQ_MAX_MONEY := 9999999999999999
  COINBASE_MATURITY := 100
  DEMURRAGE_RATE := 1048576
  EQ_HEIGHT := 161280
  TITHE_AMOUNT := 9999999999999999 * 4 / 5 / 161280
  INITIAL_SUBSIDY := 15916928404
  DIFF_FILTER_THRESHOLD := 28336

/-! ## Machine integers -/

/-- Value of a mathematical integer after being stored in a 32-bit `int`. -/
def wrapInt32 (x : Int) : Int := (x + 2 ^ 31) % 2 ^ 32 - 2 ^ 31

/-- Value of a mathematical integer after being stored in a 64-bit `int64`. -/
def wrapInt64 (x : Int) : Int := (x + 2 ^ 63) % 2 ^ 64 - 2 ^ 63

/-! ## `std::map` -/

/-- A `std::map<K,V>`: finitely many entries with pairwise distinct keys. -/
structure StdMap (K : Type) (V : Type) where
  entries : List (K × V)
  nodup : (entries.map Prod.fst).Nodup

namespace StdMap

variable {K V : Type} [DecidableEq K]

/-- First value stored under `k` in an entry list. -/
def lookupL (k : K) : List (K × V) → Option V
  | [] => none
  | e :: es => if e.1 = k then some e.2 else lookupL k es

/-- Store `v` under `k`: overwrite the entry when the key exists, add one otherwise. -/
def setL (k : K) (v : V) : List (K × V) → List (K × V)
  | [] => [(k, v)]
  | e :: es => if e.1 = k then (k, v) :: es else e :: setL k v es

theorem setL_keys (k : K) (v : V) (l : List (K × V)) :
    (setL k v l).map Prod.fst =
      if k ∈ l.map Prod.fst then l.map Prod.fst else l.map Prod.fst ++ [k] := by
  induction l with
  | nil => simp [setL]
  | cons e es ih =>
    by_cases h : e.1 = k
    · simp [setL, h]
    · have h2 : ¬ k = e.1 := fun h3 => h h3.symm
      by_cases hm : k ∈ es.map Prod.fst
      · simp only [setL, h, if_false, List.map_cons, ih, hm, if_true, List.mem_cons, or_true]
      · simp only [setL, h, if_false, List.map_cons, ih, hm, List.mem_cons, h2, or_self,
          List.cons_append]

theorem setL_nodup (k : K) (v : V) (l : List (K × V)) (h : (l.map Prod.fst).Nodup) :
    ((setL k v l).map Prod.fst).Nodup := by
  rw [setL_keys]
  split
  · exact h
  · rename_i hk
    rw [List.nodup_append]
    refine ⟨h, List.nodup_singleton k, ?_⟩
    intro a ha hb
    simp only [List.mem_singleton] at hb
    exact hk (hb ▸ ha)

omit [DecidableEq K] in
theorem filter_nodup (p : K × V → Bool) (l : List (K × V)) (h : (l.map Prod.fst).Nodup) :
    ((l.filter p).map Prod.fst).Nodup :=
  List.Nodup.sublist (List.Sublist.map Prod.fst (List.filter_sublist l)) h

/-- The empty map. -/
def empty : StdMap K V := ⟨[], List.nodup_nil⟩

/-- The lookup `m.find(k)`: the stored value, or `none` for `end()`. -/
def find (m : StdMap K V) (k : K) : Option V := lookupL k m.entries

/-- The membership test `m.count(k)`. -/
def count (m : StdMap K V) (k : K) : Bool := (m.find k).isSome

/-- The assignment `m[k] = v`. -/
def set (m : StdMap K V) (k : K) (v : V) : StdMap K V :=
  ⟨setL k v m.entries, setL_nodup k v m.entries m.nodup⟩

/-- Removal of every entry that fails `p` (the erase-while-iterating loop). -/
def filter (p : K × V → Bool) (m : StdMap K V) : StdMap K V :=
  ⟨m.entries.filter p, filter_nodup p m.entries m.nodup⟩

/-- The call `m.erase(k)`. -/
def erase (m : StdMap K V) (k : K) : StdMap K V :=
  m.filter (fun e => decide (e.1 ≠ k))

end StdMap

/-! ## Data model (`main.h`) -/

/-- A 256-bit hash. -/
abbrev uint256 := Nat

/-- A script, as its sequence of bytes. -/
abbrev CScript := List Nat

/-- Modelled from the spec: the destination a script pays to ("destination" of a
budget entry); the type is declared in a header outside the excerpt. -/
inductive CTxDestination where
  | CNoDestination
  | CKeyID (id : Nat)
  | CScriptID (id : Nat)
deriving DecidableEq, Repr

/-- Modelled from the spec: `prev_outpoint = (tx_hash, index)`; `n` is an
`unsigned int`. -/
structure COutPoint where
  hash : uint256
  n : Nat
deriving DecidableEq, Repr

/-- Modelled from the spec: the null outpoint of a coinbase input ("its single
input has no outpoint"): hash zero and index `(unsigned int) -1`. -/
def COutPoint.IsNull (o : COutPoint) : Bool := o.hash = 0 && o.n = 2 ^ 32 - 1

/-- Modelled from the spec: an input `(prev_outpoint, script_sig, sequence)`. -/
structure CTxIn where
  prevout : COutPoint
  scriptSig : CScript
  nSequence : Nat
deriving DecidableEq, Repr

/-- Modelled from the spec: an output, `initial_value` as a signed 64-bit count
of base units and `script_pubkey`. -/
structure CTxOut where
  nValue : Int
  scriptPubKey : CScript
deriving DecidableEq, Repr

/-- Modelled from the spec: a transaction with its reference height. -/
structure CTransaction where
  nVersion : Int
  vin : List CTxIn
  vout : List CTxOut
  nLockTime : Nat
  nRefHeight : Int
deriving DecidableEq, Repr

/-- Modelled from the spec: a disk position (file, block offset, tx offset), the
content of a spent marker. -/
structure CDiskTxPos where
  nFile : Nat
  nBlockPos : Nat
  nTxPos : Nat
deriving DecidableEq, Repr

/-- Modelled from the spec: "each entry is either null or the disk position of
the spending tx"; the null position has file number `(unsigned int) -1`. -/
def CDiskTxPos.IsNull (p : CDiskTxPos) : Bool := p.nFile = 2 ^ 32 - 1

/-- Modelled from the spec: the null position written by `SetNull`. -/
def CDiskTxPos.null : CDiskTxPos := ⟨2 ^ 32 - 1, 0, 0⟩

/-- Modelled from the spec: TxIndex, "disk position + a vector `vSpent[i]`
parallel to outputs". -/
structure CTxIndex where
  pos : CDiskTxPos
  vSpent : List CDiskTxPos
deriving DecidableEq, Repr

/-- The constructor `CTxIndex(pos, nOutputs)`: all spent slots null. -/
def CTxIndex.mk2 (pos : CDiskTxPos) (nOutputs : Nat) : CTxIndex :=
  ⟨pos, List.replicate nOutputs CDiskTxPos.null⟩

/-- Modelled from the spec: "Coinbase: the first transaction of a block; its
single input has no outpoint". -/
def CTransaction.IsCoinBase (tx : CTransaction) : Bool :=
  match tx.vin with
  | [i] => i.prevout.IsNull
  | _ => false

/-- Modelled from the spec: range of a 64-bit amount, `[0, MAX_MONEY]`. -/
def MoneyRangeI64 (c : Consts) (nValue : Int) : Bool :=
  decide (0 ≤ nValue) && decide (nValue ≤ c.I64_MAX_MONEY)

/-- Modelled from the spec: range of a rational amount, `[0, MAX_MONEY]`. -/
def MoneyRange (c : Consts) (qValue : ℚ) : Bool :=
  decide (0 ≤ qValue) && decide (qValue ≤ c.MPQ_MAX_MONEY)

/-- Modelled from the spec: "sum of this tx's output values", as an exact rational. -/
def CTransaction.GetValueOut (tx : CTransaction) : ℚ :=
  (tx.vout.map (fun o => (o.nValue : ℚ))).sum

/-! ## MPFR numbers

`GetTimeAdjustedValue` computes its factor with the MPFR library at a
precision of 113 bits, every operation rounded to nearest (ties to even). -/

/-- Auxiliary recursion of `bitLength`. -/
def bitLengthAux : Nat → Nat → Nat
  | 0, _ => 0
  | fuel + 1, n => if n = 0 then 0 else bitLengthAux fuel (n / 2) + 1

/-- Number of binary digits of `n`. -/
def bitLength (n : Nat) : Nat := bitLengthAux n n

/-- A non-special MPFR value `mant * 2 ^ exp`, the pair that `mpfr_get_z_exp` returns. -/
structure MpfrNum where
  mant : Int
  exp : Int
deriving DecidableEq, Repr

/-- The exact value of an MPFR number. -/
def MpfrNum.toRat (x : MpfrNum) : ℚ := x.mant * (2 : ℚ) ^ x.exp

/-- Nearest integer, ties to the even one. -/
def roundHalfEven (y : ℚ) : Int :=
  let f := Rat.floor y
  let r := y - f
  if r < 1 / 2 then f else if 1 / 2 < r then f + 1 else if f % 2 = 0 then f else f + 1

/-- Correct rounding (`GMP_RNDN`) of an exact value to `prec` significant bits. -/
def mpfrRound (prec : Nat) (q : ℚ) : MpfrNum :=
  if q = 0 then ⟨0, 0⟩ else
  let a := |q|
  let e0 : Int := (bitLength a.num.natAbs : Int) - bitLength a.den
  let e := if (2 : ℚ) ^ e0 ≤ a then e0 else e0 - 1
  let m := roundHalfEven (a * (2 : ℚ) ^ ((prec : Int) - 1 - e))
  let me : Int × Int := if m = 2 ^ prec then (2 ^ (prec - 1), e + 1) else (m, e)
  ⟨(if q < 0 then -me.1 else me.1), me.2 - ((prec : Int) - 1)⟩

/-! ## Present value (`main.cpp` 1730-1779) -/

/-- The rational `adjustment` that `GetTimeAdjustedValue` builds for a non-zero
relative depth: `rate = RN((R-1)/R)`, `mp = RN(rate ^ depth)`, then the exact
fraction `numerator / denominator` read off `mpfr_get_z_exp`. -/
def adjustmentFactor (c : Consts) (nRelativeDepth : Int) : ℚ :=
  let mp0 := mpfrRound 113 ((c.DEMURRAGE_RATE - 1 : Nat) : ℚ)
  let rate := mpfrRound 113 (mp0.toRat / (c.DEMURRAGE_RATE : ℚ))
  let mp := mpfrRound 113 (rate.toRat ^ nRelativeDepth)
  let numerator := mp.mant
  let exponent := mp.exp
  let nd : Int × Int :=
    if 0 ≤ exponent then (numerator * 2 ^ exponent.toNat, 1)
    else (numerator, 2 ^ (-exponent).toNat)
  (nd.1 : ℚ) / (nd.2 : ℚ)

/-- The function `GetTimeAdjustedValue(const mpq&, int)`. -/
def GetTimeAdjustedValue (c : Consts) (qInitialValue : ℚ) (nRelativeDepth : Int) : ℚ :=
  if nRelativeDepth = 0 then qInitialValue
  else adjustmentFactor c nRelativeDepth * qInitialValue

/-- The overload `GetTimeAdjustedValue(int64, int)`: converts with `i64_to_mpq`. -/
def GetTimeAdjustedValueI64 (c : Consts) (nInitialValue : Int) (nRelativeDepth : Int) : ℚ :=
  GetTimeAdjustedValue c (nInitialValue : ℚ) nRelativeDepth

/-- The function `GetPresentValue(tx, output, nBlockHeight)`.  The depth is an `int`
difference of two heights. -/
def GetPresentValue (c : Consts) (tx : CTransaction) (output : CTxOut) (nBlockHeight : Int) : ℚ :=
  GetTimeAdjustedValueI64 c output.nValue (wrapInt32 (nBlockHeight - tx.nRefHeight))

/-! ## Blocks and the collaborators outside the excerpt -/

/-- Modelled from the spec: a block, "Header + ordered transaction list". -/
structure CBlock where
  nVersion : Int
  hashPrevBlock : uint256
  hashMerkleRoot : uint256
  nTime : Int
  nBits : Nat
  nNonce : Nat
  vtx : List CTransaction
deriving DecidableEq, Repr

/-- Modelled from the spec: the fields of a block-index node that the connect
logic reads.  The `pprev` chain of a node is passed separately, as the list of
its ancestors, nearest first. -/
structure CBlockIndex where
  /-- false when `phashBlock` is a null pointer -/
  hasHash : Bool
  hashBlock : uint256
  nFile : Nat
  nBlockPos : Nat
  nHeight : Int
  nTime : Int
deriving DecidableEq, Repr

/-- The script interpreter, serialisation, hashing, clock, block files and the
memory pool are outside the excerpt; the node's global flags are read-only for
the functions modelled here.  All of them are parameters. -/
structure Env where
  fTestNet : Bool
  nBestHeight : Int
  /-- value of `Checkpoints::GetTotalBlocksEstimate()` -/
  nTotalBlocksEstimate : Int
  /-- value of `GetAdjustedTime()` -/
  nAdjustedTime : Int
  /-- decoding `CXcoinAddress(str).Get()`, after `ToggleTestnet` when the flag is set -/
  DecodeAddress : Bool → String → CTxDestination
  ExtractDestination : CScript → Option CTxDestination
  /-- network serialisation size of a transaction -/
  GetSerializeSize : CTransaction → Nat
  /-- network serialisation size of a block -/
  GetBlockSerializeSize : CBlock → Nat
  /-- disk serialisation size of a transaction -/
  GetSerializeSizeDisk : CTransaction → Nat
  /-- disk serialisation size of the empty block `CBlock()` -/
  nEmptyBlockDiskSize : Nat
  GetSizeOfCompactSize : Nat → Nat
  GetHash : CTransaction → uint256
  GetBlockHash : CBlock → uint256
  BuildMerkleTree : CBlock → uint256
  /-- decoding of a compact target, `CBigNum().SetCompact(nBits)` -/
  SetCompact : Nat → Int
  /-- the oracle `VerifySignature(txPrev, tx, nIn, fStrictPayToScriptHash, 0)` -/
  VerifySignature : CTransaction → CTransaction → Nat → Bool → Bool
  /-- legacy count `script.GetSigOpCount(false)` -/
  GetSigOpCount : CScript → Nat
  IsPayToScriptHash : CScript → Bool
  /-- accurate count `scriptPubKey.GetSigOpCount(scriptSig)` -/
  GetP2SHSigOps : CScript → CScript → Nat
  /-- the call `mempool.lookup(hash)`, `none` when `mempool.exists(hash)` is false -/
  mempoolTx : uint256 → Option CTransaction
  /-- the call `CTransaction::ReadFromDisk(pos)` -/
  ReadFromDisk : CDiskTxPos → Option CTransaction

/-! ## Budgets (`main.cpp` 915-982, 984-1348) -/

/-- The type `CBudgetEntry`: a weight and a destination. -/
abbrev CBudgetEntry := Int × CTxDestination

/-- The type `CBudget`: a ratio and the entries. -/
abbrev CBudget := ℚ × List CBudgetEntry

/-- The statement `m[k] += x` on a map of amounts (a missing key starts at 0). -/
def addTo (m : StdMap CTxDestination ℚ) (k : CTxDestination) (x : ℚ) :
    StdMap CTxDestination ℚ :=
  m.set k ((m.find k).getD 0 + x)

/-- The function `ApplyBudget`.  `none` stands for the division by a zero weight
total, which aborts the process; the division is reached only when the budget
has an entry. -/
def ApplyBudget (qAmount : ℚ) (budget : CBudget) (mapBudgetRet : StdMap CTxDestination ℚ) :
    Option (StdMap CTxDestination ℚ) :=
  let vBudgetEntries := budget.2
  let zWeightTotal : Int := vBudgetEntries.foldl (fun z entry => z + entry.1) 0
  if vBudgetEntries ≠ [] ∧ zWeightTotal = 0 then none
  else
    let m1 := vBudgetEntries.foldl
      (fun m entry => addTo m entry.2 (qAmount * budget.1 * (entry.1 : ℚ) / (zWeightTotal : ℚ)))
      mapBudgetRet
    some (m1.filter (fun e => !decide (e.2 ≤ 0)))

/-- The map `mapActuals` that `VerifyBudget` accumulates over all outputs. -/
def mapActualsOf (c : Consts) (env : Env) (vtx : List CTransaction) (nBlockHeight : Int) :
    StdMap CTxDestination ℚ :=
  vtx.foldl
    (fun m tx => tx.vout.foldl
      (fun m txout =>
        match env.ExtractDestination txout.scriptPubKey with
        | some address => addTo m address (GetPresentValue c tx txout nBlockHeight)
        | none => m)
      m)
    StdMap.empty

/-- The function `VerifyBudget`. -/
def VerifyBudget (c : Consts) (env : Env) (mapBudget : StdMap CTxDestination ℚ)
    (vtx : List CTransaction) (nBlockHeight : Int) : Bool :=
  let mapActuals := mapActualsOf c env vtx nBlockHeight
  mapBudget.entries.all (fun itr =>
    if itr.2 ≤ 0 then true
    else
      match mapActuals.find itr.1 with
      | none => false
      | some actual => !decide (actual < itr.2))

/-- The function `GetInitialDistributionAmount`.  Below the filter threshold on
the main network the ramp is computed on `mpz` values (the numerator of
`INITIAL_SUBSIDY`, truncating division); otherwise on exact rationals. -/
def GetInitialDistributionAmount (c : Consts) (env : Env) (nHeight : Int) : ℚ :=
  if !env.fTestNet && decide (nHeight < c.DIFF_FILTER_THRESHOLD) then
    let zInitialSubsidy : Int := c.INITIAL_SUBSIDY.num
    if nHeight < c.EQ_HEIGHT then
      c.TITHE_AMOUNT + ((((c.EQ_HEIGHT - nHeight) * zInitialSubsidy).tdiv c.EQ_HEIGHT : Int) : ℚ)
    else 0
  else
    if nHeight < c.EQ_HEIGHT then
      c.TITHE_AMOUNT + ((c.EQ_HEIGHT - nHeight : Int) : ℚ) * c.INITIAL_SUBSIDY / (c.EQ_HEIGHT : ℚ)
    else 0

/-- The 320 literal addresses of `GetInitialDistributionBudget` (main-network form). -/
def vAddresses : List String :=
  [
   "1DCyWRmTXB9goqA4Zb88nU1Q8snA7d7n4x", "1LoFvV5YJsSMkpyPLizqyWH8KAkevV2XwJ",
   "1JTUD2rB3FvbNFPw7cvCdTVDM9nuZTw7Jk", "18w4xQQj2iXwtq9smYkEAJrWVz4jQNU4xd",
   "16vdGLyxdYgSCT9xAng9Js7KrsnrUHsyG2", "1Lo8mmskrLnvCuthadVaRS4K7WUSFpWAwj",
   "1J1irQQ3ZWoTPct989Nnzdtu6WjfCjQcWs", "1MME2u4V2ZiU6uUVJXTZMg5sQXAyMBUNXt",
   "1CT3kUDi3rvma8R7Jwbz7puATSU3xzfLHz", "1CLupi58K9XHVeWZ8jwbWiY4Ns46mPALbe",
   "16A8XoWWvtJrDE1AdYQoLxAQcoLQML9gjz", "1NwgZoUnudfmbQ99xDRdvrYskgjQ7KBt1Z",
   "17CDPam7M59JM6vK5xzh1vUGKjYT9Byi5S", "1PyKZKfquWcu3PFzKbvmKZ2oJWXbmbsWdB",
   "186LbdeaDsn4Y5zrLN9cfSHWpQPSHtLbgC", "1MrQWWNKfVseYyGkyyLsDhFekJWGJNt2i9",
   "1EAUtv6YfvcRUrU5SncdZ27aSJ6SBNJH67", "1DuSbRKB1GL9cBeJLYsuh3DADdwJgvHAQN",
   "1MPdcnGXHsjR6rFSBUMm4ui44q8Ra1fYRT", "1Ntv6bDFj8eQnXjawcatnJjJTowo1BA8rF",
   "14j9vnqn6FZwPZmwdvGSuESm1m3oQsHP5y", "1C679HkKyki9rN8tJvtMNyXGLedPdo8zbb",
   "1EMKZYHTcnpHVUJx4dUp5Jne2ePQKjpdTm", "1PmgFAV835znVpUwGkLkvJrKc4ZzBqixNX",
   "16zKbgjQDqua6xjrXLhCbPGFrpr8UJxf4x", "1KPurbuUH5D6HRe3Y148kUbRjDyFCCm3VH",
   "1GVyWAXxP9tgZbj8iDSQqQ5tcN36uJ3F1s", "1E5udyBXuBt1e8c2R27AvSTdp8H7LEhmxr",
   "1hQcLTTD7KiFxiojvSrrrj8Y1w2gF5bHE", "17BJ1oZdZJS64curVAL6rN1yYN7YiNVXpR",
   "1LotiV7qGfAZhVV36XtrixnEfHCiuqe39e", "1Q5yedqC3adLpNjbY4CWMxPojoxnSCVGjw",
   "1FpBGhBWn7WDZr9nP47qG3DktJbaY7P48P", "1H6Nh8dRPZjMm3KViuW5ZESjRwqYnQ36nt",
   "1NAAKtpk7VRRUtA5ja8YxCZQaisXQ28HqA", "1JKxed9uYfvcPgjGdo1GQXwMQJkAnap34G",
   "1DZ58aSGD13QfUa118rtvfKrJiVPAoxdV8", "12wnNuaQHbLyThJVJvfePhV8UwQEWURLLP",
   "16f8S6f6ZDX3N1JG2DL5kyz9KCzmwpGgt7", "1PPKwAUZ6g5wWiopfyJKJZn3xUFcrJbSBF",
   "18DzCPRpU1Y2o5FsuuvcScZaYSi2ZBTVFr", "1E5fy7csgbN5G9ENRwvSwGSAibLdLk52pe",
   "1Dapd3WLAz1jm91FpNThHamXeMjDU4TJgJ", "15HQuReQzSQ1mrHWy3iYELyJLjGNe9gNEZ",
   "1DcJhNQJLkDrSmrvATciEaf95ZvnhFFUF7", "1ErNVYRnGQpzFmxkXYnqR4LbcCViby7Rfi",
   "1D1CmGn3BCM5rviTxZEfc7NhozAetePkit", "1Af3dbEWMK5VuMkUozepYPQgMeVtmKtvW9",
   "1JY2W5m4jsYzY2YYXU6RRKDmobE3BYEbgA", "1PdTBBm2xhCoUY4A6cfYCopaFDsFyTf4MY",
   "1Fe51wUzrhyGmag9UXmzEsr6jSyWqcATAM", "1kyb1A5jWYP49YTkoN2y3JFQuNp1S2gXa",
   "1FxZ7fmDQmauMASYVuVcHeajGZQKrQ1UWB", "1EwtDpNLPmUZNLFmGMmNTwviUVe3DuTFKt",
   "1NYRPya8KWUfiSr8fXxccPoDMmBw2Uqj1y", "16vQMSBZK7iy5HDFfeiP2WomfpGfSEPJx5",
   "12E9bCLYb9uzh2MHhpsyR89V3eLXZp5afr", "1EA4NJjMXSgVNsNgEc7nSyRf3epjp3ABrQ",
   "1NN442B74LAsXUMUFZSriWZCUh8b5ECFR9", "1EMaEQmjjDCjgu3auEam5ABQ1J9ZtdLdpV",
   "1RYXoGz2cHTGsYC5zZdDwpCdGRj4aBdAX", "19aDWt7kBf53uLANiWnLFnWo5CqASh79mi",
   "1LDEniSxXknXLHT1BMWpFsBM3PQcgn1nYz", "1Q4Lji94eWCC9xBzwrbRE9yTMYS5fdKg9z",
   "16fQVYur5CVMq9VfNLYypKXNeTmvWnDKsz", "1Mc3r8pCpuRiHhkD3DrWf89CUnZb6xbFbg",
   "18oEnf5iR9CD2HFDc9Yr8kD7m5CrJVWRkv", "12VDq99L8UQWr8Waqo4GreEGCEBnkxMaXy",
   "1H7PxhMmvqiRT8NDEkSFjfDekRLQ65CqBN", "17yC59RcpYsw7jX3Zw7c48AcWtJqaHUwAr",
   "1AFT16ksWdqdjhk56gFDaRnr7vS4XCVtyQ", "1G84MZVqN54QTD47YWWmimy9htaj1WC58U",
   "13YcisL6YyUG5nqegyqyrL6pVtrMqGYtcq", "1NYdmagVHfbqTgW4hYJKS2YnWrJzCnSsvZ",
   "1PumqgHPLUjPKfddgwJA46D5GBdYgT8myg", "1PFKxU6g1kQayDwvpiLX2vJgUghMqJz9Ck",
   "154ENKy3HuYoN8xARVaxp61NUAt5GEknDj", "12CJ8BD8L8tQXjrpy4UfjJwCCtoL6vsegD",
   "1LXCWYJ6k7EG2Bi8rLh2jhV94L4G768yTa", "1K1rbcUFmE7XScTsqiNEiJHyX69eqbZdDB",
   "1uZZzXiu8n7eL96rcFWh9MvcqerYxaGce", "1JidqtE1YHwXFC1utxPAp17RkM3rUqwULk",
   "1PuMwPqNLLYi1sPxvJToid2EsfiP4xPfo6", "14ZSJRvSdgYFA1xUM2txnQKdMXMfsEWvuJ",
   "1D9RJw7p5zgz4JeWvVzYxBsAkvucRMiXfG", "1JRpRLZgcfNNeVEwGQmYZw5nv7Aq3KVx5x",
   "17Rqyx39YnpFN23dPE3CWRPC8JhuBVKktx", "19pozj4JeWd6rpMDeTpx8d1Dv4rebhUkvT",
   "15jULtTPTzXHr9ezTMFbaPJojbuYFrbrQp", "19dfCSTERPh5j4XtYoJatjdjD9afReeY3s",
   "1LgzNc1Sfbu8BaxKUESGbNzCNnpqvhpCi4", "1HTvoZUUNncPkjjv17xHLEtncdrgcdnN46",
   "1NHvSZWwk8RtgPvfhzykpvebQnVk1Q5XxX", "1AzdeDfjz5C5yT6wVxurgS8QPkZviHvY8N",
   "1BdFwnfS84uDeZn4sojUs5ZC8fSkx9o2XG", "1AgCAgvQZPQTkdMg853SkM2WdRzN4Q2ATw",
   "1JABYERsgkAYincsgCpic7MwV63iM19iXp", "1JFudqZDUkBMdV4ShLmhxLD7sfNEYdBQCE",
   "1Pqf48Skyxt77RNVwTLxUhA2BNCscaHJKa", "1AtdTwFFYZJrUUSWbBLBCkodRcnqwb1a6G",
   "14iezrH1nR9TjGtnywFPqBHbwYcEhwz8y9", "16x2aavFb2AHKntUnzA3HC2wmi921YJn4i",
   "1HovjtiToM6f2xV3Sxg4fxfvSYPCGGEXLe", "1MNrqZyo7poywLPVap6PsmmT5CS4f8hyWq",
   "1F6PzQRW2MPfCYvzgeUXoBXaEikH3E5zMk", "1F2SpgUakBvx6aNgJiCtEZHnTqVWeQcoMk",
   "13iTRwxSLGC17fzumSrRidaXe8v8awdDux", "1KuyBiZBdXVq8oNGAPWEqWiFi2RyH8rvwd",
   "1HdXmhHKkkzpn1UKmhBWFzQMYsUqxUuVZ9", "1Dw9jXoWc5MsEH3uLB9pi98qeyijUrvWU3",
   "15mW5WsusPo6LAAYLqa6ngFfQ1jX51v3Bn", "1DFfarcjskvSi2w56msV4JeeVZqtuwEL9p",
   "12SeGWd2txi4fdQKoFXsTdd2fgjDbABWyb", "1MoENmjtakS8XTHcwsbVFeJkjEckMhS3xm",
   "167pv4Hn53XQ4hFhyNtEyP36n8HrL3NU3j", "1E6WgpC4bmYJagvsTzhRxZ1Z8sRSsQjmJX",
   "1EFkVCzezsZCq56JWSBRf3Dy6tafFRxh4N", "1KnKZwDb44Qf3Lutda2T85uFZiTZwe2v2C",
   "1CLpF2fLukzBHard43mXLEXxz11gFK5dc9", "1DXSfPi1Tj6tQ5qf5M6Yj6cpNmLfPKMwr1",
   "16nHP74UsqeHewM1yUhNCL3zCjkWnqFt8g", "1FeqXkG9jGEDcPaKJV8rdh4NbqTjbdvN4a",
   "1LwwjmsoDtQ1Zh9N8doGMczP1TJnes2YoZ", "1DgusdNgB6nRD2emfwURMmk33LrB7Wp95c",
   "17kjPofVVmhZAWXnrVwfqizGtXWBufWwbf", "1EnLHA3U15wXehXAC24W587EEaeyUcaA6K",
   "1MwpkFtEwrAQNbsmbt4kB9WtoB8mFLXZ44", "12iQRcVoRCbFNvoQARM3rufTkd7jXpHZEm",
   "19zK2WFDkaHZfWa4uS5mzF2XD1KrZEMxy2", "12Zs8LtRY1cTS3HKw1gwPzYjB1Ar6Er93R",
   "1KDVcQhjZuX39Fvv8QbrSpaSycMA4YdPkU", "1AT6rxNBT8sasYKrKm9fv7LdjXBS89Wewh",
   "19YjbLEUgqV8joQMgijDWZoY1inwXf1hXc", "1EpHQ43BkzmKYMiYwmRRKEXQidpgA499px",
   "13bQP93mmUFtUGVuBEwZ9ymdbCC9yywgdL", "1GatPyGkCX5YUW4f2QHJk1PzwspCRz9b3J",
   "1Jk8sCUfHVE6VpwkkTG9qaYYS9u1zMmQAs", "13N4Eiv2KiX4PeFwiWnC847JBv4TP2sn1Z",
   "1ESzED9saJ3bVB6BbVSTFGDxRLnTgWRVDC", "1CspvzG7HyuNXRLsaWnpsLXPDwkeDKd4mm",
   "14Rs4fo9tK39kyEFoAjbvkcgGZ6k356t3T", "1D6jgPJYoFhbY7gJjNMAbyfJzBGVtqSc1o",
   "16MHoaVyYQgPU525fz2auJpK6JVyFKEiz1", "1FfS9TQswYZHYDNkUmncRAYjYJkLzGncp5",
   "14PXPSEjNjWAuqYa63RBT6gewnomE9saRu", "1CHBBtBCRQz1TFyE12g8RbGPZ6UzX2AieC",
   "1CMwT1jzfoe9VvURpZanaXVQobMQLr13W8", "1696KNrMvHvnthPLZnGuYGY96UbEqLeXz6",
   "1A7TQi9sMiNQX8uwwqFb8eqaXnpTJY4WYg", "1GNuX6AN2KCF1AWtxAT9QYD6QRJubRvKaz",
   "16L3CvHeZcZcr3wPhoEC3ZsMLN7YTonMTQ", "1EnqRdqx1VZyfc5ia4pcmZstBcGdW8FGxn",
   "1MQ1QeCMZhxFCgReGEPRS2Qy74FaPqFccW", "16Za6Rn8dCmM8gctXQtwN1yQ2WXnhHsSgs",
   "15k38dy86CRnirMY9Q1niVmfn7nfXTmppL", "1MQsruCXBjCZzTZKKpPwcC74ztetbtAw4E",
   "1cmAt63c4ZAqRe2fBQTYs5Jyx41fiBbhQ", "1PBCaowV7gQM6Lj1NfSpH2TnHHmqXcYTsC",
   "1841uXFc2kUTUogCDJwp4U1NPjSPqsg69x", "1XNo9kDMM6uqvf9yCWmqj17rukC8abjtb",
   "1A4kHAe6rNz1q8G6dYjNMyWzgVv4DxYget", "18Y6y6zcJrG5j2RjmGqsUvtWkZhnTvRka7",
   "1DkcMkHWUUVjXgAu2MFXVkUuwZ6JWv64cz", "1JvXTyBxhjE9mERWEFnqeuAPgbJSi25qGd",
   "1FHus2MsM8k4oKHt22YFYeoFkf65kxQFP3", "18HLkAhrzeNsaMB3MY1xUGW7wkzjWGobT7",
   "1AF7KmTRrS3mMxop2Viop1MctrNJmPAHQt", "13g4rWjU2PK4eN9D9XXo4jRB84RiJ2hD7o",
   "1EWUiUoxZXfTbZXDZGueag7XRnv5Mej8ZZ", "1LuuGk4tyd4USQqtYypemjt5vs3VRqV1QU",
   "15eUUDUYDuiKnt9xNbzhNFmorCK9F9mJb2", "1HGzWgdrNAKsE9nE1GHtUvaXHNzvwTyPQX",
   "11MhmCVmFszm6yTTwaK2dypwcLaybmCjp", "1s9XWpGPQqhbog1S6xgGqcVnfvnLMAueZ",
   "16f3tHcuRavx3tSWCM2jnnCX5jGa2vJe9Q", "15NWaghRx51ravYTUqsnBF2hQFQeSHtTvS",
   "1QGUUgikmqCinDQn3vfqx9q6mnT5ekA4BG", "134WvpvyZUveYc98CmtWZc1oBBXdrV1GuU",
   "1LqNfcDBn7eytc7Ln6fLrCDLkYeMa6R9dV", "14xbponjm6rXp8cNzTJmtCJwvwvDuKvaCD",
   "14D7JyUrv1HeSD7FCc8WupmbxUiGyfC7uC", "1ER6GhDJokhBjB73DWDTdC2BP2J9DiqD1o",
   "13Q3or3Hew7hBZzMoriz8LcMXwptqD5HEd", "1HSyeVQEvdRwj2rutFN33cKu2tPzyGkgx2",
   "1A1WaQQ6ZjXuEe2KYZNC3ycPg4X9czsR4D", "1fhzxkMPY4hUYNywoQwyVGkinVKQrPJ2P",
   "1Nf63BqwEmb7vU15bRfpvKEs5tMGZpR5Fi", "1Gi6tjnRBecQovhRQVNmsPyVZYmphZerdg",
   "1AJ87nhgSQkac9BUjEvbyWh8c95ciHLZWG", "1WDyJLrJaLRePMtea6bAgADwzdpbW5nqd",
   "1JTvhcJuxydevXw4ocUUteiPNWwPtMM56H", "16X1LYmpxM2fPBjNTLbnPo2LdA6sB7fbNu",
   "1315ZWhxgd6pqqTmvF21fxt5wzYvpcnZSm", "17PWpyrUmkaCVPu6KXaWvuLLYvD9YU61RP",
   "1PADxQpcx8Kvs3PprjYvM1wYFyjxB3tcs8", "1BWyJmxybx3p1guhud8qxabrGbVLWaVNaM",
   "17JpmLSEbXgmheAvTQ7iiBvR5TaSsM2Xgt", "19oxMuyyipVsvxXWKBBrFmY8hQbWkiiVEv",
   "16TvroBFWJmUN7VSHQLmyh6KiCri5QVTQu", "1MXJR6XRoThY9rwvyvLkXWN17WN7rAQC4J",
   "163N8CmDAf45CM6brXMpzg3AN2nkDXTuRt", "1CWudCKLCxT5AXteLFeZRBDyb4moQH4cVL",
   "1DYmgt2zpW2eNfyczC98aq76URHQMnfwZK", "1JnE2YseXgBX4oHGo8VywsxnNkp52s6nkX",
   "1D8WBBBCHhgLrMa8s3QU1bkRcRHEt8cNfv", "1Fm5eoDvEZo4hyW4YEDu3q2gKbpCuo9hqw",
   "18uRTixnVaKMz9tyoR6Ve6Rqdwtt8oZ1Zw", "1FuByKdd2RK3hjc3UFeV56HvheyAMnjMMS",
   "17nDqatJ7M6M9vFRa4BngCCLPGSJ6mfc8b", "1G4qHkiaaVZwuLqwvh2itFjR18iThkeaDQ",
   "18ZcHUg5wV4sSdd9pS7xv5rYsfx5D1hZWi", "1CZU6UCZjtWueXQWYzyrFa4K7pTSeBQ8cw",
   "19zRVJvXaXZvygqbHAP1ZKF5Rx9gq3Xh8u", "1HQAyw9UUi2eiQHJcnbg5eeJTnv2QoEQqA",
   "16eZAqdqypn47T8DwS1archd39uXqK8JQ8", "19he5Hy915MbSZBvwHjB3LAm5UyLnmQ5TK",
   "1CzGcY5JKDroUtdFdZJArGeEmKMEtyeAKw", "1DzowkZrtEQgoDF8xgxjPBfLaBMeBHjNr2",
   "16GA6zc9iTUB8o47oi7fbE88ayEi8C7w2r", "1Mvp5TikHrzJetDMbjHkzAkP9rMBfQrais",
   "1Lrbk1vrmCqVfajBqtwHD1x9x72jeDCon5", "1AMDHRKUah3J8yESFt7NnoUXrM4ULHcUpN",
   "1MbnTTv5FJX8RsK5tw9KjNx1VCvo94GEKK", "1Hmbm1TUDuDwdVWkU1oiaReRRBTzb8fMDJ",
   "15XYapuYSjaDc4uDXJsf3PF33YzSRs5P3M", "1C3ovhhZwo73isNQPuKKD5VDm2XwByBkTK",
   "16VJrBFjFjhLY93NihDvWqBpUeiXeL2FUi", "1C9Niuy1cSW6a6g5tm8GhPsSML6ZtWeUQS",
   "149937wZtsTvtwmixD33npnsnyUm5zjstX", "1NkCKjPZUFecVWxLGnJbN7Fp8viJRG5Xg4",
   "1MG3okwhF3YDwVWDcYsNr5ySA4eMtCATrK", "1GtzbwNuHYBZaDRVpJGuDwjBQhSh5RBVRZ",
   "1CJi6dja55AtGeuJX6WLFGTHsoofqZyDNu", "1oftVXkjfpJSMKGnz1pps1xVWNUNNhAmq",
   "168KgGGUEEx22eCNuSMjsKvn5chiZ5c217", "1FmQzGLJFu3AvucwDEAjYRM4fPgiSZsT6Q",
   "1F9t4EmWXy2Wui21LaMuZmRDwRCF38aDZN", "19eFuss1dgxPdDfoAu6AsVmBUj5d2DUPu3",
   "15Yr2PPbFGqbi2SZtZ59cvd5y2Es8atRE5", "1Pz8oisCda5aJXtVVDo1mfxxvgymVNcmsM",
   "1HkHQHNkjXp6VinoEG6a1i55NmreXC9yAX", "12ShPmbsADZMacnr5u2DPxssKXjd3HaCZc",
   "1BasQDDfZ677LF3mEAQUEFHvJexZ8ZxY47", "1FVXTVaK3rwSrx67WGdNkNFwL5sVm81TEK",
   "1NV8VjVBrkgCTJvyBHZumboXjPtSNZvRJX", "1HVdN1BSusJZ42sSfJFHB2CJ6LcW5Fz31a",
   "12j2yfUP2dNo3HwdrTDjMGZhzBcdhYvFj6", "1BrWHBKCpvNYssq8Kj8yY6qvy7GqFgk8UP",
   "1G3faUnBxMHwwX2uLn6dZJEj9pmJ2o5cnq", "1Nq59Py1u73B26aTTRhZG3g9h5fmrmkeX9",
   "1DMuz7B193myzVq4Kgg76Jb6Da2UjkAti", "1124BMmAevhic3H1MQB3teQFhoVi7RVUhR",
   "1B1hrgcDNfSuaKJi3oJ4cBtyysq2BpGFz8", "18NE1w2soK6xGUYYvoTe7oEtRtQhxBLXCq",
   "1MESy7CY2yTgxSERyejcvCGjK8Qm2EhE4g", "1445Hs1Lgh9pPvD8mSt5oiGwTY8yT2sy9R",
   "14pm2Fxwin4mwHqd5ujXAXTJJFuQ31qYUf", "17UhQpeFQ3nCjj8PJKCrTWHnP8YSvrNM7h",
   "15zVu5t8iURV2feuvmnHgYp9u7cxPC4XrN", "19JriYALeNskNnvjYidpoNHNLegftkViqH",
   "13mauBB6JYTPcfoWbNbCWKk4sNqmwxCXse", "1LwRt9rpGaekbht7UAitg2ADmFtDrKThYV",
   "15Z9wnxM6VxrRkqhLZpLskGRJ2dLRMEmCg", "1GvQwfMSMRggmmFCRqf1EmvaG5U5sY4sKL",
   "13iUoiiVq7C4fUmy94r1HEDf35YKwBAVXh", "1ELZsnzgBmZSSxQQYuAANg8izDFTbzhbPB",
   "13me2Z71XAtmkzggnqusdvuRiXZzFRGZBj", "1KC7ECvdcofiYXJ63iUnvFrEH4zzhQZ2pB",
   "1LtFLa3oaEBhmHQ5iXRvFqeNcrzU8GPNMM", "1LNHH8DGXWQRyfmkSkaJcBkkiVxUhH8tBM",
   "1Daw5kGzsqBhfRfMV6dAA4bgBZ2LBWS1nY", "164XLENwRiappRPUP47sRTSyXtW8CAXVLi",
   "1CFoTaknkFGADVo2rK92jwq18NWBzVcJGS", "1MnrNuPrnuJFxYnkpKDqUymHGjb1d6qLVq",
   "1BpwPwf8kUssmoMCoWnHCVY4wjBJi3CZyD", "1jiJb2DU3DB6ujD8eV3DZXmnfwWaHti4y",
   "1DqQnvWdtKvwBtePpCbDd8juZ9ZbeaKFdH", "131D32PNpqqGtLGUaAaZePqpUdBTiy8Akh",
   "16jK6KaY7Ub7fZ7YaBi94ZsygovzixnRNx", "1EJx1ShX4UJVrzynP3oZw8wdLpSGC1KPrz",
   "1899kFmma5FongtN9JfvFKqhwtbw2w9MDe", "1FNNBK9SeDUufbbnmoagUFt7oKVbb65vaw",
   "1LxF4pLjeSpNs4ux24MDduzCzrM2KCsE7M", "1BZjVRe2CCA7G7qnG3beWWhG173f1mbNX2",
   "1L5HWs7WrK457CzjAgnHghveFpQVv7rRTe", "1Kp4bjG9nwbogd8WM62ijGG6onW9Wo4aYK",
   "1hhvJ4QmB6RX12Bps9xhnMHCDDXTXAnDu", "19xiuTYSm85gNsPZw8hGLS69e2DjVbCuAP",
   "19WdcJU8Z1W3ZZnbpfDRbdrYGapxp1L5zo", "121hT7w8DN3x1pYEowak7FjmNgihMNo2cd",
   "1BtthjPb9GPKwgcJtrgZRQRWhiRSCHmyvk", "1JKgRTkMgEodFFpPwoz9W6pejMN3x3J9X1",
   "18zp4dHdouYqFn2qC4ttAva8cwqhZ4pm4K", "1ELAVZKvGykuzRDCvFUsJTL4istYisbxpK",
   "1PfULZdJniM8SutFdjoKvG3WLUwxZL2YUf", "1DTbnuz4dPLdduseE3k5xr62eFAYjCSk3E",
   "14jVGdWJRcqpdgWPAbbvhMfVnLha6MdnYU", "1GBiMVjsqkcGxij2hGFQxVUX2WjDcr1Esf",
   "1FGUuAuGRkSqEL8Besg33QsekxmBB75ZUH", "19FsZeejdbfUKK21wENRdoR2BUowD4FsMZ",
   "1LbBHWffmANdhcb1Wciv4jWwXPGrtVFhsU", "1FT9PRuDmFKxZorYrfgibWaaBdKWv7PiB4",
   "1FUvPJ3nXMUrFEWqkjxPe5esqQ2GoCmUAk", "1LJLBDK8q7yLibK2oYTA6hbD9UpmP6U3QP",
   "14E9GEg9T5N9aja1FV2ewNFjMK6wPEgsKb", "1JYmABbYkUjAyowLwa1zoQj86PEWMBdeZP",
   "1NCfTbrEsZrCT3Efyk5AfvqP2xY6NesWHy", "1Bwd6rcgGLq8sdo3FHHSmh3J7ufqdgMeqi",
   "1PzAWHEt2xabgWEki5hTgwtTyuKRS1at39", "1Fo3r7DWDtJ8Yu2UqngNqKMSw98XgsXehW",
   "1H1b6FLd5eqH8Q9Cw8UkZv2nY3xxKTfsH3", "12x9TqiF9FQU7sqnRiCmrRZmG7dLs9hyG6",
   "13VYYQ8K9AFiajev9QdHM6Kj8SqevRT7GS", "149HFz2K7D4GffQm8t7rKQuWmcwJohsimk",
   "1JqwkYTg3ZuWMpjhxrJYgW7E826HYoiBSG", "1NiyjCKxM33nozwzU2LNtWBPWrWTUpiaAM",
   "1LD4F5tA87e7nMwNRuHhgwH6zTFZ1LyoE2", "1M3wUX9YYrcVSSw6Tncdoic3Fj13okQ63u",
   "1PVKsqeVqM4B2ccq915GHeK3aDeruStr24", "1PKNQqSuPknZ1PaqKkRqa9qYujWKL9KQ7E"]

/-- The function `GetInitialDistributionBudget`.  The index `nHeight*320/EQ_HEIGHT`
is `int` arithmetic; an index outside the table is undefined behaviour in the
source and reads the empty address here. -/
def GetInitialDistributionBudget (c : Consts) (env : Env) (nHeight : Int) : CBudget :=
  if nHeight ≥ c.EQ_HEIGHT then (0, [])
  else
    let idx : Int := (wrapInt32 (nHeight * 320)).tdiv c.EQ_HEIGHT
    let vBudgetEntries : List CBudgetEntry :=
      [(1, env.DecodeAddress env.fTestNet (vAddresses.getD idx.toNat ""))]
    let qRatio : ℚ := c.TITHE_AMOUNT / GetInitialDistributionAmount c env nHeight
    (qRatio, vBudgetEntries)

/-- The function `GetPerpetualSubsidyAmount`. -/
def GetPerpetualSubsidyAmount (c : Consts) (_nHeight : Int) : ℚ :=
  c.MPQ_MAX_MONEY / (c.DEMURRAGE_RATE : ℚ)

/-- The function `GetPerpetualSubsidyBudget`: the empty budget. -/
def GetPerpetualSubsidyBudget (_nHeight : Int) : CBudget := (0, [])

/-- The function `GetTransactionFeeBudget`: the empty budget. -/
def GetTransactionFeeBudget (_nHeight : Int) : CBudget := (0, [])

/-- The function `GetBlockValue`. -/
def GetBlockValue (c : Consts) (env : Env) (nHeight : Int) (nFees : ℚ) : ℚ :=
  GetInitialDistributionAmount c env nHeight + GetPerpetualSubsidyAmount c nHeight + nFees

/-! ## Results of the validation functions -/

/-- Modelled from the spec: "Validation functions return a boolean plus a DoS
score".  `nDoS` is the score the call adds to the object it was called on. -/
structure Verdict where
  ok : Bool
  nDoS : Nat
deriving DecidableEq, Repr

/-- How a call of a validation function that also produces data ends: it returns
true (with the data), it returns false (with the DoS score it set on the object
it was called on), or it is left by a C++ exception or a failed `assert`. -/
inductive Outcome (α : Type) where
  | done (a : α)
  | fail (nDoS : Nat)
  | thrown
deriving DecidableEq, Repr

/-- Sequencing: a false return or an exception ends the computation. -/
def Outcome.bind {α β : Type} (x : Outcome α) (f : α → Outcome β) : Outcome β :=
  match x with
  | .done a => f a
  | .fail n => .fail n
  | .thrown => .thrown

/-- The call returned true. -/
def Outcome.returnedTrue {α : Type} : Outcome α → Bool
  | .done _ => true
  | _ => false

/-- The DoS score set by a call that returned false (`none` for any other end). -/
def Outcome.failedWith {α : Type} : Outcome α → Option Nat
  | .fail n => some n
  | _ => none

/-! ## `CTransaction::CheckTransaction` (`main.cpp` 432-480) -/

/-- The loop over `vout` of `CheckTransaction`: false as soon as a value is
negative or too high or the running `int64` total leaves the money range. -/
def checkValueOut (c : Consts) : List CTxOut → Int → Bool
  | [], _ => true
  | txout :: rest, nValueOut =>
    if txout.nValue < 0 then false
    else if txout.nValue > c.I64_MAX_MONEY then false
    else
      let nValueOut2 := wrapInt64 (nValueOut + txout.nValue)
      if !MoneyRangeI64 c nValueOut2 then false
      else checkValueOut c rest nValueOut2

/-- The loop over `vin` of `CheckTransaction` that fills `vInOutPoints`: false as
soon as an outpoint is already in the set. -/
def checkInOutPoints : List CTxIn → List COutPoint → Bool
  | [], _ => true
  | txin :: rest, vInOutPoints =>
    if txin.prevout ∈ vInOutPoints then false
    else checkInOutPoints rest (txin.prevout :: vInOutPoints)

/-- The function `CTransaction::CheckTransaction`. -/
def CheckTransaction (c : Consts) (env : Env) (tx : CTransaction) : Verdict :=
  if tx.vin.isEmpty then ⟨false, 10⟩
  else if tx.vout.isEmpty then ⟨false, 10⟩
  else if env.GetSerializeSize tx > c.MAX_BLOCK_SIZE then ⟨false, 100⟩
  else if tx.nRefHeight < 0 then ⟨false, 100⟩
  else if !checkValueOut c tx.vout 0 then ⟨false, 100⟩
  else if !checkInOutPoints tx.vin [] then ⟨false, 0⟩
  else if tx.IsCoinBase then
    match tx.vin with
    | [] => ⟨true, 0⟩
    | vin0 :: _ =>
      if vin0.scriptSig.length < 2 || vin0.scriptSig.length > 100 then ⟨false, 100⟩
      else ⟨true, 0⟩
  else if tx.vin.any (fun txin => txin.prevout.IsNull) then ⟨false, 10⟩
  else ⟨true, 0⟩

/-! ## Inputs (`main.cpp` 1642-1715, 1781-1821) -/

/-- The type `MapPrevTx`: per previous-transaction hash, its index entry and the
transaction itself. -/
abbrev MapPrevTx := StdMap uint256 (CTxIndex × CTransaction)

/-- The default-constructed `CTxIndex` (`SetNull`). -/
def CTxIndex.null : CTxIndex := ⟨CDiskTxPos.null, []⟩

/-- The default-constructed `CTransaction` (`SetNull`). -/
def CTransaction.null : CTransaction := ⟨1, [], [], 0, 0⟩

/-- The call `v.resize(n)` on a vector of disk positions: new slots are null. -/
def resizeSpent (v : List CDiskTxPos) (n : Nat) : List CDiskTxPos :=
  v.take n ++ List.replicate (n - v.length) CDiskTxPos.null

/-- What `FetchInputs` hands back: the return value, the flag `fInvalid`, the DoS
score set on the transaction, and `inputsRet`. -/
structure FetchResult where
  ok : Bool
  fInvalid : Bool
  nDoS : Nat
  inputsRet : MapPrevTx

/-- First loop of `FetchInputs`: locate each previous transaction.  The result is
`inputsRet` and whether the loop ran to its end (false: the function returns
false there). -/
def fetchLoop (env : Env) (txdb mapTestPool : StdMap uint256 CTxIndex) (fBlock fMiner : Bool) :
    List CTxIn → MapPrevTx → Bool × MapPrevTx
  | [], inputsRet => (true, inputsRet)
  | txin :: rest, inputsRet =>
    let prevout := txin.prevout
    if inputsRet.count prevout.hash then
      fetchLoop env txdb mapTestPool fBlock fMiner rest inputsRet
    else
      let found : Bool × CTxIndex :=
        if (fBlock || fMiner) && mapTestPool.count prevout.hash then
          (true, (mapTestPool.find prevout.hash).getD CTxIndex.null)
        else
          match txdb.find prevout.hash with
          | some txindex => (true, txindex)
          | none => (false, CTxIndex.null)
      let fFound := found.1
      let txindex := found.2
      if !fFound && (fBlock || fMiner) then
        (false, inputsRet.set prevout.hash (txindex, CTransaction.null))
      else if !fFound || txindex.pos = ⟨1, 1, 1⟩ then
        match env.mempoolTx prevout.hash with
        | none => (false, inputsRet.set prevout.hash (txindex, CTransaction.null))
        | some txPrev =>
          let txindex2 : CTxIndex :=
            if !fFound then ⟨txindex.pos, resizeSpent txindex.vSpent txPrev.vout.length⟩
            else txindex
          fetchLoop env txdb mapTestPool fBlock fMiner rest
            (inputsRet.set prevout.hash (txindex2, txPrev))
      else
        match env.ReadFromDisk txindex.pos with
        | none => (false, inputsRet.set prevout.hash (txindex, CTransaction.null))
        | some txPrev =>
          fetchLoop env txdb mapTestPool fBlock fMiner rest
            (inputsRet.set prevout.hash (txindex, txPrev))

/-- Second loop of `FetchInputs`: every `prevout.n` is inside both vectors.  `none`
is the failed `assert`. -/
def fetchRangeOk (inputsRet : MapPrevTx) : List CTxIn → Option Bool
  | [] => some true
  | txin :: rest =>
    match inputsRet.find txin.prevout.hash with
    | none => none
    | some (txindex, txPrev) =>
      if txin.prevout.n ≥ txPrev.vout.length || txin.prevout.n ≥ txindex.vSpent.length then
        some false
      else fetchRangeOk inputsRet rest

/-- The function `CTransaction::FetchInputs`; `none` is the failed `assert`. -/
def FetchInputs (env : Env) (txdb mapTestPool : StdMap uint256 CTxIndex) (fBlock fMiner : Bool)
    (tx : CTransaction) (inputsRet : MapPrevTx) : Option FetchResult :=
  if tx.IsCoinBase then some ⟨true, false, 0, inputsRet⟩
  else
    let r := fetchLoop env txdb mapTestPool fBlock fMiner tx.vin inputsRet
    if !r.1 then some ⟨false, false, 0, r.2⟩
    else
      match fetchRangeOk r.2 tx.vin with
      | none => none
      | some false => some ⟨false, true, 100, r.2⟩
      | some true => some ⟨true, false, 0, r.2⟩

/-- The loop of `CTransaction::GetValueIn`; `none` is one of its exceptions. -/
def valueInLoop (c : Consts) (nRefHeight : Int) (inputs : MapPrevTx) :
    List CTxIn → ℚ → Option ℚ
  | [], nResult => some nResult
  | txin :: rest, nResult =>
    match inputs.find txin.prevout.hash with
    | none => none
    | some (_, txPrev) =>
      match txPrev.vout[txin.prevout.n]? with
      | none => none
      | some txOut =>
        let nInput := GetPresentValue c txPrev txOut nRefHeight
        let nResult2 := nResult + nInput
        if !MoneyRange c nInput || !MoneyRange c nResult2 then none
        else valueInLoop c nRefHeight inputs rest nResult2

/-- The function `CTransaction::GetValueIn`; `none` is one of its exceptions. -/
def GetValueIn (c : Consts) (tx : CTransaction) (inputs : MapPrevTx) : Option ℚ :=
  if tx.IsCoinBase then some 0
  else valueInLoop c tx.nRefHeight inputs tx.vin 0

/-- The function `CTransaction::GetLegacySigOpCount` (`unsigned int` arithmetic). -/
def GetLegacySigOpCount (env : Env) (tx : CTransaction) : Nat :=
  let n1 := tx.vin.foldl (fun n txin => (n + env.GetSigOpCount txin.scriptSig) % 2 ^ 32) 0
  tx.vout.foldl (fun n txout => (n + env.GetSigOpCount txout.scriptPubKey) % 2 ^ 32) n1

/-- The loop of `CTransaction::GetP2SHSigOpCount`; `none` is an exception of `GetOutputFor`. -/
def p2shLoop (env : Env) (inputs : MapPrevTx) : List CTxIn → Nat → Option Nat
  | [], nSigOps => some nSigOps
  | txin :: rest, nSigOps =>
    match inputs.find txin.prevout.hash with
    | none => none
    | some (_, txPrev) =>
      match txPrev.vout[txin.prevout.n]? with
      | none => none
      | some prevout =>
        if env.IsPayToScriptHash prevout.scriptPubKey then
          p2shLoop env inputs rest
            ((nSigOps + env.GetP2SHSigOps prevout.scriptPubKey txin.scriptSig) % 2 ^ 32)
        else p2shLoop env inputs rest nSigOps

/-- The function `CTransaction::GetP2SHSigOpCount`. -/
def GetP2SHSigOpCount (env : Env) (tx : CTransaction) (inputs : MapPrevTx) : Option Nat :=
  if tx.IsCoinBase then some 0 else p2shLoop env inputs tx.vin 0

/-! ## `CTransaction::ConnectInputs` (`main.cpp` 1823-1904) -/

/-- The maturity loop: walk from `pindexBlock` along `pprev` while the height
distance is below `COINBASE_MATURITY`; true when a visited node is the block
stored at the position of the previous transaction. -/
def spendsImmature (c : Consts) (nBlockHeight : Int) (pos : CDiskTxPos) :
    List CBlockIndex → Bool
  | [] => false
  | pindex :: rest =>
    if wrapInt32 (nBlockHeight - pindex.nHeight) < c.COINBASE_MATURITY then
      if pindex.nBlockPos = pos.nBlockPos && pindex.nFile = pos.nFile then true
      else spendsImmature c nBlockHeight pos rest
    else false

/-- Height of `pindexBlock`, the head of the chain (0 for the null pointer, where
the maturity loop does not run). -/
def chainHeight (chain : List CBlockIndex) : Int :=
  match chain with
  | [] => 0
  | pindexBlock :: _ => pindexBlock.nHeight

/-- First loop of `ConnectInputs`: range of `prevout.n` and coinbase maturity. -/
def connectRangeLoop (c : Consts) (inputs : MapPrevTx) (chain : List CBlockIndex) :
    List CTxIn → Outcome Unit
  | [] => .done ()
  | txin :: rest =>
    match inputs.find txin.prevout.hash with
    | none => .thrown
    | some (txindex, txPrev) =>
      if txin.prevout.n ≥ txPrev.vout.length || txin.prevout.n ≥ txindex.vSpent.length then
        .fail 100
      else if txPrev.IsCoinBase && spendsImmature c (chainHeight chain) txindex.pos chain then
        .fail 0
      else connectRangeLoop c inputs chain rest

/-- Second loop of `ConnectInputs`, from input number `i` on: reference heights,
double spends, signatures; marks each slot with `posThisTx` and writes the index
entry back to `mapTestPool` for a block or the miner. -/
def connectMarkLoop (env : Env) (tx : CTransaction) (posThisTx : CDiskTxPos)
    (fBlock fMiner fStrictPayToScriptHash : Bool) :
    List CTxIn → Nat → MapPrevTx × StdMap uint256 CTxIndex →
      Outcome (MapPrevTx × StdMap uint256 CTxIndex)
  | [], _, st => .done st
  | txin :: rest, i, st =>
    let prevout := txin.prevout
    match st.1.find prevout.hash with
    | none => .thrown
    | some (txindex, txPrev) =>
      if txPrev.nRefHeight > tx.nRefHeight then .fail 100
      else if !(txindex.vSpent.getD prevout.n CDiskTxPos.null).IsNull then .fail 0
      else if !(fBlock && decide (env.nBestHeight < env.nTotalBlocksEstimate)) &&
          !env.VerifySignature txPrev tx i fStrictPayToScriptHash then
        if fStrictPayToScriptHash && env.VerifySignature txPrev tx i false then .fail 0
        else .fail 100
      else
        let txindex2 : CTxIndex := ⟨txindex.pos, txindex.vSpent.set prevout.n posThisTx⟩
        let inputs2 := st.1.set prevout.hash (txindex2, txPrev)
        let pool2 := if fBlock || fMiner then st.2.set prevout.hash txindex2 else st.2
        connectMarkLoop env tx posThisTx fBlock fMiner fStrictPayToScriptHash rest (i + 1)
          (inputs2, pool2)

/-- The function `CTransaction::ConnectInputs`.  `chain` is `pindexBlock` followed
by its ancestors.  A true return carries the updated `mapTestPool`; after a false
return every caller drops the map. -/
def ConnectInputs (c : Consts) (env : Env) (tx : CTransaction) (inputs : MapPrevTx)
    (mapTestPool : StdMap uint256 CTxIndex) (posThisTx : CDiskTxPos)
    (chain : List CBlockIndex) (fBlock fMiner fStrictPayToScriptHash : Bool) :
    Outcome (StdMap uint256 CTxIndex) :=
  if tx.IsCoinBase then .done mapTestPool
  else
    (connectRangeLoop c inputs chain tx.vin).bind fun _ =>
    match GetValueIn c tx inputs with
    | none => .thrown
    | some nValueIn =>
      if !MoneyRange c nValueIn then .fail 100
      else if tx.GetValueOut > nValueIn then .fail 100
      else
        (connectMarkLoop env tx posThisTx fBlock fMiner fStrictPayToScriptHash tx.vin 0
          (inputs, mapTestPool)).bind fun st => .done st.2

/-! ## `CheckProofOfWork` and `CBlock::CheckBlock` (`main.cpp` 1531-1545, 2418-2470) -/

/-- The constant `bnProofOfWorkLimit`, `~uint256(0) >> 32`. -/
def bnProofOfWorkLimit : Int := 2 ^ 224 - 1

/-- The function `CheckProofOfWork`. -/
def CheckProofOfWork (env : Env) (hash : uint256) (nBits : Nat) : Bool :=
  let bnTarget := env.SetCompact nBits
  if bnTarget ≤ 0 || bnTarget > bnProofOfWorkLimit then false
  else if (hash : Int) > bnTarget then false
  else true

/-- The loop of `CheckBlock` over the transactions: the verdict of the first
transaction that fails `CheckTransaction`. -/
def checkTransactions (c : Consts) (env : Env) : List CTransaction → Option Verdict
  | [] => none
  | tx :: rest =>
    let v := CheckTransaction c env tx
    if !v.ok then some v else checkTransactions c env rest

/-- The function `CBlock::CheckBlock`. -/
def CheckBlock (c : Consts) (env : Env) (blk : CBlock) (fCheckPOW fCheckMerkleRoot : Bool) :
    Verdict :=
  if blk.vtx.isEmpty || blk.vtx.length > c.MAX_BLOCK_SIZE ||
      env.GetBlockSerializeSize blk > c.MAX_BLOCK_SIZE then ⟨false, 100⟩
  else if fCheckPOW && !CheckProofOfWork env (env.GetBlockHash blk) blk.nBits then ⟨false, 50⟩
  else if blk.nTime > env.nAdjustedTime + 2 * 60 * 60 then ⟨false, 0⟩
  else
    match blk.vtx with
    | [] => ⟨false, 100⟩
    | vtx0 :: others =>
      if !vtx0.IsCoinBase then ⟨false, 100⟩
      else if others.any (fun tx => tx.IsCoinBase) then ⟨false, 100⟩
      else
        match checkTransactions c env blk.vtx with
        | some v => ⟨false, v.nDoS⟩
        | none =>
          if (blk.vtx.map env.GetHash).dedup.length ≠ blk.vtx.length then ⟨false, 100⟩
          else
            let nSigOps :=
              blk.vtx.foldl (fun n tx => (n + GetLegacySigOpCount env tx) % 2 ^ 32) 0
            if nSigOps > c.MAX_BLOCK_SIGOPS then ⟨false, 100⟩
            else if fCheckMerkleRoot && blk.hashMerkleRoot ≠ env.BuildMerkleTree blk then
              ⟨false, 100⟩
            else ⟨true, 0⟩

/-! ## `CBlock::ConnectBlock` (`main.cpp` 1991-2129) -/

/-- The local variables of `ConnectBlock` that its loop over `vtx` updates. -/
structure BlockState where
  mapQueuedChanges : StdMap uint256 CTxIndex
  nFees : ℚ
  nSigOps : Nat
  nTxPos : Nat

/-- The state `ConnectBlock` enters its loop with. -/
def initBlockState (env : Env) (blk : CBlock) (pindex : CBlockIndex) (fJustCheck : Bool) :
    BlockState :=
  { mapQueuedChanges := StdMap.empty
    nFees := 0
    nSigOps := 0
    nTxPos :=
      if fJustCheck then 1
      else (pindex.nBlockPos + env.nEmptyBlockDiskSize - 1 +
        env.GetSizeOfCompactSize blk.vtx.length) % 2 ^ 32 }

/-- The flag `fEnforceBIP30` of `ConnectBlock`. -/
def fEnforceBIP30 (pindex : CBlockIndex) : Bool :=
  !pindex.hasHash ||
    !((pindex.nHeight = 91842 && pindex.hashBlock =
          0x00000000000a4d0a398161ffc163c503763b1f4360639393e0e4c8e300e0caec) ||
      (pindex.nHeight = 91880 && pindex.hashBlock =
          0x00000000000743f190a18c5577a3c2d2a1f610ae9601ac046a38084ccb7cd721))

/-- The flag `fStrictPayToScriptHash` of `ConnectBlock`. -/
def fStrictP2SH (pindex : CBlockIndex) : Bool := decide (pindex.nTime ≥ 1333238400)

/-- One iteration of the loop of `ConnectBlock` over `vtx`. -/
def connectTx (c : Consts) (env : Env) (txdb : StdMap uint256 CTxIndex) (pindex : CBlockIndex)
    (ancestors : List CBlockIndex) (fJustCheck : Bool) (st : BlockState) (tx : CTransaction) :
    Outcome BlockState :=
  let hashTx := env.GetHash tx
  if fEnforceBIP30 pindex &&
      (match txdb.find hashTx with
       | some txindexOld => txindexOld.vSpent.any (fun pos => pos.IsNull)
       | none => false) then .fail 0
  else
    let nSigOps1 := (st.nSigOps + GetLegacySigOpCount env tx) % 2 ^ 32
    if nSigOps1 > c.MAX_BLOCK_SIGOPS then .fail 100
    else
      let posThisTx : CDiskTxPos := ⟨pindex.nFile, pindex.nBlockPos, st.nTxPos⟩
      let nTxPos2 :=
        if !fJustCheck then (st.nTxPos + env.GetSerializeSizeDisk tx) % 2 ^ 32 else st.nTxPos
      let finish (q : StdMap uint256 CTxIndex) (nFees : ℚ) (nSigOps : Nat) : Outcome BlockState :=
        .done
          { mapQueuedChanges := q.set hashTx (CTxIndex.mk2 posThisTx tx.vout.length)
            nFees := nFees
            nSigOps := nSigOps
            nTxPos := nTxPos2 }
      if tx.IsCoinBase then finish st.mapQueuedChanges st.nFees nSigOps1
      else
        match FetchInputs env txdb st.mapQueuedChanges true false tx StdMap.empty with
        | none => .thrown
        | some fetched =>
          if !fetched.ok then .fail 0
          else
            let mapInputs := fetched.inputsRet
            match (if fStrictP2SH pindex then GetP2SHSigOpCount env tx mapInputs else some 0) with
            | none => .thrown
            | some nP2SH =>
              let nSigOps2 := (nSigOps1 + nP2SH) % 2 ^ 32
              if fStrictP2SH pindex && decide (nSigOps2 > c.MAX_BLOCK_SIGOPS) then .fail 100
              else if tx.nRefHeight > pindex.nHeight then .fail 100
              else
                match GetValueIn c tx mapInputs with
                | none => .thrown
                | some qValueIn =>
                  let qNet := qValueIn - tx.GetValueOut
                  let nFees2 := st.nFees +
                    GetTimeAdjustedValue c qNet (wrapInt32 (pindex.nHeight - tx.nRefHeight))
                  match ConnectInputs c env tx mapInputs st.mapQueuedChanges posThisTx
                      (pindex :: ancestors) true false (fStrictP2SH pindex) with
                  | .thrown => .thrown
                  | .fail _ => .fail 0
                  | .done q => finish q nFees2 nSigOps2

/-- The loop of `ConnectBlock` over `vtx`. -/
def connectLoop (c : Consts) (env : Env) (txdb : StdMap uint256 CTxIndex) (pindex : CBlockIndex)
    (ancestors : List CBlockIndex) (fJustCheck : Bool) :
    List CTransaction → BlockState → Outcome BlockState
  | [], st => .done st
  | tx :: rest, st =>
    (connectTx c env txdb pindex ancestors fJustCheck st tx).bind
      (connectLoop c env txdb pindex ancestors fJustCheck rest)

/-- The part of `ConnectBlock` before the budget: `CheckBlock`, the loop over the
transactions, and the two checks on the coinbase. -/
def connectChecks (c : Consts) (env : Env) (txdb : StdMap uint256 CTxIndex) (blk : CBlock)
    (pindex : CBlockIndex) (ancestors : List CBlockIndex) (fJustCheck : Bool) :
    Outcome BlockState :=
  let v := CheckBlock c env blk (!fJustCheck) (!fJustCheck)
  if !v.ok then .fail v.nDoS
  else
    (connectLoop c env txdb pindex ancestors fJustCheck blk.vtx
      (initBlockState env blk pindex fJustCheck)).bind fun st =>
    match blk.vtx with
    | [] => .thrown
    | vtx0 :: _ =>
      if vtx0.nRefHeight ≠ pindex.nHeight then .fail 100
      else
        let qActualCoinbaseValue :=
          GetTimeAdjustedValue c vtx0.GetValueOut (wrapInt32 (pindex.nHeight - vtx0.nRefHeight))
        let qAllowedCoinbaseValue := GetBlockValue c env pindex.nHeight st.nFees
        if qActualCoinbaseValue > qAllowedCoinbaseValue then .fail 0
        else .done st

/-- The map `mapBudget` that `ConnectBlock` builds from the three budgets; `none`
is the abort of `ApplyBudget`. -/
def blockBudget (c : Consts) (env : Env) (nHeight : Int) (nFees : ℚ) :
    Option (StdMap CTxDestination ℚ) :=
  (ApplyBudget (GetInitialDistributionAmount c env nHeight)
      (GetInitialDistributionBudget c env nHeight) StdMap.empty).bind fun m1 =>
  (ApplyBudget (GetPerpetualSubsidyAmount c nHeight)
      (GetPerpetualSubsidyBudget nHeight) m1).bind fun m2 =>
  ApplyBudget nFees (GetTransactionFeeBudget nHeight) m2

/-- The function `CBlock::ConnectBlock`.  A true return carries the tx index after
the queued changes were written (unchanged for `fJustCheck`); writes to the
storage engine are taken to succeed. -/
def ConnectBlock (c : Consts) (env : Env) (txdb : StdMap uint256 CTxIndex) (blk : CBlock)
    (pindex : CBlockIndex) (ancestors : List CBlockIndex) (fJustCheck : Bool) :
    Outcome (StdMap uint256 CTxIndex) :=
  (connectChecks c env txdb blk pindex ancestors fJustCheck).bind fun st =>
  match blockBudget c env pindex.nHeight st.nFees with
  | none => .thrown
  | some mapBudget =>
    if !VerifyBudget c env mapBudget blk.vtx pindex.nHeight then .fail 0
    else if fJustCheck then .done txdb
    else
      .done (st.mapQueuedChanges.entries.foldl (fun db mi => db.set mi.1 mi.2) txdb)

/-! ## Standard transactions and the minimum fee (`main.cpp` 270-357, 482-528) -/

/-- Modelled from the spec: the script templates the solver of `script.h` tells
apart ("standard script templates"); only `TX_SCRIPTHASH` is tested by the code
modelled here. -/
inductive txnouttype where
  | TX_NONSTANDARD
  | TX_PUBKEY
  | TX_PUBKEYHASH
  | TX_SCRIPTHASH
  | TX_MULTISIG
deriving DecidableEq, Repr

/-- The relay policy: fee constants of `main.h` and the script-template functions
of `script.h`, all outside the excerpt and kept as parameters. -/
structure Policy where
  /-- the constant `CTransaction::CURRENT_VERSION` -/
  CURRENT_VERSION : Int
  MIN_TX_FEE : ℚ
  MIN_RELAY_TX_FEE : ℚ
  CENT : ℚ
  MAX_BLOCK_SIZE_GEN : Nat
  IsPushOnly : CScript → Bool
  /-- the free function `::IsStandard(scriptPubKey)` -/
  IsStandardScript : CScript → Bool
  /-- the call `Solver(script, whichType, vSolutions)`, `none` when it returns false -/
  Solver : CScript → Option (txnouttype × List (List Nat))
  ScriptSigArgsExpected : txnouttype → List (List Nat) → Int
  /-- the call `EvalScript(stack, scriptSig, tx, i, 0)`: the stack, `none` when it
  returns false -/
  EvalScript : CScript → CTransaction → Nat → Option (List (List Nat))

/-- The function `CTransaction::IsStandard`. -/
def CTransaction.IsStandard (pol : Policy) (tx : CTransaction) : Bool :=
  if tx.nVersion > pol.CURRENT_VERSION then false
  else if tx.vin.any
      (fun txin => decide (txin.scriptSig.length > 500) || !pol.IsPushOnly txin.scriptSig) then
    false
  else if tx.vout.any
      (fun txout => !pol.IsStandardScript txout.scriptPubKey || decide (txout.nValue = 0)) then
    false
  else true

/-- The argument count one input must match in `AreInputsStandard`, after the
pay-to-script-hash adjustment; `none` where the function returns false. -/
def expectedArgs (pol : Policy) (whichType : txnouttype) (nArgsExpected : Int)
    (stack : List (List Nat)) : Option Int :=
  if whichType = txnouttype.TX_SCRIPTHASH then
    match stack.getLast? with
    | none => none
    | some subscript =>
      match pol.Solver subscript with
      | none => none
      | some (whichType2, vSolutions2) =>
        if whichType2 = txnouttype.TX_SCRIPTHASH then none
        else
          let tmpExpected := pol.ScriptSigArgsExpected whichType2 vSolutions2
          if tmpExpected < 0 then none
          else some (wrapInt32 (nArgsExpected + tmpExpected))
  else some nArgsExpected

/-- The loop of `AreInputsStandard`, from input number `i` on; `none` is an
exception of `GetOutputFor`. -/
def inputsStandardLoop (pol : Policy) (tx : CTransaction) (mapInputs : MapPrevTx) :
    List CTxIn → Nat → Option Bool
  | [], _ => some true
  | txin :: rest, i =>
    match mapInputs.find txin.prevout.hash with
    | none => none
    | some (_, txPrev) =>
      match txPrev.vout[txin.prevout.n]? with
      | none => none
      | some prev =>
        match pol.Solver prev.scriptPubKey with
        | none => some false
        | some (whichType, vSolutions) =>
          let nArgsExpected := pol.ScriptSigArgsExpected whichType vSolutions
          if nArgsExpected < 0 then some false
          else
            match pol.EvalScript txin.scriptSig tx i with
            | none => some false
            | some stack =>
              match expectedArgs pol whichType nArgsExpected stack with
              | none => some false
              | some n =>
                if (stack.length : Int) ≠ n % 2 ^ 32 then some false
                else inputsStandardLoop pol tx mapInputs rest (i + 1)

/-- The function `CTransaction::AreInputsStandard`; `none` is an exception of
`GetOutputFor`. -/
def AreInputsStandard (pol : Policy) (tx : CTransaction) (mapInputs : MapPrevTx) :
    Option Bool :=
  if tx.IsCoinBase then some true else inputsStandardLoop pol tx mapInputs tx.vin 0

/-- The enumeration `GetMinFee_mode`. -/
inductive GetMinFee_mode where
  | GMF_BLOCK
  | GMF_RELAY
  | GMF_SEND
deriving DecidableEq, Repr

/-- The function `CTransaction::GetMinFee`; sizes are `unsigned int`. -/
def GetMinFee (c : Consts) (env : Env) (pol : Policy) (tx : CTransaction) (nBlockSize : Nat)
    (fAllowFree : Bool) (mode : GetMinFee_mode) : ℚ :=
  let nBaseFee : ℚ :=
    if mode = GetMinFee_mode.GMF_RELAY then pol.MIN_RELAY_TX_FEE else pol.MIN_TX_FEE
  let nBytes := env.GetSerializeSize tx % 2 ^ 32
  let nNewBlockSize := (nBlockSize + nBytes) % 2 ^ 32
  let nMinFee0 : ℚ := (((1 + nBytes / 1000) % 2 ^ 32 : Nat) : ℚ) * nBaseFee
  let nMinFee1 : ℚ :=
    if fAllowFree then
      if nBlockSize = 1 then (if nBytes < 10000 then 0 else nMinFee0)
      else (if nNewBlockSize < 27000 then 0 else nMinFee0)
    else nMinFee0
  let nMinFee2 : ℚ :=
    if nMinFee1 < nBaseFee then
      tx.vout.foldl
        (fun nMinFee txout => if (txout.nValue : ℚ) < pol.CENT then nBaseFee else nMinFee)
        nMinFee1
    else nMinFee1
  if nBlockSize ≠ 1 ∧ nNewBlockSize ≥ pol.MAX_BLOCK_SIZE_GEN / 2 then
    if nNewBlockSize ≥ pol.MAX_BLOCK_SIZE_GEN then c.MPQ_MAX_MONEY
    else
      let nMinFee3 : ℚ :=
        nMinFee2 * ((pol.MAX_BLOCK_SIZE_GEN / (pol.MAX_BLOCK_SIZE_GEN - nNewBlockSize) : Nat) : ℚ)
      if !MoneyRange c nMinFee3 then c.MPQ_MAX_MONEY else nMinFee3
  else if !MoneyRange c nMinFee2 then c.MPQ_MAX_MONEY
  else nMinFee2

/-! ## The memory pool (`main.cpp` 531-724) -/

/-- Modelled from the spec: the pool, "`by_hash`: map tx-hash to Transaction" and
"`by_outpoint`: map prev_outpoint to (tx_hash, input_index)".  The pointer of a
`CInPoint` to the transaction stored in `mapTx` is the key it is stored under.
The global counter `nTransactionsUpdated`, which the functions of the pool
increment, is carried with the pool. -/
structure CTxMemPool where
  mapTx : StdMap uint256 CTransaction
  mapNextTx : StdMap COutPoint (uint256 × Nat)
  nTransactionsUpdated : Nat

/-- The loop of `addUnchecked` over the inputs, from input number `i` on. -/
def addNextLoop (hash : uint256) :
    List CTxIn → Nat → StdMap COutPoint (uint256 × Nat) → StdMap COutPoint (uint256 × Nat)
  | [], _, m => m
  | txin :: rest, i, m => addNextLoop hash rest (i + 1) (m.set txin.prevout (hash, i))

/-- The function `CTxMemPool::addUnchecked`. -/
def CTxMemPool.addUnchecked (pool : CTxMemPool) (hash : uint256) (tx : CTransaction) :
    CTxMemPool :=
  { mapTx := pool.mapTx.set hash tx
    mapNextTx := addNextLoop hash tx.vin 0 pool.mapNextTx
    nTransactionsUpdated := (pool.nTransactionsUpdated + 1) % 2 ^ 32 }

/-- The function `CTxMemPool::remove`. -/
def CTxMemPool.remove (env : Env) (pool : CTxMemPool) (tx : CTransaction) : CTxMemPool :=
  let hash := env.GetHash tx
  if pool.mapTx.count hash then
    { mapTx := pool.mapTx.erase hash
      mapNextTx := tx.vin.foldl (fun m txin => m.erase txin.prevout) pool.mapNextTx
      nTransactionsUpdated := (pool.nTransactionsUpdated + 1) % 2 ^ 32 }
  else pool

/-- The function `CTxMemPool::clear`. -/
def CTxMemPool.clear (pool : CTxMemPool) : CTxMemPool :=
  { mapTx := StdMap.empty
    mapNextTx := StdMap.empty
    nTransactionsUpdated := (pool.nTransactionsUpdated + 1) % 2 ^ 32 }

/-- How a call of `CTxMemPool::accept` ends: its return value (with the DoS score
set on the transaction), the flag `*pfMissingInputs`, and the pool it leaves. -/
structure AcceptResult where
  result : Outcome Unit
  fMissingInputs : Bool
  pool : CTxMemPool

/-- The block `if (fCheckInputs)` of `accept`: the way it ends and the flag
`*pfMissingInputs`.  `fRateLimited` is the verdict of the free-transaction rate
limiter, `dFreeCount > limit && !IsFromMe(tx)`, which depends on the clock, the
wallet and a floating-point counter. -/
def acceptCheckInputs (c : Consts) (env : Env) (pol : Policy) (txdb : StdMap uint256 CTxIndex)
    (pindexBest : List CBlockIndex) (tx : CTransaction) (fRateLimited : Bool) :
    Outcome Unit × Bool :=
  match FetchInputs env txdb StdMap.empty false false tx StdMap.empty with
  | none => (.thrown, false)
  | some fetched =>
    if !fetched.ok then
      if fetched.fInvalid then (.fail fetched.nDoS, false) else (.fail fetched.nDoS, true)
    else
      let mapInputs := fetched.inputsRet
      match AreInputsStandard pol tx mapInputs with
      | none => (.thrown, false)
      | some fStandard =>
        if !fStandard && !env.fTestNet then (.fail 0, false)
        else
          match GetValueIn c tx mapInputs with
          | none => (.thrown, false)
          | some qValueIn =>
            let nFees := qValueIn - tx.GetValueOut
            let txMinFee := GetMinFee c env pol tx 1000 true GetMinFee_mode.GMF_RELAY
            if nFees < txMinFee then (.fail 0, false)
            else if decide (nFees < pol.MIN_RELAY_TX_FEE) && fRateLimited then (.fail 0, false)
            else
              match ConnectInputs c env tx mapInputs StdMap.empty ⟨1, 1, 1⟩ pindexBest
                  false false true with
              | .thrown => (.thrown, false)
              | .fail n => (.fail n, false)
              | .done _ => (.done (), false)

/-- The function `CTxMemPool::accept`.  `env.mempoolTx` is not read: the lookups of
`FetchInputs` in the memory pool go to `pool.mapTx`.  The replacement of an older
version is disabled in the source by an unconditional `return false`, so `ptxOld`
stays null. -/
def CTxMemPool.accept (c : Consts) (env : Env) (pol : Policy) (txdb : StdMap uint256 CTxIndex)
    (pindexBest : List CBlockIndex) (pool : CTxMemPool) (tx : CTransaction)
    (fCheckInputs fRateLimited : Bool) : AcceptResult :=
  let v := CheckTransaction c env tx
  if !v.ok then ⟨.fail v.nDoS, false, pool⟩
  else if tx.nRefHeight > wrapInt32 (env.nBestHeight + 20) then ⟨.fail 0, false, pool⟩
  else if tx.IsCoinBase then ⟨.fail 100, false, pool⟩
  else if (tx.nLockTime : Int) > 2 ^ 31 - 1 then ⟨.fail 0, false, pool⟩
  else if !env.fTestNet && !tx.IsStandard pol then ⟨.fail 0, false, pool⟩
  else
    let hash := env.GetHash tx
    if pool.mapTx.count hash then ⟨.fail 0, false, pool⟩
    else if fCheckInputs && txdb.count hash then ⟨.fail 0, false, pool⟩
    else if tx.vin.any (fun txin => pool.mapNextTx.count txin.prevout) then
      ⟨.fail 0, false, pool⟩
    else
      let checked : Outcome Unit × Bool :=
        if fCheckInputs then
          acceptCheckInputs c { env with mempoolTx := fun h => pool.mapTx.find h } pol txdb
            pindexBest tx fRateLimited
        else (.done (), false)
      match checked.1 with
      | .thrown => ⟨.thrown, checked.2, pool⟩
      | .fail n => ⟨.fail n, checked.2, pool⟩
      | .done _ => ⟨.done (), false, pool.addUnchecked hash tx⟩

/-! ## `DisconnectInputs` and `DisconnectBlock` (`main.cpp` 1606-1639, 1971-1989) -/

/-- The loop of `DisconnectInputs` over the inputs: read the index entry of the
previous transaction, null the spent slot, write the entry back.  `none` is a
false return. -/
def disconnectLoop (txdb : StdMap uint256 CTxIndex) :
    List CTxIn → Option (StdMap uint256 CTxIndex)
  | [] => some txdb
  | txin :: rest =>
    let prevout := txin.prevout
    match txdb.find prevout.hash with
    | none => none
    | some txindex =>
      if prevout.n ≥ txindex.vSpent.length then none
      else
        disconnectLoop
          (txdb.set prevout.hash ⟨txindex.pos, txindex.vSpent.set prevout.n CDiskTxPos.null⟩)
          rest

/-- The function `CTransaction::DisconnectInputs`: the tx index it leaves, `none`
when it returns false. -/
def DisconnectInputs (env : Env) (txdb : StdMap uint256 CTxIndex) (tx : CTransaction) :
    Option (StdMap uint256 CTxIndex) :=
  (if tx.IsCoinBase then some txdb else disconnectLoop txdb tx.vin).map
    fun db => db.erase (env.GetHash tx)

/-- The loop of `DisconnectBlock`, over the transactions in the order given. -/
def disconnectTxs (env : Env) :
    List CTransaction → StdMap uint256 CTxIndex → Option (StdMap uint256 CTxIndex)
  | [], txdb => some txdb
  | tx :: rest, txdb => (DisconnectInputs env txdb tx).bind (disconnectTxs env rest)

/-- The function `CBlock::DisconnectBlock`: the tx index it leaves, `none` when it
returns false.  The transactions are disconnected last to first; the record of the
previous block that the function rewrites is not part of the tx index. -/
def DisconnectBlock (env : Env) (txdb : StdMap uint256 CTxIndex) (blk : CBlock)
    (_pindex : CBlockIndex) : Option (StdMap uint256 CTxIndex) :=
  disconnectTxs env blk.vtx.reverse txdb


/-! ## The block index and the best chain (`main.cpp` 1567-1584, 2131-2413) -/

/-- Modelled from the spec: a block-index node, "Header fields + `height`,
`chain_work`, ... `file`/`pos` on disk, cached `phash_block`".  `index` holds the
fields that the connect logic reads.  The links are not fields: see `BlockPtr`
for `pprev` and `ChainState.pnext` for `pnext`. -/
structure CBlockIndexNode where
  index : CBlockIndex
  nVersion : Int
  nBits : Nat
  bnChainWork : Int
deriving DecidableEq, Repr

/-- A pointer to a block-index node: the node followed by its ancestors along
`pprev`, nearest first; the empty list is the null pointer.  Following `pprev` is
taking the tail, and two pointers are equal when they denote the same node. -/
abbrev BlockPtr := List CBlockIndexNode

/-- The globals of `main.cpp` that the chain logic reads and writes, with the tx
index of the database, the best-chain hash stored in it, and the memory pool.
`pnext` holds the `pnext` field of every node that has one set (no entry: null). -/
structure ChainState where
  mapBlockIndex : StdMap uint256 BlockPtr
  pnext : StdMap BlockPtr BlockPtr
  hashGenesisBlock : uint256
  pindexGenesisBlock : BlockPtr
  pindexBest : BlockPtr
  hashBestChain : uint256
  nBestHeight : Int
  bnBestChainWork : Int
  bnBestInvalidWork : Int
  txdb : StdMap uint256 CTxIndex
  /-- the hash stored by `txdb.WriteHashBestChain` -/
  txdbHashBestChain : uint256
  mempool : CTxMemPool

/-- How a function that returns a `bool` and updates the globals ends: its return
value and the state it leaves. -/
structure ChainStep where
  result : Outcome Unit
  st : ChainState

/-- The environment as the functions called from the chain logic see it: the
global `nBestHeight` and the memory pool are those of the state. -/
def envAt (env : Env) (st : ChainState) : Env :=
  { env with
    nBestHeight := st.nBestHeight
    mempoolTx := fun h => st.mempool.mapTx.find h }

/-- Modelled from the spec: "per-block work = `2^256 / (target+1)`". -/
def GetBlockWork (env : Env) (nBits : Nat) : Int := 2 ^ 256 / (env.SetCompact nBits + 1)

/-- The function `InvalidChainFound`: its effect on the globals. -/
def InvalidChainFound (st : ChainState) (pindexNew : BlockPtr) : ChainState :=
  match pindexNew with
  | [] => st
  | n :: _ =>
    if n.bnChainWork > st.bnBestInvalidWork then { st with bnBestInvalidWork := n.bnChainWork }
    else st

/-- The inner loop of the fork search of `Reorganize`: `plonger` walks back while
it is higher than `pfork`.  A false return of `Reorganize` is `fail`, a null
dereference is `thrown`. -/
def findForkDescend (nHeight : Int) : BlockPtr → Outcome BlockPtr
  | [] => .thrown
  | n :: rest =>
    if n.index.nHeight > nHeight then
      match rest with
      | [] => .fail 0
      | _ :: _ => findForkDescend nHeight rest
    else .done (n :: rest)

/-- The fork search of `Reorganize`, from `pfork` and `plonger`: the value of
`pfork` when the outer loop is left. -/
def findFork : BlockPtr → BlockPtr → Outcome BlockPtr
  | [], plonger => if plonger = [] then .done [] else .thrown
  | f :: frest, plonger =>
    if f :: frest = plonger then .done (f :: frest)
    else
      match findForkDescend f.index.nHeight plonger with
      | .thrown => .thrown
      | .fail n => .fail n
      | .done plonger2 =>
        if f :: frest = plonger2 then .done (f :: frest)
        else
          match frest with
          | [] => .fail 0
          | _ :: _ => findFork frest plonger2

/-- The loop `for (pindex = start; pindex != pfork; pindex = pindex->pprev)` that
fills `vDisconnect` and `vConnect`: the nodes visited, in the order visited.  The
fork search leaves in `pfork` an ancestor of the start, where the walk ends. -/
def branchTo (pfork : BlockPtr) : BlockPtr → List BlockPtr
  | [] => []
  | n :: rest => if n :: rest = pfork then [] else (n :: rest) :: branchTo pfork rest

/-- The loop of `Reorganize` that disconnects the blocks of `vDisconnect`: the tx
index it leaves and `vResurrect`. -/
def reorgDisconnect (env : Env) (disk : CBlockIndex → Option CBlock) :
    List BlockPtr → StdMap uint256 CTxIndex × List CTransaction →
      Outcome (StdMap uint256 CTxIndex × List CTransaction)
  | [], acc => .done acc
  | pindex :: rest, acc =>
    match pindex with
    | [] => .thrown
    | n :: _ =>
      match disk n.index with
      | none => .fail 0
      | some block =>
        match DisconnectBlock env acc.1 block n.index with
        | none => .fail 0
        | some txdb2 =>
          reorgDisconnect env disk rest
            (txdb2, acc.2 ++ block.vtx.filter (fun tx => !tx.IsCoinBase))

/-- The loop of `Reorganize` that connects the blocks of `vConnect`: the tx index
it leaves and `vDelete`. -/
def reorgConnect (c : Consts) (env : Env) (disk : CBlockIndex → Option CBlock) :
    List BlockPtr → StdMap uint256 CTxIndex × List CTransaction →
      Outcome (StdMap uint256 CTxIndex × List CTransaction)
  | [], acc => .done acc
  | pindex :: rest, acc =>
    match pindex with
    | [] => .thrown
    | n :: ancestors =>
      match disk n.index with
      | none => .fail 0
      | some block =>
        match ConnectBlock c env acc.1 block n.index (ancestors.map (fun a => a.index))
            false with
        | .thrown => .thrown
        | .fail _ => .fail 0
        | .done txdb2 => reorgConnect c env disk rest (txdb2, acc.2 ++ block.vtx)

/-- One iteration of the loop of `Reorganize` over `vDisconnect` that clears the
links: `if (pindex->pprev) pindex->pprev->pnext = NULL`. -/
def unlinkStep (pnext : StdMap BlockPtr BlockPtr) (pindex : BlockPtr) :
    StdMap BlockPtr BlockPtr :=
  match pindex with
  | _ :: p :: prest => pnext.erase (p :: prest)
  | _ => pnext

/-- The loop of `Reorganize` over `vDisconnect` that clears `pindex->pprev->pnext`. -/
def unlinkNext (vDisconnect : List BlockPtr) (pnext : StdMap BlockPtr BlockPtr) :
    StdMap BlockPtr BlockPtr :=
  vDisconnect.foldl unlinkStep pnext

/-- One iteration of the loop of `Reorganize` over `vConnect` that sets the links:
`if (pindex->pprev) pindex->pprev->pnext = pindex`. -/
def linkStep (pnext : StdMap BlockPtr BlockPtr) (pindex : BlockPtr) :
    StdMap BlockPtr BlockPtr :=
  match pindex with
  | n :: p :: prest => pnext.set (p :: prest) (n :: p :: prest)
  | _ => pnext

/-- The loop of `Reorganize` over `vConnect` that sets `pindex->pprev->pnext`. -/
def linkNext (vConnect : List BlockPtr) (pnext : StdMap BlockPtr BlockPtr) :
    StdMap BlockPtr BlockPtr :=
  vConnect.foldl linkStep pnext

/-- The part of `Reorganize` after the lists were built: disconnect the blocks of
`vDisconnect` in order, connect those of `vConnect` in order, write the best-chain
hash and commit, then update the `pnext` links and the memory pool. -/
def reorganizeBranches (c : Consts) (env : Env) (pol : Policy)
    (disk : CBlockIndex → Option CBlock) (st : ChainState) (pindexNew : BlockPtr)
    (vDisconnect vConnect : List BlockPtr) : Outcome ChainState :=
  (reorgDisconnect env disk vDisconnect (st.txdb, [])).bind fun d =>
  (reorgConnect c (envAt env st) disk vConnect (d.1, [])).bind fun cn =>
  match pindexNew with
  | [] => .thrown
  | nNew :: _ =>
    let pool1 := d.2.foldl
      (fun pool tx =>
        (pool.accept c (envAt env st) pol cn.1 (st.pindexBest.map (fun a => a.index)) tx
          false false).pool)
      st.mempool
    let pool2 := cn.2.foldl (fun pool tx => pool.remove env tx) pool1
    .done
      { st with
        txdb := cn.1
        txdbHashBestChain := nNew.index.hashBlock
        pnext := linkNext vConnect (unlinkNext vDisconnect st.pnext)
        mempool := pool2 }

/-- The function `Reorganize`.  A true return carries the state it leaves; after
a false return the caller aborts the database transaction, so nothing changed. -/
def Reorganize (c : Consts) (env : Env) (pol : Policy) (disk : CBlockIndex → Option CBlock)
    (st : ChainState) (pindexNew : BlockPtr) : Outcome ChainState :=
  (findFork st.pindexBest pindexNew).bind fun pfork =>
  reorganizeBranches c env pol disk st pindexNew (branchTo pfork st.pindexBest)
    (branchTo pfork pindexNew).reverse

/-- The function `CBlock::SetBestChainInner`, called on the block `blk`. -/
def SetBestChainInner (c : Consts) (env : Env) (st : ChainState) (blk : CBlock)
    (pindexNew : BlockPtr) : ChainStep :=
  match pindexNew with
  | [] => ⟨.thrown, st⟩
  | n :: ancestors =>
    match ConnectBlock c (envAt env st) st.txdb blk n.index (ancestors.map (fun a => a.index))
        false with
    | .thrown => ⟨.thrown, st⟩
    | .fail nDoS => ⟨.fail nDoS, InvalidChainFound st pindexNew⟩
    | .done txdb2 =>
      match ancestors with
      | [] => ⟨.thrown, st⟩
      | _ :: _ =>
        ⟨.done (),
          { st with
            txdb := txdb2
            txdbHashBestChain := env.GetBlockHash blk
            pnext := st.pnext.set ancestors pindexNew
            mempool := blk.vtx.foldl (fun pool tx => pool.remove env tx) st.mempool }⟩

/-- The loop of `SetBestChain` that postpones reconnects: `pindexIntermediate` and
`vpindexSecondary` when it is left; `none` is a null dereference. -/
def postponeLoop (pindexBest : BlockPtr) :
    BlockPtr → List BlockPtr → Option (BlockPtr × List BlockPtr)
  | n :: p :: rest, vpindexSecondary =>
    match pindexBest with
    | [] => none
    | b :: _ =>
      if p.bnChainWork > b.bnChainWork then
        postponeLoop pindexBest (p :: rest) (vpindexSecondary ++ [n :: p :: rest])
      else some (n :: p :: rest, vpindexSecondary)
  | pindexIntermediate, vpindexSecondary => some (pindexIntermediate, vpindexSecondary)

/-- The loop of `SetBestChain` that connects the postponed blocks, over the list in
the order given; a failure leaves the loop (`break`).  `none` is an exception or a
null dereference. -/
def reconnectLoop (c : Consts) (env : Env) (disk : CBlockIndex → Option CBlock) :
    List BlockPtr → ChainState → Option ChainState
  | [], st => some st
  | pindex :: rest, st =>
    match pindex with
    | [] => none
    | n :: _ =>
      match disk n.index with
      | none => some st
      | some block =>
        let r := SetBestChainInner c env st block pindex
        match r.result with
        | .thrown => none
        | .fail _ => some r.st
        | .done _ => reconnectLoop c env disk rest r.st

/-- The part of `SetBestChain` before the best-chain view is updated. -/
def setBestChainBranch (c : Consts) (env : Env) (pol : Policy)
    (disk : CBlockIndex → Option CBlock) (st : ChainState) (blk : CBlock)
    (pindexNew : BlockPtr) : ChainStep :=
  let hash := env.GetBlockHash blk
  if st.pindexGenesisBlock = [] ∧ hash = st.hashGenesisBlock then
    ⟨.done (), { st with txdbHashBestChain := hash, pindexGenesisBlock := pindexNew }⟩
  else if blk.hashPrevBlock = st.hashBestChain then
    SetBestChainInner c env st blk pindexNew
  else
    match postponeLoop st.pindexBest pindexNew [] with
    | none => ⟨.thrown, st⟩
    | some (pindexIntermediate, vpindexSecondary) =>
      match Reorganize c env pol disk st pindexIntermediate with
      | .thrown => ⟨.thrown, st⟩
      | .fail _ => ⟨.fail 0, InvalidChainFound st pindexNew⟩
      | .done st2 =>
        match reconnectLoop c env disk vpindexSecondary.reverse st2 with
        | none => ⟨.thrown, st2⟩
        | some st3 => ⟨.done (), st3⟩

/-- The function `CBlock::SetBestChain`, called on the block `blk`. -/
def SetBestChain (c : Consts) (env : Env) (pol : Policy) (disk : CBlockIndex → Option CBlock)
    (st : ChainState) (blk : CBlock) (pindexNew : BlockPtr) : ChainStep :=
  let r := setBestChainBranch c env pol disk st blk pindexNew
  match r.result with
  | .thrown => r
  | .fail _ => r
  | .done _ =>
    match pindexNew with
    | [] => ⟨.thrown, r.st⟩
    | n :: _ =>
      ⟨.done (),
        { r.st with
          hashBestChain := env.GetBlockHash blk
          pindexBest := pindexNew
          nBestHeight := n.index.nHeight
          bnBestChainWork := n.bnChainWork
          mempool :=
            { r.st.mempool with
              nTransactionsUpdated := (r.st.mempool.nTransactionsUpdated + 1) % 2 ^ 32 } }⟩

/-- The node that `AddToBlockIndex` constructs for the block `blk`, given the
node `pprev` found under `hashPrevBlock` (null when there is none). -/
def newBlockIndex (env : Env) (blk : CBlock) (nFile nBlockPos : Nat) (pprev : BlockPtr) :
    CBlockIndexNode :=
  { index :=
      { hasHash := true
        hashBlock := env.GetBlockHash blk
        nFile := nFile
        nBlockPos := nBlockPos
        nHeight :=
          match pprev with
          | [] => 0
          | p :: _ => wrapInt32 (p.index.nHeight + 1)
        nTime := blk.nTime }
    nVersion := blk.nVersion
    nBits := blk.nBits
    bnChainWork :=
      (match pprev with
        | [] => 0
        | p :: _ => p.bnChainWork) + GetBlockWork env blk.nBits }

/-- The function `CBlock::AddToBlockIndex`, called on the block `blk`.  The source
looks `hashPrevBlock` up after it inserted the new node, so a block that names
itself as its parent gets a node that is its own `pprev`; a pointer of this model
cannot loop, and the result is `none` for such a block.  A null pointer stored
under `hashPrevBlock` is dereferenced (`thrown`).  The record of the node that the
function writes to the database is not part of the state. -/
def AddToBlockIndex (c : Consts) (env : Env) (pol : Policy)
    (disk : CBlockIndex → Option CBlock) (st : ChainState) (blk : CBlock)
    (nFile nBlockPos : Nat) : Option ChainStep :=
  let hash := env.GetBlockHash blk
  if st.mapBlockIndex.count hash then some ⟨.fail 0, st⟩
  else if blk.hashPrevBlock = hash then none
  else
    match st.mapBlockIndex.find blk.hashPrevBlock with
    | some [] => some ⟨.thrown, st⟩
    | found =>
      let pprev : BlockPtr := found.getD []
      let pindexNew : BlockPtr := newBlockIndex env blk nFile nBlockPos pprev :: pprev
      let st1 : ChainState := { st with mapBlockIndex := st.mapBlockIndex.set hash pindexNew }
      if (newBlockIndex env blk nFile nBlockPos pprev).bnChainWork > st1.bnBestChainWork then
        some (SetBestChain c env pol disk st1 blk pindexNew)
      else some ⟨.done (), st1⟩

/-! ## Difficulty retarget (`main.cpp` 1350-1529) -/

/-- The parts of the retarget that live in headers outside the excerpt: the
test-network threshold of `main.h` and the compact encoding
`CBigNum::GetCompact` of `bignum.h`.  Both are parameters. -/
structure WorkParams where
  DIFF_FILTER_THRESHOLD_TESTNET : Int
  /-- the call `bn.GetCompact()` -/
  GetCompact : Int → Nat

/-- The constant `nTargetSpacing`. -/
def nTargetSpacing : Int := 120

/-- The constant `nOriginalInterval`. -/
def nOriginalInterval : Int := 2016

/-- The constant `nFilteredInterval`. -/
def nFilteredInterval : Int := 9

/-- The constant `nOriginalTargetTimespan`. -/
def nOriginalTargetTimespan : Int := nOriginalInterval * nTargetSpacing

/-- The constant `nFilteredTargetTimespan`. -/
def nFilteredTargetTimespan : Int := nFilteredInterval * nTargetSpacing

/-- The window length `WINDOW` of the filter. -/
def WINDOW : Nat := 144

/-- The constant `kGain`. -/
def kGain : ℚ := 41 / 400

/-- The constant `kLimiterUp`. -/
def kLimiterUp : ℚ := 211 / 200

/-- The constant `kLimiterDown`. -/
def kLimiterDown : ℚ := 200 / 211

/-- The table `kFilterCoeff` of `GetNextWorkRequired`. -/
def kFilterCoeff : List Int :=
  [ -845859,  -459003,  -573589,  -703227,  -848199, -1008841,
    -1183669, -1372046, -1573247, -1787578, -2011503, -2243311,
    -2482346, -2723079, -2964681, -3202200, -3432186, -3650186,
    -3851924, -4032122, -4185340, -4306430, -4389146, -4427786,
    -4416716, -4349289, -4220031, -4022692, -3751740, -3401468,
    -2966915, -2443070, -1825548, -1110759,  -295281,   623307,
     1646668,  2775970,  4011152,  5351560,  6795424,  8340274,
     9982332, 11717130, 13539111, 15441640, 17417389, 19457954,
    21554056, 23695744, 25872220, 28072119, 30283431, 32493814,
    34690317, 36859911, 38989360, 41065293, 43074548, 45004087,
    46841170, 48573558, 50189545, 51678076, 53028839, 54232505,
    55280554, 56165609, 56881415, 57422788, 57785876, 57968085,
    57968084, 57785876, 57422788, 56881415, 56165609, 55280554,
    54232505, 53028839, 51678076, 50189545, 48573558, 46841170,
    45004087, 43074548, 41065293, 38989360, 36859911, 34690317,
    32493814, 30283431, 28072119, 25872220, 23695744, 21554057,
    19457953, 17417389, 15441640, 13539111, 11717130,  9982332,
     8340274,  6795424,  5351560,  4011152,  2775970,  1646668,
      623307,  -295281, -1110759, -1825548, -2443070, -2966915,
    -3401468, -3751740, -4022692, -4220031, -4349289, -4416715,
    -4427787, -4389146, -4306430, -4185340, -4032122, -3851924,
    -3650186, -3432186, -3202200, -2964681, -2723079, -2482346,
    -2243311, -2011503, -1787578, -1573247, -1372046, -1183669,
    -1008841,  -848199,  -703227,  -573589,  -459003,  -845858 ]

/-- The flag `fUseFilter` for a last block of height `nHeight`. -/
def fUseFilter (c : Consts) (w : WorkParams) (env : Env) (nHeight : Int) : Bool :=
  (env.fTestNet && decide (nHeight ≥ w.DIFF_FILTER_THRESHOLD_TESTNET - 1)) ||
  (!env.fTestNet && decide (nHeight ≥ c.DIFF_FILTER_THRESHOLD - 1))

/-- The walk of the test-network rule: from `pindex` along `pprev` while the node
has a parent, its height is not a multiple of the interval and its bits are the
minimum-difficulty ones; the result is `nBits` of the node the walk stops at. -/
def lastNonSpecialBits (nInterval : Int) (nProofOfWorkLimit : Nat) :
    CBlockIndexNode → BlockPtr → Nat
  | pindex, [] => pindex.nBits
  | pindex, pprev :: rest =>
    if pindex.index.nHeight.tmod nInterval ≠ 0 ∧ pindex.nBits = nProofOfWorkLimit then
      lastNonSpecialBits nInterval nProofOfWorkLimit pprev rest
    else pindex.nBits

/-- The first loop over `vTimeDelta`: at most `n` more entries, one per node that
has a parent, each the difference of the two block times stored in an `int32_t`. -/
def timeDeltaLoop : Nat → BlockPtr → List Int
  | 0, _ => []
  | _ + 1, [] => []
  | _ + 1, [_] => []
  | n + 1, pitr :: pprev :: rest =>
    wrapInt32 (pitr.index.nTime - pprev.index.nTime) :: timeDeltaLoop n (pprev :: rest)

/-- The array `vTimeDelta` after both loops: the measured differences, then
`nTargetSpacing` up to `WINDOW` entries. -/
def vTimeDelta (pindexLast : BlockPtr) : List Int :=
  let measured := timeDeltaLoop WINDOW pindexLast
  measured ++ List.replicate (WINDOW - measured.length) (wrapInt32 nTargetSpacing)

/-- The accumulation of `vFilteredTime`, an `int64_t`, over the window. -/
def filteredTimeLoop : List Int → List Int → Int → Int
  | coeff :: cs, delta :: ds, vFilteredTime =>
    filteredTimeLoop cs ds (wrapInt64 (vFilteredTime + coeff * delta))
  | _, _, vFilteredTime => vFilteredTime

/-- The adjustment factor of the filtered branch (lines 1467-1486). -/
def filteredAdjustment (pindexLast : BlockPtr) : ℚ :=
  let vFilteredTime := filteredTimeLoop kFilterCoeff (vTimeDelta pindexLast) 0
  let dFilteredInterval : ℚ := (vFilteredTime : ℚ) / 2147483648
  let dAdjustmentFactor : ℚ :=
    1 - kGain * (dFilteredInterval - (nTargetSpacing : ℚ)) / (nTargetSpacing : ℚ)
  if dAdjustmentFactor > kLimiterUp then kLimiterUp
  else if dAdjustmentFactor < kLimiterDown then kLimiterDown
  else dAdjustmentFactor

/-- The adjustment factor of the unfiltered branch (lines 1487-1511); `thrown` is
the failed `assert(pindexFirst)`. -/
def legacyAdjustment (nInterval nTargetTimespan : Int) (pindexLast : CBlockIndexNode)
    (ancestors : BlockPtr) : Outcome ℚ :=
  let blockstogoback : Int :=
    if pindexLast.index.nHeight + 1 ≠ nInterval then nInterval else nInterval - 1
  match (pindexLast :: ancestors).drop blockstogoback.toNat with
  | [] => .thrown
  | pindexFirst :: _ =>
    let nActualTimespan0 : Int := pindexLast.index.nTime - pindexFirst.index.nTime
    let nActualTimespan1 : Int :=
      if nActualTimespan0 < Int.tdiv nTargetTimespan 4 then Int.tdiv nTargetTimespan 4
      else nActualTimespan0
    let nActualTimespan : Int :=
      if nActualTimespan1 > nTargetTimespan * 4 then nTargetTimespan * 4
      else nActualTimespan1
    .done ((nTargetTimespan : ℚ) / (nActualTimespan : ℚ))

/-- The block "Retarget" (lines 1513-1520): the value of `bnNew` before it is
encoded.  Numerator and denominator of the factor are below `2^63` in both
branches, where the conversions `mpz_to_i64` are exact; the division of `CBigNum`
truncates. -/
def retargetBnNew (env : Env) (nBits : Nat) (dAdjustmentFactor : ℚ) : Int :=
  let bnNew0 : Int := env.SetCompact nBits
  let bnNew1 : Int := bnNew0 * (dAdjustmentFactor.den : Int)
  let bnNew2 : Int := Int.tdiv bnNew1 dAdjustmentFactor.num
  if bnNew2 > bnProofOfWorkLimit then bnProofOfWorkLimit else bnNew2

/-- The adjustment factor of a retarget (lines 1465-1511), in either branch. -/
def adjustmentOf (fUse : Bool) (nInterval nTargetTimespan : Int)
    (pindexLast : CBlockIndexNode) (ancestors : BlockPtr) : Outcome ℚ :=
  if fUse then .done (filteredAdjustment (pindexLast :: ancestors))
  else legacyAdjustment nInterval nTargetTimespan pindexLast ancestors

/-- The function `GetNextWorkRequired`; `thrown` is the failed `assert`. -/
def GetNextWorkRequired (c : Consts) (w : WorkParams) (env : Env) (pindexLast : BlockPtr)
    (pblock : CBlock) : Outcome Nat :=
  let nProofOfWorkLimit := w.GetCompact bnProofOfWorkLimit
  match pindexLast with
  | [] => .done nProofOfWorkLimit
  | last :: ancestors =>
    if !env.fTestNet && decide (last.index.nHeight = c.DIFF_FILTER_THRESHOLD - 1) then
      .done 0x1b01c13a
    else
      let fUse := fUseFilter c w env last.index.nHeight
      let nInterval : Int := if !fUse then nOriginalInterval else nFilteredInterval
      let nTargetTimespan : Int := if !fUse then nOriginalTargetTimespan else 1 * 24 * 60 * 60
      if (fUse && decide ((last.index.nHeight + 1).tmod nInterval ≠ 0)) ||
          (!fUse && decide ((last.index.nHeight + 1).tmod 2016 ≠ 0)) then
        if env.fTestNet then
          if pblock.nTime > last.index.nTime + nTargetSpacing * 2 then .done nProofOfWorkLimit
          else .done (lastNonSpecialBits nInterval nProofOfWorkLimit last ancestors)
        else .done last.nBits
      else
        (adjustmentOf fUse nInterval nTargetTimespan last ancestors).bind
          fun dAdjustmentFactor =>
            .done (w.GetCompact (retargetBnNew env last.nBits dAdjustmentFactor))

/-! ## The orphan transaction pool (`main.cpp` 165-229) -/

/-- A serialised message (`CDataStream`): its bytes. -/
abbrev CDataStream := List Nat

/-- The two maps of the orphan pool, `mapOrphanTransactions` and
`mapOrphanTransactionsByPrev`.  A stored `CDataStream*` is the stream it points
to. -/
structure OrphanPool where
  mapOrphanTransactions : StdMap uint256 CDataStream
  mapOrphanTransactionsByPrev : StdMap uint256 (StdMap uint256 CDataStream)

/-- The smallest of a list of keys. -/
def minKey : List uint256 → Option uint256
  | [] => none
  | k :: rest =>
    match minKey rest with
    | none => some k
    | some m => if k ≤ m then some k else some m

/-- The call `m.size()`. -/
def StdMap.size {V : Type} (m : StdMap uint256 V) : Nat := m.entries.length

/-- The call `m.lower_bound(k)` on a map that iterates in key order: the key of
the first entry whose key is not less than `k`; `none` is `end()`. -/
def StdMap.lower_bound {V : Type} (m : StdMap uint256 V) (k : uint256) : Option uint256 :=
  minKey ((m.entries.map Prod.fst).filter (fun x => decide (k ≤ x)))

/-- The call `m.begin()` on a map that iterates in key order: the smallest key;
`none` is `end()`. -/
def StdMap.begin {V : Type} (m : StdMap uint256 V) : Option uint256 :=
  minKey (m.entries.map Prod.fst)

/-- One round of the loop of `AddOrphanTx`: the call
`mapOrphanTransactionsByPrev[txin.prevout.hash].insert(make_pair(hash, pvMsg))`. -/
def addByPrevStep (hash : uint256) (pvMsg : CDataStream)
    (byPrev : StdMap uint256 (StdMap uint256 CDataStream)) (txin : CTxIn) :
    StdMap uint256 (StdMap uint256 CDataStream) :=
  let inner := (byPrev.find txin.prevout.hash).getD StdMap.empty
  byPrev.set txin.prevout.hash (if inner.count hash then inner else inner.set hash pvMsg)

/-- The function `AddOrphanTx`.  `Unserialize` is the deserialisation
`CDataStream(vMsg) >> tx`. -/
def AddOrphanTx (env : Env) (Unserialize : CDataStream → CTransaction) (pool : OrphanPool)
    (vMsg : CDataStream) : Bool × OrphanPool :=
  let tx := Unserialize vMsg
  let hash := env.GetHash tx
  if pool.mapOrphanTransactions.count hash then (false, pool)
  else if vMsg.length > 5000 then (false, pool)
  else
    (true,
      { mapOrphanTransactions := pool.mapOrphanTransactions.set hash vMsg
        mapOrphanTransactionsByPrev :=
          tx.vin.foldl (addByPrevStep hash vMsg) pool.mapOrphanTransactionsByPrev })

/-- One round of the loop of `EraseOrphanTx`: the entry of `hash` is erased from
the map stored under `txin.prevout.hash`, which `operator[]` creates when it is
missing, and that map is erased when it is empty. -/
def eraseByPrevStep (hash : uint256) (byPrev : StdMap uint256 (StdMap uint256 CDataStream))
    (txin : CTxIn) : StdMap uint256 (StdMap uint256 CDataStream) :=
  let inner := ((byPrev.find txin.prevout.hash).getD StdMap.empty).erase hash
  if inner.entries.isEmpty then byPrev.erase txin.prevout.hash
  else byPrev.set txin.prevout.hash inner

/-- The function `EraseOrphanTx`. -/
def EraseOrphanTx (Unserialize : CDataStream → CTransaction) (pool : OrphanPool)
    (hash : uint256) : OrphanPool :=
  match pool.mapOrphanTransactions.find hash with
  | none => pool
  | some pvMsg =>
    let tx := Unserialize pvMsg
    { mapOrphanTransactions := pool.mapOrphanTransactions.erase hash
      mapOrphanTransactionsByPrev :=
        tx.vin.foldl (eraseByPrevStep hash) pool.mapOrphanTransactionsByPrev }

/-- The loop of `LimitOrphanTxSize`.  `GetRandHash k` is the value of the `k`-th
call of `GetRandHash()`; `fuel` bounds the number of rounds.  The result is
`nEvicted`, an `unsigned int`, and the pool; `none` when the fuel runs out or the
iterator of an empty map is dereferenced. -/
def limitLoop (Unserialize : CDataStream → CTransaction) (GetRandHash : Nat → uint256)
    (nMaxOrphans : Nat) : Nat → Nat → OrphanPool → Nat → Option (Nat × OrphanPool)
  | 0, _, _, _ => none
  | fuel + 1, k, pool, nEvicted =>
    if pool.mapOrphanTransactions.size > nMaxOrphans then
      let randomhash := GetRandHash k
      let it : Option uint256 :=
        match pool.mapOrphanTransactions.lower_bound randomhash with
        | some key => some key
        | none => pool.mapOrphanTransactions.begin
      match it with
      | none => none
      | some key =>
        limitLoop Unserialize GetRandHash nMaxOrphans fuel (k + 1)
          (EraseOrphanTx Unserialize pool key) ((nEvicted + 1) % 2 ^ 32)
    else some (nEvicted, pool)

/-- The function `LimitOrphanTxSize`, with the random values it draws and a bound
on the rounds of its loop. -/
def LimitOrphanTxSize (Unserialize : CDataStream → CTransaction) (GetRandHash : Nat → uint256)
    (fuel : Nat) (pool : OrphanPool) (nMaxOrphans : Nat) : Option (Nat × OrphanPool) :=
  limitLoop Unserialize GetRandHash nMaxOrphans fuel 0 pool 0

/-! ## Units of the wallet front end (`qt/freicoinunits.cpp`) -/

namespace XcoinUnits

/-- The enumerator `XCN` of `XcoinUnits::Unit`. -/
def XCN : Int := 0

/-- The enumerator `mXCN` of `XcoinUnits::Unit`. -/
def mXCN : Int := 1

/-- The enumerator `uXCN` of `XcoinUnits::Unit`. -/
def uXCN : Int := 2

/-- The function `XcoinUnits::valid`. -/
def valid (unit : Int) : Bool :=
  if unit = XCN then true
  else if unit = mXCN then true
  else if unit = uXCN then true
  else false

/-- The function `XcoinUnits::factor`. -/
def factor (unit : Int) : ℚ :=
  if unit = uXCN then 100
  else if unit = mXCN then 100000
  else 100000000

/-- The function `XcoinUnits::amountDigits`. -/
def amountDigits (unit : Int) : Int :=
  if unit = XCN then 8
  else if unit = mXCN then 11
  else if unit = uXCN then 14
  else 0

/-- The function `XcoinUnits::decimals`. -/
def decimals (unit : Int) : Int :=
  if unit = XCN then 8
  else if unit = mXCN then 5
  else if unit = uXCN then 2
  else 0

/-- The function `XcoinUnits::format`.  The constant `COIN` and the function
`FormatMoney` are outside the excerpt and are parameters; `none` is the exception
of `std::string::erase` when the string is shorter than the part to erase. -/
def format (COIN : ℚ) (FormatMoney : ℚ → Bool → String) (unit : Int) (n : ℚ) (fPlus : Bool) :
    Option String :=
  if !valid unit then some ""
  else
    let q : ℚ := n * COIN / factor unit
    let str := FormatMoney q fPlus
    let diff : Int := 8 - decimals unit
    if diff > 0 then
      if (str.length : Int) < diff then none
      else some (str.take (str.length - diff.toNat))
    else some str

end XcoinUnits

/-! ## Accepting a block (`main.cpp` 2472-2558) -/

/-- A small deterministic instance of the collaborators: a one-byte script `[k]`
pays to key `k`, the address at position `i` of the schedule decodes to key `i`,
every signature verifies, nothing is in the memory pool or on disk. -/
def sampleEnv : Env where
  fTestNet := false
  nBestHeight := 0
  nTotalBlocksEstimate := 0
  nAdjustedTime := 1400000000
  DecodeAddress := fun _ str => CTxDestination.CKeyID (vAddresses.indexOf str)
  ExtractDestination := fun script =>
    match script with
    | [k] => some (CTxDestination.CKeyID k)
    | _ => none
  GetSerializeSize := fun tx => 10 + 41 * tx.vin.length + 9 * tx.vout.length
  GetBlockSerializeSize := fun blk => 81 + 100 * blk.vtx.length
  GetSerializeSizeDisk := fun tx => 10 + 41 * tx.vin.length + 9 * tx.vout.length
  nEmptyBlockDiskSize := 81
  GetSizeOfCompactSize := fun _ => 1
  GetHash := fun tx => tx.nLockTime + 1
  GetBlockHash := fun blk => blk.nNonce
  BuildMerkleTree := fun _ => 0
  SetCompact := fun _ => 2 ^ 224 - 1
  VerifySignature := fun _ _ _ _ => true
  GetSigOpCount := fun _ => 0
  IsPayToScriptHash := fun _ => false
  GetP2SHSigOps := fun _ _ => 0
  mempoolTx := fun _ => none
  ReadFromDisk := fun _ => none

/-- The MPFR variable `rate` of `GetTimeAdjustedValue`: `(R-1)/R` rounded to 113 bits. -/
def demurrageRate (c : Consts) : ℚ :=
  (mpfrRound 113 ((mpfrRound 113 ((c.DEMURRAGE_RATE - 1 : Nat) : ℚ)).toRat /
    (c.DEMURRAGE_RATE : ℚ))).toRat

/-- The factor one call of `GetTimeAdjustedValue` multiplies by: 1 at depth 0 (the
early return), the rounded power otherwise. -/
def presentValueFactor (c : Consts) (nRelativeDepth : Int) : ℚ :=
  if nRelativeDepth = 0 then 1 else adjustmentFactor c nRelativeDepth

/-- The value a map of amounts holds for `d` after the amounts `l` were added to
it one by one: untouched when nothing was added. -/
def accumulated (x : Option ℚ) (l : List ℚ) : Option ℚ :=
  if l = [] then x else some (x.getD 0 + l.sum)

/-- The share of the amount `A` that entry `e` of a budget with ratio `r` and weight
total `W` receives. -/
def budgetShare (A r : ℚ) (W : Int) (e : CBudgetEntry) : ℚ := A * r * (e.1 : ℚ) / (W : ℚ)

/-- The total `ApplyBudget` reaches for `d` before it drops the non-positive
entries: what `M` held for `d` (0 if absent) plus the shares of all entries with
destination `d`. -/
def budgetTotal (A : ℚ) (budget : CBudget) (M : StdMap CTxDestination ℚ) (d : CTxDestination) :
    ℚ :=
  (M.find d).getD 0 +
    ((budget.2.filter (fun e => decide (e.2 = d))).map
      (budgetShare A budget.1 (budget.2.map Prod.fst).sum)).sum

/-- The destination the schedule mandates at height `h`: the entry at index
`floor(h * 320 / EQ_HEIGHT)` of the 320 addresses. -/
def mandatedDestination (c : Consts) (env : Env) (h : Int) : CTxDestination :=
  env.DecodeAddress env.fTestNet (vAddresses.getD ((h * 320) / c.EQ_HEIGHT).toNat "")

/-- The present values, at height `h`, of the outputs of the transactions of `vtx`
whose script extracts to `d`, in block order. -/
def paymentsTo (c : Consts) (env : Env) (vtx : List CTransaction) (h : Int)
    (d : CTxDestination) : List ℚ :=
  vtx.flatMap fun tx =>
    (tx.vout.filter (fun o => decide (env.ExtractDestination o.scriptPubKey = some d))).map
      (fun o => GetPresentValue c tx o h)

/-- A well-formed ordinary transaction: one input spending output 0 of the
transaction with hash 7, one output of 5 base units. -/
def sampleTx : CTransaction :=
  { nVersion := 1
    vin := [⟨⟨7, 0⟩, [1, 2, 3], 0⟩]
    vout := [⟨5, [9]⟩]
    nLockTime := 1
    nRefHeight := 3 }

/-- The data-model invariant `height = prev.height + 1` along a `pprev` chain. -/
def chainLinked : List CBlockIndex → Bool
  | [] => true
  | [_] => true
  | a :: b :: rest => decide (a.nHeight = b.nHeight + 1) && chainLinked (b :: rest)

/-- The input map of `ConnectInputs` after the slots of the inputs `ins` were marked
with `posThisTx`, in order: the state in which the next input is examined. -/
def markInputs (posThisTx : CDiskTxPos) : List CTxIn → MapPrevTx → MapPrevTx
  | [], m => m
  | txin :: rest, m =>
    match m.find txin.prevout.hash with
    | none => markInputs posThisTx rest m
    | some (txindex, txPrev) =>
      markInputs posThisTx rest
        (m.set txin.prevout.hash
          (⟨txindex.pos, txindex.vSpent.set txin.prevout.n posThisTx⟩, txPrev))

/-- Present value, at the reference height of `tx`, of the previous output that
the input `txin` spends according to the input map (0 when it is not there). -/
def inputValue (c : Consts) (tx : CTransaction) (inputs : MapPrevTx) (txin : CTxIn) : ℚ :=
  match inputs.find txin.prevout.hash with
  | none => 0
  | some (_, txPrev) =>
    match txPrev.vout[txin.prevout.n]? with
    | none => 0
    | some txOut => GetPresentValue c txPrev txOut tx.nRefHeight

/-- The previous transaction of the sample transaction: one output of 10 base
units at reference height 0. -/
def samplePrevTx : CTransaction :=
  { nVersion := 1
    vin := [⟨⟨5, 0⟩, [1], 0⟩]
    vout := [⟨10, [8]⟩]
    nLockTime := 6
    nRefHeight := 0 }

/-- An input map for the sample transaction: its previous transaction, unspent. -/
def sampleInputs : MapPrevTx :=
  StdMap.empty.set 7 (⟨⟨1, 50, 60⟩, [CDiskTxPos.null]⟩, samplePrevTx)

/-- A block-index chain of heights 3, 2, 1, 0. -/
def sampleChain : List CBlockIndex :=
  [⟨true, 13, 1, 400, 3, 1400000300⟩, ⟨true, 12, 1, 300, 2, 1400000200⟩,
   ⟨true, 11, 1, 200, 1, 1400000100⟩, ⟨true, 10, 1, 100, 0, 1400000000⟩]

/-- The sample environment with the previous transaction of the sample transaction
stored on disk. -/
def sampleBlockEnv : Env :=
  { sampleEnv with
    ReadFromDisk := fun pos => if pos = ⟨1, 50, 60⟩ then some samplePrevTx else none }

/-- The tx index before the sample block: the previous transaction, unspent. -/
def sampleTxdb : StdMap uint256 CTxIndex :=
  StdMap.empty.set 7 ⟨⟨1, 50, 60⟩, [CDiskTxPos.null]⟩

/-- A coinbase of reference height 3 that pays the amount `n` to the script `script`. -/
def sampleCoinbase (n : Int) (script : CScript) : CTransaction :=
  { nVersion := 1
    vin := [⟨⟨0, 2 ^ 32 - 1⟩, [3, 0], 0⟩]
    vout := [⟨n, script⟩]
    nLockTime := 0
    nRefHeight := 3 }

/-- A block for height 3 made of the given coinbase and the sample transaction. -/
def sampleBlock (coinbase : CTransaction) : CBlock :=
  { nVersion := 2
    hashPrevBlock := 12
    hashMerkleRoot := 0
    nTime := 1400000300
    nBits := 0
    nNonce := 13
    vtx := [coinbase, sampleTx] }

/-- The index node of the sample block: height 3. -/
def sampleIndex : CBlockIndex := ⟨true, 13, 1, 400, 3, 1400000300⟩

/-- The state invariant of the memory pool: every stored transaction is stored
under its hash and passes `CheckTransaction`; each input `i` of a stored
transaction has its outpoint mapped to the in-point (transaction, `i`); and every
entry of `mapNextTx` is the in-point of an input of a stored transaction. -/
def PoolInvariant (c : Consts) (env : Env) (pool : CTxMemPool) : Prop :=
  (∀ h tx, pool.mapTx.find h = some tx →
    env.GetHash tx = h ∧ (CheckTransaction c env tx).ok = true) ∧
  (∀ h tx, pool.mapTx.find h = some tx → ∀ i txin, tx.vin[i]? = some txin →
    pool.mapNextTx.find txin.prevout = some (h, i)) ∧
  (∀ o h i, pool.mapNextTx.find o = some (h, i) →
    ∃ tx txin, pool.mapTx.find h = some tx ∧ tx.vin[i]? = some txin ∧ txin.prevout = o)

/-- Two environments hash and serialise transactions in the same way (their
global flags and heights may differ). -/
def sameCodec (env env2 : Env) : Prop :=
  env2.GetHash = env.GetHash ∧ env2.GetSerializeSize = env.GetSerializeSize

/-- The memory-pool states reachable from an empty pool by calls of `accept`,
`remove` and `clear`, with arbitrary arguments and under arbitrary values of the
globals. -/
inductive PoolReachable (c : Consts) (env : Env) (pol : Policy) : CTxMemPool → Prop where
  | empty (n : Nat) : PoolReachable c env pol ⟨StdMap.empty, StdMap.empty, n⟩
  | accept (pool : CTxMemPool) (env2 : Env) (txdb : StdMap uint256 CTxIndex)
      (pindexBest : List CBlockIndex) (tx : CTransaction) (fCheckInputs fRateLimited : Bool) :
      sameCodec env env2 → PoolReachable c env pol pool →
      PoolReachable c env pol
        (pool.accept c env2 pol txdb pindexBest tx fCheckInputs fRateLimited).pool
  | remove (pool : CTxMemPool) (tx : CTransaction) :
      PoolReachable c env pol pool → PoolReachable c env pol (pool.remove env tx)
  | clear (pool : CTxMemPool) :
      PoolReachable c env pol pool → PoolReachable c env pol pool.clear

/-- A relay policy for the sample data: small fee constants, every script is
standard, a script signature evaluates to an empty stack and no arguments are
expected. -/
def samplePolicy : Policy where
  CURRENT_VERSION := 2
  MIN_TX_FEE := 5
  MIN_RELAY_TX_FEE := 1
  CENT := 1000000
  MAX_BLOCK_SIZE_GEN := 500000
  IsPushOnly := fun _ => true
  IsStandardScript := fun _ => true
  Solver := fun _ => some (txnouttype.TX_PUBKEYHASH, [])
  ScriptSigArgsExpected := fun _ _ => 0
  EvalScript := fun _ _ _ => some []

/-- An injective stand-in for the transaction hash: the code of the tuple of all
the fields of the transaction. -/
def txCode (tx : CTransaction) : Nat :=
  Encodable.encode
    (tx.nVersion,
      tx.vin.map (fun i => (i.prevout.hash, i.prevout.n, i.scriptSig, i.nSequence)),
      tx.vout.map (fun o => (o.nValue, o.scriptPubKey)),
      tx.nLockTime, tx.nRefHeight)

/-- The sample environment with the injective transaction hash `txCode`. -/
def sampleHashEnv : Env := { sampleEnv with GetHash := txCode }

/-- An empty memory pool. -/
def emptyPool : CTxMemPool := ⟨StdMap.empty, StdMap.empty, 0⟩

/-- A second transaction that spends the outpoint the sample transaction spends. -/
def sampleRival : CTransaction :=
  { nVersion := 1
    vin := [⟨⟨7, 0⟩, [4], 0⟩]
    vout := [⟨4, [9]⟩]
    nLockTime := 2
    nRefHeight := 3 }

/-- What the tx index holds for `h` once the queued changes `q` are written over
`D`. -/
def viewIndex (q D : StdMap uint256 CTxIndex) (h : uint256) : Option CTxIndex :=
  match q.find h with
  | some v => some v
  | none => D.find h

/-- The slots of `v` after every input of `ins` that spends an output of the
transaction `h` had its slot set to `x`. -/
def setSlots (x : CDiskTxPos) (h : uint256) (ins : List CTxIn) (v : List CDiskTxPos) :
    List CDiskTxPos :=
  ins.foldl (fun v txin => if txin.prevout.hash = h then v.set txin.prevout.n x else v) v

/-- Connect a block to the tx index `D`, then disconnect it from the result:
the tx index this leaves, `none` when either call does not return true. -/
def connectThenDisconnect (c : Consts) (env : Env) (D : StdMap uint256 CTxIndex) (blk : CBlock)
    (pindex : CBlockIndex) (ancestors : List CBlockIndex) : Option (StdMap uint256 CTxIndex) :=
  match ConnectBlock c env D blk pindex ancestors false with
  | .done D2 => DisconnectBlock env D2 blk pindex
  | _ => none

/-- The sample tx index with one more entry: an earlier transaction with the hash
of the sample coinbase, its single output spent. -/
def duplicateTxdb : StdMap uint256 CTxIndex :=
  sampleTxdb.set 1 ⟨⟨1, 100, 90⟩, [⟨1, 200, 90⟩]⟩

/-- An index entry after every input of `ins` that spends an output of the
transaction `h` had its slot set to `x`. -/
def markIndex (x : CDiskTxPos) (h : uint256) (ins : List CTxIn) (idx : CTxIndex) : CTxIndex :=
  ⟨idx.pos, setSlots x h ins idx.vSpent⟩

/-- Every null marker of the index view `V` is the position written by `SetNull`. -/
def nullsCanonical (V : uint256 → Option CTxIndex) : Prop :=
  ∀ h idx, V h = some idx → ∀ p ∈ idx.vSpent, p.IsNull = true → p = CDiskTxPos.null

/-- The inputs whose previous outputs a transaction spends: none for a coinbase. -/
def spentInputs (tx : CTransaction) : List CTxIn := if tx.IsCoinBase then [] else tx.vin

/-- The state of a node that has not seen a block: the initial values of the
globals, with 100 for `hashGenesisBlock`. -/
def initialChain : ChainState where
  mapBlockIndex := StdMap.empty
  pnext := StdMap.empty
  hashGenesisBlock := 100
  pindexGenesisBlock := []
  pindexBest := []
  hashBestChain := 0
  nBestHeight := -1
  bnBestChainWork := 0
  bnBestInvalidWork := 0
  txdb := StdMap.empty
  txdbHashBestChain := 0
  mempool := emptyPool

/-- A block for height `h` on top of the block with hash `prev`: its hash under
the sample environment is `nonce`, and its only transaction is a coinbase with
lock time `nonce` that pays `n` base units to the script `[0]`, the destination
mandated at the first heights. -/
def chainBlock (prev nonce : Nat) (h n : Int) : CBlock :=
  { nVersion := 2
    hashPrevBlock := prev
    hashMerkleRoot := 0
    nTime := 1400000000
    nBits := 0
    nNonce := nonce
    vtx :=
      [{ nVersion := 1
         vin := [⟨⟨0, 2 ^ 32 - 1⟩, [3, 0], 0⟩]
         vout := [⟨n, [0]⟩]
         nLockTime := nonce
         nRefHeight := h }] }

/-- Block files for the sample chains: the block stored at offset `p` is the one
with hash `p`; 100 is the genesis block, 101 and 102 a branch `A` on top of it,
111, 112 and 113 a branch `B`.  The blocks 102 and 112 pay the mandated destination
nothing. -/
def sampleDisk (pindex : CBlockIndex) : Option CBlock :=
  if pindex.nBlockPos = 100 then some (chainBlock 0 100 0 49603174604)
  else if pindex.nBlockPos = 101 then some (chainBlock 100 101 1 49603174604)
  else if pindex.nBlockPos = 102 then some (chainBlock 101 102 2 0)
  else if pindex.nBlockPos = 111 then some (chainBlock 100 111 1 49603174604)
  else if pindex.nBlockPos = 112 then some (chainBlock 111 112 2 0)
  else if pindex.nBlockPos = 113 then some (chainBlock 111 113 2 49603174604)
  else none

/-- The state after a call of `AddToBlockIndex`, whatever it returned (the state
as it was for a block outside the model). -/
def addBlock (c : Consts) (env : Env) (pol : Policy) (disk : CBlockIndex → Option CBlock)
    (st : ChainState) (blk : CBlock) (nFile nBlockPos : Nat) : ChainState :=
  match AddToBlockIndex c env pol disk st blk nFile nBlockPos with
  | none => st
  | some r => r.st

/-- The state after the calls of `AddToBlockIndex` on the given blocks, each stored
in file 1 at the offset that is its hash. -/
def addBlocks (c : Consts) (env : Env) (pol : Policy) (disk : CBlockIndex → Option CBlock) :
    List CBlock → ChainState → ChainState
  | [], st => st
  | blk :: rest, st =>
    addBlocks c env pol disk rest (addBlock c env pol disk st blk 1 (env.GetBlockHash blk))

/-- Two environments hash blocks and decode compact targets in the same way. -/
def sameBlockCodec (env env2 : Env) : Prop :=
  env2.GetBlockHash = env.GetBlockHash ∧ env2.SetCompact = env.SetCompact

/-- The states reachable from one with an empty block index by calls of
`AddToBlockIndex`, with arbitrary blocks and positions and under arbitrary values
of the clock and the block files. -/
inductive IndexReachable (c : Consts) (env : Env) (pol : Policy) : ChainState → Prop where
  | init (st : ChainState) : st.mapBlockIndex = StdMap.empty → IndexReachable c env pol st
  | add (st : ChainState) (env2 : Env) (disk : CBlockIndex → Option CBlock) (blk : CBlock)
      (nFile nBlockPos : Nat) :
      sameBlockCodec env env2 → IndexReachable c env pol st →
      IndexReachable c env pol (addBlock c env2 pol disk st blk nFile nBlockPos)

/-- The invariant of a `pprev` path built by `AddToBlockIndex`: the root has height
0 and its own work as chain work; every other node has the height of its parent
plus one, as an `int`, and the chain work of its parent plus its own work. -/
def pathLinked (env : Env) : BlockPtr → Prop
  | [] => True
  | [n] => n.index.nHeight = 0 ∧ n.bnChainWork = GetBlockWork env n.nBits
  | n :: p :: rest =>
    n.index.nHeight = wrapInt32 (p.index.nHeight + 1) ∧
    n.bnChainWork = p.bnChainWork + GetBlockWork env n.nBits ∧
    pathLinked env (p :: rest)

/-- The data-model invariant `height = prev.height + 1` along the `pprev` path of
a pointer. -/
def heightLinked (p : BlockPtr) : Bool := chainLinked (p.map (fun n => n.index))

/-- Height of the node a pointer denotes (0 for the null pointer). -/
def ptrHeight (p : BlockPtr) : Int :=
  match p with
  | [] => 0
  | n :: _ => n.index.nHeight

/-- The first `k` nodes on the `pprev` path that starts at `p`: `p`, `p->pprev`,
and so on. -/
def pathAbove (p : BlockPtr) (k : Nat) : List BlockPtr :=
  (List.range k).map (fun i => p.drop i)

/-- The nodes reached from `p` by following `pnext` up to `k` times. -/
def followNext (pnext : StdMap BlockPtr BlockPtr) : Nat → BlockPtr → List BlockPtr
  | 0, _ => []
  | k + 1, p =>
    match pnext.find p with
    | none => []
    | some q => q :: followNext pnext k q

/-- The value a call returned true with, `d` for any other end. -/
def Outcome.getD {α : Type} (x : Outcome α) (d : α) : α :=
  match x with
  | .done a => a
  | _ => d

/-- The state after `AddToBlockIndex` was called on each of the sample blocks
with the given hashes, in order, starting from the initial state. -/
def sampleChainState (hashes : List Nat) : ChainState :=
  addBlocks sampleConsts sampleEnv samplePolicy sampleDisk
    (hashes.filterMap (fun h => sampleDisk ⟨true, h, 1, h, 0, 0⟩)) initialChain

/-- The node under the hash `h` in the index after the sample branches `A` and
`B` were added to the genesis block; null when there is none. -/
def samplePtr (h : Nat) : BlockPtr :=
  ((sampleChainState [100, 101, 111, 113, 112]).mapBlockIndex.find h).getD []

/-- A state in which the best chain is the genesis block alone while the index
also holds the sample blocks 111 and 112 on top of it, neither of them connected:
the node 111 has more chain work than the best chain. -/
def staleChain : ChainState :=
  { sampleChainState [100] with
    mapBlockIndex :=
      ((sampleChainState [100]).mapBlockIndex.set 111 (samplePtr 111)).set 112 (samplePtr 112) }

/-- The inter-block time number `i` walking back from `pindexLast`: the time of the
`i`-th node on the `pprev` path minus the time of its parent; the target spacing
of 120 s where the path has no such pair of nodes. -/
def interBlockTime (pindexLast : BlockPtr) (i : Nat) : Int :=
  match pindexLast[i]?, pindexLast[i + 1]? with
  | some a, some b => a.index.nTime - b.index.nTime
  | _, _ => 120

/-- A value clamped to `[lo, hi]`. -/
def clampInt (x lo hi : Int) : Int := max lo (min hi x)

/-- The inter-block time number `i` as an `int32_t`, the type of the entries of
`vTimeDelta`. -/
def wrappedDelta (p : BlockPtr) (i : Nat) : Int :=
  match p[i]?, p[i + 1]? with
  | some a, some b => wrapInt32 (a.index.nTime - b.index.nTime)
  | _, _ => wrapInt32 nTargetSpacing



/-- The new target of the unfiltered mode as the specification words it: the
previous target times the actual timespan over 14 days (1209600 s), the timespan
clamped to a quarter and four times that, capped at the proof-of-work limit. -/
def legacyTargetClaimed (T A : Int) : Int :=
  min (T * clampInt A (1209600 / 4) (1209600 * 4) / 1209600) bnProofOfWorkLimit

/-- A compact decoding for the sample data, after the usual format of a size byte
and a mantissa of 23 bits: the mantissa shifted by `size - 3` bytes. -/
def sampleSetCompact (nBits : Nat) : Int :=
  let nSize := nBits / 2 ^ 24
  let nWord := nBits % 2 ^ 23
  if nSize ≤ 3 then ((nWord / 256 ^ (3 - nSize) : Nat) : Int)
  else ((nWord * 256 ^ (nSize - 3) : Nat) : Int)

/-- A compact encoding for the sample data: the three leading bytes of a positive
number and its length in bytes, one byte more when the leading bit is set. -/
def sampleGetCompact (bn : Int) : Nat :=
  let n := bn.toNat
  let nSize := (bitLength n + 7) / 8
  let nCompact := if nSize ≤ 3 then n * 256 ^ (3 - nSize) else n / 256 ^ (nSize - 3)
  if nCompact ≥ 2 ^ 23 then nCompact / 256 + (nSize + 1) * 2 ^ 24
  else nCompact + nSize * 2 ^ 24

/-- Retarget parameters for the sample data. -/
def sampleWork : WorkParams where
  DIFF_FILTER_THRESHOLD_TESTNET := 2016
  GetCompact := sampleGetCompact

/-- The sample environment with the sample compact decoding. -/
def compactEnv : Env := { sampleEnv with SetCompact := sampleSetCompact }

/-- A block-index node of height `k` with the time `1400000000 + k * spacing` and
the bits `nBits`. -/
def spacedNode (k spacing : Int) (nBits : Nat) : CBlockIndexNode :=
  { index := ⟨true, k.toNat, 1, k.toNat, k, 1400000000 + k * spacing⟩
    nVersion := 2
    nBits := nBits
    bnChainWork := 0 }

/-- A `pprev` path of `n` such nodes, of the heights `h`, `h - 1`, and so on. -/
def spacedChain (n : Nat) (h spacing : Int) (nBits : Nat) : BlockPtr :=
  (List.range n).map (fun i => spacedNode (h - i) spacing nBits)

/-- The legacy signature-operation count of a transaction as a natural number: the
counts of its input scripts and of its output scripts, added up. -/
def legacySigOps (env : Env) (tx : CTransaction) : Nat :=
  (tx.vin.map (fun txin => env.GetSigOpCount txin.scriptSig)).sum +
    (tx.vout.map (fun txout => env.GetSigOpCount txout.scriptPubKey)).sum

/-- The total legacy signature-operation count of a block, as a natural number. -/
def blockSigOps (env : Env) (blk : CBlock) : Nat :=
  (blk.vtx.map (legacySigOps env)).sum

/-- Where a previous transaction with hash `h` is located, following the search
order "test pool, persistent index, memory pool": the index entry comes from the
test pool (for a block or the miner) or from the tx index; the transaction comes
from the memory pool when there is no index entry (never for a block or the miner)
or when the entry has the position of a memory-pool transaction, and from disk
otherwise.  `none`: it cannot be located. -/
def locatePrev (env : Env) (txdb mapTestPool : StdMap uint256 CTxIndex) (fBlock fMiner : Bool)
    (h : uint256) : Option (CTxIndex × CTransaction) :=
  let entry : Option CTxIndex :=
    match (if fBlock || fMiner then mapTestPool.find h else none) with
    | some txindex => some txindex
    | none => txdb.find h
  match entry with
  | none =>
    if fBlock || fMiner then none
    else
      (env.mempoolTx h).map
        (fun txPrev => (⟨CDiskTxPos.null, List.replicate txPrev.vout.length CDiskTxPos.null⟩,
          txPrev))
  | some txindex =>
    if txindex.pos = ⟨1, 1, 1⟩ then (env.mempoolTx h).map (fun txPrev => (txindex, txPrev))
    else (env.ReadFromDisk txindex.pos).map (fun txPrev => (txindex, txPrev))

/-- The entry `FetchInputs` works with for the hash `h`: the one already in
`inputsRet` when there is one, else the located one. -/
def prevEntry (env : Env) (txdb mapTestPool : StdMap uint256 CTxIndex) (fBlock fMiner : Bool)
    (inputsRet : MapPrevTx) (h : uint256) : Option (CTxIndex × CTransaction) :=
  match inputsRet.find h with
  | some e => some e
  | none => locatePrev env txdb mapTestPool fBlock fMiner h

/-- An output number outside the outputs of the previous transaction or outside
its spent vector. -/
def outOfRange (e : CTxIndex × CTransaction) (n : Nat) : Prop :=
  n ≥ e.2.vout.length ∨ n ≥ e.1.vSpent.length

/-- The sample transaction with its input repeated: two inputs that spend the
same outpoint. -/
def sampleDuplicate : CTransaction :=
  { sampleTx with vin := [⟨⟨7, 0⟩, [1, 2, 3], 0⟩, ⟨⟨7, 0⟩, [1, 2, 3], 0⟩] }

/-- The fee of `GetMinFee` before the price-out step when nothing is free:
`(1 + nBytes / 1000) * nBaseFee`. -/
def feeBeforePriceOut (env : Env) (pol : Policy) (tx : CTransaction) (mode : GetMinFee_mode) :
    ℚ :=
  ((1 + env.GetSerializeSize tx / 1000 : Nat) : ℚ) *
    (if mode = GetMinFee_mode.GMF_RELAY then pol.MIN_RELAY_TX_FEE else pol.MIN_TX_FEE)

/-- The orphan that an eviction with the random hash `r` removes from `m`: the
stored one with the smallest hash not below `r`, or the one with the smallest hash
of all when every stored hash is below `r`. -/
def IsVictim (m : StdMap uint256 CDataStream) (r victim : uint256) : Prop :=
  (m.find victim).isSome = true ∧
  ((r ≤ victim ∧ ∀ k, (m.find k).isSome = true → r ≤ k → victim ≤ k) ∨
   ((∀ k, (m.find k).isSome = true → k < r) ∧ ∀ k, (m.find k).isSome = true → victim ≤ k))

/-- A run of evictions with the bound `N`, from the draw number `k` on: while the
map holds more than `N` orphans, the victim for the next random hash is removed.
The run relates a map to the list of victims and the map at the end. -/
inductive EvictionRun (N : Nat) (rand : Nat → uint256) :
    Nat → StdMap uint256 CDataStream → List uint256 → StdMap uint256 CDataStream → Prop where
  | stop (k : Nat) (m : StdMap uint256 CDataStream) :
      m.size ≤ N → EvictionRun N rand k m [] m
  | evict (k : Nat) (m m2 : StdMap uint256 CDataStream) (victim : uint256)
      (rest : List uint256) :
      m.size > N → IsVictim m (rand k) victim →
      EvictionRun N rand (k + 1) (m.erase victim) rest m2 →
      EvictionRun N rand k m (victim :: rest) m2

/-- A deserialisation for the sample pool: the bytes are the hashes of the
previous transactions of the inputs, and the lock time is their sum. -/
def sampleUnserialize (vMsg : CDataStream) : CTransaction :=
  { nVersion := 1
    vin := vMsg.map (fun h => ⟨⟨h, 0⟩, [], 0⟩)
    vout := [⟨1, [9]⟩]
    nLockTime := vMsg.sum
    nRefHeight := 0 }

/-- The orphan pool after `AddOrphanTx` stored the given messages, in order. -/
def orphansOf (msgs : List CDataStream) : OrphanPool :=
  msgs.foldl (fun pool vMsg => (AddOrphanTx sampleEnv sampleUnserialize pool vMsg).2)
    ⟨StdMap.empty, StdMap.empty⟩

/-- A pool of four orphans, with the hashes 11, 21, 31 and 41. -/
def sampleOrphans : OrphanPool := orphansOf [[10], [20], [30], [40]]

/-- The clamped adjustment factor as a function of the accumulator `vFilteredTime`:
`1 - (41/400) * (v / 2^31 - 120) / 120`, kept within `[200/211, 211/200]`. -/
def clampedFactor (v : Int) : ℚ :=
  max (200 / 211) (min (211 / 200) (1 - (41 / 400) * ((v : ℚ) / 2 ^ 31 - 120) / 120))

/-- Whether `mapOrphanTransactionsByPrev[p]` has an entry for the hash `h`. -/
def orphanListed (byPrev : StdMap uint256 (StdMap uint256 CDataStream)) (p h : uint256) : Bool :=
  ((byPrev.find p).getD StdMap.empty).count h

/-- The states of the orphan pool that the three functions of `main.cpp` 165-229
reach from the empty pool. -/
inductive OrphanReachable (env : Env) (Unserialize : CDataStream → CTransaction) :
    OrphanPool → Prop
  | empty : OrphanReachable env Unserialize ⟨StdMap.empty, StdMap.empty⟩
  | add (pool : OrphanPool) (vMsg : CDataStream) :
      OrphanReachable env Unserialize pool →
      OrphanReachable env Unserialize (AddOrphanTx env Unserialize pool vMsg).2
  | erase (pool : OrphanPool) (hash : uint256) :
      OrphanReachable env Unserialize pool →
      OrphanReachable env Unserialize (EraseOrphanTx Unserialize pool hash)
  | limit (pool : OrphanPool) (GetRandHash : Nat → uint256) (fuel nMaxOrphans : Nat)
      (r : Nat × OrphanPool) :
      OrphanReachable env Unserialize pool →
      LimitOrphanTxSize Unserialize GetRandHash fuel pool nMaxOrphans = some r →
      OrphanReachable env Unserialize r.2

/-- The invariant of the orphan pool: stored messages are short, the inputs of a
stored orphan are listed under their previous transactions, and a listing names a
stored orphan with an input spending the transaction it is listed under. -/
def OrphanInv (Unserialize : CDataStream → CTransaction) (pool : OrphanPool) : Prop :=
  (∀ h m, pool.mapOrphanTransactions.find h = some m → m.length ≤ 5000) ∧
  (∀ h m, pool.mapOrphanTransactions.find h = some m →
    ∀ txin ∈ (Unserialize m).vin,
      orphanListed pool.mapOrphanTransactionsByPrev txin.prevout.hash h = true) ∧
  (∀ p h, orphanListed pool.mapOrphanTransactionsByPrev p h = true →
    ∃ m, pool.mapOrphanTransactions.find h = some m ∧
      p ∈ (Unserialize m).vin.map (fun t => t.prevout.hash))

/-- The hashes of those blocks of a list for which `accept`, called on each block
in order, returned true. -/
def acceptedHashes (accept : ChainState → CBlock → ChainStep) (hashOf : CBlock → uint256) :
    List CBlock → ChainState → List uint256
  | [], _ => []
  | b :: rest, st =>
    (if (accept st b).result.returnedTrue then [hashOf b] else []) ++
      acceptedHashes accept hashOf rest (accept st b).st

namespace StdMap

variable {K V : Type} [DecidableEq K]

theorem lookupL_setL_self (k : K) (v : V) (l : List (K × V)) :
    lookupL k (setL k v l) = some v := by
  induction l with
  | nil => simp [setL, lookupL]
  | cons e es ih =>
    by_cases h : e.1 = k
    · simp [setL, lookupL, h]
    · simp [setL, lookupL, h, ih]

theorem lookupL_setL_ne (k k2 : K) (v : V) (l : List (K × V)) (hne : k2 ≠ k) :
    lookupL k2 (setL k v l) = lookupL k2 l := by
  induction l with
  | nil =>
    have : ¬ k = k2 := fun h => hne h.symm
    simp [setL, lookupL, this]
  | cons e es ih =>
    by_cases h : e.1 = k
    · have h3 : ¬ e.1 = k2 := fun h4 => hne (h4.symm.trans h)
      have h5 : ¬ k = k2 := fun h4 => hne h4.symm
      simp [setL, lookupL, h, h3, h5]
    · by_cases h3 : e.1 = k2
      · simp only [setL, h, if_false]
        simp [lookupL, h3]
      · simp [setL, lookupL, h, h3, ih]

theorem find_set_self (m : StdMap K V) (k : K) (v : V) : (m.set k v).find k = some v :=
  lookupL_setL_self k v m.entries

theorem find_set_ne (m : StdMap K V) (k k2 : K) (v : V) (hne : k2 ≠ k) :
    (m.set k v).find k2 = m.find k2 :=
  lookupL_setL_ne k k2 v m.entries hne

theorem find_empty (k : K) : (empty : StdMap K V).find k = none := rfl

theorem lookupL_eq_none_iff (k : K) (l : List (K × V)) :
    lookupL k l = none ↔ k ∉ l.map Prod.fst := by
  induction l with
  | nil => simp [lookupL]
  | cons e es ih =>
    by_cases h : e.1 = k
    · simp [lookupL, h]
    · have h2 : ¬ k = e.1 := fun h3 => h h3.symm
      simp [lookupL, h, h2, ih]

theorem mem_of_lookupL (k : K) (v : V) (l : List (K × V)) (h : lookupL k l = some v) :
    (k, v) ∈ l := by
  induction l with
  | nil => simp [lookupL] at h
  | cons e es ih =>
    by_cases h1 : e.1 = k
    · simp only [lookupL, h1, if_true, Option.some.injEq] at h
      have : e = (k, v) := Prod.ext h1 h
      simp [this]
    · simp only [lookupL, h1, if_false] at h
      exact List.mem_cons_of_mem _ (ih h)

theorem lookupL_of_mem (k : K) (v : V) (l : List (K × V)) (hnd : (l.map Prod.fst).Nodup)
    (h : (k, v) ∈ l) : lookupL k l = some v := by
  induction l with
  | nil => simp at h
  | cons e es ih =>
    rw [List.map_cons, List.nodup_cons] at hnd
    rcases List.mem_cons.mp h with h1 | h1
    · subst h1
      simp [lookupL]
    · have hk : k ∈ es.map Prod.fst := List.mem_map.mpr ⟨(k, v), h1, rfl⟩
      have hne : ¬ e.1 = k := fun h2 => hnd.1 (h2 ▸ hk)
      simp only [lookupL, hne, if_false]
      exact ih hnd.2 h1

/-- An entry is listed in a map exactly when the lookup of its key returns its value. -/
theorem mem_entries_iff (m : StdMap K V) (k : K) (v : V) :
    (k, v) ∈ m.entries ↔ m.find k = some v :=
  ⟨lookupL_of_mem k v m.entries m.nodup, mem_of_lookupL k v m.entries⟩

theorem lookupL_filter (p : K × V → Bool) (k : K) (l : List (K × V))
    (hnd : (l.map Prod.fst).Nodup) :
    lookupL k (l.filter p) = (lookupL k l).bind (fun v => if p (k, v) then some v else none) := by
  induction l with
  | nil => simp [lookupL]
  | cons e es ih =>
    rw [List.map_cons, List.nodup_cons] at hnd
    by_cases h1 : e.1 = k
    · have he : e = (k, e.2) := Prod.ext h1 rfl
      by_cases hp : p e = true
      · have hp2 : p (k, e.2) = true := he ▸ hp
        simp [List.filter_cons, hp, lookupL, h1, hp2]
      · have hp2 : ¬ p (k, e.2) = true := fun h => hp (he ▸ h)
        have hnone : lookupL k (es.filter p) = none := by
          rw [lookupL_eq_none_iff]
          intro hmem
          exact hnd.1 (h1 ▸ (List.Sublist.map Prod.fst (List.filter_sublist es)).subset hmem)
        simp [List.filter_cons, hp, lookupL, h1, hp2, hnone]
    · by_cases hp : p e = true
      · simp [List.filter_cons, hp, lookupL, h1, ih hnd.2]
      · simp [List.filter_cons, hp, lookupL, h1, ih hnd.2]

theorem find_filter (p : K × V → Bool) (m : StdMap K V) (k : K) :
    (m.filter p).find k = (m.find k).bind (fun v => if p (k, v) then some v else none) :=
  lookupL_filter p k m.entries m.nodup

end StdMap

/-! ## Rounding error of the MPFR model -/

theorem bitLengthAux_bounds (fuel : Nat) : ∀ n, n ≤ fuel → 0 < n →
    2 ^ (bitLengthAux fuel n - 1) ≤ n ∧ n < 2 ^ bitLengthAux fuel n ∧ 0 < bitLengthAux fuel n := by
  induction fuel with
  | zero =>
    intro n h1 h2
    omega
  | succ k ih =>
    intro n h1 h2
    have hn : n ≠ 0 := by omega
    simp only [bitLengthAux, hn, if_false]
    by_cases h3 : n / 2 = 0
    · have h4 : n = 1 := by omega
      subst h4
      cases k with
      | zero => simp [bitLengthAux]
      | succ j => simp [bitLengthAux]
    · have hle : n / 2 ≤ k := by omega
      obtain ⟨i1, i2, i3⟩ := ih (n / 2) hle (by omega)
      refine ⟨?_, ?_, by omega⟩
      · have : bitLengthAux k (n / 2) + 1 - 1 = (bitLengthAux k (n / 2) - 1) + 1 := by omega
        rw [this, pow_succ]
        omega
      · rw [pow_succ]
        omega

theorem bitLength_bounds (n : Nat) (h : 0 < n) :
    2 ^ (bitLength n - 1) ≤ n ∧ n < 2 ^ bitLength n ∧ 0 < bitLength n :=
  bitLengthAux_bounds n n (le_refl n) h

theorem log2_estimate (a : ℚ) (ha : 0 < a) :
    (2 : ℚ) ^ ((bitLength a.num.natAbs : Int) - bitLength a.den - 1) < a ∧
    a < (2 : ℚ) ^ ((bitLength a.num.natAbs : Int) - bitLength a.den + 1) := by
  have hnum : 0 < a.num := Rat.num_pos.mpr ha
  have hn : 0 < a.num.natAbs := Int.natAbs_pos.mpr (ne_of_gt hnum)
  have hd : 0 < a.den := a.den_pos
  obtain ⟨n1, n2, n3⟩ := bitLength_bounds a.num.natAbs hn
  obtain ⟨d1, d2, d3⟩ := bitLength_bounds a.den hd
  have hcast : ((a.num.natAbs : Nat) : ℚ) = (a.num : ℚ) := by
    have : ((a.num.natAbs : Nat) : Int) = a.num := Int.natAbs_of_nonneg (le_of_lt hnum)
    rw [← Int.cast_natCast (R := ℚ) a.num.natAbs, this]
  have ha_eq : a = (a.num.natAbs : ℚ) / (a.den : ℚ) := by
    rw [hcast]
    exact (Rat.num_div_den a).symm
  have hdq : (0 : ℚ) < (a.den : ℚ) := by exact_mod_cast hd
  have q1 : ((2 : ℚ) ^ (bitLength a.num.natAbs - 1)) ≤ (a.num.natAbs : ℚ) := by exact_mod_cast n1
  have q2 : (a.num.natAbs : ℚ) < (2 : ℚ) ^ (bitLength a.num.natAbs) := by exact_mod_cast n2
  have q3 : ((2 : ℚ) ^ (bitLength a.den - 1)) ≤ (a.den : ℚ) := by exact_mod_cast d1
  have q4 : (a.den : ℚ) < (2 : ℚ) ^ (bitLength a.den) := by exact_mod_cast d2
  have e1 : (2 : ℚ) ^ ((bitLength a.num.natAbs : Int) - bitLength a.den - 1) =
      (2 : ℚ) ^ (bitLength a.num.natAbs - 1) / (2 : ℚ) ^ (bitLength a.den) := by
    have : ((bitLength a.num.natAbs : Int) - bitLength a.den - 1) =
        ((bitLength a.num.natAbs - 1 : Nat) : Int) - ((bitLength a.den : Nat) : Int) := by omega
    rw [this, zpow_sub₀ (by norm_num : (2 : ℚ) ≠ 0), zpow_natCast, zpow_natCast]
  have e2 : (2 : ℚ) ^ ((bitLength a.num.natAbs : Int) - bitLength a.den + 1) =
      (2 : ℚ) ^ (bitLength a.num.natAbs) / (2 : ℚ) ^ (bitLength a.den - 1) := by
    have : ((bitLength a.num.natAbs : Int) - bitLength a.den + 1) =
        ((bitLength a.num.natAbs : Nat) : Int) - ((bitLength a.den - 1 : Nat) : Int) := by omega
    rw [this, zpow_sub₀ (by norm_num : (2 : ℚ) ≠ 0), zpow_natCast, zpow_natCast]
  have p1 : (0 : ℚ) < (2 : ℚ) ^ (bitLength a.den) := by positivity
  have p2 : (0 : ℚ) < (2 : ℚ) ^ (bitLength a.den - 1) := by positivity
  have p3 : (0 : ℚ) < (2 : ℚ) ^ (bitLength a.num.natAbs - 1) := by positivity
  constructor
  · rw [e1]
    conv_rhs => rw [ha_eq]
    rw [div_lt_div_iff₀ p1 hdq]
    calc (2 : ℚ) ^ (bitLength a.num.natAbs - 1) * (a.den : ℚ)
        < (2 : ℚ) ^ (bitLength a.num.natAbs - 1) * (2 : ℚ) ^ (bitLength a.den) :=
          mul_lt_mul_of_pos_left q4 p3
      _ ≤ (a.num.natAbs : ℚ) * (2 : ℚ) ^ (bitLength a.den) :=
          mul_le_mul_of_nonneg_right q1 (le_of_lt p1)
  · rw [e2]
    conv_lhs => rw [ha_eq]
    rw [div_lt_div_iff₀ hdq p2]
    have hnq : (0 : ℚ) < (a.num.natAbs : ℚ) := by exact_mod_cast hn
    calc (a.num.natAbs : ℚ) * (2 : ℚ) ^ (bitLength a.den - 1)
        ≤ (a.num.natAbs : ℚ) * (a.den : ℚ) := mul_le_mul_of_nonneg_left q3 (le_of_lt hnq)
      _ < (2 : ℚ) ^ (bitLength a.num.natAbs) * (a.den : ℚ) := mul_lt_mul_of_pos_right q2 hdq

/-- The binary exponent `mpfrRound` works with: `floor(log2 a)`. -/
theorem floorLog2_bounds (a : ℚ) (ha : 0 < a) (e : Int)
    (he : e = if (2 : ℚ) ^ ((bitLength a.num.natAbs : Int) - bitLength a.den) ≤ a
      then (bitLength a.num.natAbs : Int) - bitLength a.den
      else (bitLength a.num.natAbs : Int) - bitLength a.den - 1) :
    (2 : ℚ) ^ e ≤ a ∧ a < (2 : ℚ) ^ (e + 1) := by
  obtain ⟨h1, h2⟩ := log2_estimate a ha
  by_cases hc : (2 : ℚ) ^ ((bitLength a.num.natAbs : Int) - bitLength a.den) ≤ a
  · rw [if_pos hc] at he
    subst he
    exact ⟨hc, h2⟩
  · rw [if_neg hc] at he
    subst he
    refine ⟨le_of_lt h1, ?_⟩
    rw [sub_add_cancel]
    exact not_le.mp hc

theorem roundHalfEven_error (y : ℚ) : |(roundHalfEven y : ℚ) - y| ≤ 1 / 2 := by
  have h1 : ((Rat.floor y : Int) : ℚ) ≤ y := Rat.le_floor.mp (le_refl _)
  have h2 : y < ((Rat.floor y : Int) : ℚ) + 1 := by
    by_contra hc
    have : (Rat.floor y + 1 : Int) ≤ Rat.floor y := Rat.le_floor.mpr (by push_cast; linarith)
    omega
  unfold roundHalfEven
  simp only
  rw [abs_le]
  split
  · constructor <;> linarith
  · split
    · push_cast
      constructor <;> linarith
    · rename_i hA hB
      split
      · constructor <;> linarith
      · push_cast
        constructor <;> linarith

/-- The value of `mpfrRound prec q` for `q ≠ 0`: sign times the rounded scaled
magnitude, scaled back. -/
theorem mpfrRound_toRat (prec : Nat) (hp : 1 ≤ prec) (q : ℚ) (hq : q ≠ 0) :
    ∃ e : Int, (2 : ℚ) ^ e ≤ |q| ∧
      (mpfrRound prec q).toRat =
        (if q < 0 then -1 else 1) *
          ((roundHalfEven (|q| * (2 : ℚ) ^ ((prec : Int) - 1 - e)) : ℚ) *
            (2 : ℚ) ^ (e - ((prec : Int) - 1))) := by
  have ha : 0 < |q| := abs_pos.mpr hq
  refine ⟨if (2 : ℚ) ^ ((bitLength |q|.num.natAbs : Int) - bitLength |q|.den) ≤ |q|
      then (bitLength |q|.num.natAbs : Int) - bitLength |q|.den
      else (bitLength |q|.num.natAbs : Int) - bitLength |q|.den - 1, ?_, ?_⟩
  · exact (floorLog2_bounds |q| ha _ rfl).1
  · generalize hE : (if (2 : ℚ) ^ ((bitLength |q|.num.natAbs : Int) - bitLength |q|.den) ≤ |q|
      then (bitLength |q|.num.natAbs : Int) - bitLength |q|.den
      else (bitLength |q|.num.natAbs : Int) - bitLength |q|.den - 1) = E
    have hdef : mpfrRound prec q =
        ⟨(if q < 0 then
            -(if roundHalfEven (|q| * (2 : ℚ) ^ ((prec : Int) - 1 - E)) = 2 ^ prec
              then (((2 : Int) ^ (prec - 1), E + 1) : Int × Int)
              else (roundHalfEven (|q| * (2 : ℚ) ^ ((prec : Int) - 1 - E)), E)).1
          else
            (if roundHalfEven (|q| * (2 : ℚ) ^ ((prec : Int) - 1 - E)) = 2 ^ prec
              then (((2 : Int) ^ (prec - 1), E + 1) : Int × Int)
              else (roundHalfEven (|q| * (2 : ℚ) ^ ((prec : Int) - 1 - E)), E)).1),
          (if roundHalfEven (|q| * (2 : ℚ) ^ ((prec : Int) - 1 - E)) = 2 ^ prec
              then (((2 : Int) ^ (prec - 1), E + 1) : Int × Int)
              else (roundHalfEven (|q| * (2 : ℚ) ^ ((prec : Int) - 1 - E)), E)).2
            - ((prec : Int) - 1)⟩ := by
      unfold mpfrRound
      simp only [hq, if_false, hE]
    rw [hdef]
    unfold MpfrNum.toRat
    have h2 : (2 : ℚ) ≠ 0 := by norm_num
    by_cases hm : roundHalfEven (|q| * (2 : ℚ) ^ ((prec : Int) - 1 - E)) = 2 ^ prec
    · simp only [hm, if_true]
      have hpow : (((2 : Int) ^ (prec - 1) : Int) : ℚ) * (2 : ℚ) ^ (E + 1 - ((prec : Int) - 1)) =
          (((2 : Int) ^ prec : Int) : ℚ) * (2 : ℚ) ^ (E - ((prec : Int) - 1)) := by
        push_cast
        rw [← zpow_natCast (2 : ℚ) (prec - 1), ← zpow_natCast (2 : ℚ) prec, ← zpow_add₀ h2,
          ← zpow_add₀ h2]
        congr 1
        omega
      by_cases hneg : q < 0
      · simp only [hneg, if_true]
        push_cast at hpow ⊢
        linarith
      · simp only [hneg, if_false]
        push_cast at hpow ⊢
        linarith
    · simp only [hm, if_false]
      by_cases hneg : q < 0
      · simp only [hneg, if_true]
        push_cast
        ring
      · simp only [hneg, if_false]
        ring

/-- Correct rounding to `prec` bits has relative error at most `2 ^ (-prec)`. -/
theorem mpfrRound_error (prec : Nat) (hp : 1 ≤ prec) (q : ℚ) :
    |(mpfrRound prec q).toRat - q| ≤ |q| * (2 : ℚ) ^ (-(prec : Int)) := by
  by_cases hq : q = 0
  · subst hq
    simp [mpfrRound, MpfrNum.toRat]
  obtain ⟨e, he, hval⟩ := mpfrRound_toRat prec hp q hq
  have h2 : (2 : ℚ) ≠ 0 := by norm_num
  have hS : (0 : ℚ) < (2 : ℚ) ^ (e - ((prec : Int) - 1)) := zpow_pos (by norm_num) _
  have hST : (2 : ℚ) ^ ((prec : Int) - 1 - e) * (2 : ℚ) ^ (e - ((prec : Int) - 1)) = 1 := by
    rw [← zpow_add₀ h2]
    have : (prec : Int) - 1 - e + (e - ((prec : Int) - 1)) = 0 := by ring
    rw [this, zpow_zero]
  have herr := roundHalfEven_error (|q| * (2 : ℚ) ^ ((prec : Int) - 1 - e))
  have hq_eq : q = (if q < 0 then -1 else 1) *
      ((|q| * (2 : ℚ) ^ ((prec : Int) - 1 - e)) * (2 : ℚ) ^ (e - ((prec : Int) - 1))) := by
    rw [mul_assoc, hST, mul_one]
    by_cases hneg : q < 0
    · simp [hneg, abs_of_neg hneg]
    · simp [hneg, abs_of_nonneg (not_lt.mp hneg)]
  have hdiff : (mpfrRound prec q).toRat - q = (if q < 0 then -1 else 1) *
      (((roundHalfEven (|q| * (2 : ℚ) ^ ((prec : Int) - 1 - e)) : ℚ) -
        |q| * (2 : ℚ) ^ ((prec : Int) - 1 - e)) * (2 : ℚ) ^ (e - ((prec : Int) - 1))) := by
    rw [hval]
    linear_combination (-1 : ℚ) * hq_eq
  have hsign : |(if q < 0 then (-1 : ℚ) else 1)| = 1 := by
    split <;> simp
  rw [hdiff, abs_mul, hsign, one_mul, abs_mul, abs_of_pos hS]
  have hhalf : (1 / 2 : ℚ) * (2 : ℚ) ^ (e - ((prec : Int) - 1)) = (2 : ℚ) ^ e * (2 : ℚ) ^ (-(prec : Int)) := by
    rw [← zpow_add₀ h2]
    have : e - ((prec : Int) - 1) = (e + -(prec : Int)) + 1 := by ring
    rw [this, zpow_add₀ h2, zpow_one]
    ring
  calc |(roundHalfEven (|q| * (2 : ℚ) ^ ((prec : Int) - 1 - e)) : ℚ) -
        |q| * (2 : ℚ) ^ ((prec : Int) - 1 - e)| * (2 : ℚ) ^ (e - ((prec : Int) - 1))
      ≤ (1 / 2) * (2 : ℚ) ^ (e - ((prec : Int) - 1)) :=
        mul_le_mul_of_nonneg_right herr (le_of_lt hS)
    _ = (2 : ℚ) ^ e * (2 : ℚ) ^ (-(prec : Int)) := hhalf
    _ ≤ |q| * (2 : ℚ) ^ (-(prec : Int)) :=
        mul_le_mul_of_nonneg_right he (le_of_lt (zpow_pos (by norm_num) _))

theorem MpfrNum.fraction_eq_toRat (x : MpfrNum) :
    (((if 0 ≤ x.exp then (x.mant * 2 ^ x.exp.toNat, 1)
        else (x.mant, 2 ^ (-x.exp).toNat) : Int × Int).1 : Int) : ℚ) /
      (((if 0 ≤ x.exp then (x.mant * 2 ^ x.exp.toNat, 1)
        else (x.mant, 2 ^ (-x.exp).toNat) : Int × Int).2 : Int) : ℚ) = x.toRat := by
  unfold MpfrNum.toRat
  by_cases h : 0 ≤ x.exp
  · simp only [h, if_true]
    have : x.exp = ((x.exp.toNat : Nat) : Int) := (Int.toNat_of_nonneg h).symm
    conv_rhs => rw [this, zpow_natCast]
    push_cast
    ring
  · simp only [h, if_false]
    have hn : (0 : Int) ≤ -x.exp := by omega
    have : x.exp = -(((-x.exp).toNat : Nat) : Int) := by
      rw [Int.toNat_of_nonneg hn]
      ring
    conv_rhs => rw [this, zpow_neg, zpow_natCast]
    push_cast
    rw [div_eq_mul_inv]

theorem adjustmentFactor_eq (c : Consts) (d : Int) :
    adjustmentFactor c d = (mpfrRound 113 (demurrageRate c ^ d)).toRat := by
  unfold adjustmentFactor demurrageRate
  exact MpfrNum.fraction_eq_toRat _

theorem mpfrRound_pos (prec : Nat) (hp : 1 ≤ prec) (q : ℚ) (hq : 0 < q) :
    0 < (mpfrRound prec q).toRat := by
  have herr := mpfrRound_error prec hp q
  rw [abs_of_pos hq] at herr
  have hu : (2 : ℚ) ^ (-(prec : Int)) ≤ 1 / 2 := by
    have : (2 : ℚ) ^ (-(prec : Int)) ≤ (2 : ℚ) ^ (-(1 : Int)) :=
      zpow_le_zpow_right₀ (by norm_num) (by omega)
    simpa using this
  have h1 := (abs_le.mp herr).1
  nlinarith

theorem demurrageRate_pos (c : Consts) (hR : 2 ≤ c.DEMURRAGE_RATE) : 0 < demurrageRate c := by
  unfold demurrageRate
  apply mpfrRound_pos 113 (by norm_num)
  apply div_pos
  · apply mpfrRound_pos 113 (by norm_num)
    have : 0 < c.DEMURRAGE_RATE - 1 := by omega
    exact_mod_cast this
  · have : 0 < c.DEMURRAGE_RATE := by omega
    exact_mod_cast this

/-- Rounding as a relative perturbation: `RN(x) = x * (1 + δ)` with `|δ| ≤ 2^(-prec)`. -/
theorem mpfrRound_rel (prec : Nat) (hp : 1 ≤ prec) (x : ℚ) :
    ∃ δ : ℚ, |δ| ≤ (2 : ℚ) ^ (-(prec : Int)) ∧ (mpfrRound prec x).toRat = x * (1 + δ) := by
  by_cases hx : x = 0
  · refine ⟨0, ?_, ?_⟩
    · simp only [abs_zero]
      positivity
    · subst hx
      simp [mpfrRound, MpfrNum.toRat]
  · refine ⟨((mpfrRound prec x).toRat - x) / x, ?_, ?_⟩
    · rw [abs_div, div_le_iff₀ (abs_pos.mpr hx), mul_comm]
      exact mpfrRound_error prec hp x
    · field_simp

theorem perturbed_product (P d1 d2 d3 u : ℚ) (hu0 : 0 ≤ u) (hu : u ≤ 1 / 5)
    (h1 : |d1| ≤ u) (h2 : |d2| ≤ u) (h3 : |d3| ≤ u) :
    |P * (1 + d2) * (1 + d1) - P * (1 + d3)| ≤ 4 * u * |P * (1 + d3)| := by
  have e1 : P * (1 + d2) * (1 + d1) - P * (1 + d3) = P * (d1 + d2 + d1 * d2 - d3) := by ring
  have h12 : |d1 * d2| ≤ u * u := by
    rw [abs_mul]
    exact mul_le_mul h1 h2 (abs_nonneg _) hu0
  have b1 : |d1 + d2 + d1 * d2 - d3| ≤ 3 * u + u * u := by
    rw [abs_le] at h1 h2 h3 h12 ⊢
    constructor <;> linarith [h1.1, h1.2, h2.1, h2.2, h3.1, h3.2, h12.1, h12.2]
  have hpos : 0 < 1 + d3 := by
    have := (abs_le.mp h3).1
    linarith
  have b2 : |P * (1 + d3)| = |P| * (1 + d3) := by rw [abs_mul, abs_of_pos hpos]
  have b3 : 1 - u ≤ 1 + d3 := by
    have := (abs_le.mp h3).1
    linarith
  rw [e1, abs_mul, b2]
  have hP : 0 ≤ |P| := abs_nonneg P
  calc |P| * |d1 + d2 + d1 * d2 - d3| ≤ |P| * (3 * u + u * u) :=
        mul_le_mul_of_nonneg_left b1 hP
    _ ≤ |P| * (4 * u * (1 - u)) := by
        apply mul_le_mul_of_nonneg_left _ hP
        nlinarith
    _ ≤ 4 * u * (|P| * (1 + d3)) := by
        have : |P| * (4 * u * (1 - u)) = 4 * u * (|P| * (1 - u)) := by ring
        rw [this]
        apply mul_le_mul_of_nonneg_left _ (by linarith)
        exact mul_le_mul_of_nonneg_left b3 hP

theorem perturbed_inverse (v d1 d2 u : ℚ) (hu0 : 0 ≤ u) (hu : u ≤ 1 / 5)
    (h1 : |d1| ≤ u) (h2 : |d2| ≤ u) :
    |(1 + d2) * ((1 + d1) * v) - v| ≤ 4 * u * |v| := by
  have e1 : (1 + d2) * ((1 + d1) * v) - v = v * (d1 + d2 + d1 * d2) := by ring
  have h12 : |d1 * d2| ≤ u * u := by
    rw [abs_mul]
    exact mul_le_mul h1 h2 (abs_nonneg _) hu0
  have b1 : |d1 + d2 + d1 * d2| ≤ 4 * u := by
    rw [abs_le] at h1 h2 h12 ⊢
    constructor <;> nlinarith [h1.1, h1.2, h2.1, h2.2, h12.1, h12.2]
  rw [e1, abs_mul, mul_comm]
  exact mul_le_mul_of_nonneg_right b1 (abs_nonneg v)

theorem composition_error (c : Consts) (hR : 2 ≤ c.DEMURRAGE_RATE) (v : ℚ) (h1 h2 : Int) :
    |GetTimeAdjustedValue c (GetTimeAdjustedValue c v h1) h2 - GetTimeAdjustedValue c v (h1 + h2)|
      ≤ (2 : ℚ) ^ (-(111 : Int)) * |GetTimeAdjustedValue c v (h1 + h2)| := by
  have hr := demurrageRate_pos c hR
  have hrne : demurrageRate c ≠ 0 := ne_of_gt hr
  have hU : (2 : ℚ) ^ (-((113 : Nat) : Int)) = 1 / 2 ^ 113 := by
    rw [zpow_neg, zpow_natCast]
    simp
  have hU4 : (2 : ℚ) ^ (-(111 : Int)) = 4 * (1 / 2 ^ 113) := by
    rw [zpow_neg]
    norm_num
  have hu0 : (0 : ℚ) ≤ 1 / 2 ^ 113 := by positivity
  have hu5 : (1 : ℚ) / 2 ^ 113 ≤ 1 / 5 := by norm_num
  by_cases z1 : h1 = 0
  · subst z1
    simp only [GetTimeAdjustedValue, if_true, zero_add, sub_self, abs_zero]
    positivity
  by_cases z2 : h2 = 0
  · subst z2
    simp only [GetTimeAdjustedValue, if_true, add_zero, sub_self, abs_zero]
    positivity
  obtain ⟨d1, hd1, e1⟩ := mpfrRound_rel 113 (by norm_num) (demurrageRate c ^ h1)
  obtain ⟨d2, hd2, e2⟩ := mpfrRound_rel 113 (by norm_num) (demurrageRate c ^ h2)
  rw [hU] at hd1 hd2
  rw [hU4]
  by_cases z3 : h1 + h2 = 0
  · simp only [GetTimeAdjustedValue, z1, z2, z3, if_true, if_false, adjustmentFactor_eq, e1, e2]
    have hone : demurrageRate c ^ h2 * demurrageRate c ^ h1 = 1 := by
      rw [← zpow_add₀ hrne, add_comm, z3, zpow_zero]
    have : demurrageRate c ^ h2 * (1 + d2) * (demurrageRate c ^ h1 * (1 + d1) * v) =
        (1 + d2) * ((1 + d1) * v) := by
      calc demurrageRate c ^ h2 * (1 + d2) * (demurrageRate c ^ h1 * (1 + d1) * v)
          = (demurrageRate c ^ h2 * demurrageRate c ^ h1) * ((1 + d2) * ((1 + d1) * v)) := by ring
        _ = (1 + d2) * ((1 + d1) * v) := by rw [hone, one_mul]
    rw [this]
    exact perturbed_inverse v d1 d2 _ hu0 hu5 hd1 hd2
  · obtain ⟨d3, hd3, e3⟩ := mpfrRound_rel 113 (by norm_num) (demurrageRate c ^ (h1 + h2))
    rw [hU] at hd3
    simp only [GetTimeAdjustedValue, z1, z2, z3, if_false, adjustmentFactor_eq, e1, e2, e3]
    have hadd : demurrageRate c ^ (h1 + h2) = demurrageRate c ^ h2 * demurrageRate c ^ h1 := by
      rw [← zpow_add₀ hrne, add_comm]
    have hl : demurrageRate c ^ h2 * (1 + d2) * (demurrageRate c ^ h1 * (1 + d1) * v) =
        (demurrageRate c ^ (h1 + h2) * v) * (1 + d2) * (1 + d1) := by
      rw [hadd]
      ring
    have hrw : demurrageRate c ^ (h1 + h2) * (1 + d3) * v =
        (demurrageRate c ^ (h1 + h2) * v) * (1 + d3) := by ring
    rw [hl, hrw]
    exact perturbed_product _ d1 d2 d3 _ hu0 hu5 hd1 hd2 hd3

/-! ## Present value: `h = h₀` and composition -/

theorem GetTimeAdjustedValue_eq_factor (c : Consts) (v : ℚ) (h : Int) :
    GetTimeAdjustedValue c v h = presentValueFactor c h * v := by
  unfold GetTimeAdjustedValue presentValueFactor
  split <;> simp

theorem wrapInt32_zero : wrapInt32 0 = 0 := by decide

/-- C4: `GetTimeAdjustedValue(v, 0)` is `v` itself for every rational `v`, and the
present value of an output at the reference height of its transaction is the
output's `nValue`. -/
theorem C4_present_value_at_depth_zero (c : Consts) (v : ℚ) (tx : CTransaction) (out : CTxOut) :
    GetTimeAdjustedValue c v 0 = v ∧
    GetPresentValue c tx out tx.nRefHeight = (out.nValue : ℚ) := by
  constructor
  · simp [GetTimeAdjustedValue]
  · simp [GetPresentValue, GetTimeAdjustedValueI64, GetTimeAdjustedValue, wrapInt32_zero]

/-- C5 (as stated) fails: with `DEMURRAGE_RATE = 2^20`, adjusting the amount 1 by
depth 3 twice differs from adjusting it once by depth 6, because the factor of
depth 6 is rounded to 113 bits while the product of two depth-3 factors is not. -/
theorem C5_composition_counterexample :
    GetTimeAdjustedValue sampleConsts (GetTimeAdjustedValue sampleConsts 1 3) 3 ≠
      GetTimeAdjustedValue sampleConsts 1 (3 + 3) := by
  decide!

/-- C5 (amended): two successive adjustments multiply the amount by the two rounded
factors, `factor(h2) * (factor(h1) * v)`; the result is `GetTimeAdjustedValue(v,
h1 + h2)` exactly when one of the depths is 0, and in general (for
`DEMURRAGE_RATE ≥ 2`) within a relative error of `2^-111` of it. -/
theorem C5_composition_amended (c : Consts) (v : ℚ) (h1 h2 : Int)
    (hR : 2 ≤ c.DEMURRAGE_RATE) :
    GetTimeAdjustedValue c (GetTimeAdjustedValue c v h1) h2 =
        presentValueFactor c h2 * (presentValueFactor c h1 * v) ∧
    (h1 = 0 ∨ h2 = 0 →
      GetTimeAdjustedValue c (GetTimeAdjustedValue c v h1) h2 =
        GetTimeAdjustedValue c v (h1 + h2)) ∧
    |GetTimeAdjustedValue c (GetTimeAdjustedValue c v h1) h2 -
        GetTimeAdjustedValue c v (h1 + h2)|
      ≤ (2 : ℚ) ^ (-(111 : Int)) * |GetTimeAdjustedValue c v (h1 + h2)| := by
  refine ⟨?_, ?_, composition_error c hR v h1 h2⟩
  · rw [GetTimeAdjustedValue_eq_factor, GetTimeAdjustedValue_eq_factor]
  · rintro (h | h)
    · subst h
      simp [GetTimeAdjustedValue]
    · subst h
      simp [GetTimeAdjustedValue]

/-- Witness of C5 (amended): the depths 3 and 3 of the counterexample, where the two
sides differ, but by less than the bound. -/
theorem C5_composition_amended_witness :
    |GetTimeAdjustedValue sampleConsts (GetTimeAdjustedValue sampleConsts 1 3) 3 -
        GetTimeAdjustedValue sampleConsts 1 (3 + 3)|
      ≤ (2 : ℚ) ^ (-(111 : Int)) * |GetTimeAdjustedValue sampleConsts 1 (3 + 3)| :=
  (C5_composition_amended sampleConsts 1 3 3 (by decide)).2.2

/-! ## The initial-distribution ramp -/

/-- C9 (as stated) fails: on the main network at height 1, below the filter
threshold, the amount is computed with a truncating integer division and is not
the exact rational `TITHE_AMOUNT + (EQ_HEIGHT - 1) * INITIAL_SUBSIDY / EQ_HEIGHT`. -/
theorem C9_ramp_counterexample :
    GetInitialDistributionAmount sampleConsts sampleEnv 1 ≠
      sampleConsts.TITHE_AMOUNT +
        ((sampleConsts.EQ_HEIGHT - 1 : Int) : ℚ) * sampleConsts.INITIAL_SUBSIDY /
          (sampleConsts.EQ_HEIGHT : ℚ) := by
  decide!

/-- C9 (amended): the amount is 0 from `EQ_HEIGHT` on; below `EQ_HEIGHT` it is the
exact rational ramp on the test network and from `DIFF_FILTER_THRESHOLD` on, and
`TITHE_AMOUNT` plus the truncated integer quotient
`(EQ_HEIGHT - h) * numerator(INITIAL_SUBSIDY) / EQ_HEIGHT` on the main network
below the threshold, which at height 0 is `TITHE_AMOUNT + numerator(INITIAL_SUBSIDY)`. -/
theorem C9_ramp_amended (c : Consts) (env : Env) (h : Int) :
    (c.EQ_HEIGHT ≤ h → GetInitialDistributionAmount c env h = 0) ∧
    (h < c.EQ_HEIGHT → (env.fTestNet = true ∨ c.DIFF_FILTER_THRESHOLD ≤ h) →
      GetInitialDistributionAmount c env h =
        c.TITHE_AMOUNT + ((c.EQ_HEIGHT - h : Int) : ℚ) * c.INITIAL_SUBSIDY / (c.EQ_HEIGHT : ℚ)) ∧
    (h < c.EQ_HEIGHT → env.fTestNet = false → h < c.DIFF_FILTER_THRESHOLD →
      GetInitialDistributionAmount c env h =
        c.TITHE_AMOUNT +
          ((((c.EQ_HEIGHT - h) * c.INITIAL_SUBSIDY.num).tdiv c.EQ_HEIGHT : Int) : ℚ)) ∧
    (0 < c.EQ_HEIGHT → env.fTestNet = false → 0 < c.DIFF_FILTER_THRESHOLD →
      GetInitialDistributionAmount c env 0 = c.TITHE_AMOUNT + (c.INITIAL_SUBSIDY.num : ℚ)) := by
  refine ⟨?_, ?_, ?_, ?_⟩
  · intro h1
    have h2 : ¬ h < c.EQ_HEIGHT := not_lt.mpr h1
    unfold GetInitialDistributionAmount
    split <;> simp [h2]
  · intro h1 h2
    unfold GetInitialDistributionAmount
    rcases h2 with h2 | h2
    · simp [h2, h1]
    · have h3 : ¬ h < c.DIFF_FILTER_THRESHOLD := not_lt.mpr h2
      simp [h3, h1]
  · intro h1 h2 h3
    unfold GetInitialDistributionAmount
    simp [h1, h2, h3]
  · intro h1 h2 h3
    have h4 : c.EQ_HEIGHT ≠ 0 := ne_of_gt h1
    unfold GetInitialDistributionAmount
    simp [h1, h2, h3, Int.mul_tdiv_cancel_left _ h4]

/-- Witness of C9 (amended): height 1 on the main network with the sample constants. -/
theorem C9_ramp_amended_witness :
    GetInitialDistributionAmount sampleConsts sampleEnv 1 =
      sampleConsts.TITHE_AMOUNT +
        ((((sampleConsts.EQ_HEIGHT - 1) * sampleConsts.INITIAL_SUBSIDY.num).tdiv
          sampleConsts.EQ_HEIGHT : Int) : ℚ) :=
  (C9_ramp_amended sampleConsts sampleEnv 1).2.2.1 (by decide) (by decide) (by decide)

/-! ## Budgets: `ApplyBudget` and `VerifyBudget` -/

theorem accumulated_nil (x : Option ℚ) : accumulated x [] = x := by
  simp [accumulated]

theorem accumulated_cons (x : Option ℚ) (a : ℚ) (l : List ℚ) :
    accumulated x (a :: l) = accumulated (some (x.getD 0 + a)) l := by
  unfold accumulated
  by_cases h : l = []
  · simp [h]
  · simp [h, add_assoc]

theorem accumulated_append (x : Option ℚ) (l1 l2 : List ℚ) :
    accumulated (accumulated x l1) l2 = accumulated x (l1 ++ l2) := by
  induction l1 generalizing x with
  | nil => simp [accumulated_nil]
  | cons a l ih => rw [List.cons_append, accumulated_cons, accumulated_cons, ih]

theorem find_addTo_self (m : StdMap CTxDestination ℚ) (d : CTxDestination) (x : ℚ) :
    (addTo m d x).find d = some ((m.find d).getD 0 + x) :=
  StdMap.find_set_self m d _

theorem find_addTo_ne (m : StdMap CTxDestination ℚ) (k d : CTxDestination) (x : ℚ)
    (hne : d ≠ k) : (addTo m k x).find d = m.find d :=
  StdMap.find_set_ne m k d _ hne

/-- Adding a list of (destination, amount) pairs to a map: what is stored for `d`. -/
theorem find_foldl_addTo (ps : List (CTxDestination × ℚ)) (m : StdMap CTxDestination ℚ)
    (d : CTxDestination) :
    (ps.foldl (fun m p => addTo m p.1 p.2) m).find d =
      accumulated (m.find d) ((ps.filter (fun p => decide (p.1 = d))).map Prod.snd) := by
  induction ps generalizing m with
  | nil => simp [accumulated_nil]
  | cons p ps ih =>
    rw [List.foldl_cons, ih]
    by_cases h : p.1 = d
    · rw [List.filter_cons_of_pos (by simpa using h), List.map_cons, accumulated_cons, ← h,
        find_addTo_self]
    · rw [List.filter_cons_of_neg (by simpa using h),
        find_addTo_ne m p.1 d p.2 (fun h2 => h h2.symm)]

theorem foldl_weight (l : List CBudgetEntry) (z : Int) :
    l.foldl (fun z entry => z + entry.1) z = z + (l.map Prod.fst).sum := by
  induction l generalizing z with
  | nil => simp
  | cons e es ih => rw [List.foldl_cons, ih, List.map_cons, List.sum_cons, add_assoc]

theorem accumulated_positive (x : Option ℚ) (l : List ℚ) :
    (accumulated x l).bind (fun v => if (!decide (v ≤ 0)) = true then some v else none) =
      if 0 < x.getD 0 + l.sum then some (x.getD 0 + l.sum) else none := by
  unfold accumulated
  by_cases hl : l = []
  · subst hl
    cases x with
    | none => simp
    | some v =>
      by_cases hv : v ≤ 0
      · simp [hv, not_lt.mpr hv]
      · simp [hv, not_le.mp hv]
  · by_cases hv : x.getD 0 + l.sum ≤ 0
    · simp [hl, hv, not_lt.mpr hv]
    · simp [hl, hv, not_le.mp hv]

/-- C8: for a budget whose weights sum to `W ≠ 0`, `ApplyBudget(A, budget, M)`
returns, and the resulting map holds for each destination `d` the total
`M[d] + Σ A*ratio*weight_e/W` over the entries with destination `d` when that
total is positive, and holds no entry for `d` otherwise. -/
theorem C8_ApplyBudget_totals (A : ℚ) (budget : CBudget) (M : StdMap CTxDestination ℚ)
    (hW : (budget.2.map Prod.fst).sum ≠ 0) :
    ∃ m2, ApplyBudget A budget M = some m2 ∧
      ∀ d, m2.find d =
        if 0 < budgetTotal A budget M d then some (budgetTotal A budget M d) else none := by
  have hz : budget.2.foldl (fun z entry => z + entry.1) 0 = (budget.2.map Prod.fst).sum := by
    rw [foldl_weight, zero_add]
  have hfold : ∀ (l : List CBudgetEntry) (m : StdMap CTxDestination ℚ),
      l.foldl (fun m entry =>
          addTo m entry.2 (A * budget.1 * (entry.1 : ℚ) / ((budget.2.map Prod.fst).sum : ℚ))) m
        = (l.map (fun e => (e.2, budgetShare A budget.1 (budget.2.map Prod.fst).sum e))).foldl
            (fun m p => addTo m p.1 p.2) m := by
    intro l m
    rw [List.foldl_map]
    rfl
  refine ⟨((budget.2.map
      (fun e => (e.2, budgetShare A budget.1 (budget.2.map Prod.fst).sum e))).foldl
        (fun m p => addTo m p.1 p.2) M).filter (fun e => !decide (e.2 ≤ 0)), ?_, ?_⟩
  · unfold ApplyBudget
    simp only [hz]
    rw [if_neg (fun h => hW h.2), hfold]
  · intro d
    rw [StdMap.find_filter, find_foldl_addTo, List.filter_map, List.map_map]
    exact accumulated_positive _ _

/-- Witness of C8: a two-entry budget of weights 1 and 3 applied to the amount 8. -/
theorem C8_ApplyBudget_totals_witness :
    ∃ m2, ApplyBudget 8 (1, [(1, CTxDestination.CKeyID 1), (3, CTxDestination.CKeyID 2)])
        StdMap.empty = some m2 ∧
      ∀ d, m2.find d =
        if 0 < budgetTotal 8 (1, [(1, CTxDestination.CKeyID 1), (3, CTxDestination.CKeyID 2)])
            StdMap.empty d
        then some (budgetTotal 8 (1, [(1, CTxDestination.CKeyID 1), (3, CTxDestination.CKeyID 2)])
            StdMap.empty d)
        else none :=
  C8_ApplyBudget_totals 8 (1, [(1, CTxDestination.CKeyID 1), (3, CTxDestination.CKeyID 2)])
    StdMap.empty (by decide)

/-! ## The initial-distribution budget -/

theorem wrapInt32_of_range (x : Int) (h0 : 0 ≤ x) (h1 : x < 2 ^ 31) : wrapInt32 x = x := by
  unfold wrapInt32
  rw [Int.emod_eq_of_lt (by omega) (by omega)]
  omega

theorem GetInitialDistributionAmount_pos (c : Consts) (env : Env) (h : Int)
    (h1 : h < c.EQ_HEIGHT) (hE : 0 < c.EQ_HEIGHT) (hT : 0 < c.TITHE_AMOUNT)
    (hS : 0 ≤ c.INITIAL_SUBSIDY) : 0 < GetInitialDistributionAmount c env h := by
  have hd : (0 : Int) ≤ c.EQ_HEIGHT - h := by omega
  unfold GetInitialDistributionAmount
  simp only [h1, if_true]
  split
  · have hn : (0 : Int) ≤ c.INITIAL_SUBSIDY.num := Rat.num_nonneg.mpr hS
    have hq : (0 : Int) ≤ ((c.EQ_HEIGHT - h) * c.INITIAL_SUBSIDY.num).tdiv c.EQ_HEIGHT :=
      Int.tdiv_nonneg (mul_nonneg hd hn) (le_of_lt hE)
    have hq2 : (0 : ℚ) ≤ ((((c.EQ_HEIGHT - h) * c.INITIAL_SUBSIDY.num).tdiv c.EQ_HEIGHT : Int) : ℚ) :=
      by exact_mod_cast hq
    linarith
  · have hd2 : (0 : ℚ) ≤ ((c.EQ_HEIGHT - h : Int) : ℚ) := by exact_mod_cast hd
    have hE2 : (0 : ℚ) < (c.EQ_HEIGHT : ℚ) := by exact_mod_cast hE
    have : (0 : ℚ) ≤ ((c.EQ_HEIGHT - h : Int) : ℚ) * c.INITIAL_SUBSIDY / (c.EQ_HEIGHT : ℚ) :=
      div_nonneg (mul_nonneg hd2 hS) (le_of_lt hE2)
    linarith

set_option maxRecDepth 8192 in
theorem vAddresses_length : vAddresses.length = 320 := by decide

theorem budget_index (c : Consts) (h : Int) (h0 : 0 ≤ h) (h1 : h < c.EQ_HEIGHT)
    (hEQ : c.EQ_HEIGHT * 320 < 2 ^ 31) :
    (wrapInt32 (h * 320)).tdiv c.EQ_HEIGHT = (h * 320) / c.EQ_HEIGHT ∧
    0 ≤ (h * 320) / c.EQ_HEIGHT ∧ (h * 320) / c.EQ_HEIGHT < 320 := by
  have hE : 0 < c.EQ_HEIGHT := lt_of_le_of_lt h0 h1
  have hx0 : 0 ≤ h * 320 := by omega
  have hx1 : h * 320 < 2 ^ 31 := by omega
  refine ⟨?_, ?_, ?_⟩
  · rw [wrapInt32_of_range _ hx0 hx1, Int.tdiv_eq_ediv hx0 (le_of_lt hE)]
  · exact Int.ediv_nonneg hx0 (le_of_lt hE)
  · exact Int.ediv_lt_of_lt_mul hE (by omega)

theorem GetInitialDistributionBudget_eq (c : Consts) (env : Env) (h : Int) (h0 : 0 ≤ h)
    (h1 : h < c.EQ_HEIGHT) (hEQ : c.EQ_HEIGHT * 320 < 2 ^ 31) :
    GetInitialDistributionBudget c env h =
      (c.TITHE_AMOUNT / GetInitialDistributionAmount c env h,
        [(1, mandatedDestination c env h)]) := by
  unfold GetInitialDistributionBudget mandatedDestination
  rw [if_neg (not_le.mpr h1)]
  simp only [(budget_index c h h0 h1 hEQ).1]

theorem ApplyBudget_initial (c : Consts) (env : Env) (h : Int) (h0 : 0 ≤ h)
    (h1 : h < c.EQ_HEIGHT) (hEQ : c.EQ_HEIGHT * 320 < 2 ^ 31) (hT : 0 < c.TITHE_AMOUNT)
    (hS : 0 ≤ c.INITIAL_SUBSIDY) :
    (ApplyBudget (GetInitialDistributionAmount c env h) (GetInitialDistributionBudget c env h)
        StdMap.empty).map StdMap.entries = some [(mandatedDestination c env h, c.TITHE_AMOUNT)] := by
  have hE : 0 < c.EQ_HEIGHT := lt_of_le_of_lt h0 h1
  have hpos := GetInitialDistributionAmount_pos c env h h1 hE hT hS
  have hne : GetInitialDistributionAmount c env h ≠ 0 := ne_of_gt hpos
  have hval : (0 : ℚ) + GetInitialDistributionAmount c env h *
      (c.TITHE_AMOUNT / GetInitialDistributionAmount c env h) * ((1 : Int) : ℚ) / ((0 + 1 : Int) : ℚ)
        = c.TITHE_AMOUNT := by
    field_simp
  rw [GetInitialDistributionBudget_eq c env h h0 h1 hEQ]
  unfold ApplyBudget
  simp only [List.foldl_cons, List.foldl_nil]
  rw [if_neg (by simp)]
  simp only [addTo, StdMap.set, StdMap.find, StdMap.empty, StdMap.lookupL, StdMap.setL,
    StdMap.filter, Option.getD_none, Option.map_some, hval]
  have hk : ¬ c.TITHE_AMOUNT ≤ 0 := not_le.mpr hT
  simp [List.filter_cons, hk]

/-- C7: for `0 ≤ h < EQ_HEIGHT` the initial-distribution budget has exactly one
entry, of weight 1, for the address at index `floor(h*320/EQ_HEIGHT)` of the
320-address schedule (an index in 0..319), and applying it to
`GetInitialDistributionAmount(h)` on an empty map yields exactly one entry, for
that destination, of amount exactly `TITHE_AMOUNT`. -/
theorem C7_initial_distribution_budget (c : Consts) (env : Env) (h : Int) (h0 : 0 ≤ h)
    (h1 : h < c.EQ_HEIGHT) (hEQ : c.EQ_HEIGHT * 320 < 2 ^ 31) (hT : 0 < c.TITHE_AMOUNT)
    (hS : 0 ≤ c.INITIAL_SUBSIDY) :
    (GetInitialDistributionBudget c env h).2 =
      [(1, env.DecodeAddress env.fTestNet (vAddresses.getD ((h * 320) / c.EQ_HEIGHT).toNat ""))] ∧
    0 ≤ (h * 320) / c.EQ_HEIGHT ∧ (h * 320) / c.EQ_HEIGHT < 320 ∧
    ((h * 320) / c.EQ_HEIGHT).toNat < vAddresses.length ∧
    (ApplyBudget (GetInitialDistributionAmount c env h) (GetInitialDistributionBudget c env h)
        StdMap.empty).map StdMap.entries =
      some [(env.DecodeAddress env.fTestNet
        (vAddresses.getD ((h * 320) / c.EQ_HEIGHT).toNat ""), c.TITHE_AMOUNT)] := by
  have hi := budget_index c h h0 h1 hEQ
  refine ⟨?_, hi.2.1, hi.2.2, ?_, ?_⟩
  · rw [GetInitialDistributionBudget_eq c env h h0 h1 hEQ]
    rfl
  · rw [vAddresses_length]
    omega
  · exact ApplyBudget_initial c env h h0 h1 hEQ hT hS

/-- Witness of C7: height 1000 with the sample constants. -/
theorem C7_initial_distribution_budget_witness :
    (GetInitialDistributionBudget sampleConsts sampleEnv 1000).2 =
      [(1, sampleEnv.DecodeAddress sampleEnv.fTestNet
        (vAddresses.getD (((1000 : Int) * 320) / sampleConsts.EQ_HEIGHT).toNat ""))] ∧
    0 ≤ ((1000 : Int) * 320) / sampleConsts.EQ_HEIGHT ∧
    ((1000 : Int) * 320) / sampleConsts.EQ_HEIGHT < 320 ∧
    (((1000 : Int) * 320) / sampleConsts.EQ_HEIGHT).toNat < vAddresses.length ∧
    (ApplyBudget (GetInitialDistributionAmount sampleConsts sampleEnv 1000)
        (GetInitialDistributionBudget sampleConsts sampleEnv 1000) StdMap.empty).map
          StdMap.entries =
      some [(sampleEnv.DecodeAddress sampleEnv.fTestNet
        (vAddresses.getD (((1000 : Int) * 320) / sampleConsts.EQ_HEIGHT).toNat ""),
          sampleConsts.TITHE_AMOUNT)] :=
  C7_initial_distribution_budget sampleConsts sampleEnv 1000 (by decide) (by decide) (by decide)
    (by decide!) (by decide!)

/-! ## `VerifyBudget` -/

theorem find_foldl_vout (c : Consts) (env : Env) (tx : CTransaction) (h : Int)
    (d : CTxDestination) (outs : List CTxOut) (m : StdMap CTxDestination ℚ) :
    (outs.foldl
      (fun m txout =>
        match env.ExtractDestination txout.scriptPubKey with
        | some address => addTo m address (GetPresentValue c tx txout h)
        | none => m) m).find d =
      accumulated (m.find d)
        ((outs.filter (fun o => decide (env.ExtractDestination o.scriptPubKey = some d))).map
          (fun o => GetPresentValue c tx o h)) := by
  induction outs generalizing m with
  | nil => simp [accumulated_nil]
  | cons o os ih =>
    rw [List.foldl_cons, ih]
    cases hx : env.ExtractDestination o.scriptPubKey with
    | none =>
      rw [List.filter_cons_of_neg (by simp [hx])]
    | some a =>
      by_cases ha : a = d
      · subst ha
        rw [List.filter_cons_of_pos (by simp [hx]), List.map_cons, accumulated_cons,
          find_addTo_self]
      · rw [List.filter_cons_of_neg (by simp [hx, ha]),
          find_addTo_ne _ a d _ (fun h2 => ha h2.symm)]

theorem find_foldl_vtx (c : Consts) (env : Env) (h : Int) (d : CTxDestination)
    (vtx : List CTransaction) (m : StdMap CTxDestination ℚ) :
    (vtx.foldl
      (fun m tx => tx.vout.foldl
        (fun m txout =>
          match env.ExtractDestination txout.scriptPubKey with
          | some address => addTo m address (GetPresentValue c tx txout h)
          | none => m) m) m).find d =
      accumulated (m.find d) (paymentsTo c env vtx h d) := by
  induction vtx generalizing m with
  | nil => simp [paymentsTo, accumulated_nil]
  | cons tx rest ih =>
    rw [List.foldl_cons, ih, find_foldl_vout, accumulated_append]
    simp [paymentsTo, List.flatMap_cons]

theorem find_mapActualsOf (c : Consts) (env : Env) (vtx : List CTransaction) (h : Int)
    (d : CTxDestination) :
    (mapActualsOf c env vtx h).find d =
      if paymentsTo c env vtx h d = [] then none else some ((paymentsTo c env vtx h d).sum) := by
  unfold mapActualsOf
  rw [find_foldl_vtx, StdMap.find_empty]
  unfold accumulated
  split <;> simp

theorem paymentsTo_ne_nil_iff (c : Consts) (env : Env) (vtx : List CTransaction) (h : Int)
    (d : CTxDestination) :
    paymentsTo c env vtx h d ≠ [] ↔
      ∃ tx ∈ vtx, ∃ o ∈ tx.vout, env.ExtractDestination o.scriptPubKey = some d := by
  constructor
  · intro hne
    obtain ⟨x, hx⟩ := List.exists_mem_of_ne_nil _ hne
    unfold paymentsTo at hx
    rw [List.mem_flatMap] at hx
    obtain ⟨tx, htx, hx2⟩ := hx
    rw [List.mem_map] at hx2
    obtain ⟨o, ho, _⟩ := hx2
    rw [List.mem_filter] at ho
    exact ⟨tx, htx, o, ho.1, by simpa using ho.2⟩
  · rintro ⟨tx, htx, o, ho, hd⟩
    apply List.ne_nil_of_mem (a := GetPresentValue c tx o h)
    unfold paymentsTo
    rw [List.mem_flatMap]
    refine ⟨tx, htx, ?_⟩
    rw [List.mem_map]
    exact ⟨o, List.mem_filter.mpr ⟨ho, by simpa using hd⟩, rfl⟩

/-- C6: `VerifyBudget(mapBudget, vtx, h)` returns true exactly when, for every
destination `d` with `mapBudget[d] > 0`, the present values at height `h` of the
outputs of `vtx` whose script extracts to `d` sum to at least `mapBudget[d]` and
at least one such output exists.  Nothing else enters the condition: other
destinations and surplus payments cannot make it fail. -/
theorem C6_VerifyBudget_iff (c : Consts) (env : Env) (mapBudget : StdMap CTxDestination ℚ)
    (vtx : List CTransaction) (h : Int) :
    VerifyBudget c env mapBudget vtx h = true ↔
      ∀ d v, mapBudget.find d = some v → 0 < v →
        v ≤ (paymentsTo c env vtx h d).sum ∧
        ∃ tx ∈ vtx, ∃ o ∈ tx.vout, env.ExtractDestination o.scriptPubKey = some d := by
  unfold VerifyBudget
  simp only [List.all_eq_true]
  constructor
  · intro hall d v hfind hv
    have hmem : (d, v) ∈ mapBudget.entries := (StdMap.mem_entries_iff mapBudget d v).mpr hfind
    have h1 := hall (d, v) hmem
    simp only [not_le.mpr hv, if_false, find_mapActualsOf] at h1
    by_cases hp : paymentsTo c env vtx h d = []
    · simp [hp] at h1
    · simp only [hp, if_false, Bool.not_eq_true', decide_eq_false_iff_not, not_lt] at h1
      exact ⟨h1, (paymentsTo_ne_nil_iff c env vtx h d).mp hp⟩
  · intro hall e he
    by_cases hv : e.2 ≤ 0
    · simp [hv]
    · have hfind : mapBudget.find e.1 = some e.2 :=
        (StdMap.mem_entries_iff mapBudget e.1 e.2).mp he
      obtain ⟨h1, h2⟩ := hall e.1 e.2 hfind (not_le.mp hv)
      have hp : paymentsTo c env vtx h e.1 ≠ [] := (paymentsTo_ne_nil_iff c env vtx h e.1).mpr h2
      simp only [hv, if_false, find_mapActualsOf, hp, Bool.not_eq_true', decide_eq_false_iff_not,
        not_lt]
      exact h1

/-! ## `CheckTransaction` -/

theorem wrapInt64_cases (x : Int) (h0 : 0 ≤ x) (h1 : x < 2 ^ 64) :
    (x < 2 ^ 63 ∧ wrapInt64 x = x) ∨ (2 ^ 63 ≤ x ∧ wrapInt64 x < 0) := by
  unfold wrapInt64
  omega

theorem MoneyRangeI64_iff (c : Consts) (x : Int) :
    MoneyRangeI64 c x = true ↔ 0 ≤ x ∧ x ≤ c.I64_MAX_MONEY := by
  simp [MoneyRangeI64]

/-- The loop over the outputs, started with a running total `acc` that fits an
`int64`: it succeeds exactly when every value is in `[0, I64_MAX_MONEY]` and every
running total is in the money range. -/
theorem checkValueOut_iff (c : Consts) (hM : c.I64_MAX_MONEY < 2 ^ 63) (outs : List CTxOut)
    (acc : Int) (ha0 : 0 ≤ acc) (ha1 : acc < 2 ^ 63) :
    checkValueOut c outs acc = true ↔
      (∀ o ∈ outs, 0 ≤ o.nValue ∧ o.nValue ≤ c.I64_MAX_MONEY) ∧
      (∀ k, 1 ≤ k → k ≤ outs.length →
        MoneyRangeI64 c (acc + ((outs.take k).map (fun o => o.nValue)).sum) = true) := by
  induction outs generalizing acc with
  | nil =>
    simp only [checkValueOut, List.not_mem_nil, false_implies, implies_true, List.length_nil,
      true_and, true_iff]
    intro k h1 h2
    omega
  | cons o os ih =>
    unfold checkValueOut
    by_cases hneg : o.nValue < 0
    · simp only [hneg, if_true, Bool.false_eq_true, false_iff, not_and]
      intro hall
      have := (hall o (List.mem_cons_self _ _)).1
      omega
    by_cases hbig : o.nValue > c.I64_MAX_MONEY
    · simp only [hneg, hbig, if_true, if_false, Bool.false_eq_true, false_iff, not_and]
      intro hall
      have := (hall o (List.mem_cons_self _ _)).2
      omega
    have hv0 : 0 ≤ o.nValue := not_lt.mp hneg
    have hv1 : o.nValue ≤ c.I64_MAX_MONEY := not_lt.mp hbig
    simp only [hneg, hbig, if_false]
    have hfirst : MoneyRangeI64 c (acc + (((o :: os).take 1).map (fun o => o.nValue)).sum) =
        MoneyRangeI64 c (acc + o.nValue) := by simp
    rcases wrapInt64_cases (acc + o.nValue) (by omega) (by omega) with ⟨_, hw⟩ | ⟨hlarge, hw⟩
    · rw [hw]
      by_cases hr : MoneyRangeI64 c (acc + o.nValue) = true
      · have hr2 := (MoneyRangeI64_iff c _).mp hr
        simp only [hr, Bool.not_true, Bool.false_eq_true, if_false]
        rw [ih (acc + o.nValue) hr2.1 (by omega)]
        constructor
        · rintro ⟨h1, h2⟩
          refine ⟨?_, ?_⟩
          · intro x hx
            rcases List.mem_cons.mp hx with hx | hx
            · subst hx
              exact ⟨hv0, hv1⟩
            · exact h1 x hx
          · intro k hk1 hk2
            rcases Nat.eq_or_lt_of_le hk1 with hk | hk
            · rw [← hk, hfirst]
              exact hr
            · obtain ⟨j, rfl⟩ : ∃ j, k = j + 1 := ⟨k - 1, by omega⟩
              have := h2 j (by omega) (by simpa using hk2)
              simpa [List.take_succ_cons, add_assoc] using this
        · rintro ⟨h1, h2⟩
          refine ⟨fun x hx => h1 x (List.mem_cons_of_mem _ hx), ?_⟩
          intro k hk1 hk2
          have := h2 (k + 1) (by omega) (by simpa using hk2)
          simpa [List.take_succ_cons, add_assoc] using this
      · simp only [hr, Bool.not_false, if_true, Bool.false_eq_true, false_iff, not_and]
        intro _ h2
        have := h2 1 (le_refl 1) (by simp)
        rw [hfirst] at this
        exact hr this
    · have hr : ¬ MoneyRangeI64 c (wrapInt64 (acc + o.nValue)) = true := by
        rw [MoneyRangeI64_iff]
        omega
      simp only [hr, Bool.not_false, if_true, Bool.false_eq_true, false_iff, not_and]
      intro _ h2
      have := h2 1 (le_refl 1) (by simp)
      rw [hfirst, MoneyRangeI64_iff] at this
      omega

/-- The loop that fills `vInOutPoints` succeeds exactly when the outpoints are
pairwise distinct and none is in the set it started with. -/
theorem checkInOutPoints_iff (ins : List CTxIn) (seen : List COutPoint) :
    checkInOutPoints ins seen = true ↔
      (ins.map (fun i => i.prevout)).Nodup ∧ ∀ i ∈ ins, i.prevout ∉ seen := by
  induction ins generalizing seen with
  | nil => simp [checkInOutPoints]
  | cons i rest ih =>
    unfold checkInOutPoints
    by_cases hmem : i.prevout ∈ seen
    · simp only [hmem, if_true, Bool.false_eq_true, false_iff, not_and]
      intro _ h2
      exact h2 i (List.mem_cons_self _ _) hmem
    · simp only [hmem, if_false]
      rw [ih, List.map_cons, List.nodup_cons]
      constructor
      · rintro ⟨h1, h2⟩
        refine ⟨⟨?_, h1⟩, ?_⟩
        · intro hin
          obtain ⟨j, hj, hje⟩ := List.mem_map.mp hin
          exact h2 j hj (by rw [hje]; exact List.mem_cons_self _ _)
        · intro j hj
          rcases List.mem_cons.mp hj with hj | hj
          · subst hj
            exact hmem
          · intro hs
            exact h2 j hj (List.mem_cons_of_mem _ hs)
      · rintro ⟨⟨h1, h2⟩, h3⟩
        refine ⟨h2, ?_⟩
        intro j hj hs
        rcases List.mem_cons.mp hs with hs | hs
        · exact h1 (List.mem_map.mpr ⟨j, hj, hs⟩)
        · exact h3 j (List.mem_cons_of_mem _ hj) hs

/-- C3: `CheckTransaction` returns true exactly when `vin` and `vout` are non-empty,
the serialized size is at most `MAX_BLOCK_SIZE`, `nRefHeight ≥ 0`, every output
value is in `[0, I64_MAX_MONEY]`, every running prefix sum of the output values is
in the money range, no two inputs have the same prevout, and either the
transaction is a coinbase whose `vin[0].scriptSig` has between 2 and 100 bytes, or
it is not a coinbase and no input has a null prevout.  (`I64_MAX_MONEY` is an
`int64` constant.) -/
theorem C3_CheckTransaction_iff (c : Consts) (env : Env) (tx : CTransaction)
    (hM : c.I64_MAX_MONEY < 2 ^ 63) :
    (CheckTransaction c env tx).ok = true ↔
      tx.vin ≠ [] ∧ tx.vout ≠ [] ∧
      env.GetSerializeSize tx ≤ c.MAX_BLOCK_SIZE ∧
      0 ≤ tx.nRefHeight ∧
      (∀ o ∈ tx.vout, 0 ≤ o.nValue ∧ o.nValue ≤ c.I64_MAX_MONEY) ∧
      (∀ k, 1 ≤ k → k ≤ tx.vout.length →
        MoneyRangeI64 c (((tx.vout.take k).map (fun o => o.nValue)).sum) = true) ∧
      (tx.vin.map (fun i => i.prevout)).Nodup ∧
      ((tx.IsCoinBase = true ∧
          ∀ vin0 ∈ tx.vin.head?, 2 ≤ vin0.scriptSig.length ∧ vin0.scriptSig.length ≤ 100) ∨
       (tx.IsCoinBase = false ∧ ∀ i ∈ tx.vin, i.prevout.IsNull = false)) := by
  have hval := checkValueOut_iff c hM tx.vout 0 (le_refl 0) (by norm_num)
  simp only [zero_add] at hval
  have hdup := checkInOutPoints_iff tx.vin []
  simp only [List.not_mem_nil, not_false_eq_true, implies_true, and_true] at hdup
  unfold CheckTransaction
  by_cases h1 : tx.vin = []
  · simp [h1]
  by_cases h2 : tx.vout = []
  · simp [h1, h2]
  by_cases h3 : env.GetSerializeSize tx > c.MAX_BLOCK_SIZE
  · simp only [List.isEmpty_eq_true, h1, h2, h3, if_true, if_false, Bool.false_eq_true, false_iff]
    intro hc
    have := hc.2.2.1
    omega
  by_cases h4 : tx.nRefHeight < 0
  · simp only [List.isEmpty_eq_true, h1, h2, h3, h4, if_true, if_false, Bool.false_eq_true,
      false_iff]
    intro hc
    have := hc.2.2.2.1
    omega
  by_cases h5 : checkValueOut c tx.vout 0 = true
  swap
  · simp only [List.isEmpty_eq_true, h1, h2, h3, h4, h5, if_true, if_false, Bool.false_eq_true,
      false_iff, Bool.not_false]
    intro hc
    exact h5 (hval.mpr ⟨hc.2.2.2.2.1, hc.2.2.2.2.2.1⟩)
  by_cases h6 : checkInOutPoints tx.vin [] = true
  swap
  · simp only [List.isEmpty_eq_true, h1, h2, h3, h4, h5, h6, if_true, if_false,
      Bool.false_eq_true, false_iff, Bool.not_false, Bool.not_true]
    intro hc
    exact h6 (hdup.mpr hc.2.2.2.2.2.2.1)
  have hbase : tx.vin ≠ [] ∧ tx.vout ≠ [] ∧ env.GetSerializeSize tx ≤ c.MAX_BLOCK_SIZE ∧
      0 ≤ tx.nRefHeight := ⟨h1, h2, not_lt.mp h3, not_lt.mp h4⟩
  simp only [List.isEmpty_eq_true, h1, h2, h3, h4, h5, h6, if_false, Bool.not_true,
    Bool.false_eq_true]
  by_cases h7 : tx.IsCoinBase = true
  · obtain ⟨vin0, rest, hvin⟩ := List.exists_cons_of_ne_nil h1
    have hhead : tx.vin.head? = some vin0 := by rw [hvin]; rfl
    have hcode : (match tx.vin with
        | [] => (⟨true, 0⟩ : Verdict)
        | vin0 :: _ =>
          if (decide (vin0.scriptSig.length < 2) || decide (vin0.scriptSig.length > 100)) = true
          then ⟨false, 100⟩ else ⟨true, 0⟩) =
        (if (decide (vin0.scriptSig.length < 2) || decide (vin0.scriptSig.length > 100)) = true
          then ⟨false, 100⟩ else ⟨true, 0⟩) := by rw [hvin]
    simp only [h7, if_true]
    rw [hcode]
    by_cases h8 : vin0.scriptSig.length < 2 ∨ vin0.scriptSig.length > 100
    · have h8b : (decide (vin0.scriptSig.length < 2) || decide (vin0.scriptSig.length > 100))
          = true := by simpa using h8
      rw [if_pos h8b]
      constructor
      · intro hf
        exact absurd hf (by simp)
      · intro hc
        exfalso
        rcases hc.2.2.2.2.2.2.2 with ⟨_, hs⟩ | ⟨hf, _⟩
        · have := hs vin0 (by rw [hhead]; rfl)
          omega
        · simp at hf
    · have h8b : ¬ (decide (vin0.scriptSig.length < 2) || decide (vin0.scriptSig.length > 100))
          = true := by simpa using h8
      rw [if_neg h8b]
      constructor
      · intro _
        refine ⟨hbase.1, hbase.2.1, hbase.2.2.1, hbase.2.2.2, (hval.mp h5).1, (hval.mp h5).2,
          hdup.mp h6, Or.inl ⟨trivial, ?_⟩⟩
        intro v hv
        rw [hhead] at hv
        simp only [Option.mem_def, Option.some.injEq] at hv
        subst hv
        omega
      · intro _
        rfl
  · have h7b : tx.IsCoinBase = false := by simpa using h7
    simp only [h7b, Bool.false_eq_true, if_false]
    by_cases h9 : (tx.vin.any fun txin => txin.prevout.IsNull) = true
    · rw [if_pos h9]
      constructor
      · intro hf
        exact absurd hf (by simp)
      · intro hc
        exfalso
        rcases hc.2.2.2.2.2.2.2 with ⟨ht, _⟩ | ⟨_, hs⟩
        · simp at ht
        · obtain ⟨i, hi, hnull⟩ := List.any_eq_true.mp h9
          rw [hs i hi] at hnull
          simp at hnull
    · rw [if_neg h9]
      constructor
      · intro _
        refine ⟨hbase.1, hbase.2.1, hbase.2.2.1, hbase.2.2.2, (hval.mp h5).1, (hval.mp h5).2,
          hdup.mp h6, Or.inr ⟨trivial, ?_⟩⟩
        intro i hi
        by_contra hn
        exact h9 (List.any_eq_true.mpr ⟨i, hi, by simpa using hn⟩)
      · intro _
        rfl

/-- Witness of C3: the sample transaction passes, and satisfies the conditions. -/
theorem C3_CheckTransaction_iff_witness :
    (CheckTransaction sampleConsts sampleEnv sampleTx).ok = true ↔
      sampleTx.vin ≠ [] ∧ sampleTx.vout ≠ [] ∧
      sampleEnv.GetSerializeSize sampleTx ≤ sampleConsts.MAX_BLOCK_SIZE ∧
      0 ≤ sampleTx.nRefHeight ∧
      (∀ o ∈ sampleTx.vout, 0 ≤ o.nValue ∧ o.nValue ≤ sampleConsts.I64_MAX_MONEY) ∧
      (∀ k, 1 ≤ k → k ≤ sampleTx.vout.length →
        MoneyRangeI64 sampleConsts (((sampleTx.vout.take k).map (fun o => o.nValue)).sum)
          = true) ∧
      (sampleTx.vin.map (fun i => i.prevout)).Nodup ∧
      ((sampleTx.IsCoinBase = true ∧
          ∀ vin0 ∈ sampleTx.vin.head?,
            2 ≤ vin0.scriptSig.length ∧ vin0.scriptSig.length ≤ 100) ∨
       (sampleTx.IsCoinBase = false ∧ ∀ i ∈ sampleTx.vin, i.prevout.IsNull = false)) :=
  C3_CheckTransaction_iff sampleConsts sampleEnv sampleTx (by decide)

/-! ## `ConnectInputs` -/

theorem chainLinked_tail (a : CBlockIndex) (rest : List CBlockIndex)
    (h : chainLinked (a :: rest) = true) : chainLinked rest = true := by
  cases rest with
  | nil => rfl
  | cons b r =>
    simp only [chainLinked, Bool.and_eq_true] at h
    exact h.2

theorem chainLinked_lt (a : CBlockIndex) (rest : List CBlockIndex)
    (h : chainLinked (a :: rest) = true) : ∀ q ∈ rest, q.nHeight < a.nHeight := by
  induction rest generalizing a with
  | nil => simp
  | cons b r ih =>
    simp only [chainLinked, Bool.and_eq_true, decide_eq_true_eq] at h
    intro q hq
    rcases List.mem_cons.mp hq with hq | hq
    · subst hq
      omega
    · have := ih b h.2 q hq
      omega

/-- The maturity loop on a linked chain of heights in `int` range, none above `H`:
when it finds nothing, no node at height distance below `COINBASE_MATURITY` is
the block stored at `pos`. -/
theorem spendsImmature_false (c : Consts) (H : Int) (pos : CDiskTxPos)
    (chain : List CBlockIndex) (hl : chainLinked chain = true)
    (hr : ∀ p ∈ chain, 0 ≤ p.nHeight ∧ p.nHeight ≤ H) (hH : H < 2 ^ 31)
    (hf : spendsImmature c H pos chain = false) :
    ∀ p ∈ chain, H - p.nHeight < c.COINBASE_MATURITY →
      ¬ (p.nBlockPos = pos.nBlockPos ∧ p.nFile = pos.nFile) := by
  induction chain with
  | nil => simp
  | cons a rest ih =>
    have ha := hr a (List.mem_cons_self _ _)
    have hw : wrapInt32 (H - a.nHeight) = H - a.nHeight :=
      wrapInt32_of_range _ (by omega) (by omega)
    unfold spendsImmature at hf
    rw [hw] at hf
    intro p hp hdist
    by_cases hd : H - a.nHeight < c.COINBASE_MATURITY
    · rw [if_pos hd] at hf
      by_cases hm : (decide (a.nBlockPos = pos.nBlockPos) && decide (a.nFile = pos.nFile)) = true
      · rw [if_pos hm] at hf
        exact absurd hf (by simp)
      · rw [if_neg hm] at hf
        rcases List.mem_cons.mp hp with hp | hp
        · subst hp
          simpa using hm
        · exact ih (chainLinked_tail a rest hl) (fun q hq => hr q (List.mem_cons_of_mem _ hq)) hf
            p hp hdist
    · rcases List.mem_cons.mp hp with hp | hp
      · subst hp
        exact absurd hdist hd
      · have := chainLinked_lt a rest hl p hp
        omega

/-- First loop of `ConnectInputs`: what a completed run established for every input. -/
theorem connectRangeLoop_done (c : Consts) (inputs : MapPrevTx) (chain : List CBlockIndex)
    (ins : List CTxIn) (h : connectRangeLoop c inputs chain ins = .done ()) :
    ∀ txin ∈ ins, ∃ txindex txPrev,
      inputs.find txin.prevout.hash = some (txindex, txPrev) ∧
      txin.prevout.n < txPrev.vout.length ∧ txin.prevout.n < txindex.vSpent.length ∧
      (txPrev.IsCoinBase = true →
        spendsImmature c (chainHeight chain) txindex.pos chain = false) := by
  induction ins with
  | nil => simp
  | cons t rest ih =>
    unfold connectRangeLoop at h
    cases hfind : inputs.find t.prevout.hash with
    | none => simp [hfind] at h
    | some e =>
      obtain ⟨txindex, txPrev⟩ := e
      simp only [hfind] at h
      by_cases hrange : (decide (t.prevout.n ≥ txPrev.vout.length) ||
          decide (t.prevout.n ≥ txindex.vSpent.length)) = true
      · rw [if_pos hrange] at h
        exact absurd h (by simp)
      · rw [if_neg hrange] at h
        by_cases himm : (txPrev.IsCoinBase &&
            spendsImmature c (chainHeight chain) txindex.pos chain) = true
        · rw [if_pos himm] at h
          exact absurd h (by simp)
        · rw [if_neg himm] at h
          intro txin hmem
          rcases List.mem_cons.mp hmem with hmem | hmem
          · subst hmem
            simp only [Bool.or_eq_true, decide_eq_true_eq, not_or, not_le] at hrange
            refine ⟨txindex, txPrev, hfind, hrange.1, hrange.2, ?_⟩
            intro hcb
            simpa [hcb] using himm
          · exact ih h txin hmem

/-- The loop of `GetValueIn`: its result is the running total plus the present
values of the spent outputs, and the result is in the money range when the loop
ran at least once. -/
theorem valueInLoop_some (c : Consts) (tx : CTransaction) (inputs : MapPrevTx)
    (ins : List CTxIn) (acc v : ℚ) (h : valueInLoop c tx.nRefHeight inputs ins acc = some v) :
    v = acc + (ins.map (inputValue c tx inputs)).sum := by
  induction ins generalizing acc with
  | nil =>
    simp only [valueInLoop, Option.some.injEq] at h
    simp [h]
  | cons t rest ih =>
    unfold valueInLoop at h
    cases hfind : inputs.find t.prevout.hash with
    | none => simp [hfind] at h
    | some e =>
      obtain ⟨txindex, txPrev⟩ := e
      simp only [hfind] at h
      cases hget : txPrev.vout[t.prevout.n]? with
      | none => simp [hget] at h
      | some txOut =>
        simp only [hget] at h
        split at h
        · exact absurd h (by simp)
        · rw [ih _ h, List.map_cons, List.sum_cons]
          simp only [inputValue, hfind, hget]
          ring

theorem getD_set (l : List CDiskTxPos) (k n : Nat) (x d : CDiskTxPos) :
    (l.set k x).getD n d = if n = k ∧ k < l.length then x else l.getD n d := by
  rw [List.getD_eq_getElem?_getD, List.getD_eq_getElem?_getD, List.getElem?_set]
  by_cases h : k = n
  · subst h
    by_cases h2 : k < l.length
    · simp [h2]
    · have : l[k]? = none := by
        rw [List.getElem?_eq_none_iff]
        omega
      simp [h2, this]
  · have h3 : ¬ n = k := fun h4 => h h4.symm
    simp [h, h3]

/-- One completed iteration of the second loop of `ConnectInputs`. -/
theorem connectMarkLoop_cons (env : Env) (tx : CTransaction) (pos : CDiskTxPos)
    (fBlock fMiner fStrict : Bool) (t : CTxIn) (rest : List CTxIn) (i : Nat)
    (st st2 : MapPrevTx × StdMap uint256 CTxIndex)
    (h : connectMarkLoop env tx pos fBlock fMiner fStrict (t :: rest) i st = .done st2) :
    ∃ txindex txPrev,
      st.1.find t.prevout.hash = some (txindex, txPrev) ∧
      txPrev.nRefHeight ≤ tx.nRefHeight ∧
      (txindex.vSpent.getD t.prevout.n CDiskTxPos.null).IsNull = true ∧
      connectMarkLoop env tx pos fBlock fMiner fStrict rest (i + 1)
        (st.1.set t.prevout.hash (⟨txindex.pos, txindex.vSpent.set t.prevout.n pos⟩, txPrev),
          if fBlock || fMiner then
            st.2.set t.prevout.hash ⟨txindex.pos, txindex.vSpent.set t.prevout.n pos⟩
          else st.2) = .done st2 := by
  unfold connectMarkLoop at h
  cases hfind : st.1.find t.prevout.hash with
  | none => simp [hfind] at h
  | some e =>
    obtain ⟨txindex, txPrev⟩ := e
    simp only [hfind] at h
    by_cases h1 : txPrev.nRefHeight > tx.nRefHeight
    · rw [if_pos h1] at h
      exact absurd h (by simp)
    rw [if_neg h1] at h
    by_cases h2 : (!(txindex.vSpent.getD t.prevout.n CDiskTxPos.null).IsNull) = true
    · rw [if_pos h2] at h
      exact absurd h (by simp)
    rw [if_neg h2] at h
    split at h
    · split at h <;> exact absurd h (by simp)
    · exact ⟨txindex, txPrev, rfl, not_lt.mp h1, by simpa using h2, h⟩

/-- The slot of every input was null when the second loop examined it: in the
input map as marked by the inputs before it. -/
theorem connectMarkLoop_examined (env : Env) (tx : CTransaction) (pos : CDiskTxPos)
    (fBlock fMiner fStrict : Bool) (ins : List CTxIn) (i : Nat)
    (st st2 : MapPrevTx × StdMap uint256 CTxIndex)
    (h : connectMarkLoop env tx pos fBlock fMiner fStrict ins i st = .done st2) :
    ∀ j (hj : j < ins.length), ∃ ti tp,
      (markInputs pos (ins.take j) st.1).find ins[j].prevout.hash = some (ti, tp) ∧
      (ti.vSpent.getD ins[j].prevout.n CDiskTxPos.null).IsNull = true := by
  induction ins generalizing i st with
  | nil =>
    intro j hj
    simp at hj
  | cons t rest ih =>
    obtain ⟨txindex, txPrev, hfind, _, hnull, hrest⟩ :=
      connectMarkLoop_cons env tx pos fBlock fMiner fStrict t rest i st st2 h
    intro j hj
    cases j with
    | zero => exact ⟨txindex, txPrev, by simpa [markInputs] using hfind, by simpa using hnull⟩
    | succ j =>
      have hj2 : j < rest.length := by simpa using hj
      obtain ⟨ti, tp, h1, h2⟩ := ih (i + 1) _ hrest j hj2
      refine ⟨ti, tp, ?_, ?_⟩
      · simp only [List.take_succ_cons, markInputs, hfind, List.getElem_cons_succ]
        exact h1
      · simpa using h2

/-- What the second loop established about the input map it started from: for
every input the previous transaction is not of a later reference height and the
slot the input spends is null. -/
theorem connectMarkLoop_original (env : Env) (tx : CTransaction) (pos : CDiskTxPos)
    (fBlock fMiner fStrict : Bool) (ins : List CTxIn) (i : Nat)
    (st st2 : MapPrevTx × StdMap uint256 CTxIndex)
    (h : connectMarkLoop env tx pos fBlock fMiner fStrict ins i st = .done st2) :
    ∀ t ∈ ins, ∀ txindex txPrev, st.1.find t.prevout.hash = some (txindex, txPrev) →
      txPrev.nRefHeight ≤ tx.nRefHeight ∧
      (txindex.vSpent.getD t.prevout.n CDiskTxPos.null).IsNull = true := by
  induction ins generalizing i st with
  | nil => simp
  | cons t rest ih =>
    obtain ⟨txindex, txPrev, hfind, href, hnull, hrest⟩ :=
      connectMarkLoop_cons env tx pos fBlock fMiner fStrict t rest i st st2 h
    intro t2 hmem ti tp hf
    rcases List.mem_cons.mp hmem with hmem | hmem
    · subst hmem
      rw [hfind] at hf
      simp only [Option.some.injEq, Prod.mk.injEq] at hf
      rw [← hf.1, ← hf.2]
      exact ⟨href, hnull⟩
    · by_cases hh : t2.prevout.hash = t.prevout.hash
      · have hf2 := hf
        rw [hh, hfind] at hf2
        simp only [Option.some.injEq, Prod.mk.injEq] at hf2
        have := ih (i + 1) _ hrest t2 hmem
          ⟨txindex.pos, txindex.vSpent.set t.prevout.n pos⟩ txPrev
          (by rw [hh]; exact StdMap.find_set_self _ _ _)
        rw [← hf2.1, ← hf2.2]
        refine ⟨this.1, ?_⟩
        have h3 := this.2
        simp only [getD_set] at h3
        by_cases hn : t2.prevout.n = t.prevout.n
        · rw [hn]
          exact hnull
        · simpa [hn] using h3
      · have := ih (i + 1) _ hrest t2 hmem ti tp
          (by rw [StdMap.find_set_ne _ _ _ _ hh]; exact hf)
        exact this

/-- With a non-null `posThisTx`, a completed second loop means that no two inputs
spend the same outpoint. -/
theorem connectMarkLoop_nodup (env : Env) (tx : CTransaction) (pos : CDiskTxPos)
    (fBlock fMiner fStrict : Bool) (hpos : pos.IsNull = false) (ins : List CTxIn) (i : Nat)
    (st st2 : MapPrevTx × StdMap uint256 CTxIndex)
    (hrange : ∀ t ∈ ins, ∀ txindex txPrev, st.1.find t.prevout.hash = some (txindex, txPrev) →
      t.prevout.n < txindex.vSpent.length)
    (h : connectMarkLoop env tx pos fBlock fMiner fStrict ins i st = .done st2) :
    (ins.map (fun t => t.prevout)).Nodup := by
  induction ins generalizing i st with
  | nil => simp
  | cons t rest ih =>
    obtain ⟨txindex, txPrev, hfind, _, _, hrest⟩ :=
      connectMarkLoop_cons env tx pos fBlock fMiner fStrict t rest i st st2 h
    have hlen : t.prevout.n < txindex.vSpent.length :=
      hrange t (List.mem_cons_self _ _) txindex txPrev hfind
    rw [List.map_cons, List.nodup_cons]
    constructor
    · intro hin
      obtain ⟨t2, ht2, heq⟩ := List.mem_map.mp hin
      have hself := StdMap.find_set_self st.1 t.prevout.hash
        ((⟨txindex.pos, txindex.vSpent.set t.prevout.n pos⟩ : CTxIndex), txPrev)
      have := (connectMarkLoop_original env tx pos fBlock fMiner fStrict rest (i + 1) _ st2 hrest
        t2 ht2 ⟨txindex.pos, txindex.vSpent.set t.prevout.n pos⟩ txPrev
        (by rw [heq]; exact hself)).2
      rw [heq] at this
      simp only [getD_set, hlen, and_self, if_true] at this
      rw [hpos] at this
      exact absurd this (by simp)
    · apply ih (i + 1) _ ?_ hrest
      intro t2 ht2 ti tp hf
      by_cases hh : t2.prevout.hash = t.prevout.hash
      · rw [hh, StdMap.find_set_self] at hf
        simp only [Option.some.injEq, Prod.mk.injEq] at hf
        have := hrange t2 (List.mem_cons_of_mem _ ht2) txindex txPrev (by rw [hh]; exact hfind)
        rw [← hf.1]
        simpa using this
      · rw [StdMap.find_set_ne _ _ _ _ hh] at hf
        exact hrange t2 (List.mem_cons_of_mem _ ht2) ti tp hf

/-- What a true return of `ConnectInputs` on a non-coinbase transaction went
through: both loops completed and the value checks passed. -/
theorem ConnectInputs_true_inv (c : Consts) (env : Env) (tx : CTransaction) (inputs : MapPrevTx)
    (mapTestPool : StdMap uint256 CTxIndex) (pos : CDiskTxPos) (chain : List CBlockIndex)
    (fBlock fMiner fStrict : Bool) (hcb : tx.IsCoinBase = false)
    (hret : (ConnectInputs c env tx inputs mapTestPool pos chain fBlock fMiner
      fStrict).returnedTrue = true) :
    connectRangeLoop c inputs chain tx.vin = .done () ∧
    ∃ v, GetValueIn c tx inputs = some v ∧ MoneyRange c v = true ∧ tx.GetValueOut ≤ v ∧
      ∃ st2, connectMarkLoop env tx pos fBlock fMiner fStrict tx.vin 0 (inputs, mapTestPool)
        = .done st2 := by
  unfold ConnectInputs at hret
  simp only [hcb, Bool.false_eq_true, if_false] at hret
  cases h1 : connectRangeLoop c inputs chain tx.vin with
  | fail n => simp [h1, Outcome.bind, Outcome.returnedTrue] at hret
  | thrown => simp [h1, Outcome.bind, Outcome.returnedTrue] at hret
  | done u =>
    simp only [h1, Outcome.bind] at hret
    cases h2 : GetValueIn c tx inputs with
    | none => simp [h2, Outcome.returnedTrue] at hret
    | some v =>
      simp only [h2] at hret
      by_cases h3 : MoneyRange c v = true
      swap
      · simp [h3, Outcome.returnedTrue] at hret
      by_cases h4 : tx.GetValueOut > v
      · simp [h3, h4, Outcome.returnedTrue] at hret
      simp only [h3, h4, Bool.not_true, Bool.false_eq_true, if_false] at hret
      cases h5 : connectMarkLoop env tx pos fBlock fMiner fStrict tx.vin 0 (inputs, mapTestPool) with
      | fail n => simp [h5, Outcome.returnedTrue] at hret
      | thrown => simp [h5, Outcome.returnedTrue] at hret
      | done st2 => exact ⟨rfl, v, rfl, h3, not_lt.mp h4, st2, rfl⟩

/-- C1: if `ConnectInputs` returns true on a non-coinbase transaction then, for every
input `i`: the input map holds the previous transaction, `prevout.n` is below both
its output count and the length of its `vSpent`; its `nRefHeight` is at most
`tx.nRefHeight`; the spent slot was null when the loop examined it (in the map as
marked by the earlier inputs) and null in the supplied map; and, if the previous
transaction is a coinbase, no node among `pindexBlock` and its ancestors at height
distance below `COINBASE_MATURITY` is the block that stores it (on a chain that
satisfies the invariant `height = prev.height + 1`, heights being `int`s ≥ 0).
The sum of the present values of the spent outputs at `tx.nRefHeight` is in the
money range and at least `GetValueOut()`, as exact rationals.  With a non-null
`posThisTx` no two inputs of `tx` spend the same outpoint. -/
theorem C1_ConnectInputs_true (c : Consts) (env : Env) (tx : CTransaction) (inputs : MapPrevTx)
    (mapTestPool : StdMap uint256 CTxIndex) (posThisTx : CDiskTxPos) (chain : List CBlockIndex)
    (fBlock fMiner fStrict : Bool) (hcb : tx.IsCoinBase = false)
    (hlinked : chainLinked chain = true)
    (hheights : ∀ p ∈ chain, 0 ≤ p.nHeight ∧ p.nHeight < 2 ^ 31)
    (hret : (ConnectInputs c env tx inputs mapTestPool posThisTx chain fBlock fMiner
      fStrict).returnedTrue = true) :
    (∀ i (hi : i < tx.vin.length), ∃ txindex txPrev,
      inputs.find tx.vin[i].prevout.hash = some (txindex, txPrev) ∧
      tx.vin[i].prevout.n < txPrev.vout.length ∧
      tx.vin[i].prevout.n < txindex.vSpent.length ∧
      txPrev.nRefHeight ≤ tx.nRefHeight ∧
      (∃ ti tp, (markInputs posThisTx (tx.vin.take i) inputs).find tx.vin[i].prevout.hash
          = some (ti, tp) ∧
        (ti.vSpent.getD tx.vin[i].prevout.n CDiskTxPos.null).IsNull = true) ∧
      (txindex.vSpent.getD tx.vin[i].prevout.n CDiskTxPos.null).IsNull = true ∧
      (txPrev.IsCoinBase = true → ∀ p ∈ chain,
        chainHeight chain - p.nHeight < c.COINBASE_MATURITY →
          ¬ (p.nBlockPos = txindex.pos.nBlockPos ∧ p.nFile = txindex.pos.nFile))) ∧
    (posThisTx.IsNull = false → (tx.vin.map (fun t => t.prevout)).Nodup) ∧
    GetValueIn c tx inputs = some ((tx.vin.map (inputValue c tx inputs)).sum) ∧
    MoneyRange c ((tx.vin.map (inputValue c tx inputs)).sum) = true ∧
    tx.GetValueOut ≤ (tx.vin.map (inputValue c tx inputs)).sum := by
  obtain ⟨hloop1, v, hv, hrange, hout, st2, hloop2⟩ :=
    ConnectInputs_true_inv c env tx inputs mapTestPool posThisTx chain fBlock fMiner fStrict hcb hret
  have hfirst := connectRangeLoop_done c inputs chain tx.vin hloop1
  have hvsum : v = (tx.vin.map (inputValue c tx inputs)).sum := by
    unfold GetValueIn at hv
    simp only [hcb, Bool.false_eq_true, if_false] at hv
    have := valueInLoop_some c tx inputs tx.vin 0 v hv
    simpa using this
  have hchain : ∀ p ∈ chain, 0 ≤ p.nHeight ∧ p.nHeight ≤ chainHeight chain := by
    cases chain with
    | nil => simp
    | cons a rest =>
      intro p hp
      refine ⟨(hheights p hp).1, ?_⟩
      rcases List.mem_cons.mp hp with hp | hp
      · subst hp
        exact le_refl _
      · exact le_of_lt (chainLinked_lt a rest hlinked p hp)
  have hH : chainHeight chain < 2 ^ 31 := by
    cases chain with
    | nil => simp [chainHeight]
    | cons a rest => exact (hheights a (List.mem_cons_self _ _)).2
  refine ⟨?_, ?_, hvsum ▸ hv, hvsum ▸ hrange, hvsum ▸ hout⟩
  · intro i hi
    have hmem : tx.vin[i] ∈ tx.vin := List.getElem_mem hi
    obtain ⟨txindex, txPrev, hfind, hn1, hn2, hmature⟩ := hfirst tx.vin[i] hmem
    have horig := connectMarkLoop_original env tx posThisTx fBlock fMiner fStrict tx.vin 0
      (inputs, mapTestPool) st2 hloop2 tx.vin[i] hmem txindex txPrev hfind
    refine ⟨txindex, txPrev, hfind, hn1, hn2, horig.1, ?_, horig.2, ?_⟩
    · exact connectMarkLoop_examined env tx posThisTx fBlock fMiner fStrict tx.vin 0
        (inputs, mapTestPool) st2 hloop2 i hi
    · intro hprevcb
      exact spendsImmature_false c (chainHeight chain) txindex.pos chain hlinked hchain hH
        (hmature hprevcb)
  · intro hpos
    apply connectMarkLoop_nodup env tx posThisTx fBlock fMiner fStrict hpos tx.vin 0
      (inputs, mapTestPool) st2 ?_ hloop2
    intro t ht txindex txPrev hf
    obtain ⟨ti, tp, hfind, _, hn2, _⟩ := hfirst t ht
    rw [hfind] at hf
    simp only [Option.some.injEq, Prod.mk.injEq] at hf
    rw [← hf.1]
    exact hn2

/-- Witness of C1: the sample transaction connects against the sample input map,
and its inputs are worth at least its outputs. -/
theorem C1_ConnectInputs_true_witness :
    (ConnectInputs sampleConsts sampleEnv sampleTx sampleInputs StdMap.empty ⟨1, 1, 1⟩
      sampleChain false false true).returnedTrue = true ∧
    sampleTx.GetValueOut ≤ (sampleTx.vin.map (inputValue sampleConsts sampleTx sampleInputs)).sum :=
  ⟨by decide!,
   (C1_ConnectInputs_true sampleConsts sampleEnv sampleTx sampleInputs StdMap.empty ⟨1, 1, 1⟩
      sampleChain false false true (by decide) (by decide) (by decide) (by decide!)).2.2.2.2⟩

/-! ## Sign of the present-value factor -/

theorem roundHalfEven_nonneg (y : ℚ) (h : 0 ≤ y) : 0 ≤ roundHalfEven y := by
  have hf : 0 ≤ Rat.floor y := Rat.le_floor.mpr (by simpa using h)
  unfold roundHalfEven
  simp only
  split
  · exact hf
  · split
    · omega
    · split
      · exact hf
      · omega

theorem mpfrRound_mant_nonneg (prec : Nat) (q : ℚ) (h : 0 ≤ q) : 0 ≤ (mpfrRound prec q).mant := by
  have key : ∀ E : Int,
      0 ≤ (if roundHalfEven (|q| * (2 : ℚ) ^ ((prec : Int) - 1 - E)) = 2 ^ prec
            then (((2 : Int) ^ (prec - 1), E + 1) : Int × Int)
            else (roundHalfEven (|q| * (2 : ℚ) ^ ((prec : Int) - 1 - E)), E)).1 := by
    intro E
    have hy : 0 ≤ |q| * (2 : ℚ) ^ ((prec : Int) - 1 - E) :=
      mul_nonneg (abs_nonneg q) (zpow_nonneg (by norm_num) _)
    by_cases hm : roundHalfEven (|q| * (2 : ℚ) ^ ((prec : Int) - 1 - E)) = 2 ^ prec
    · rw [if_pos hm]
      positivity
    · rw [if_neg hm]
      exact roundHalfEven_nonneg _ hy
  unfold mpfrRound
  by_cases h0 : q = 0
  · simp [h0]
  · simp only [h0, if_false, not_lt.mpr h]
    exact key _

theorem MpfrNum.toRat_nonneg (x : MpfrNum) (h : 0 ≤ x.mant) : 0 ≤ x.toRat := by
  unfold MpfrNum.toRat
  exact mul_nonneg (by exact_mod_cast h) (zpow_nonneg (by norm_num) _)

/-- The factor of `GetTimeAdjustedValue` is never negative. -/
theorem adjustmentFactor_nonneg (c : Consts) (d : Int) : 0 ≤ adjustmentFactor c d := by
  have h0 : 0 ≤ (mpfrRound 113 ((c.DEMURRAGE_RATE - 1 : Nat) : ℚ)).toRat :=
    MpfrNum.toRat_nonneg _ (mpfrRound_mant_nonneg _ _ (by positivity))
  have h1 : 0 ≤ (mpfrRound 113 ((mpfrRound 113 ((c.DEMURRAGE_RATE - 1 : Nat) : ℚ)).toRat /
      (c.DEMURRAGE_RATE : ℚ))).toRat :=
    MpfrNum.toRat_nonneg _ (mpfrRound_mant_nonneg _ _ (div_nonneg h0 (by positivity)))
  have h2 := mpfrRound_mant_nonneg 113 _ (zpow_nonneg h1 d)
  unfold adjustmentFactor
  simp only
  split
  · apply div_nonneg
    · have : (0 : Int) ≤ (mpfrRound 113 ((mpfrRound 113
          ((mpfrRound 113 ((c.DEMURRAGE_RATE - 1 : Nat) : ℚ)).toRat /
            (c.DEMURRAGE_RATE : ℚ))).toRat ^ d)).mant *
          2 ^ (mpfrRound 113 ((mpfrRound 113
          ((mpfrRound 113 ((c.DEMURRAGE_RATE - 1 : Nat) : ℚ)).toRat /
            (c.DEMURRAGE_RATE : ℚ))).toRat ^ d)).exp.toNat := mul_nonneg h2 (by positivity)
      exact_mod_cast this
    · norm_num
  · apply div_nonneg
    · exact_mod_cast h2
    · positivity

theorem GetTimeAdjustedValue_nonneg (c : Consts) (q : ℚ) (d : Int) (hq : 0 ≤ q) :
    0 ≤ GetTimeAdjustedValue c q d := by
  unfold GetTimeAdjustedValue
  split
  · exact hq
  · exact mul_nonneg (adjustmentFactor_nonneg c d) hq

/-! ## `ConnectBlock` -/

theorem CheckTransaction_ok_refheight (c : Consts) (env : Env) (tx : CTransaction)
    (h : (CheckTransaction c env tx).ok = true) : 0 ≤ tx.nRefHeight := by
  by_contra hn
  have hn2 : tx.nRefHeight < 0 := not_le.mp hn
  unfold CheckTransaction at h
  by_cases h1 : tx.vin.isEmpty = true
  · simp [h1] at h
  by_cases h2 : tx.vout.isEmpty = true
  · simp [h1, h2] at h
  by_cases h3 : env.GetSerializeSize tx > c.MAX_BLOCK_SIZE
  · simp [h1, h2, h3] at h
  simp [h1, h2, h3, hn2] at h

theorem checkTransactions_none (c : Consts) (env : Env) (l : List CTransaction)
    (h : checkTransactions c env l = none) : ∀ tx ∈ l, (CheckTransaction c env tx).ok = true := by
  induction l with
  | nil => simp
  | cons t rest ih =>
    unfold checkTransactions at h
    by_cases hok : (CheckTransaction c env t).ok = true
    · simp only [hok, Bool.not_true, Bool.false_eq_true, if_false] at h
      intro tx hmem
      rcases List.mem_cons.mp hmem with hmem | hmem
      · subst hmem
        exact hok
      · exact ih h tx hmem
    · simp [hok] at h

/-- What a true return of `CheckBlock` says about the transaction list. -/
theorem CheckBlock_ok_inv (c : Consts) (env : Env) (blk : CBlock) (fPOW fMerkle : Bool)
    (h : (CheckBlock c env blk fPOW fMerkle).ok = true) :
    ∃ vtx0 rest, blk.vtx = vtx0 :: rest ∧ vtx0.IsCoinBase = true ∧
      (∀ tx ∈ rest, tx.IsCoinBase = false) ∧
      ∀ tx ∈ blk.vtx, (CheckTransaction c env tx).ok = true := by
  unfold CheckBlock at h
  split at h
  · simp at h
  split at h
  · simp at h
  split at h
  · simp at h
  split at h
  · simp at h
  · rename_i vtx0 others hvtx
    split at h
    · simp at h
    rename_i hcb
    split at h
    · simp at h
    rename_i hothers
    split at h
    · simp at h
    · rename_i hall
      refine ⟨vtx0, others, hvtx, by simpa using hcb, ?_, ?_⟩
      · intro tx htx
        by_contra hc
        exact hothers (List.any_eq_true.mpr ⟨tx, htx, by simpa using hc⟩)
      · exact checkTransactions_none c env blk.vtx hall

/-- What one completed iteration of the loop of `ConnectBlock` did. -/
theorem connectTx_done_inv (c : Consts) (env : Env) (txdb : StdMap uint256 CTxIndex)
    (pindex : CBlockIndex) (ancestors : List CBlockIndex) (fJustCheck : Bool)
    (s1 s2 : BlockState) (tx : CTransaction)
    (h : connectTx c env txdb pindex ancestors fJustCheck s1 tx = .done s2) :
    (tx.IsCoinBase = true → s2.nFees = s1.nFees) ∧
    (tx.IsCoinBase = false →
      tx.nRefHeight ≤ pindex.nHeight ∧
      ∃ fetched qIn,
        FetchInputs env txdb s1.mapQueuedChanges true false tx StdMap.empty = some fetched ∧
        fetched.ok = true ∧
        GetValueIn c tx fetched.inputsRet = some qIn ∧
        s2.nFees = s1.nFees + GetTimeAdjustedValue c (qIn - tx.GetValueOut)
          (wrapInt32 (pindex.nHeight - tx.nRefHeight)) ∧
        (ConnectInputs c env tx fetched.inputsRet s1.mapQueuedChanges
          ⟨pindex.nFile, pindex.nBlockPos, s1.nTxPos⟩ (pindex :: ancestors) true false
          (fStrictP2SH pindex)).returnedTrue = true) := by
  unfold connectTx at h
  simp only at h
  split at h
  · simp at h
  split at h
  · simp at h
  by_cases hcb : tx.IsCoinBase = true
  · simp only [hcb, if_true, Outcome.done.injEq] at h
    refine ⟨fun _ => ?_, fun hf => absurd hcb (by simp [hf])⟩
    rw [← h]
  · have hcb2 : tx.IsCoinBase = false := by simpa using hcb
    simp only [hcb2, Bool.false_eq_true, if_false] at h
    refine ⟨fun ht => absurd ht (by simp [hcb2]), fun _ => ?_⟩
    cases hfetch : FetchInputs env txdb s1.mapQueuedChanges true false tx StdMap.empty with
    | none => simp [hfetch] at h
    | some fetched =>
      simp only [hfetch] at h
      by_cases hok : fetched.ok = true
      swap
      · simp [hok] at h
      simp only [hok, Bool.not_true, Bool.false_eq_true, if_false] at h
      split at h
      · simp at h
      rename_i nP2SH _
      split at h
      · simp at h
      by_cases href : tx.nRefHeight > pindex.nHeight
      · simp [href] at h
      simp only [href, if_false] at h
      cases hvin : GetValueIn c tx fetched.inputsRet with
      | none => simp [hvin] at h
      | some qIn =>
        simp only [hvin] at h
        cases hconn : ConnectInputs c env tx fetched.inputsRet s1.mapQueuedChanges
            ⟨pindex.nFile, pindex.nBlockPos, s1.nTxPos⟩ (pindex :: ancestors) true false
            (fStrictP2SH pindex) with
        | thrown => simp [hconn] at h
        | fail n => simp [hconn] at h
        | done q =>
          simp only [hconn, Outcome.done.injEq] at h
          refine ⟨not_lt.mp href, fetched, qIn, rfl, hok, hvin, ?_, ?_⟩
          · rw [← h]
          · rw [hconn]
            rfl

theorem connectLoop_append (c : Consts) (env : Env) (txdb : StdMap uint256 CTxIndex)
    (pindex : CBlockIndex) (ancestors : List CBlockIndex) (fJustCheck : Bool)
    (pre : List CTransaction) (tx : CTransaction) (post : List CTransaction)
    (s st : BlockState)
    (h : connectLoop c env txdb pindex ancestors fJustCheck (pre ++ tx :: post) s = .done st) :
    ∃ s1 s2, connectLoop c env txdb pindex ancestors fJustCheck pre s = .done s1 ∧
      connectTx c env txdb pindex ancestors fJustCheck s1 tx = .done s2 ∧
      connectLoop c env txdb pindex ancestors fJustCheck post s2 = .done st := by
  induction pre generalizing s with
  | nil =>
    simp only [List.nil_append, connectLoop] at h
    cases hstep : connectTx c env txdb pindex ancestors fJustCheck s tx with
    | done s2 =>
      rw [hstep] at h
      exact ⟨s, s2, rfl, hstep, h⟩
    | fail n => simp [hstep, Outcome.bind] at h
    | thrown => simp [hstep, Outcome.bind] at h
  | cons t rest ih =>
    simp only [List.cons_append, connectLoop] at h
    cases hstep : connectTx c env txdb pindex ancestors fJustCheck s t with
    | done s2 =>
      rw [hstep] at h
      obtain ⟨a, b, h1, h2, h3⟩ := ih s2 h
      refine ⟨a, b, ?_, h2, h3⟩
      simp only [connectLoop, hstep, Outcome.bind]
      exact h1
    | fail n => simp [hstep, Outcome.bind] at h
    | thrown => simp [hstep, Outcome.bind] at h

theorem connectTx_fees_nonneg (c : Consts) (env : Env) (txdb : StdMap uint256 CTxIndex)
    (pindex : CBlockIndex) (ancestors : List CBlockIndex) (fJustCheck : Bool)
    (s1 s2 : BlockState) (tx : CTransaction)
    (h : connectTx c env txdb pindex ancestors fJustCheck s1 tx = .done s2)
    (h0 : 0 ≤ s1.nFees) : 0 ≤ s2.nFees := by
  have hinv := connectTx_done_inv c env txdb pindex ancestors fJustCheck s1 s2 tx h
  by_cases hcb : tx.IsCoinBase = true
  · rw [hinv.1 hcb]
    exact h0
  · have hcb2 : tx.IsCoinBase = false := by simpa using hcb
    obtain ⟨_, fetched, qIn, _, _, hvin, hfees, hconn⟩ := hinv.2 hcb2
    obtain ⟨_, v, hv, _, hout, _⟩ := ConnectInputs_true_inv c env tx fetched.inputsRet
      s1.mapQueuedChanges _ _ true false _ hcb2 hconn
    rw [hvin] at hv
    simp only [Option.some.injEq] at hv
    rw [hfees]
    have : 0 ≤ GetTimeAdjustedValue c (qIn - tx.GetValueOut)
        (wrapInt32 (pindex.nHeight - tx.nRefHeight)) :=
      GetTimeAdjustedValue_nonneg c _ _ (by rw [hv]; linarith)
    linarith

theorem connectLoop_fees_nonneg (c : Consts) (env : Env) (txdb : StdMap uint256 CTxIndex)
    (pindex : CBlockIndex) (ancestors : List CBlockIndex) (fJustCheck : Bool)
    (vtx : List CTransaction) (s st : BlockState)
    (h : connectLoop c env txdb pindex ancestors fJustCheck vtx s = .done st)
    (h0 : 0 ≤ s.nFees) : 0 ≤ st.nFees := by
  induction vtx generalizing s with
  | nil =>
    simp only [connectLoop, Outcome.done.injEq] at h
    rw [← h]
    exact h0
  | cons t rest ih =>
    simp only [connectLoop] at h
    cases hstep : connectTx c env txdb pindex ancestors fJustCheck s t with
    | done s2 =>
      rw [hstep] at h
      exact ih s2 h (connectTx_fees_nonneg c env txdb pindex ancestors fJustCheck s s2 t hstep h0)
    | fail n => simp [hstep, Outcome.bind] at h
    | thrown => simp [hstep, Outcome.bind] at h

/-- What a completed run of the checks of `ConnectBlock` before the budget went through. -/
theorem connectChecks_done_inv (c : Consts) (env : Env) (txdb : StdMap uint256 CTxIndex)
    (blk : CBlock) (pindex : CBlockIndex) (ancestors : List CBlockIndex) (fJustCheck : Bool)
    (st : BlockState)
    (h : connectChecks c env txdb blk pindex ancestors fJustCheck = .done st) :
    (CheckBlock c env blk (!fJustCheck) (!fJustCheck)).ok = true ∧
    connectLoop c env txdb pindex ancestors fJustCheck blk.vtx
      (initBlockState env blk pindex fJustCheck) = .done st ∧
    ∃ vtx0 rest, blk.vtx = vtx0 :: rest ∧ vtx0.nRefHeight = pindex.nHeight ∧
      GetTimeAdjustedValue c vtx0.GetValueOut (wrapInt32 (pindex.nHeight - vtx0.nRefHeight)) ≤
        GetBlockValue c env pindex.nHeight st.nFees := by
  unfold connectChecks at h
  simp only at h
  by_cases hok : (CheckBlock c env blk (!fJustCheck) (!fJustCheck)).ok = true
  swap
  · simp [hok] at h
  simp only [hok, Bool.not_true, Bool.false_eq_true, if_false] at h
  cases hloop : connectLoop c env txdb pindex ancestors fJustCheck blk.vtx
      (initBlockState env blk pindex fJustCheck) with
  | fail n => simp [hloop, Outcome.bind] at h
  | thrown => simp [hloop, Outcome.bind] at h
  | done s =>
    simp only [hloop, Outcome.bind] at h
    cases hvtx : blk.vtx with
    | nil => simp [hvtx] at h
    | cons vtx0 rest =>
      simp only [hvtx] at h
      by_cases href : vtx0.nRefHeight ≠ pindex.nHeight
      · simp [href] at h
      simp only [href, if_false] at h
      split at h
      · simp at h
      · rename_i hle
        simp only [Outcome.done.injEq] at h
        subst h
        exact ⟨hok, rfl, vtx0, rest, rfl, by simpa using href, not_lt.mp hle⟩

/-- A true return of `ConnectBlock` passed the checks before the budget. -/
theorem ConnectBlock_true_inv (c : Consts) (env : Env) (txdb : StdMap uint256 CTxIndex)
    (blk : CBlock) (pindex : CBlockIndex) (ancestors : List CBlockIndex) (fJustCheck : Bool)
    (hret : (ConnectBlock c env txdb blk pindex ancestors fJustCheck).returnedTrue = true) :
    ∃ st, connectChecks c env txdb blk pindex ancestors fJustCheck = .done st := by
  unfold ConnectBlock at hret
  cases hc : connectChecks c env txdb blk pindex ancestors fJustCheck with
  | done st => exact ⟨st, rfl⟩
  | fail n => simp [hc, Outcome.bind, Outcome.returnedTrue] at hret
  | thrown => simp [hc, Outcome.bind, Outcome.returnedTrue] at hret

/-- C2: if `ConnectBlock` returns true for a block and an index node of height `H`
then the loop over the transactions ran to its end, with final fee total `F`, and:
`vtx[0]` is a coinbase with `nRefHeight = H`; every non-coinbase transaction has
`nRefHeight ≤ H`, its inputs (fetched against the changes queued by the
transactions before it) have a present value `qIn` that is the sum over its
inputs and is at least its `GetValueOut()`, and it adds
`GetTimeAdjustedValue(qIn - GetValueOut, H - nRefHeight)` to the fee total, which
starts at 0 and which a coinbase leaves unchanged; `F ≥ 0`; and the coinbase's
total output value is at most
`GetInitialDistributionAmount(H) + MPQ_MAX_MONEY/DEMURRAGE_RATE + F`.
(`H` is an `int`.) -/
theorem C2_ConnectBlock_true (c : Consts) (env : Env) (txdb : StdMap uint256 CTxIndex)
    (blk : CBlock) (pindex : CBlockIndex) (ancestors : List CBlockIndex) (fJustCheck : Bool)
    (hH : pindex.nHeight < 2 ^ 31)
    (hret : (ConnectBlock c env txdb blk pindex ancestors fJustCheck).returnedTrue = true) :
    ∃ st : BlockState,
      connectLoop c env txdb pindex ancestors fJustCheck blk.vtx
        (initBlockState env blk pindex fJustCheck) = .done st ∧
      (∃ vtx0 rest, blk.vtx = vtx0 :: rest ∧ vtx0.IsCoinBase = true ∧
        vtx0.nRefHeight = pindex.nHeight ∧
        vtx0.GetValueOut ≤ GetInitialDistributionAmount c env pindex.nHeight +
          c.MPQ_MAX_MONEY / (c.DEMURRAGE_RATE : ℚ) + st.nFees) ∧
      (initBlockState env blk pindex fJustCheck).nFees = 0 ∧
      0 ≤ st.nFees ∧
      ∀ pre tx post, blk.vtx = pre ++ tx :: post →
        ∃ s1 s2,
          connectLoop c env txdb pindex ancestors fJustCheck pre
            (initBlockState env blk pindex fJustCheck) = .done s1 ∧
          connectTx c env txdb pindex ancestors fJustCheck s1 tx = .done s2 ∧
          (tx.IsCoinBase = true → s2.nFees = s1.nFees) ∧
          (tx.IsCoinBase = false →
            tx.nRefHeight ≤ pindex.nHeight ∧
            ∃ fetched qIn,
              FetchInputs env txdb s1.mapQueuedChanges true false tx StdMap.empty
                = some fetched ∧
              fetched.ok = true ∧
              GetValueIn c tx fetched.inputsRet = some qIn ∧
              qIn = (tx.vin.map (inputValue c tx fetched.inputsRet)).sum ∧
              tx.GetValueOut ≤ qIn ∧
              s2.nFees = s1.nFees +
                GetTimeAdjustedValue c (qIn - tx.GetValueOut) (pindex.nHeight - tx.nRefHeight)) := by
  obtain ⟨st, hchecks⟩ := ConnectBlock_true_inv c env txdb blk pindex ancestors fJustCheck hret
  obtain ⟨hcheck, hloop, vtx0, rest, hvtx, href, hvalue⟩ :=
    connectChecks_done_inv c env txdb blk pindex ancestors fJustCheck st hchecks
  obtain ⟨w0, wrest, hw, hcb0, _, hall⟩ := CheckBlock_ok_inv c env blk _ _ hcheck
  have h00 : (initBlockState env blk pindex fJustCheck).nFees = 0 := rfl
  refine ⟨st, hloop, ⟨vtx0, rest, hvtx, ?_, href, ?_⟩, h00, ?_, ?_⟩
  · rw [hvtx] at hw
    simp only [List.cons.injEq] at hw
    rw [hw.1]
    exact hcb0
  · rw [href, sub_self, wrapInt32_zero] at hvalue
    simpa [GetTimeAdjustedValue, GetBlockValue, GetPerpetualSubsidyAmount] using hvalue
  · exact connectLoop_fees_nonneg c env txdb pindex ancestors fJustCheck blk.vtx _ st hloop
      (le_of_eq h00.symm)
  · intro pre tx post hsplit
    rw [hsplit] at hloop
    obtain ⟨s1, s2, h1, h2, _⟩ :=
      connectLoop_append c env txdb pindex ancestors fJustCheck pre tx post _ st hloop
    have hinv := connectTx_done_inv c env txdb pindex ancestors fJustCheck s1 s2 tx h2
    refine ⟨s1, s2, h1, h2, hinv.1, ?_⟩
    intro hcb
    obtain ⟨hle, fetched, qIn, hfetch, hok, hvin, hfees, hconn⟩ := hinv.2 hcb
    obtain ⟨_, v, hv, _, hout, _⟩ := ConnectInputs_true_inv c env tx fetched.inputsRet
      s1.mapQueuedChanges _ _ true false _ hcb hconn
    rw [hvin] at hv
    simp only [Option.some.injEq] at hv
    have hmem : tx ∈ blk.vtx := by
      rw [hsplit]
      simp
    have h0 : 0 ≤ tx.nRefHeight := CheckTransaction_ok_refheight c env tx (hall tx hmem)
    have hwrap : wrapInt32 (pindex.nHeight - tx.nRefHeight) = pindex.nHeight - tx.nRefHeight :=
      wrapInt32_of_range _ (by omega) (by omega)
    have hsum : qIn = (tx.vin.map (inputValue c tx fetched.inputsRet)).sum := by
      have hv2 := hvin
      unfold GetValueIn at hv2
      simp only [hcb, Bool.false_eq_true, if_false] at hv2
      simpa using valueInLoop_some c tx fetched.inputsRet tx.vin 0 qIn hv2
    refine ⟨hle, fetched, qIn, hfetch, hok, hvin, hsum, ?_, ?_⟩
    · rw [hv]
      exact hout
    · rw [hfees, hwrap]

/-- Witness of C2: the sample block, whose coinbase pays 49603174604 base units to
the destination mandated at height 3, connects. -/
theorem C2_ConnectBlock_true_witness :
    (ConnectBlock sampleConsts sampleBlockEnv sampleTxdb (sampleBlock (sampleCoinbase 49603174604 [0]))
      sampleIndex sampleChain.tail false).returnedTrue = true ∧
    ∃ st : BlockState,
      connectLoop sampleConsts sampleBlockEnv sampleTxdb sampleIndex sampleChain.tail false
        (sampleBlock (sampleCoinbase 49603174604 [0])).vtx
        (initBlockState sampleBlockEnv (sampleBlock (sampleCoinbase 49603174604 [0]))
          sampleIndex false) = .done st ∧
      0 ≤ st.nFees :=
  ⟨by decide!,
   (C2_ConnectBlock_true sampleConsts sampleBlockEnv sampleTxdb
      (sampleBlock (sampleCoinbase 49603174604 [0])) sampleIndex sampleChain.tail false
      (by decide) (by decide!)).imp (fun _ h => ⟨h.1, h.2.2.2.1⟩)⟩

/-! ## Budget enforcement in `ConnectBlock` -/

theorem ApplyBudget_empty (A : ℚ) (m : StdMap CTxDestination ℚ) :
    ApplyBudget A (0, []) m = some (m.filter (fun e => !decide (e.2 ≤ 0))) := by
  simp [ApplyBudget]

/-- Below `EQ_HEIGHT` the budget of a block is the single entry `TITHE_AMOUNT` for the
mandated destination, whatever the fees. -/
theorem blockBudget_entries (c : Consts) (env : Env) (h : Int) (nFees : ℚ) (h0 : 0 ≤ h)
    (h1 : h < c.EQ_HEIGHT) (hEQ : c.EQ_HEIGHT * 320 < 2 ^ 31) (hT : 0 < c.TITHE_AMOUNT)
    (hS : 0 ≤ c.INITIAL_SUBSIDY) :
    ∃ mapBudget, blockBudget c env h nFees = some mapBudget ∧
      mapBudget.entries = [(mandatedDestination c env h, c.TITHE_AMOUNT)] := by
  have hinit := ApplyBudget_initial c env h h0 h1 hEQ hT hS
  obtain ⟨m1, hm1, hent⟩ := Option.map_eq_some'.mp hinit
  have hk : ¬ c.TITHE_AMOUNT ≤ 0 := not_le.mpr hT
  refine ⟨(m1.filter (fun e => !decide (e.2 ≤ 0))).filter (fun e => !decide (e.2 ≤ 0)), ?_, ?_⟩
  · unfold blockBudget
    rw [hm1]
    simp only [Option.bind, GetPerpetualSubsidyBudget, GetTransactionFeeBudget, ApplyBudget_empty]
  · simp [StdMap.filter, hent, List.filter_cons, hk]

/-- A block whose outputs pay the mandated destination nothing, or less than
`TITHE_AMOUNT`, fails `VerifyBudget` against the budget of its height. -/
theorem VerifyBudget_unpaid (c : Consts) (env : Env) (mapBudget : StdMap CTxDestination ℚ)
    (vtx : List CTransaction) (h : Int) (d : CTxDestination) (amount : ℚ)
    (hent : mapBudget.entries = [(d, amount)]) (hpos : 0 < amount)
    (hunpaid : (¬ ∃ tx ∈ vtx, ∃ o ∈ tx.vout, env.ExtractDestination o.scriptPubKey = some d) ∨
      (paymentsTo c env vtx h d).sum < amount) :
    VerifyBudget c env mapBudget vtx h = false := by
  have hk : ¬ amount ≤ 0 := not_le.mpr hpos
  unfold VerifyBudget
  simp only [hent, List.all_cons, List.all_nil, Bool.and_true, hk, if_false, find_mapActualsOf]
  by_cases hp : paymentsTo c env vtx h d = []
  · simp [hp]
  · rcases hunpaid with hno | hless
    · exact absurd ((paymentsTo_ne_nil_iff c env vtx h d).mp hp) hno
    · simp [hp, hless]

/-- C10 (as stated) fails: the sample block at height 3 whose coinbase pays a
destination other than the mandated one passes every check before the budget, and
`ConnectBlock` returns false with DoS score 0, not 100. -/
theorem C10_budget_dos_counterexample :
    (connectChecks sampleConsts sampleBlockEnv sampleTxdb
      (sampleBlock (sampleCoinbase 49603174604 [1])) sampleIndex sampleChain.tail
      false).returnedTrue = true ∧
    (ConnectBlock sampleConsts sampleBlockEnv sampleTxdb
      (sampleBlock (sampleCoinbase 49603174604 [1])) sampleIndex sampleChain.tail
      false).failedWith = some 0 := by
  decide!

/-- C10 (amended): for a block connected at a height `0 ≤ h < EQ_HEIGHT` in which no
output pays the mandated initial-distribution destination, or the outputs paying
it are worth less than `TITHE_AMOUNT` at height `h`, `ConnectBlock` does not return
true; when the block passes every check before the budget, `ConnectBlock` returns
false at the budget check, and that check sets no DoS score. -/
theorem C10_budget_rejection (c : Consts) (env : Env) (txdb : StdMap uint256 CTxIndex)
    (blk : CBlock) (pindex : CBlockIndex) (ancestors : List CBlockIndex) (fJustCheck : Bool)
    (h0 : 0 ≤ pindex.nHeight) (h1 : pindex.nHeight < c.EQ_HEIGHT)
    (hEQ : c.EQ_HEIGHT * 320 < 2 ^ 31) (hT : 0 < c.TITHE_AMOUNT) (hS : 0 ≤ c.INITIAL_SUBSIDY)
    (hunpaid :
      (¬ ∃ tx ∈ blk.vtx, ∃ o ∈ tx.vout,
        env.ExtractDestination o.scriptPubKey = some (mandatedDestination c env pindex.nHeight)) ∨
      (paymentsTo c env blk.vtx pindex.nHeight (mandatedDestination c env pindex.nHeight)).sum
        < c.TITHE_AMOUNT) :
    (ConnectBlock c env txdb blk pindex ancestors fJustCheck).returnedTrue = false ∧
    ∀ st, connectChecks c env txdb blk pindex ancestors fJustCheck = .done st →
      ConnectBlock c env txdb blk pindex ancestors fJustCheck = .fail 0 := by
  have hbudget : ∀ st, connectChecks c env txdb blk pindex ancestors fJustCheck = .done st →
      ConnectBlock c env txdb blk pindex ancestors fJustCheck = .fail 0 := by
    intro st hst
    obtain ⟨mapBudget, hmb, hent⟩ :=
      blockBudget_entries c env pindex.nHeight st.nFees h0 h1 hEQ hT hS
    have hv := VerifyBudget_unpaid c env mapBudget blk.vtx pindex.nHeight _ _ hent hT hunpaid
    unfold ConnectBlock
    simp [hst, Outcome.bind, hmb, hv]
  refine ⟨?_, hbudget⟩
  cases hc : connectChecks c env txdb blk pindex ancestors fJustCheck with
  | done st => rw [hbudget st hc]; rfl
  | fail n => simp [ConnectBlock, hc, Outcome.bind, Outcome.returnedTrue]
  | thrown => simp [ConnectBlock, hc, Outcome.bind, Outcome.returnedTrue]

/-- Witness of C10 (amended): the sample block whose coinbase pays another destination. -/
theorem C10_budget_rejection_witness :
    (ConnectBlock sampleConsts sampleBlockEnv sampleTxdb
      (sampleBlock (sampleCoinbase 49603174604 [1])) sampleIndex sampleChain.tail
      false).returnedTrue = false :=
  (C10_budget_rejection sampleConsts sampleBlockEnv sampleTxdb
    (sampleBlock (sampleCoinbase 49603174604 [1])) sampleIndex sampleChain.tail false
    (by decide) (by decide) (by decide) (by decide!) (by decide!)
    (Or.inl (by decide!))).1

/-! ## The memory pool -/

namespace StdMap

variable {K V : Type} [DecidableEq K]

theorem find_erase_self (m : StdMap K V) (k : K) : (m.erase k).find k = none := by
  unfold erase
  rw [find_filter]
  cases m.find k <;> simp

theorem find_erase_ne (m : StdMap K V) (k k2 : K) (hne : k2 ≠ k) :
    (m.erase k).find k2 = m.find k2 := by
  unfold erase
  rw [find_filter]
  cases m.find k2 <;> simp [hne]

theorem count_eq_false_iff (m : StdMap K V) (k : K) : m.count k = false ↔ m.find k = none := by
  unfold count
  cases m.find k <;> simp

end StdMap

theorem find_addNextLoop_other (hash : uint256) (o : COutPoint) (ins : List CTxIn) (i : Nat)
    (m : StdMap COutPoint (uint256 × Nat)) (ho : ∀ txin ∈ ins, txin.prevout ≠ o) :
    (addNextLoop hash ins i m).find o = m.find o := by
  induction ins generalizing i m with
  | nil => rfl
  | cons txin rest ih =>
    unfold addNextLoop
    rw [ih _ _ (fun t ht => ho t (List.mem_cons_of_mem _ ht))]
    exact StdMap.find_set_ne _ _ _ _ (fun h => ho txin (List.mem_cons_self _ _) h.symm)

theorem find_addNextLoop_input (hash : uint256) (ins : List CTxIn) (i : Nat)
    (m : StdMap COutPoint (uint256 × Nat))
    (hnd : (ins.map (fun t => t.prevout)).Nodup) (j : Nat) (txin : CTxIn)
    (hj : ins[j]? = some txin) :
    (addNextLoop hash ins i m).find txin.prevout = some (hash, i + j) := by
  induction ins generalizing i m j with
  | nil => simp at hj
  | cons t rest ih =>
    rw [List.map_cons, List.nodup_cons] at hnd
    unfold addNextLoop
    cases j with
    | zero =>
      simp only [List.getElem?_cons_zero, Option.some.injEq] at hj
      subst hj
      rw [find_addNextLoop_other]
      · rw [StdMap.find_set_self]; rfl
      · intro t2 ht2 heq
        exact hnd.1 (heq ▸ List.mem_map_of_mem (fun t => t.prevout) ht2)
    | succ j =>
      simp only [List.getElem?_cons_succ] at hj
      rw [ih (i + 1) _ hnd.2 j hj]
      congr 2
      omega

theorem find_foldl_erase (o : COutPoint) (ins : List CTxIn)
    (m : StdMap COutPoint (uint256 × Nat)) :
    (ins.foldl (fun m txin => m.erase txin.prevout) m).find o =
      if o ∈ ins.map (fun t => t.prevout) then none else m.find o := by
  induction ins generalizing m with
  | nil => simp
  | cons t rest ih =>
    rw [List.foldl_cons, ih]
    by_cases h1 : o ∈ rest.map (fun t => t.prevout)
    · simp [h1]
    · by_cases h2 : o = t.prevout
      · subst h2
        simp [StdMap.find_erase_self]
      · have h3 : o ∉ (t :: rest).map (fun t => t.prevout) := by
          simp only [List.map_cons, List.mem_cons, not_or]
          exact ⟨h2, h1⟩
        rw [if_neg h1, if_neg h3, StdMap.find_erase_ne _ _ _ h2]

/-- A transaction that passes `CheckTransaction` has pairwise distinct outpoints. -/
theorem CheckTransaction_ok_inputs (c : Consts) (env : Env) (tx : CTransaction)
    (h : (CheckTransaction c env tx).ok = true) :
    (tx.vin.map (fun t => t.prevout)).Nodup := by
  have key : checkInOutPoints tx.vin [] = true := by
    by_contra hn
    unfold CheckTransaction at h
    by_cases h1 : tx.vin.isEmpty = true
    · simp [h1] at h
    by_cases h2 : tx.vout.isEmpty = true
    · simp [h1, h2] at h
    by_cases h3 : env.GetSerializeSize tx > c.MAX_BLOCK_SIZE
    · simp [h1, h2, h3] at h
    by_cases h4 : tx.nRefHeight < 0
    · simp [h1, h2, h3, h4] at h
    by_cases h5 : checkValueOut c tx.vout 0 = true
    · simp [h1, h2, h3, h4, h5, hn] at h
    · simp [h1, h2, h3, h4, h5] at h
  exact ((checkInOutPoints_iff tx.vin []).mp key).1

/-- The verdict of `CheckTransaction` depends on the environment only through the
serialised size. -/
theorem CheckTransaction_congr (c : Consts) (env env2 : Env) (tx : CTransaction)
    (h : env2.GetSerializeSize = env.GetSerializeSize) :
    CheckTransaction c env2 tx = CheckTransaction c env tx := by
  unfold CheckTransaction
  rw [h]

/-- Every way `accept` ends: with true, after all its checks, having stored the
transaction; or otherwise, with the pool it was called on. -/
theorem accept_cases (c : Consts) (env : Env) (pol : Policy) (txdb : StdMap uint256 CTxIndex)
    (pindexBest : List CBlockIndex) (pool : CTxMemPool) (tx : CTransaction)
    (fCheckInputs fRateLimited : Bool) :
    ((pool.accept c env pol txdb pindexBest tx fCheckInputs fRateLimited).result = .done () ∧
      (CheckTransaction c env tx).ok = true ∧
      tx.nRefHeight ≤ wrapInt32 (env.nBestHeight + 20) ∧
      tx.IsCoinBase = false ∧
      (tx.nLockTime : Int) ≤ 2 ^ 31 - 1 ∧
      pool.mapTx.find (env.GetHash tx) = none ∧
      (∀ txin ∈ tx.vin, pool.mapNextTx.find txin.prevout = none) ∧
      (pool.accept c env pol txdb pindexBest tx fCheckInputs fRateLimited).pool =
        pool.addUnchecked (env.GetHash tx) tx) ∨
    ((pool.accept c env pol txdb pindexBest tx fCheckInputs fRateLimited).result ≠ .done () ∧
      (pool.accept c env pol txdb pindexBest tx fCheckInputs fRateLimited).pool = pool) := by
  generalize hr : pool.accept c env pol txdb pindexBest tx fCheckInputs fRateLimited = r
  unfold CTxMemPool.accept at hr
  dsimp only at hr
  by_cases h1 : (!(CheckTransaction c env tx).ok) = true
  · rw [if_pos h1] at hr; subst hr; right; exact ⟨by simp, rfl⟩
  rw [if_neg h1] at hr
  by_cases h2 : tx.nRefHeight > wrapInt32 (env.nBestHeight + 20)
  · rw [if_pos h2] at hr; subst hr; right; exact ⟨by simp, rfl⟩
  rw [if_neg h2] at hr
  by_cases h3 : tx.IsCoinBase = true
  · rw [if_pos h3] at hr; subst hr; right; exact ⟨by simp, rfl⟩
  rw [if_neg h3] at hr
  by_cases h4 : (tx.nLockTime : Int) > 2 ^ 31 - 1
  · rw [if_pos h4] at hr; subst hr; right; exact ⟨by simp, rfl⟩
  rw [if_neg h4] at hr
  by_cases h5 : (!env.fTestNet && !tx.IsStandard pol) = true
  · rw [if_pos h5] at hr; subst hr; right; exact ⟨by simp, rfl⟩
  rw [if_neg h5] at hr
  by_cases h6 : pool.mapTx.count (env.GetHash tx) = true
  · rw [if_pos h6] at hr; subst hr; right; exact ⟨by simp, rfl⟩
  rw [if_neg h6] at hr
  by_cases h7 : (fCheckInputs && txdb.count (env.GetHash tx)) = true
  · rw [if_pos h7] at hr; subst hr; right; exact ⟨by simp, rfl⟩
  rw [if_neg h7] at hr
  by_cases h8 : tx.vin.any (fun txin => pool.mapNextTx.count txin.prevout) = true
  · rw [if_pos h8] at hr; subst hr; right; exact ⟨by simp, rfl⟩
  rw [if_neg h8] at hr
  have h1b : (CheckTransaction c env tx).ok = true := by simpa using h1
  have h6b : pool.mapTx.find (env.GetHash tx) = none :=
    (StdMap.count_eq_false_iff _ _).mp (by simpa using h6)
  have h8b : ∀ txin ∈ tx.vin, pool.mapNextTx.find txin.prevout = none := by
    intro txin hin
    apply (StdMap.count_eq_false_iff _ _).mp
    by_contra hn
    exact h8 (List.any_eq_true.mpr ⟨txin, hin, by simpa using hn⟩)
  have h3b : tx.IsCoinBase = false := by simpa using h3
  split at hr
  · subst hr; right; exact ⟨by simp, rfl⟩
  · subst hr; right; exact ⟨by simp, rfl⟩
  · subst hr; left
    exact ⟨rfl, h1b, not_lt.mp h2, h3b, not_lt.mp h4, h6b, h8b, rfl⟩

/-- C13 (`CTxMemPool::accept`, `addUnchecked`). When `accept` returns true the
transaction passes `CheckTransaction`, its reference height is at most
`nBestHeight + 20`, it is not a coinbase, its lock time is at most `2^31 - 1`, its
hash was not a key of `mapTx` and none of its outpoints a key of `mapNextTx`;
afterwards `mapTx` maps the hash to the transaction and `mapNextTx` maps the
outpoint of input `i` to (hash, `i`), all other entries of both maps being as
before.  When `accept` ends in any other way the pool is unchanged.  `nBestHeight
+ 20` is taken to be inside the range of `int`. -/
theorem C13_accept (c : Consts) (env : Env) (pol : Policy) (txdb : StdMap uint256 CTxIndex)
    (pindexBest : List CBlockIndex) (pool : CTxMemPool) (tx : CTransaction)
    (fCheckInputs fRateLimited : Bool)
    (hbest : 0 ≤ env.nBestHeight + 20 ∧ env.nBestHeight + 20 < 2 ^ 31) :
    ((pool.accept c env pol txdb pindexBest tx fCheckInputs fRateLimited).result = .done () →
      (CheckTransaction c env tx).ok = true ∧
      tx.nRefHeight ≤ env.nBestHeight + 20 ∧
      tx.IsCoinBase = false ∧
      tx.nLockTime ≤ 2 ^ 31 - 1 ∧
      pool.mapTx.find (env.GetHash tx) = none ∧
      (∀ txin ∈ tx.vin, pool.mapNextTx.find txin.prevout = none) ∧
      (pool.accept c env pol txdb pindexBest tx fCheckInputs fRateLimited).pool.mapTx.find
        (env.GetHash tx) = some tx ∧
      (∀ h, h ≠ env.GetHash tx →
        (pool.accept c env pol txdb pindexBest tx fCheckInputs fRateLimited).pool.mapTx.find h =
          pool.mapTx.find h) ∧
      (∀ i txin, tx.vin[i]? = some txin →
        (pool.accept c env pol txdb pindexBest tx fCheckInputs
          fRateLimited).pool.mapNextTx.find txin.prevout = some (env.GetHash tx, i)) ∧
      (∀ o, (∀ txin ∈ tx.vin, txin.prevout ≠ o) →
        (pool.accept c env pol txdb pindexBest tx fCheckInputs
          fRateLimited).pool.mapNextTx.find o = pool.mapNextTx.find o)) ∧
    ((pool.accept c env pol txdb pindexBest tx fCheckInputs fRateLimited).result ≠ .done () →
      (pool.accept c env pol txdb pindexBest tx fCheckInputs fRateLimited).pool.mapTx =
          pool.mapTx ∧
        (pool.accept c env pol txdb pindexBest tx fCheckInputs fRateLimited).pool.mapNextTx =
          pool.mapNextTx) := by
  have hw : wrapInt32 (env.nBestHeight + 20) = env.nBestHeight + 20 :=
    wrapInt32_of_range _ hbest.1 hbest.2
  rcases accept_cases c env pol txdb pindexBest pool tx fCheckInputs fRateLimited with
    ⟨hres, hchk, href, hcb, hlock, hfresh, hfree, hpool⟩ | ⟨hres, hpool⟩
  · refine ⟨fun _ => ?_, fun hn => absurd hres hn⟩
    rw [hpool]
    rw [hw] at href
    refine ⟨hchk, href, hcb, ?_, hfresh, hfree, ?_, ?_, ?_, ?_⟩
    · have : (tx.nLockTime : Int) ≤ ((2 ^ 31 - 1 : Nat) : Int) := by
        simpa using hlock
      exact_mod_cast this
    · exact StdMap.find_set_self _ _ _
    · intro h hne
      exact StdMap.find_set_ne _ _ _ _ hne
    · intro i txin hi
      have := find_addNextLoop_input (env.GetHash tx) tx.vin 0 pool.mapNextTx
        (CheckTransaction_ok_inputs c env tx hchk) i txin hi
      simpa [CTxMemPool.addUnchecked] using this
    · intro o ho
      exact find_addNextLoop_other (env.GetHash tx) o tx.vin 0 pool.mapNextTx ho
  · refine ⟨fun h => absurd h hres, fun _ => ?_⟩
    rw [hpool]
    exact ⟨rfl, rfl⟩

/-- Witness of C13: the sample transaction is accepted into an empty pool with its
inputs checked, and is then stored under its hash with its outpoint mapped to it. -/
theorem C13_accept_witness :
    (0 ≤ sampleBlockEnv.nBestHeight + 20 ∧ sampleBlockEnv.nBestHeight + 20 < 2 ^ 31) ∧
    (emptyPool.accept sampleConsts sampleBlockEnv samplePolicy sampleTxdb sampleChain sampleTx
      true false).result = .done () ∧
    (emptyPool.accept sampleConsts sampleBlockEnv samplePolicy sampleTxdb sampleChain sampleTx
      true false).pool.mapTx.find (sampleBlockEnv.GetHash sampleTx) = some sampleTx ∧
    (emptyPool.accept sampleConsts sampleBlockEnv samplePolicy sampleTxdb sampleChain sampleTx
      true false).pool.mapNextTx.find ⟨7, 0⟩ = some (sampleBlockEnv.GetHash sampleTx, 0) :=
  have hb : 0 ≤ sampleBlockEnv.nBestHeight + 20 ∧ sampleBlockEnv.nBestHeight + 20 < 2 ^ 31 := by
    decide
  have hd : (emptyPool.accept sampleConsts sampleBlockEnv samplePolicy sampleTxdb sampleChain
      sampleTx true false).result = .done () := by decide!
  have h := (C13_accept sampleConsts sampleBlockEnv samplePolicy sampleTxdb sampleChain
    emptyPool sampleTx true false hb).1 hd
  ⟨hb, hd, h.2.2.2.2.2.2.1, h.2.2.2.2.2.2.2.2.1 0 ⟨⟨7, 0⟩, [1, 2, 3], 0⟩ rfl⟩

/-- C12 (`CTxMemPool::accept`, the conflict check). In a pool that stores `X`
and maps the outpoint of input `i` of `X` to the in-point (`X`, `i`), `accept` of
any other transaction `Y` with an input spending that outpoint returns false and
leaves `mapTx` and `mapNextTx` as they were: `X` is still stored and the outpoint
still maps to (`X`, `i`). -/
theorem C12_conflict_rejected (c : Consts) (env : Env) (pol : Policy)
    (txdb : StdMap uint256 CTxIndex) (pindexBest : List CBlockIndex) (pool : CTxMemPool)
    (X Y : CTransaction) (i : Nat) (txinX : CTxIn) (fCheckInputs fRateLimited : Bool)
    (hX : pool.mapTx.find (env.GetHash X) = some X)
    (_hXi : X.vin[i]? = some txinX)
    (hnext : pool.mapNextTx.find txinX.prevout = some (env.GetHash X, i))
    (hY : ∃ txin ∈ Y.vin, txin.prevout = txinX.prevout)
    (_hne : Y ≠ X) :
    (∃ n, (pool.accept c env pol txdb pindexBest Y fCheckInputs fRateLimited).result =
      .fail n) ∧
    (pool.accept c env pol txdb pindexBest Y fCheckInputs fRateLimited).pool.mapTx =
      pool.mapTx ∧
    (pool.accept c env pol txdb pindexBest Y fCheckInputs fRateLimited).pool.mapNextTx =
      pool.mapNextTx ∧
    (pool.accept c env pol txdb pindexBest Y fCheckInputs fRateLimited).pool.mapTx.find
      (env.GetHash X) = some X ∧
    (pool.accept c env pol txdb pindexBest Y fCheckInputs fRateLimited).pool.mapNextTx.find
      txinX.prevout = some (env.GetHash X, i) := by
  have h8 : Y.vin.any (fun txin => pool.mapNextTx.count txin.prevout) = true := by
    obtain ⟨txin, hin, heq⟩ := hY
    refine List.any_eq_true.mpr ⟨txin, hin, ?_⟩
    unfold StdMap.count
    rw [heq, hnext]
    rfl
  have key : (∃ n, (pool.accept c env pol txdb pindexBest Y fCheckInputs fRateLimited).result =
        .fail n) ∧
      (pool.accept c env pol txdb pindexBest Y fCheckInputs fRateLimited).pool = pool := by
    generalize hr : pool.accept c env pol txdb pindexBest Y fCheckInputs fRateLimited = r
    unfold CTxMemPool.accept at hr
    dsimp only at hr
    by_cases h1 : (!(CheckTransaction c env Y).ok) = true
    · rw [if_pos h1] at hr; subst hr; exact ⟨⟨_, rfl⟩, rfl⟩
    rw [if_neg h1] at hr
    by_cases h2 : Y.nRefHeight > wrapInt32 (env.nBestHeight + 20)
    · rw [if_pos h2] at hr; subst hr; exact ⟨⟨_, rfl⟩, rfl⟩
    rw [if_neg h2] at hr
    by_cases h3 : Y.IsCoinBase = true
    · rw [if_pos h3] at hr; subst hr; exact ⟨⟨_, rfl⟩, rfl⟩
    rw [if_neg h3] at hr
    by_cases h4 : (Y.nLockTime : Int) > 2 ^ 31 - 1
    · rw [if_pos h4] at hr; subst hr; exact ⟨⟨_, rfl⟩, rfl⟩
    rw [if_neg h4] at hr
    by_cases h5 : (!env.fTestNet && !Y.IsStandard pol) = true
    · rw [if_pos h5] at hr; subst hr; exact ⟨⟨_, rfl⟩, rfl⟩
    rw [if_neg h5] at hr
    by_cases h6 : pool.mapTx.count (env.GetHash Y) = true
    · rw [if_pos h6] at hr; subst hr; exact ⟨⟨_, rfl⟩, rfl⟩
    rw [if_neg h6] at hr
    by_cases h7 : (fCheckInputs && txdb.count (env.GetHash Y)) = true
    · rw [if_pos h7] at hr; subst hr; exact ⟨⟨_, rfl⟩, rfl⟩
    rw [if_neg h7, if_pos h8] at hr
    subst hr
    exact ⟨⟨_, rfl⟩, rfl⟩
  obtain ⟨hfail, hpool⟩ := key
  rw [hpool]
  exact ⟨hfail, rfl, rfl, hX, hnext⟩

/-- Witness of C12: with the sample transaction in the pool, a rival that spends
the same outpoint is refused and the pool keeps the sample transaction. -/
theorem C12_conflict_rejected_witness :
    ((emptyPool.addUnchecked 2 sampleTx).accept sampleConsts sampleBlockEnv samplePolicy
        sampleTxdb sampleChain sampleRival true false).result = .fail 0 ∧
    ((emptyPool.addUnchecked 2 sampleTx).accept sampleConsts sampleBlockEnv samplePolicy
        sampleTxdb sampleChain sampleRival true false).pool.mapTx.find 2 = some sampleTx ∧
    ((emptyPool.addUnchecked 2 sampleTx).accept sampleConsts sampleBlockEnv samplePolicy
        sampleTxdb sampleChain sampleRival true false).pool.mapNextTx.find ⟨7, 0⟩ =
      some (2, 0) :=
  have h := C12_conflict_rejected sampleConsts sampleBlockEnv samplePolicy sampleTxdb sampleChain
    (emptyPool.addUnchecked 2 sampleTx) sampleTx sampleRival 0 ⟨⟨7, 0⟩, [1, 2, 3], 0⟩ true false
    (by decide) (by decide) (by decide) ⟨⟨⟨7, 0⟩, [4], 0⟩, by decide, rfl⟩ (by decide)
  ⟨by decide!, h.2.2.2.1, h.2.2.2.2⟩

/-- C11 (`CTxMemPool::accept`, `remove`, `clear`). Every pool reachable from an
empty one satisfies the invariant: each stored transaction passes
`CheckTransaction`, the outpoint of input `i` of a stored transaction maps to the
in-point (transaction, `i`), and `mapNextTx` has no other entries.  The hash is
taken to identify the transaction (`GetHash` injective). -/
theorem C11_pool_invariant (c : Consts) (env : Env) (pol : Policy) (pool : CTxMemPool)
    (hinj : Function.Injective env.GetHash) (hreach : PoolReachable c env pol pool) :
    PoolInvariant c env pool := by
  induction hreach with
  | empty n =>
    refine ⟨?_, ?_, ?_⟩
    · intro h tx hf
      rw [StdMap.find_empty] at hf
      exact absurd hf (by simp)
    · intro h tx hf
      rw [StdMap.find_empty] at hf
      exact absurd hf (by simp)
    · intro o h i hf
      rw [StdMap.find_empty] at hf
      exact absurd hf (by simp)
  | accept pool env2 txdb pindexBest tx fCheckInputs fRateLimited hsame _ ih =>
    obtain ⟨ih1, ih2, ih3⟩ := ih
    rcases accept_cases c env2 pol txdb pindexBest pool tx fCheckInputs fRateLimited with
      ⟨_, hchk, _, _, _, hfresh, hfree, hpool⟩ | ⟨_, hpool⟩
    swap
    · rw [hpool]
      exact ⟨ih1, ih2, ih3⟩
    rw [hpool]
    rw [hsame.1] at hfresh
    rw [CheckTransaction_congr c env env2 tx hsame.2] at hchk
    rw [hsame.1]
    have hnd := CheckTransaction_ok_inputs c env tx hchk
    refine ⟨?_, ?_, ?_⟩
    · intro h t hf
      by_cases hh : h = env.GetHash tx
      · subst hh
        simp only [CTxMemPool.addUnchecked, StdMap.find_set_self, Option.some.injEq] at hf
        subst hf
        exact ⟨rfl, hchk⟩
      · simp only [CTxMemPool.addUnchecked] at hf
        rw [StdMap.find_set_ne _ _ _ _ hh] at hf
        exact ih1 h t hf
    · intro h t hf i txin hi
      by_cases hh : h = env.GetHash tx
      · subst hh
        simp only [CTxMemPool.addUnchecked, StdMap.find_set_self, Option.some.injEq] at hf
        subst hf
        have := find_addNextLoop_input (env.GetHash tx) tx.vin 0 pool.mapNextTx hnd i txin hi
        simpa [CTxMemPool.addUnchecked] using this
      · simp only [CTxMemPool.addUnchecked] at hf ⊢
        rw [StdMap.find_set_ne _ _ _ _ hh] at hf
        have hold := ih2 h t hf i txin hi
        rw [find_addNextLoop_other]
        · exact hold
        · intro txin2 hin2 heq
          have := hfree txin2 hin2
          rw [heq, hold] at this
          exact absurd this (by simp)
    · intro o h i hf
      simp only [CTxMemPool.addUnchecked] at hf ⊢
      by_cases ho : ∃ txin ∈ tx.vin, txin.prevout = o
      · obtain ⟨txin, hin, heq⟩ := ho
        obtain ⟨j, hj⟩ := List.getElem?_of_mem hin
        have := find_addNextLoop_input (env.GetHash tx) tx.vin 0 pool.mapNextTx hnd j txin hj
        rw [heq, hf] at this
        simp only [Option.some.injEq, Prod.mk.injEq, zero_add] at this
        obtain ⟨h1, h2⟩ := this
        subst h1 h2
        exact ⟨tx, txin, StdMap.find_set_self _ _ _, hj, heq⟩
      · have ho2 : ∀ txin ∈ tx.vin, txin.prevout ≠ o := fun txin hin heq => ho ⟨txin, hin, heq⟩
        rw [find_addNextLoop_other _ _ _ _ _ ho2] at hf
        obtain ⟨t, txin, ht, hi, heq⟩ := ih3 o h i hf
        have hh : h ≠ env.GetHash tx := by
          intro hh
          rw [hh, hfresh] at ht
          exact absurd ht (by simp)
        exact ⟨t, txin, by rw [StdMap.find_set_ne _ _ _ _ hh]; exact ht, hi, heq⟩
  | remove pool tx _ ih =>
    obtain ⟨ih1, ih2, ih3⟩ := ih
    unfold CTxMemPool.remove
    dsimp only
    by_cases hc : pool.mapTx.count (env.GetHash tx) = true
    swap
    · rw [if_neg hc]
      exact ⟨ih1, ih2, ih3⟩
    rw [if_pos hc]
    have hstored : pool.mapTx.find (env.GetHash tx) = some tx := by
      unfold StdMap.count at hc
      cases hf : pool.mapTx.find (env.GetHash tx) with
      | none => rw [hf] at hc; exact absurd hc (by simp)
      | some t =>
        have := (ih1 _ t hf).1
        rw [hinj this]
    refine ⟨?_, ?_, ?_⟩
    · intro h t hf
      by_cases hh : h = env.GetHash tx
      · subst hh
        rw [StdMap.find_erase_self] at hf
        exact absurd hf (by simp)
      · rw [StdMap.find_erase_ne _ _ _ hh] at hf
        exact ih1 h t hf
    · intro h t hf i txin hi
      by_cases hh : h = env.GetHash tx
      · subst hh
        rw [StdMap.find_erase_self] at hf
        exact absurd hf (by simp)
      · rw [StdMap.find_erase_ne _ _ _ hh] at hf
        have hold := ih2 h t hf i txin hi
        rw [find_foldl_erase, if_neg]
        · exact hold
        · intro hmem
          obtain ⟨txin2, hin2, heq⟩ := List.mem_map.mp hmem
          obtain ⟨j, hj⟩ := List.getElem?_of_mem hin2
          have h2 := ih2 _ tx hstored j txin2 hj
          rw [heq, hold] at h2
          simp only [Option.some.injEq, Prod.mk.injEq] at h2
          exact hh h2.1
    · intro o h i hf
      rw [find_foldl_erase] at hf
      by_cases hmem : o ∈ tx.vin.map (fun t => t.prevout)
      · rw [if_pos hmem] at hf
        exact absurd hf (by simp)
      · rw [if_neg hmem] at hf
        obtain ⟨t, txin, ht, hi, heq⟩ := ih3 o h i hf
        have hh : h ≠ env.GetHash tx := by
          intro hh
          rw [hh, hstored] at ht
          simp only [Option.some.injEq] at ht
          subst ht
          exact hmem (List.mem_map.mpr ⟨txin, List.getElem?_mem hi, heq⟩)
        exact ⟨t, txin, by rw [StdMap.find_erase_ne _ _ _ hh]; exact ht, hi, heq⟩
  | clear pool _ _ =>
    refine ⟨?_, ?_, ?_⟩
    · intro h tx hf
      simp only [CTxMemPool.clear, StdMap.find_empty] at hf
      exact absurd hf (by simp)
    · intro h tx hf
      simp only [CTxMemPool.clear, StdMap.find_empty] at hf
      exact absurd hf (by simp)
    · intro o h i hf
      simp only [CTxMemPool.clear, StdMap.find_empty] at hf
      exact absurd hf (by simp)

/-- The stand-in hash `txCode` identifies the transaction. -/
theorem txCode_injective : Function.Injective txCode := by
  intro a b h
  unfold txCode at h
  have h2 := Encodable.encode_injective h
  simp only [Prod.mk.injEq] at h2
  obtain ⟨h1, hvin, hvout, h4, h5⟩ := h2
  have hin : Function.Injective
      (fun i : CTxIn => (i.prevout.hash, i.prevout.n, i.scriptSig, i.nSequence)) := by
    intro x y hxy
    simp only [Prod.mk.injEq] at hxy
    obtain ⟨⟨xh, xn⟩, xs, xq⟩ := x
    obtain ⟨⟨yh, yn⟩, ys, yq⟩ := y
    simp_all
  have hout : Function.Injective (fun o : CTxOut => (o.nValue, o.scriptPubKey)) := by
    intro x y hxy
    simp only [Prod.mk.injEq] at hxy
    obtain ⟨xv, xs⟩ := x
    obtain ⟨yv, ys⟩ := y
    simp_all
  have e1 := List.map_injective_iff.mpr hin hvin
  have e2 := List.map_injective_iff.mpr hout hvout
  obtain ⟨a1, a2, a3, a4, a5⟩ := a
  obtain ⟨b1, b2, b3, b4, b5⟩ := b
  simp_all

/-- Witness of C11: the pool reached by accepting the sample transaction and then
removing a transaction that is not stored, under the injective hash `txCode`. -/
theorem C11_pool_invariant_witness :
    Function.Injective sampleHashEnv.GetHash ∧
    (emptyPool.accept sampleConsts sampleHashEnv samplePolicy sampleTxdb sampleChain sampleTx
      false false).result = .done () ∧
    PoolInvariant sampleConsts sampleHashEnv
      ((emptyPool.accept sampleConsts sampleHashEnv samplePolicy sampleTxdb sampleChain sampleTx
        false false).pool.remove sampleHashEnv sampleRival) :=
  ⟨txCode_injective, by decide!,
    C11_pool_invariant sampleConsts sampleHashEnv samplePolicy _ txCode_injective
      (PoolReachable.remove _ sampleRival
        (PoolReachable.accept emptyPool sampleHashEnv sampleTxdb sampleChain sampleTx false false
          ⟨rfl, rfl⟩ (PoolReachable.empty 0)))⟩

/-! ## Connecting and disconnecting a block -/

namespace StdMap

variable {K V : Type} [DecidableEq K]

theorem find_foldl_set (l : List (K × V)) (hnd : (l.map Prod.fst).Nodup) (D : StdMap K V)
    (k : K) :
    (l.foldl (fun db mi => db.set mi.1 mi.2) D).find k =
      match lookupL k l with
      | some v => some v
      | none => D.find k := by
  induction l generalizing D with
  | nil => rfl
  | cons e es ih =>
    rw [List.map_cons, List.nodup_cons] at hnd
    rw [List.foldl_cons, ih hnd.2]
    by_cases h : e.1 = k
    · have hnone : lookupL k es = none := (lookupL_eq_none_iff k es).mpr (h ▸ hnd.1)
      simp only [lookupL, h, if_true, hnone]
      rw [← h]
      exact find_set_self _ _ _
    · simp only [lookupL, h, if_false]
      cases lookupL k es with
      | some v => rfl
      | none => exact find_set_ne _ _ _ _ (fun h2 => h h2.symm)

end StdMap

/-- Writing the queued changes over the tx index gives the view of both. -/
theorem find_written (q D : StdMap uint256 CTxIndex) (h : uint256) :
    (q.entries.foldl (fun db mi => db.set mi.1 mi.2) D).find h = viewIndex q D h := by
  rw [StdMap.find_foldl_set q.entries q.nodup D h]
  unfold viewIndex StdMap.find
  cases StdMap.lookupL h q.entries <;> rfl

theorem setSlots_length (x : CDiskTxPos) (h : uint256) (ins : List CTxIn)
    (v : List CDiskTxPos) : (setSlots x h ins v).length = v.length := by
  induction ins generalizing v with
  | nil => rfl
  | cons t rest ih =>
    unfold setSlots
    rw [List.foldl_cons]
    have := ih (if t.prevout.hash = h then v.set t.prevout.n x else v)
    unfold setSlots at this
    rw [this]
    split <;> simp

theorem setSlots_cons (x : CDiskTxPos) (h : uint256) (t : CTxIn) (rest : List CTxIn)
    (v : List CDiskTxPos) :
    setSlots x h (t :: rest) v =
      setSlots x h rest (if t.prevout.hash = h then v.set t.prevout.n x else v) := rfl

theorem setSlots_other (x : CDiskTxPos) (h : uint256) (ins : List CTxIn) (v : List CDiskTxPos)
    (hne : ∀ t ∈ ins, t.prevout.hash ≠ h) : setSlots x h ins v = v := by
  induction ins generalizing v with
  | nil => rfl
  | cons t rest ih =>
    rw [setSlots_cons, if_neg (hne t (List.mem_cons_self _ _))]
    exact ih v (fun t2 ht2 => hne t2 (List.mem_cons_of_mem _ ht2))

/-- Slot `k` after `setSlots`: `x` when an input spends output `k` of `h`, the old
content otherwise. -/
theorem setSlots_getElem? (x : CDiskTxPos) (h : uint256) (ins : List CTxIn)
    (v : List CDiskTxPos) (k : Nat) :
    (setSlots x h ins v)[k]? =
      if (∃ t ∈ ins, t.prevout.hash = h ∧ t.prevout.n = k) ∧ k < v.length then some x
      else v[k]? := by
  induction ins generalizing v with
  | nil => simp [setSlots]
  | cons t rest ih =>
    rw [setSlots_cons, ih]
    by_cases hh : t.prevout.hash = h
    · rw [if_pos hh, List.length_set]
      by_cases hrest : ∃ t2 ∈ rest, t2.prevout.hash = h ∧ t2.prevout.n = k
      · have hall : ∃ t2 ∈ t :: rest, t2.prevout.hash = h ∧ t2.prevout.n = k := by
          obtain ⟨t2, ht2, hp⟩ := hrest
          exact ⟨t2, List.mem_cons_of_mem _ ht2, hp⟩
        by_cases hk : k < v.length
        · simp only [hrest, hall, hk, and_self, if_true]
        · simp only [hk, and_false, if_false]
          rw [List.getElem?_eq_none_iff.mpr (by rw [List.length_set]; omega),
            List.getElem?_eq_none_iff.mpr (by omega)]
      · by_cases hn : t.prevout.n = k
        · have hall : ∃ t2 ∈ t :: rest, t2.prevout.hash = h ∧ t2.prevout.n = k :=
            ⟨t, List.mem_cons_self _ _, hh, hn⟩
          simp only [hrest, false_and, if_false, hall, true_and]
          rw [List.getElem?_set, if_pos hn, hn]
          by_cases hk : k < v.length
          · simp [hk]
          · simp only [hk, if_false]
            exact (List.getElem?_eq_none_iff.mpr (by omega)).symm
        · have hall : ¬ ∃ t2 ∈ t :: rest, t2.prevout.hash = h ∧ t2.prevout.n = k := by
            rintro ⟨t2, ht2, hp⟩
            rcases List.mem_cons.mp ht2 with ht2 | ht2
            · subst ht2; exact hn hp.2
            · exact hrest ⟨t2, ht2, hp⟩
          simp only [hrest, false_and, if_false, hall]
          rw [List.getElem?_set, if_neg hn]
    · rw [if_neg hh]
      have hiff : (∃ t2 ∈ t :: rest, t2.prevout.hash = h ∧ t2.prevout.n = k) ↔
          ∃ t2 ∈ rest, t2.prevout.hash = h ∧ t2.prevout.n = k := by
        constructor
        · rintro ⟨t2, ht2, hp⟩
          rcases List.mem_cons.mp ht2 with ht2 | ht2
          · subst ht2; exact absurd hp.1 hh
          · exact ⟨t2, ht2, hp⟩
        · rintro ⟨t2, ht2, hp⟩
          exact ⟨t2, List.mem_cons_of_mem _ ht2, hp⟩
      simp only [hiff]

theorem markIndex_other (x : CDiskTxPos) (h : uint256) (ins : List CTxIn) (idx : CTxIndex)
    (hne : ∀ t ∈ ins, t.prevout.hash ≠ h) : markIndex x h ins idx = idx := by
  unfold markIndex
  rw [setSlots_other x h ins idx.vSpent hne]

/-- Nulling the slots that were marked gives back the slots as they were before
the marking, when these were the null position. -/
theorem setSlots_undo (x : CDiskTxPos) (h : uint256) (ins : List CTxIn) (v : List CDiskTxPos)
    (hnull : ∀ t ∈ ins, t.prevout.hash = h → v[t.prevout.n]? = some CDiskTxPos.null) :
    setSlots CDiskTxPos.null h ins (setSlots x h ins v) = v := by
  apply List.ext_getElem?
  intro k
  rw [setSlots_getElem?, setSlots_length, setSlots_getElem?]
  by_cases hex : ∃ t ∈ ins, t.prevout.hash = h ∧ t.prevout.n = k
  · by_cases hk : k < v.length
    · obtain ⟨t, ht, hh, hn⟩ := hex
      have := hnull t ht hh
      rw [hn] at this
      rw [this]
      simp only [hk, and_true]
      rw [if_pos ⟨t, ht, hh, hn⟩]
    · simp only [hk, and_false, if_false]
  · simp only [hex, false_and, if_false]

theorem markIndex_cons_same (x : CDiskTxPos) (t : CTxIn) (rest : List CTxIn) (idx : CTxIndex) :
    markIndex x t.prevout.hash (t :: rest) idx =
      markIndex x t.prevout.hash rest ⟨idx.pos, idx.vSpent.set t.prevout.n x⟩ := by
  unfold markIndex
  rw [setSlots_cons, if_pos rfl]

theorem markIndex_cons_other (x : CDiskTxPos) (g : uint256) (t : CTxIn) (rest : List CTxIn)
    (idx : CTxIndex) (hne : t.prevout.hash ≠ g) :
    markIndex x g (t :: rest) idx = markIndex x g rest idx := by
  unfold markIndex
  rw [setSlots_cons, if_neg hne]

theorem markIndex_nil (x : CDiskTxPos) (g : uint256) (idx : CTxIndex) :
    markIndex x g [] idx = idx := rfl

/-- What a completed second loop of `ConnectInputs` leaves, for a block: every
entry of the input map with the slots of the inputs marked, and in `mapTestPool`
the marked entry of every previous transaction of an input. -/
theorem connectMarkLoop_result (env : Env) (tx : CTransaction) (pos : CDiskTxPos)
    (fStrict : Bool) (ins : List CTxIn) (i : Nat)
    (st st2 : MapPrevTx × StdMap uint256 CTxIndex)
    (h : connectMarkLoop env tx pos true false fStrict ins i st = .done st2) :
    (∀ g, st2.1.find g = (st.1.find g).map (fun e => (markIndex pos g ins e.1, e.2))) ∧
    (∀ g, st2.2.find g =
      if g ∈ ins.map (fun t => t.prevout.hash) then (st2.1.find g).map Prod.fst
      else st.2.find g) := by
  induction ins generalizing i st with
  | nil =>
    simp only [connectMarkLoop, Outcome.done.injEq] at h
    subst h
    refine ⟨fun g => ?_, fun g => by simp⟩
    cases st.1.find g with
    | none => rfl
    | some e => simp [markIndex_nil]
  | cons t rest ih =>
    obtain ⟨txindex, txPrev, hfind, _, _, hrest⟩ :=
      connectMarkLoop_cons env tx pos true false fStrict t rest i st st2 h
    simp only [Bool.or_false, if_true] at hrest
    obtain ⟨iha, ihb⟩ := ih (i + 1) _ hrest
    have ha : ∀ g, st2.1.find g =
        (st.1.find g).map (fun e => (markIndex pos g (t :: rest) e.1, e.2)) := by
      intro g
      rw [iha g]
      by_cases hg : g = t.prevout.hash
      · subst hg
        rw [StdMap.find_set_self, hfind]
        simp only [Option.map_some']
        rw [markIndex_cons_same]
      · rw [StdMap.find_set_ne _ _ _ _ hg]
        cases st.1.find g with
        | none => rfl
        | some e =>
          simp only [Option.map_some']
          rw [markIndex_cons_other _ _ _ _ _ (fun h2 => hg h2.symm)]
    refine ⟨ha, fun g => ?_⟩
    rw [ihb g]
    by_cases hmem : g ∈ rest.map (fun t => t.prevout.hash)
    · rw [if_pos hmem, if_pos (by rw [List.map_cons]; exact List.mem_cons_of_mem _ hmem)]
    · rw [if_neg hmem]
      by_cases hg : g = t.prevout.hash
      · subst hg
        rw [if_pos (by rw [List.map_cons]; exact List.mem_cons_self _ _)]
        rw [iha]
        simp only [StdMap.find_set_self, Option.map_some']
        rw [markIndex_other]
        intro t2 ht2 heq
        exact hmem (List.mem_map.mpr ⟨t2, ht2, heq⟩)
      · rw [if_neg (by
          rw [List.map_cons, List.mem_cons, not_or]
          exact ⟨hg, hmem⟩)]
        exact StdMap.find_set_ne _ _ _ _ hg

/-- The loop of `DisconnectInputs` runs to its end when every previous index entry
is there and long enough, and leaves every entry with the slots of the inputs
nulled. -/
theorem disconnectLoop_result (ins : List CTxIn) (M : StdMap uint256 CTxIndex)
    (hpre : ∀ t ∈ ins, ∃ idx, M.find t.prevout.hash = some idx ∧
      t.prevout.n < idx.vSpent.length) :
    ∃ M2, disconnectLoop M ins = some M2 ∧
      ∀ g, M2.find g = (M.find g).map (markIndex CDiskTxPos.null g ins) := by
  induction ins generalizing M with
  | nil =>
    refine ⟨M, rfl, fun g => ?_⟩
    cases M.find g with
    | none => rfl
    | some e => simp [markIndex_nil]
  | cons t rest ih =>
    obtain ⟨idx, hfind, hlen⟩ := hpre t (List.mem_cons_self _ _)
    have hpre2 : ∀ t2 ∈ rest, ∃ idx2,
        (M.set t.prevout.hash
          ⟨idx.pos, idx.vSpent.set t.prevout.n CDiskTxPos.null⟩).find t2.prevout.hash =
            some idx2 ∧ t2.prevout.n < idx2.vSpent.length := by
      intro t2 ht2
      obtain ⟨idx2, hf2, hl2⟩ := hpre t2 (List.mem_cons_of_mem _ ht2)
      by_cases hh : t2.prevout.hash = t.prevout.hash
      · rw [hh, StdMap.find_set_self]
        rw [hh, hfind] at hf2
        simp only [Option.some.injEq] at hf2
        subst hf2
        exact ⟨_, rfl, by simpa using hl2⟩
      · rw [StdMap.find_set_ne _ _ _ _ hh]
        exact ⟨idx2, hf2, hl2⟩
    obtain ⟨M2, hloop, hres⟩ := ih _ hpre2
    refine ⟨M2, ?_, fun g => ?_⟩
    · unfold disconnectLoop
      simp only [hfind]
      rw [if_neg (by omega)]
      exact hloop
    · rw [hres g]
      by_cases hg : g = t.prevout.hash
      · subst hg
        rw [StdMap.find_set_self, hfind]
        simp only [Option.map_some']
        rw [markIndex_cons_same]
      · rw [StdMap.find_set_ne _ _ _ _ hg]
        cases M.find g with
        | none => rfl
        | some e =>
          simp only [Option.map_some']
          rw [markIndex_cons_other _ _ _ _ _ (fun h2 => hg h2.symm)]

/-- One completed iteration of the first loop of `FetchInputs`, for a block: the
previous transaction was fetched before, or its index entry is the one the view
of the queued changes and the tx index holds. -/
theorem fetchLoop_cons_block (env : Env) (D q : StdMap uint256 CTxIndex) (t : CTxIn)
    (rest : List CTxIn) (acc res : MapPrevTx)
    (h : fetchLoop env D q true false (t :: rest) acc = (true, res)) :
    (acc.count t.prevout.hash = true ∧ fetchLoop env D q true false rest acc = (true, res)) ∨
    (acc.count t.prevout.hash = false ∧ ∃ idx p, viewIndex q D t.prevout.hash = some idx ∧
      fetchLoop env D q true false rest (acc.set t.prevout.hash (idx, p)) = (true, res)) := by
  unfold fetchLoop at h
  dsimp only at h
  by_cases hc : acc.count t.prevout.hash = true
  · rw [if_pos hc] at h
    exact Or.inl ⟨hc, h⟩
  rw [if_neg hc] at h
  right
  refine ⟨by simpa using hc, ?_⟩
  cases hq : q.find t.prevout.hash with
  | some idx =>
    have hcount : q.count t.prevout.hash = true := by simp [StdMap.count, hq]
    have hview : viewIndex q D t.prevout.hash = some idx := by simp [viewIndex, hq]
    simp only [hcount, hq, Bool.or_false, Bool.and_self, if_true, Option.getD_some,
      Bool.not_true, Bool.false_and, Bool.false_eq_true, if_false, Bool.false_or] at h
    split at h
    · split at h
      · simp at h
      · rename_i txPrev _
        exact ⟨idx, txPrev, hview, h⟩
    · split at h
      · simp at h
      · rename_i txPrev _
        exact ⟨idx, txPrev, hview, h⟩
  | none =>
    have hcount : q.count t.prevout.hash = false := by simp [StdMap.count, hq]
    cases hd : D.find t.prevout.hash with
    | none =>
      simp [hcount, hd] at h
    | some idx =>
      have hview : viewIndex q D t.prevout.hash = some idx := by simp [viewIndex, hq, hd]
      simp only [hcount, hd, Bool.or_false, Bool.and_false, Bool.false_eq_true, if_false,
        Bool.not_true, Bool.false_and, Bool.false_or] at h
      split at h
      · split at h
        · simp at h
        · rename_i txPrev _
          exact ⟨idx, txPrev, hview, h⟩
      · split at h
        · simp at h
        · rename_i txPrev _
          exact ⟨idx, txPrev, hview, h⟩

/-- The first loop of `FetchInputs` keeps what was fetched before. -/
theorem fetchLoop_keeps (env : Env) (D q : StdMap uint256 CTxIndex) (ins : List CTxIn)
    (acc res : MapPrevTx) (h : fetchLoop env D q true false ins acc = (true, res)) :
    ∀ g e, acc.find g = some e → res.find g = some e := by
  induction ins generalizing acc with
  | nil =>
    simp only [fetchLoop, Prod.mk.injEq, true_and] at h
    subst h
    exact fun g e he => he
  | cons t rest ih =>
    rcases fetchLoop_cons_block env D q t rest acc res h with ⟨_, hrest⟩ | ⟨hc, idx, p, _, hrest⟩
    · exact ih acc hrest
    · intro g e he
      apply ih _ hrest
      have hne : g ≠ t.prevout.hash := by
        intro hg
        rw [hg] at he
        simp [StdMap.count, he] at hc
      rw [StdMap.find_set_ne _ _ _ _ hne]
      exact he

/-- After the first loop of `FetchInputs` for a block, started from an empty map,
the entry of every previous transaction carries the index entry that the view of
the queued changes and the tx index holds. -/
theorem fetchLoop_block (env : Env) (D q : StdMap uint256 CTxIndex) (ins : List CTxIn)
    (acc res : MapPrevTx) (h : fetchLoop env D q true false ins acc = (true, res))
    (hacc : ∀ g idx p, acc.find g = some (idx, p) → viewIndex q D g = some idx) :
    ∀ g idx p, res.find g = some (idx, p) → viewIndex q D g = some idx := by
  induction ins generalizing acc with
  | nil =>
    simp only [fetchLoop, Prod.mk.injEq, true_and] at h
    subst h
    exact hacc
  | cons t rest ih =>
    rcases fetchLoop_cons_block env D q t rest acc res h with
      ⟨_, hrest⟩ | ⟨_, idx, p, hview, hrest⟩
    · exact ih acc hrest hacc
    · apply ih _ hrest
      intro g idx2 p2 hf
      by_cases hg : g = t.prevout.hash
      · subst hg
        rw [StdMap.find_set_self] at hf
        simp only [Option.some.injEq, Prod.mk.injEq] at hf
        rw [← hf.1]
        exact hview
      · rw [StdMap.find_set_ne _ _ _ _ hg] at hf
        exact hacc g idx2 p2 hf

/-- A successful `FetchInputs` for a block, on a non-coinbase transaction: each
entry of the input map carries the index entry of the view. -/
theorem FetchInputs_block (env : Env) (D q : StdMap uint256 CTxIndex) (tx : CTransaction)
    (fetched : FetchResult) (hcb : tx.IsCoinBase = false)
    (h : FetchInputs env D q true false tx StdMap.empty = some fetched)
    (hok : fetched.ok = true) :
    ∀ g idx p, fetched.inputsRet.find g = some (idx, p) → viewIndex q D g = some idx := by
  unfold FetchInputs at h
  simp only [hcb, Bool.false_eq_true, if_false] at h
  cases hr : fetchLoop env D q true false tx.vin StdMap.empty with
  | mk ok res =>
    rw [hr] at h
    dsimp only at h
    cases ok with
    | false =>
      simp only [Bool.not_false, if_true, Option.some.injEq] at h
      rw [← h] at hok
      exact absurd hok (by simp)
    | true =>
      simp only [Bool.not_true, Bool.false_eq_true, if_false] at h
      have key := fetchLoop_block env D q tx.vin StdMap.empty res hr
        (fun g idx p hf => by rw [StdMap.find_empty] at hf; exact absurd hf (by simp))
      split at h
      · exact absurd h (by simp)
      · simp only [Option.some.injEq] at h
        rw [← h] at hok
        exact absurd hok (by simp)
      · simp only [Option.some.injEq] at h
        rw [← h]
        exact key

/-- A true return of `ConnectInputs` on a non-coinbase transaction hands back the
`mapTestPool` its second loop left. -/
theorem ConnectInputs_done_inv (c : Consts) (env : Env) (tx : CTransaction) (inputs : MapPrevTx)
    (mapTestPool q : StdMap uint256 CTxIndex) (pos : CDiskTxPos) (chain : List CBlockIndex)
    (fBlock fMiner fStrict : Bool) (hcb : tx.IsCoinBase = false)
    (h : ConnectInputs c env tx inputs mapTestPool pos chain fBlock fMiner fStrict = .done q) :
    connectRangeLoop c inputs chain tx.vin = .done () ∧
    ∃ st2, connectMarkLoop env tx pos fBlock fMiner fStrict tx.vin 0 (inputs, mapTestPool)
        = .done st2 ∧ st2.2 = q := by
  have hret : (ConnectInputs c env tx inputs mapTestPool pos chain fBlock fMiner
      fStrict).returnedTrue = true := by rw [h]; rfl
  obtain ⟨hrange, v, hv, hmoney, hout, st2, hmark⟩ :=
    ConnectInputs_true_inv c env tx inputs mapTestPool pos chain fBlock fMiner fStrict hcb hret
  refine ⟨hrange, st2, hmark, ?_⟩
  unfold ConnectInputs at h
  simp only [hcb, Bool.false_eq_true, if_false, hrange, Outcome.bind, hv, hmoney, Bool.not_true,
    not_lt.mpr hout, hmark, Outcome.done.injEq] at h
  exact h

/-- The queued changes after one completed iteration of the loop of
`ConnectBlock`. -/
theorem connectTx_queue (c : Consts) (env : Env) (txdb : StdMap uint256 CTxIndex)
    (pindex : CBlockIndex) (ancestors : List CBlockIndex) (fJustCheck : Bool)
    (s1 s2 : BlockState) (tx : CTransaction)
    (h : connectTx c env txdb pindex ancestors fJustCheck s1 tx = .done s2) :
    (tx.IsCoinBase = true →
      s2.mapQueuedChanges = s1.mapQueuedChanges.set (env.GetHash tx)
        (CTxIndex.mk2 ⟨pindex.nFile, pindex.nBlockPos, s1.nTxPos⟩ tx.vout.length)) ∧
    (tx.IsCoinBase = false →
      ∃ fetched q,
        FetchInputs env txdb s1.mapQueuedChanges true false tx StdMap.empty = some fetched ∧
        fetched.ok = true ∧
        ConnectInputs c env tx fetched.inputsRet s1.mapQueuedChanges
          ⟨pindex.nFile, pindex.nBlockPos, s1.nTxPos⟩ (pindex :: ancestors) true false
          (fStrictP2SH pindex) = .done q ∧
        s2.mapQueuedChanges = q.set (env.GetHash tx)
          (CTxIndex.mk2 ⟨pindex.nFile, pindex.nBlockPos, s1.nTxPos⟩ tx.vout.length)) := by
  unfold connectTx at h
  simp only at h
  split at h
  · simp at h
  split at h
  · simp at h
  by_cases hcb : tx.IsCoinBase = true
  · simp only [hcb, if_true, Outcome.done.injEq] at h
    refine ⟨fun _ => ?_, fun hf => absurd hcb (by simp [hf])⟩
    rw [← h]
  · have hcb2 : tx.IsCoinBase = false := by simpa using hcb
    simp only [hcb2, Bool.false_eq_true, if_false] at h
    refine ⟨fun ht => absurd ht (by simp [hcb2]), fun _ => ?_⟩
    cases hfetch : FetchInputs env txdb s1.mapQueuedChanges true false tx StdMap.empty with
    | none => simp [hfetch] at h
    | some fetched =>
      simp only [hfetch] at h
      by_cases hok : fetched.ok = true
      swap
      · simp [hok] at h
      simp only [hok, Bool.not_true, Bool.false_eq_true, if_false] at h
      split at h
      · simp at h
      rename_i nP2SH _
      split at h
      · simp at h
      by_cases href : tx.nRefHeight > pindex.nHeight
      · simp [href] at h
      simp only [href, if_false] at h
      cases hvin : GetValueIn c tx fetched.inputsRet with
      | none => simp [hvin] at h
      | some qIn =>
        simp only [hvin] at h
        cases hconn : ConnectInputs c env tx fetched.inputsRet s1.mapQueuedChanges
            ⟨pindex.nFile, pindex.nBlockPos, s1.nTxPos⟩ (pindex :: ancestors) true false
            (fStrictP2SH pindex) with
        | thrown => simp [hconn] at h
        | fail n => simp [hconn] at h
        | done q =>
          simp only [hconn, Outcome.done.injEq] at h
          refine ⟨fetched, q, rfl, hok, hconn, ?_⟩
          rw [← h]

/-- The view of the tx index after one completed iteration of the loop of
`ConnectBlock`, in terms of the view before it: a fresh entry for the transaction,
and the slots of its inputs marked.  Every slot it spends was there and null. -/
theorem connectTx_view (c : Consts) (env : Env) (D : StdMap uint256 CTxIndex)
    (pindex : CBlockIndex) (ancestors : List CBlockIndex) (s s2 : BlockState)
    (tx : CTransaction)
    (hstep : connectTx c env D pindex ancestors false s tx = .done s2) :
    (∀ t ∈ spentInputs tx, ∃ idx, viewIndex s.mapQueuedChanges D t.prevout.hash = some idx ∧
      t.prevout.n < idx.vSpent.length ∧
      (idx.vSpent.getD t.prevout.n CDiskTxPos.null).IsNull = true) ∧
    (∀ h, viewIndex s2.mapQueuedChanges D h =
      if h = env.GetHash tx then
        some (CTxIndex.mk2 ⟨pindex.nFile, pindex.nBlockPos, s.nTxPos⟩ tx.vout.length)
      else (viewIndex s.mapQueuedChanges D h).map
        (markIndex ⟨pindex.nFile, pindex.nBlockPos, s.nTxPos⟩ h (spentInputs tx))) := by
  have hq := connectTx_queue c env D pindex ancestors false s s2 tx hstep
  by_cases hcb : tx.IsCoinBase = true
  · have hins : spentInputs tx = [] := by simp [spentInputs, hcb]
    rw [hins]
    refine ⟨fun t ht => absurd ht (by simp), fun h => ?_⟩
    rw [hq.1 hcb]
    by_cases hh : h = env.GetHash tx
    · rw [if_pos hh, hh]
      simp [viewIndex, StdMap.find_set_self]
    · rw [if_neg hh]
      unfold viewIndex
      rw [StdMap.find_set_ne _ _ _ _ hh]
      cases s.mapQueuedChanges.find h with
      | some v => simp [markIndex_nil]
      | none =>
        cases D.find h with
        | some v => simp [markIndex_nil]
        | none => rfl
  · have hcb2 : tx.IsCoinBase = false := by simpa using hcb
    have hins : spentInputs tx = tx.vin := by simp [spentInputs, hcb2]
    rw [hins]
    obtain ⟨fetched, q, hfetch, hok, hconn, hs2⟩ := hq.2 hcb2
    obtain ⟨hrange, st2, hmark, hst2⟩ := ConnectInputs_done_inv c env tx fetched.inputsRet
      s.mapQueuedChanges q _ _ true false _ hcb2 hconn
    obtain ⟨hres1, hres2⟩ := connectMarkLoop_result env tx _ _ tx.vin 0 _ st2 hmark
    have hV := FetchInputs_block env D s.mapQueuedChanges tx fetched hcb2 hfetch hok
    have hr := connectRangeLoop_done c fetched.inputsRet (pindex :: ancestors) tx.vin hrange
    have ho := connectMarkLoop_original env tx _ true false _ tx.vin 0 _ st2 hmark
    refine ⟨fun t ht => ?_, fun h => ?_⟩
    · obtain ⟨txindex, txPrev, hf, _, hlen, _⟩ := hr t ht
      exact ⟨txindex, hV _ _ _ hf, hlen, (ho t ht txindex txPrev hf).2⟩
    · rw [hs2]
      by_cases hh : h = env.GetHash tx
      · rw [if_pos hh, hh]
        simp [viewIndex, StdMap.find_set_self]
      · rw [if_neg hh]
        have hq2 : (q.set (env.GetHash tx)
            (CTxIndex.mk2 ⟨pindex.nFile, pindex.nBlockPos, s.nTxPos⟩ tx.vout.length)).find h =
            st2.2.find h := by
          rw [StdMap.find_set_ne _ _ _ _ hh, hst2]
        by_cases hmem : h ∈ tx.vin.map (fun t => t.prevout.hash)
        · obtain ⟨t, ht, hth⟩ := List.mem_map.mp hmem
          obtain ⟨txindex, txPrev, hf, _, _, _⟩ := hr t ht
          rw [hth] at hf
          have hview := hV _ _ _ hf
          have h1 : st2.2.find h = some (markIndex
              ⟨pindex.nFile, pindex.nBlockPos, s.nTxPos⟩ h tx.vin txindex) := by
            rw [hres2 h, if_pos hmem, hres1 h]
            simp only [hf, Option.map_some']
          unfold viewIndex at hview ⊢
          rw [hq2, h1]
          simp only [hview, Option.map_some']
        · have h1 : st2.2.find h = s.mapQueuedChanges.find h := by
            rw [hres2 h, if_neg hmem]
          have hne : ∀ t ∈ tx.vin, t.prevout.hash ≠ h :=
            fun t ht heq => hmem (List.mem_map.mpr ⟨t, ht, heq⟩)
          unfold viewIndex
          rw [hq2, h1]
          cases s.mapQueuedChanges.find h with
          | some v => simp [markIndex_other _ _ _ _ hne]
          | none =>
            cases D.find h with
            | some v => simp [markIndex_other _ _ _ _ hne]
            | none => rfl

/-- Disconnecting the inputs of a transaction from an index that holds the view
after its connection gives back the view before it. -/
theorem DisconnectInputs_view (env : Env) (tx : CTransaction) (V : uint256 → Option CTxIndex)
    (M : StdMap uint256 CTxIndex) (pos : CDiskTxPos) (fresh : CTxIndex)
    (hfresh : V (env.GetHash tx) = none) (hcanon : nullsCanonical V)
    (hins : ∀ t ∈ spentInputs tx, ∃ idx, V t.prevout.hash = some idx ∧
      t.prevout.n < idx.vSpent.length ∧
      (idx.vSpent.getD t.prevout.n CDiskTxPos.null).IsNull = true)
    (hM : ∀ h, M.find h =
      if h = env.GetHash tx then some fresh
      else (V h).map (markIndex pos h (spentInputs tx))) :
    ∃ M2, DisconnectInputs env M tx = some M2 ∧ ∀ h, M2.find h = V h := by
  have hloop : (if tx.IsCoinBase then some M else disconnectLoop M tx.vin) =
      disconnectLoop M (spentInputs tx) := by
    unfold spentInputs
    by_cases hcb : tx.IsCoinBase = true
    · simp [hcb, disconnectLoop]
    · simp [hcb]
  have hpre : ∀ t ∈ spentInputs tx, ∃ idx, M.find t.prevout.hash = some idx ∧
      t.prevout.n < idx.vSpent.length := by
    intro t ht
    obtain ⟨idx, hv, hlen, _⟩ := hins t ht
    have hne : t.prevout.hash ≠ env.GetHash tx := by
      intro heq
      rw [heq, hfresh] at hv
      exact absurd hv (by simp)
    refine ⟨markIndex pos t.prevout.hash (spentInputs tx) idx, ?_, ?_⟩
    · rw [hM, if_neg hne, hv]
      rfl
    · simp only [markIndex, setSlots_length]
      exact hlen
  obtain ⟨M1, hM1, hres⟩ := disconnectLoop_result (spentInputs tx) M hpre
  refine ⟨M1.erase (env.GetHash tx), ?_, fun h => ?_⟩
  · unfold DisconnectInputs
    rw [hloop, hM1]
    rfl
  · by_cases hh : h = env.GetHash tx
    · rw [hh, StdMap.find_erase_self, hfresh]
    · rw [StdMap.find_erase_ne _ _ _ hh, hres, hM, if_neg hh]
      cases hv : V h with
      | none => rfl
      | some idx =>
        simp only [Option.map_some', Option.some.injEq]
        unfold markIndex
        dsimp only
        rw [setSlots_undo]
        intro t ht hth
        obtain ⟨idx2, hv2, hlen, hnull⟩ := hins t ht
        rw [hth, hv] at hv2
        simp only [Option.some.injEq] at hv2
        subst hv2
        rw [List.getD_eq_getElem?_getD, List.getElem?_eq_getElem hlen] at hnull
        simp only [Option.getD_some] at hnull
        rw [List.getElem?_eq_getElem hlen]
        exact congrArg some (hcanon h idx hv _ (List.getElem_mem _) hnull)

/-- The view after one completed iteration keeps the null markers canonical, when
the position of the block is not the null position. -/
theorem connectTx_canonical (V V2 : uint256 → Option CTxIndex) (hashTx : uint256)
    (pos : CDiskTxPos) (nOut : Nat) (ins : List CTxIn) (hpos : pos.IsNull = false)
    (hcanon : nullsCanonical V)
    (hV2 : ∀ h, V2 h = if h = hashTx then some (CTxIndex.mk2 pos nOut)
      else (V h).map (markIndex pos h ins)) :
    nullsCanonical V2 := by
  intro h idx hidx p hp hnull
  rw [hV2] at hidx
  by_cases hh : h = hashTx
  · rw [if_pos hh] at hidx
    simp only [Option.some.injEq] at hidx
    subst hidx
    simp only [CTxIndex.mk2] at hp
    exact List.eq_of_mem_replicate hp
  · rw [if_neg hh] at hidx
    cases hv : V h with
    | none =>
      rw [hv] at hidx
      exact absurd hidx (by simp)
    | some idx0 =>
      rw [hv] at hidx
      simp only [Option.map_some', Option.some.injEq] at hidx
      subst hidx
      simp only [markIndex] at hp
      obtain ⟨k, hk⟩ := List.getElem?_of_mem hp
      rw [setSlots_getElem?] at hk
      split at hk
      · simp only [Option.some.injEq] at hk
        rw [← hk, hpos] at hnull
        exact absurd hnull (by simp)
      · exact hcanon h idx0 hv p (List.getElem?_mem hk) hnull

theorem disconnectTxs_append (env : Env) (l1 l2 : List CTransaction)
    (M : StdMap uint256 CTxIndex) :
    disconnectTxs env (l1 ++ l2) M = (disconnectTxs env l1 M).bind (disconnectTxs env l2) := by
  induction l1 generalizing M with
  | nil => rfl
  | cons t rest ih =>
    simp only [List.cons_append, disconnectTxs]
    cases DisconnectInputs env M t with
    | none => rfl
    | some M1 => exact ih M1

/-- Disconnecting, last to first, the transactions that the loop of `ConnectBlock`
connected gives back the view the loop started from. -/
theorem disconnectTxs_view (c : Consts) (env : Env) (D : StdMap uint256 CTxIndex)
    (pindex : CBlockIndex) (ancestors : List CBlockIndex)
    (hfile : pindex.nFile ≠ 2 ^ 32 - 1) (vtx : List CTransaction) (s sf : BlockState)
    (hloop : connectLoop c env D pindex ancestors false vtx s = .done sf)
    (hnd : (vtx.map env.GetHash).Nodup)
    (hfresh : ∀ tx ∈ vtx, viewIndex s.mapQueuedChanges D (env.GetHash tx) = none)
    (hcanon : nullsCanonical (viewIndex s.mapQueuedChanges D))
    (M : StdMap uint256 CTxIndex) (hM : ∀ h, M.find h = viewIndex sf.mapQueuedChanges D h) :
    ∃ M2, disconnectTxs env vtx.reverse M = some M2 ∧
      ∀ h, M2.find h = viewIndex s.mapQueuedChanges D h := by
  induction vtx generalizing s with
  | nil =>
    simp only [connectLoop, Outcome.done.injEq] at hloop
    subst hloop
    exact ⟨M, rfl, hM⟩
  | cons tx rest ih =>
    simp only [connectLoop] at hloop
    cases hstep : connectTx c env D pindex ancestors false s tx with
    | fail n => simp [hstep, Outcome.bind] at hloop
    | thrown => simp [hstep, Outcome.bind] at hloop
    | done s1 =>
      rw [hstep] at hloop
      simp only [Outcome.bind] at hloop
      rw [List.map_cons, List.nodup_cons] at hnd
      obtain ⟨hins, hview⟩ := connectTx_view c env D pindex ancestors s s1 tx hstep
      have hpos : (⟨pindex.nFile, pindex.nBlockPos, s.nTxPos⟩ : CDiskTxPos).IsNull = false := by
        unfold CDiskTxPos.IsNull
        exact decide_eq_false hfile
      have hcanon1 := connectTx_canonical _ _ _ _ _ _ hpos hcanon hview
      have hfresh1 : ∀ t ∈ rest, viewIndex s1.mapQueuedChanges D (env.GetHash t) = none := by
        intro t ht
        have hne : env.GetHash t ≠ env.GetHash tx := by
          intro heq
          exact hnd.1 (heq ▸ List.mem_map_of_mem env.GetHash ht)
        rw [hview, if_neg hne, hfresh t (List.mem_cons_of_mem _ ht)]
        rfl
      obtain ⟨M1, hM1, hfind1⟩ := ih s1 hloop hnd.2 hfresh1 hcanon1
      obtain ⟨M2, hM2, hfind2⟩ := DisconnectInputs_view env tx
        (viewIndex s.mapQueuedChanges D) M1 _ _ (hfresh tx (List.mem_cons_self _ _)) hcanon hins
        (fun h => by rw [hfind1, hview])
      refine ⟨M2, ?_, hfind2⟩
      rw [List.reverse_cons, disconnectTxs_append, hM1]
      simp only [Option.bind, disconnectTxs, hM2]

/-- A true return of `CheckBlock` means that no two transactions of the block
have the same hash. -/
theorem CheckBlock_ok_hashes (c : Consts) (env : Env) (blk : CBlock) (fPOW fMerkle : Bool)
    (h : (CheckBlock c env blk fPOW fMerkle).ok = true) :
    (blk.vtx.map env.GetHash).Nodup := by
  unfold CheckBlock at h
  split at h
  · simp at h
  split at h
  · simp at h
  split at h
  · simp at h
  split at h
  · simp at h
  · rename_i vtx0 others hvtx
    split at h
    · simp at h
    split at h
    · simp at h
    split at h
    · simp at h
    · split at h
      · simp at h
      · rename_i hlen
        have hlen2 : (blk.vtx.map env.GetHash).dedup.length = (blk.vtx.map env.GetHash).length := by
          rw [List.length_map]
          exact not_not.mp hlen
        have heq := (List.dedup_sublist (blk.vtx.map env.GetHash)).eq_of_length hlen2
        rw [← heq]
        exact List.nodup_dedup _

/-- A true return of `ConnectBlock` that is not a mere check hands back the tx
index with the queued changes written. -/
theorem ConnectBlock_done_inv (c : Consts) (env : Env) (txdb D2 : StdMap uint256 CTxIndex)
    (blk : CBlock) (pindex : CBlockIndex) (ancestors : List CBlockIndex)
    (h : ConnectBlock c env txdb blk pindex ancestors false = .done D2) :
    ∃ st, connectChecks c env txdb blk pindex ancestors false = .done st ∧
      D2 = st.mapQueuedChanges.entries.foldl (fun db mi => db.set mi.1 mi.2) txdb := by
  unfold ConnectBlock at h
  cases hc : connectChecks c env txdb blk pindex ancestors false with
  | fail n => simp [hc, Outcome.bind] at h
  | thrown => simp [hc, Outcome.bind] at h
  | done st =>
    simp only [hc, Outcome.bind] at h
    split at h
    · simp at h
    · split at h
      · simp at h
      · simp only [Bool.false_eq_true, if_false, Outcome.done.injEq] at h
        exact ⟨st, rfl, h.symm⟩

/-- C20, counterexample. The sample block connects to a tx index that already
holds an entry, fully spent, under the hash of the block's coinbase (the duplicate
that the BIP30 check lets through); disconnecting the block then erases that entry
instead of restoring it, so the tx index is not the one before the connect. -/
theorem C20_roundtrip_counterexample :
    (ConnectBlock sampleConsts sampleBlockEnv duplicateTxdb
      (sampleBlock (sampleCoinbase 49603174604 [0])) sampleIndex sampleChain.tail
      false).returnedTrue = true ∧
    (connectThenDisconnect sampleConsts sampleBlockEnv duplicateTxdb
      (sampleBlock (sampleCoinbase 49603174604 [0])) sampleIndex sampleChain.tail).map
        (fun db => db.find 1) = some none ∧
    duplicateTxdb.find 1 = some ⟨⟨1, 100, 90⟩, [⟨1, 200, 90⟩]⟩ := by
  decide!

/-- C20, amended. Let the tx index `D` hold no entry under the hash of a
transaction of the block, let every null marker of `D` be the position written by
`SetNull`, and let the file number of the block not be the null marker.  If
`ConnectBlock` (not a mere check) returns true from `D`, then `DisconnectBlock` on
the tx index it wrote returns true and leaves a tx index with the same entry as
`D` under every hash. -/
theorem C20_roundtrip_amended (c : Consts) (env : Env) (D : StdMap uint256 CTxIndex)
    (blk : CBlock) (pindex : CBlockIndex) (ancestors : List CBlockIndex)
    (hfile : pindex.nFile ≠ 2 ^ 32 - 1)
    (hfresh : ∀ tx ∈ blk.vtx, D.find (env.GetHash tx) = none)
    (hnull : ∀ e ∈ D.entries, ∀ p ∈ e.2.vSpent, p.IsNull = true → p = CDiskTxPos.null)
    (hret : (ConnectBlock c env D blk pindex ancestors false).returnedTrue = true) :
    ∃ D3, connectThenDisconnect c env D blk pindex ancestors = some D3 ∧
      ∀ h, D3.find h = D.find h := by
  cases hconn : ConnectBlock c env D blk pindex ancestors false with
  | fail n => simp [hconn, Outcome.returnedTrue] at hret
  | thrown => simp [hconn, Outcome.returnedTrue] at hret
  | done D2 =>
    obtain ⟨st, hchecks, hD2⟩ := ConnectBlock_done_inv c env D D2 blk pindex ancestors hconn
    obtain ⟨hcheck, hloop, _⟩ :=
      connectChecks_done_inv c env D blk pindex ancestors false st hchecks
    have hnd := CheckBlock_ok_hashes c env blk _ _ hcheck
    have hview0 : ∀ h, viewIndex (initBlockState env blk pindex false).mapQueuedChanges D h =
        D.find h := fun h => rfl
    have hcanon : nullsCanonical
        (viewIndex (initBlockState env blk pindex false).mapQueuedChanges D) := by
      intro h idx hidx p hp hn
      rw [hview0] at hidx
      exact hnull (h, idx) ((StdMap.mem_entries_iff D h idx).mpr hidx) p hp hn
    obtain ⟨D3, hD3, hfind⟩ := disconnectTxs_view c env D pindex ancestors hfile blk.vtx _ st
      hloop hnd (fun tx htx => by rw [hview0]; exact hfresh tx htx) hcanon D2
      (fun h => by rw [hD2]; exact find_written _ _ h)
    refine ⟨D3, ?_, fun h => by rw [hfind h, hview0]⟩
    unfold connectThenDisconnect
    rw [hconn]
    exact hD3

/-- Witness of C20: the sample block connects to the sample tx index, which holds
none of its transactions, and disconnecting it restores every entry. -/
theorem C20_roundtrip_amended_witness :
    (ConnectBlock sampleConsts sampleBlockEnv sampleTxdb
      (sampleBlock (sampleCoinbase 49603174604 [0])) sampleIndex sampleChain.tail
      false).returnedTrue = true ∧
    ∃ D3, connectThenDisconnect sampleConsts sampleBlockEnv sampleTxdb
        (sampleBlock (sampleCoinbase 49603174604 [0])) sampleIndex sampleChain.tail = some D3 ∧
      ∀ h, D3.find h = sampleTxdb.find h :=
  ⟨by decide!,
    C20_roundtrip_amended sampleConsts sampleBlockEnv sampleTxdb
      (sampleBlock (sampleCoinbase 49603174604 [0])) sampleIndex sampleChain.tail
      (by decide) (by decide) (by decide) (by decide!)⟩

/-! ## The fork search of `Reorganize` -/

theorem heightLinked_tail (n : CBlockIndexNode) (rest : BlockPtr)
    (h : heightLinked (n :: rest) = true) : heightLinked rest = true := by
  unfold heightLinked at h ⊢
  rw [List.map_cons] at h
  exact chainLinked_tail _ _ h

theorem heightLinked_lt (n : CBlockIndexNode) (rest : BlockPtr)
    (h : heightLinked (n :: rest) = true) :
    ∀ m ∈ rest, m.index.nHeight < n.index.nHeight := by
  intro m hm
  unfold heightLinked at h
  rw [List.map_cons] at h
  exact chainLinked_lt _ _ h m.index (List.mem_map_of_mem (fun n => n.index) hm)

theorem heightLinked_suffix (p g : BlockPtr) (h : heightLinked p = true)
    (hs : List.IsSuffix g p) : heightLinked g = true := by
  obtain ⟨x, hx⟩ := hs
  subst hx
  induction x with
  | nil => exact h
  | cons a x ih => exact ih (heightLinked_tail a (x ++ g) h)

/-- The head of a non-null ancestor of `p` is not higher than `p`. -/
theorem heightLinked_suffix_le (p : BlockPtr) (n : CBlockIndexNode) (rest : BlockPtr)
    (h : heightLinked p = true) (hs : List.IsSuffix (n :: rest) p) :
    n.index.nHeight ≤ ptrHeight p := by
  cases p with
  | nil => simp at hs
  | cons a r =>
    rcases List.suffix_cons_iff.mp hs with heq | hsuf
    · simp only [List.cons.injEq] at heq
      rw [heq.1]
      exact le_refl _
    · have hmem : n ∈ r := hsuf.subset (List.mem_cons_self _ _)
      exact le_of_lt (heightLinked_lt a r h n hmem)

/-- The inner loop of the fork search, on a non-null `plonger`: it stops at the
first node that is not higher than `nHeight`, or returns false when every node is
higher. -/
theorem findForkDescend_spec (nHeight : Int) (plonger : BlockPtr) (hne : plonger ≠ []) :
    (∃ q, findForkDescend nHeight plonger = .done q ∧ q ≠ [] ∧ List.IsSuffix q plonger ∧
      ptrHeight q ≤ nHeight ∧
      ∀ n rest, List.IsSuffix (n :: rest) plonger → n.index.nHeight ≤ nHeight →
        List.IsSuffix (n :: rest) q) ∨
    (findForkDescend nHeight plonger = .fail 0 ∧ ∀ n ∈ plonger, n.index.nHeight > nHeight) := by
  induction plonger with
  | nil => exact absurd rfl hne
  | cons a r ih =>
    unfold findForkDescend
    by_cases hh : a.index.nHeight > nHeight
    · rw [if_pos hh]
      cases r with
      | nil =>
        right
        refine ⟨rfl, ?_⟩
        intro n hn
        simp only [List.mem_singleton] at hn
        rw [hn]
        exact hh
      | cons b r2 =>
        simp only
        rcases ih (by simp) with ⟨q, hq, hqne, hqs, hqh, hmax⟩ | ⟨hf, hall⟩
        · left
          refine ⟨q, hq, hqne, hqs.trans (List.suffix_cons _ _), hqh, ?_⟩
          intro n rest hs hn
          rcases List.suffix_cons_iff.mp hs with heq | hsuf
          · simp only [List.cons.injEq] at heq
            rw [heq.1] at hn
            omega
          · exact hmax n rest hsuf hn
        · right
          refine ⟨hf, ?_⟩
          intro n hn
          rcases List.mem_cons.mp hn with hn | hn
          · rw [hn]; exact hh
          · exact hall n hn
    · rw [if_neg hh]
      left
      refine ⟨a :: r, rfl, by simp, List.suffix_refl _, ?_, fun n rest hs _ => hs⟩
      simp only [ptrHeight]
      omega

theorem findFork_cons (f : CBlockIndexNode) (frest plonger : BlockPtr) :
    findFork (f :: frest) plonger =
      if f :: frest = plonger then .done (f :: frest)
      else
        match findForkDescend f.index.nHeight plonger with
        | .thrown => .thrown
        | .fail n => .fail n
        | .done plonger2 =>
          if f :: frest = plonger2 then .done (f :: frest)
          else
            match frest with
            | [] => .fail 0
            | _ :: _ => findFork frest plonger2 := by
  cases frest <;> rfl

/-- The fork search ends with an ancestor of both pointers, whatever the heights
are. -/
theorem findFork_suffix (best new f : BlockPtr) (h : findFork best new = .done f) :
    List.IsSuffix f best ∧ List.IsSuffix f new := by
  induction best generalizing new with
  | nil =>
    unfold findFork at h
    by_cases hn : new = []
    · rw [if_pos hn] at h
      simp only [Outcome.done.injEq] at h
      rw [← h, hn]
      exact ⟨List.suffix_refl _, List.suffix_refl _⟩
    · rw [if_neg hn] at h
      exact absurd h (by simp)
  | cons a r ih =>
    rw [findFork_cons] at h
    by_cases heq : a :: r = new
    · rw [if_pos heq] at h
      simp only [Outcome.done.injEq] at h
      rw [← h]
      exact ⟨List.suffix_refl _, heq ▸ List.suffix_refl _⟩
    · rw [if_neg heq] at h
      cases new with
      | nil => simp [findForkDescend] at h
      | cons b s =>
        rcases findForkDescend_spec a.index.nHeight (b :: s) (by simp) with
          ⟨q, hq, _, hqs, _, _⟩ | ⟨hf, _⟩
        · rw [hq] at h
          simp only at h
          by_cases heq2 : a :: r = q
          · rw [if_pos heq2] at h
            simp only [Outcome.done.injEq] at h
            rw [← h]
            exact ⟨List.suffix_refl _, heq2 ▸ hqs⟩
          · rw [if_neg heq2] at h
            cases r with
            | nil => simp at h
            | cons m r2 =>
              simp only at h
              obtain ⟨h1, h2⟩ := ih q h
              exact ⟨h1.trans (List.suffix_cons _ _), h2.trans hqs⟩
        · rw [hf] at h
          exact absurd h (by simp)

/-- On pointers whose paths satisfy the height invariant and that have a common
ancestor, the fork search ends with the common ancestor that every common ancestor
is an ancestor of. -/
theorem findFork_highest (best new : BlockPtr) (hb : heightLinked best = true)
    (hn : heightLinked new = true)
    (hcommon : ∃ g, g ≠ [] ∧ List.IsSuffix g best ∧ List.IsSuffix g new) :
    ∃ f, findFork best new = .done f ∧ f ≠ [] ∧ List.IsSuffix f best ∧ List.IsSuffix f new ∧
      ∀ g, List.IsSuffix g best → List.IsSuffix g new → List.IsSuffix g f := by
  induction best generalizing new with
  | nil =>
    obtain ⟨g, hg, hgb, _⟩ := hcommon
    exact absurd (List.suffix_nil.mp hgb) hg
  | cons a r ih =>
    rw [findFork_cons]
    by_cases heq : a :: r = new
    · rw [if_pos heq]
      exact ⟨a :: r, rfl, by simp, List.suffix_refl _, heq ▸ List.suffix_refl _,
        fun g hg _ => hg⟩
    · rw [if_neg heq]
      obtain ⟨g, hg, hgb, hgn⟩ := hcommon
      have hnew : new ≠ [] := by
        intro hnil
        rw [hnil] at hgn
        exact hg (List.suffix_nil.mp hgn)
      have hhead : ∀ n rest, List.IsSuffix (n :: rest) (a :: r) →
          n.index.nHeight ≤ a.index.nHeight :=
        fun n rest hs => heightLinked_suffix_le (a :: r) n rest hb hs
      rcases findForkDescend_spec a.index.nHeight new hnew with
        ⟨q, hq, hqne, hqs, hqh, hmax⟩ | ⟨_, hall⟩
      · rw [hq]
        simp only
        have hcomm : ∀ g2, List.IsSuffix g2 (a :: r) → List.IsSuffix g2 new →
            List.IsSuffix g2 q := by
          intro g2 h1 h2
          cases g2 with
          | nil => exact List.nil_suffix
          | cons n rest => exact hmax n rest h2 (hhead n rest h1)
        by_cases heq2 : a :: r = q
        · rw [if_pos heq2]
          exact ⟨a :: r, rfl, by simp, List.suffix_refl _, heq2 ▸ hqs, fun g2 h1 _ => h1⟩
        · rw [if_neg heq2]
          have hql : heightLinked q = true := heightLinked_suffix new q hn hqs
          have hrest : ∀ g2, g2 ≠ [] → List.IsSuffix g2 (a :: r) → List.IsSuffix g2 new →
              List.IsSuffix g2 r := by
            intro g2 hne h1 h2
            rcases List.suffix_cons_iff.mp h1 with he | hs
            · exfalso
              subst he
              have hsq := hcomm _ h1 h2
              cases q with
              | nil => exact hqne rfl
              | cons b s =>
                rcases List.suffix_cons_iff.mp hsq with he2 | hs2
                · exact heq2 he2
                · have hmem : a ∈ s := hs2.subset (List.mem_cons_self _ _)
                  have hlt := heightLinked_lt b s hql a hmem
                  simp only [ptrHeight] at hqh
                  omega
            · exact hs
          have hgr := hrest g hg hgb hgn
          cases r with
          | nil => exact absurd (List.suffix_nil.mp hgr) hg
          | cons m r2 =>
            simp only
            obtain ⟨f, hf, hfne, hf1, hf2, hfmax⟩ := ih q (heightLinked_tail a _ hb) hql
              ⟨g, hg, hgr, hcomm g hgb hgn⟩
            refine ⟨f, hf, hfne, hf1.trans (List.suffix_cons _ _), hf2.trans hqs, ?_⟩
            intro g2 h1 h2
            cases g2 with
            | nil => exact List.nil_suffix
            | cons n rest =>
              exact hfmax _ (hrest _ (by simp) h1 h2) (hcomm _ h1 h2)
      · exfalso
        cases g with
        | nil => exact hg rfl
        | cons n rest =>
          have h1 := hall n (hgn.subset (List.mem_cons_self _ _))
          have h2 := hhead n rest hgb
          omega

/-- Without a common ancestor the fork search returns false. -/
theorem findFork_disjoint (best new : BlockPtr) (hb : best ≠ []) (hn : new ≠ [])
    (hnone : ∀ g, g ≠ [] → List.IsSuffix g best → ¬ List.IsSuffix g new) :
    findFork best new = .fail 0 := by
  induction best generalizing new with
  | nil => exact absurd rfl hb
  | cons a r ih =>
    rw [findFork_cons]
    have heq : a :: r ≠ new := by
      intro h
      exact hnone (a :: r) (by simp) (List.suffix_refl _) (h ▸ List.suffix_refl _)
    rw [if_neg heq]
    rcases findForkDescend_spec a.index.nHeight new hn with
      ⟨q, hq, hqne, hqs, _, _⟩ | ⟨hf, _⟩
    · rw [hq]
      simp only
      have heq2 : a :: r ≠ q := by
        intro h
        exact hnone (a :: r) (by simp) (List.suffix_refl _) (h ▸ hqs)
      rw [if_neg heq2]
      cases r with
      | nil => rfl
      | cons m r2 =>
        simp only
        apply ih q (by simp) hqne
        intro g hg h1 h2
        exact hnone g hg (h1.trans (List.suffix_cons _ _)) (h2.trans hqs)
    · rw [hf]

/-- C18 (`Reorganize`, the fork search). For non-null `pindexBest` and
`pindexNew` whose `pprev` paths satisfy the height invariant: if they have a common
ancestor, the search ends with `pfork` a common ancestor that every common
ancestor is an ancestor of, so none is higher; if they have none, the search
and `Reorganize` return false. -/
theorem C18_fork_search (c : Consts) (env : Env) (pol : Policy)
    (disk : CBlockIndex → Option CBlock) (st : ChainState) (pindexNew : BlockPtr)
    (hb : heightLinked st.pindexBest = true) (hn : heightLinked pindexNew = true)
    (hbne : st.pindexBest ≠ []) (hnne : pindexNew ≠ []) :
    ((∃ g, g ≠ [] ∧ List.IsSuffix g st.pindexBest ∧ List.IsSuffix g pindexNew) →
      ∃ pfork, findFork st.pindexBest pindexNew = .done pfork ∧ pfork ≠ [] ∧
        List.IsSuffix pfork st.pindexBest ∧ List.IsSuffix pfork pindexNew ∧
        (∀ g, List.IsSuffix g st.pindexBest → List.IsSuffix g pindexNew →
          List.IsSuffix g pfork) ∧
        (∀ g, g ≠ [] → List.IsSuffix g st.pindexBest → List.IsSuffix g pindexNew →
          ptrHeight g ≤ ptrHeight pfork)) ∧
    ((¬ ∃ g, g ≠ [] ∧ List.IsSuffix g st.pindexBest ∧ List.IsSuffix g pindexNew) →
      findFork st.pindexBest pindexNew = .fail 0 ∧
      Reorganize c env pol disk st pindexNew = .fail 0) := by
  constructor
  · intro hcommon
    obtain ⟨f, hf, hfne, hf1, hf2, hmax⟩ := findFork_highest st.pindexBest pindexNew hb hn hcommon
    refine ⟨f, hf, hfne, hf1, hf2, hmax, ?_⟩
    intro g hg h1 h2
    cases g with
    | nil => exact absurd rfl hg
    | cons n rest =>
      exact heightLinked_suffix_le f n rest (heightLinked_suffix _ f hb hf1) (hmax _ h1 h2)
  · intro hnone
    have hfail : findFork st.pindexBest pindexNew = .fail 0 :=
      findFork_disjoint st.pindexBest pindexNew hbne hnne
        (fun g hg h1 h2 => hnone ⟨g, hg, h1, h2⟩)
    refine ⟨hfail, ?_⟩
    unfold Reorganize
    rw [hfail]
    rfl

/-- Witness of C18: from the best chain 101 -> 100 and the new tip 113 -> 111 -> 100
the fork search ends at the genesis node 100. -/
theorem C18_fork_search_witness :
    heightLinked (sampleChainState [100, 101]).pindexBest = true ∧
    heightLinked (samplePtr 113) = true ∧
    findFork (sampleChainState [100, 101]).pindexBest (samplePtr 113) = .done (samplePtr 100) ∧
    ∃ pfork, findFork (sampleChainState [100, 101]).pindexBest (samplePtr 113) = .done pfork ∧
      pfork ≠ [] ∧
      List.IsSuffix pfork (sampleChainState [100, 101]).pindexBest ∧
      List.IsSuffix pfork (samplePtr 113) ∧
      (∀ g, List.IsSuffix g (sampleChainState [100, 101]).pindexBest →
        List.IsSuffix g (samplePtr 113) → List.IsSuffix g pfork) ∧
      (∀ g, g ≠ [] → List.IsSuffix g (sampleChainState [100, 101]).pindexBest →
        List.IsSuffix g (samplePtr 113) → ptrHeight g ≤ ptrHeight pfork) :=
  ⟨by decide!, by decide!, by decide!,
    (C18_fork_search sampleConsts sampleEnv samplePolicy sampleDisk
      (sampleChainState [100, 101]) (samplePtr 113) (by decide!) (by decide!) (by decide!)
      (by decide!)).1 ⟨samplePtr 100, by decide!, by decide!, by decide!⟩⟩

/-! ## The branches of `Reorganize` -/

theorem pathAbove_succ (n : CBlockIndexNode) (rest : BlockPtr) (k : Nat) :
    pathAbove (n :: rest) (k + 1) = (n :: rest) :: pathAbove rest k := by
  unfold pathAbove
  rw [List.range_succ_eq_map, List.map_cons, List.map_map]
  rfl

theorem pathAbove_concat (p : BlockPtr) (k : Nat) :
    pathAbove p (k + 1) = pathAbove p k ++ [p.drop k] := by
  unfold pathAbove
  rw [List.range_succ, List.map_append]
  rfl

theorem mem_pathAbove (p d : BlockPtr) (k : Nat) :
    d ∈ pathAbove p k ↔ ∃ i, i < k ∧ d = p.drop i := by
  unfold pathAbove
  simp only [List.mem_map, List.mem_range]
  constructor
  · rintro ⟨i, hi, rfl⟩
    exact ⟨i, hi, rfl⟩
  · rintro ⟨i, hi, rfl⟩
    exact ⟨i, hi, rfl⟩

/-- The loop that fills `vDisconnect` or `vConnect` visits the nodes above the
fork, and no other. -/
theorem branchTo_append (a f : BlockPtr) : branchTo f (a ++ f) = pathAbove (a ++ f) a.length := by
  induction a with
  | nil =>
    cases f with
    | nil => rfl
    | cons n r => simp [branchTo, pathAbove]
  | cons x a ih =>
    have hne : x :: (a ++ f) ≠ f := by
      intro h
      have := congrArg List.length h
      simp at this
      omega
    rw [List.cons_append, List.length_cons, pathAbove_succ]
    unfold branchTo
    rw [if_neg hne, ih]

/-- Along a path with the height invariant the heights go down strictly. -/
theorem pathAbove_descending (p : BlockPtr) (k : Nat) (hk : k ≤ p.length)
    (hl : heightLinked p = true) :
    (pathAbove p k).Pairwise (fun x y => ptrHeight x > ptrHeight y) := by
  induction k generalizing p with
  | zero => simp [pathAbove]
  | succ k ih =>
    cases p with
    | nil => simp at hk
    | cons n rest =>
      rw [pathAbove_succ, List.pairwise_cons]
      have hk2 : k ≤ rest.length := by simpa using hk
      refine ⟨?_, ih rest hk2 (heightLinked_tail n rest hl)⟩
      intro y hy
      obtain ⟨i, hi, rfl⟩ := (mem_pathAbove rest y k).mp hy
      have hlt : i < rest.length := by omega
      have hdrop : rest.drop i = rest[i] :: rest.drop (i + 1) := List.drop_eq_getElem_cons hlt
      rw [hdrop]
      simp only [ptrHeight]
      exact heightLinked_lt n rest hl _ (List.getElem_mem _)

/-- What a completed disconnect loop of `Reorganize` did: block `i` was read from
the position of the node `l[i]` and disconnected from the tx index that the
disconnection of block `i - 1` left; `vResurrect` grew by the transactions of
these blocks that are not coinbases, in order. -/
theorem reorgDisconnect_done (env : Env) (disk : CBlockIndex → Option CBlock)
    (l : List BlockPtr) (acc r : StdMap uint256 CTxIndex × List CTransaction)
    (h : reorgDisconnect env disk l acc = .done r) :
    ∃ (blocks : List CBlock) (ts : List (StdMap uint256 CTxIndex)),
      blocks.length = l.length ∧ ts.length = l.length + 1 ∧
      ts[0]? = some acc.1 ∧ ts[l.length]? = some r.1 ∧
      (∀ i, i < l.length → ∃ n anc block t t2,
        l[i]? = some (n :: anc) ∧ blocks[i]? = some block ∧ disk n.index = some block ∧
        ts[i]? = some t ∧ ts[i + 1]? = some t2 ∧
        DisconnectBlock env t block n.index = some t2) ∧
      r.2 = acc.2 ++ blocks.flatMap (fun b => b.vtx.filter (fun tx => !tx.IsCoinBase)) := by
  induction l generalizing acc with
  | nil =>
    simp only [reorgDisconnect, Outcome.done.injEq] at h
    subst h
    exact ⟨[], [acc.1], rfl, rfl, List.getElem?_cons_zero, List.getElem?_cons_zero,
      fun i hi => absurd hi (by simp), by simp⟩
  | cons pindex rest ih =>
    unfold reorgDisconnect at h
    cases pindex with
    | nil => simp at h
    | cons n anc =>
      dsimp only at h
      cases hdisk : disk n.index with
      | none => rw [hdisk] at h; simp at h
      | some block =>
        rw [hdisk] at h
        dsimp only at h
        cases hdis : DisconnectBlock env acc.1 block n.index with
        | none => rw [hdis] at h; simp at h
        | some txdb2 =>
          rw [hdis] at h
          dsimp only at h
          obtain ⟨blocks, ts, hbl, htl, h0, hlast, hstep, hres⟩ := ih _ h
          dsimp only at h0 hres
          refine ⟨block :: blocks, acc.1 :: ts, by simp [hbl], by simp [htl],
            List.getElem?_cons_zero, ?_, ?_, ?_⟩
          · simpa using hlast
          · intro i hi
            cases i with
            | zero =>
              exact ⟨n, anc, block, acc.1, txdb2, List.getElem?_cons_zero, List.getElem?_cons_zero,
                hdisk, List.getElem?_cons_zero, by simpa using h0, hdis⟩
            | succ k =>
              obtain ⟨n2, anc2, block2, t, t2, e1, e2, e3, e4, e5, e6⟩ :=
                hstep k (by simpa using hi)
              exact ⟨n2, anc2, block2, t, t2, by simpa using e1, by simpa using e2, e3,
                by simpa using e4, by simpa using e5, e6⟩
          · rw [hres, List.flatMap_cons, List.append_assoc]

/-- What a completed connect loop of `Reorganize` did: block `j` was read from the
position of the node `l[j]` and connected to the tx index that the connection of
block `j - 1` left; `vDelete` grew by the transactions of these blocks, in
order. -/
theorem reorgConnect_done (c : Consts) (env : Env) (disk : CBlockIndex → Option CBlock)
    (l : List BlockPtr) (acc r : StdMap uint256 CTxIndex × List CTransaction)
    (h : reorgConnect c env disk l acc = .done r) :
    ∃ (blocks : List CBlock) (ts : List (StdMap uint256 CTxIndex)),
      blocks.length = l.length ∧ ts.length = l.length + 1 ∧
      ts[0]? = some acc.1 ∧ ts[l.length]? = some r.1 ∧
      (∀ j, j < l.length → ∃ n anc block t t2,
        l[j]? = some (n :: anc) ∧ blocks[j]? = some block ∧ disk n.index = some block ∧
        ts[j]? = some t ∧ ts[j + 1]? = some t2 ∧
        ConnectBlock c env t block n.index (anc.map (fun a => a.index)) false = .done t2) ∧
      r.2 = acc.2 ++ blocks.flatMap (fun b => b.vtx) := by
  induction l generalizing acc with
  | nil =>
    simp only [reorgConnect, Outcome.done.injEq] at h
    subst h
    exact ⟨[], [acc.1], rfl, rfl, List.getElem?_cons_zero, List.getElem?_cons_zero,
      fun i hi => absurd hi (by simp), by simp⟩
  | cons pindex rest ih =>
    unfold reorgConnect at h
    cases pindex with
    | nil => simp at h
    | cons n anc =>
      dsimp only at h
      cases hdisk : disk n.index with
      | none => rw [hdisk] at h; simp at h
      | some block =>
        rw [hdisk] at h
        dsimp only at h
        cases hcon : ConnectBlock c env acc.1 block n.index (anc.map (fun a => a.index))
            false with
        | thrown => rw [hcon] at h; simp at h
        | fail k => rw [hcon] at h; simp at h
        | done txdb2 =>
          rw [hcon] at h
          dsimp only at h
          obtain ⟨blocks, ts, hbl, htl, h0, hlast, hstep, hres⟩ := ih _ h
          dsimp only at h0 hres
          refine ⟨block :: blocks, acc.1 :: ts, by simp [hbl], by simp [htl],
            List.getElem?_cons_zero, ?_, ?_, ?_⟩
          · simpa using hlast
          · intro i hi
            cases i with
            | zero =>
              exact ⟨n, anc, block, acc.1, txdb2, List.getElem?_cons_zero, List.getElem?_cons_zero,
                hdisk, List.getElem?_cons_zero, by simpa using h0, hcon⟩
            | succ k =>
              obtain ⟨n2, anc2, block2, t, t2, e1, e2, e3, e4, e5, e6⟩ :=
                hstep k (by simpa using hi)
              exact ⟨n2, anc2, block2, t, t2, by simpa using e1, by simpa using e2, e3,
                by simpa using e4, by simpa using e5, e6⟩
          · rw [hres, List.flatMap_cons, List.append_assoc]

theorem getElem?_pathAbove (p : BlockPtr) (k i : Nat) (hi : i < k) :
    (pathAbove p k)[i]? = some (p.drop i) := by
  unfold pathAbove
  rw [List.getElem?_map, List.getElem?_range hi]
  rfl

theorem length_pathAbove (p : BlockPtr) (k : Nat) : (pathAbove p k).length = k := by
  unfold pathAbove
  rw [List.length_map, List.length_range]

/-- C17 (`Reorganize`, lines 2149-2196). On `pprev` paths that satisfy the height
invariant, once the fork search has ended with `pfork`: `vDisconnect` is `pindexBest`,
its parent, and so on down to the child of the fork, in strictly descending height;
`vConnect` is the same walk from `pindexNew`, reversed, so it runs from the child of
the fork up to `pindexNew` in strictly ascending height.  When `Reorganize` returns
true the blocks were disconnected and then connected in these orders: call `i` of
`DisconnectBlock` is on the block read from the position of the node `i` steps
below `pindexBest`, applied to the tx index that call `i - 1` left (the tx index
of the state for the first); call `j` of `ConnectBlock` is on the block of the
node `j` steps above the child of the fork, applied to the tx index that call
`j - 1` left (the one left by the last disconnection for the first); the tx index
afterwards is the one the last connection left; and the memory pool is the old
one after the transactions of the disconnected blocks that are not coinbases were
offered to it and those of the connected blocks removed, in the same orders. -/
theorem C17_reorganize_order (c : Consts) (env : Env) (pol : Policy)
    (disk : CBlockIndex → Option CBlock) (st : ChainState) (pindexNew pfork : BlockPtr)
    (hb : heightLinked st.pindexBest = true) (hn : heightLinked pindexNew = true)
    (hfork : findFork st.pindexBest pindexNew = .done pfork) :
    ∃ a b, st.pindexBest = a ++ pfork ∧ pindexNew = b ++ pfork ∧
      branchTo pfork st.pindexBest = pathAbove st.pindexBest a.length ∧
      (branchTo pfork pindexNew).reverse = (pathAbove pindexNew b.length).reverse ∧
      (pathAbove st.pindexBest a.length).Pairwise (fun x y => ptrHeight x > ptrHeight y) ∧
      (pathAbove pindexNew b.length).reverse.Pairwise (fun x y => ptrHeight x < ptrHeight y) ∧
      Reorganize c env pol disk st pindexNew =
        reorganizeBranches c env pol disk st pindexNew (pathAbove st.pindexBest a.length)
          (pathAbove pindexNew b.length).reverse ∧
      (∀ st2, Reorganize c env pol disk st pindexNew = .done st2 →
        ∃ (blocksD blocksC : List CBlock) (tsD tsC : List (StdMap uint256 CTxIndex)),
          blocksD.length = a.length ∧ blocksC.length = b.length ∧
          tsD[0]? = some st.txdb ∧ tsC[0]? = tsD[a.length]? ∧
          tsC[b.length]? = some st2.txdb ∧
          (∀ i, i < a.length → ∃ n anc block t t2,
            st.pindexBest.drop i = n :: anc ∧
            blocksD[i]? = some block ∧ disk n.index = some block ∧
            tsD[i]? = some t ∧ tsD[i + 1]? = some t2 ∧
            DisconnectBlock env t block n.index = some t2) ∧
          (∀ j, j < b.length → ∃ n anc block t t2,
            pindexNew.drop (b.length - 1 - j) = n :: anc ∧
            blocksC[j]? = some block ∧ disk n.index = some block ∧
            tsC[j]? = some t ∧ tsC[j + 1]? = some t2 ∧
            ConnectBlock c (envAt env st) t block n.index (anc.map (fun x => x.index)) false
              = .done t2) ∧
          st2.mempool =
            (blocksC.flatMap (fun blk => blk.vtx)).foldl (fun pool tx => pool.remove env tx)
              ((blocksD.flatMap
                  (fun blk => blk.vtx.filter (fun tx => !tx.IsCoinBase))).foldl
                (fun pool tx =>
                  (pool.accept c (envAt env st) pol st2.txdb
                    (st.pindexBest.map (fun x => x.index)) tx false false).pool)
                st.mempool)) := by
  obtain ⟨⟨a, ha⟩, ⟨b, hb2⟩⟩ := findFork_suffix st.pindexBest pindexNew pfork hfork
  have h1 : branchTo pfork st.pindexBest = pathAbove st.pindexBest a.length := by
    rw [← ha]
    exact branchTo_append a pfork
  have h2 : branchTo pfork pindexNew = pathAbove pindexNew b.length := by
    rw [← hb2]
    exact branchTo_append b pfork
  have h3 : Reorganize c env pol disk st pindexNew =
      reorganizeBranches c env pol disk st pindexNew (pathAbove st.pindexBest a.length)
        (pathAbove pindexNew b.length).reverse := by
    unfold Reorganize
    rw [hfork]
    simp only [Outcome.bind]
    rw [h1, h2]
  refine ⟨a, b, ha.symm, hb2.symm, h1, by rw [h2], ?_, ?_, h3, ?_⟩
  · apply pathAbove_descending _ _ _ hb
    rw [← ha, List.length_append]
    omega
  · rw [List.pairwise_reverse]
    apply pathAbove_descending _ _ _ hn
    rw [← hb2, List.length_append]
    omega
  · intro st2 hdone
    rw [h3] at hdone
    unfold reorganizeBranches at hdone
    cases hd : reorgDisconnect env disk (pathAbove st.pindexBest a.length) (st.txdb, []) with
    | thrown => simp [hd, Outcome.bind] at hdone
    | fail k => simp [hd, Outcome.bind] at hdone
    | done d =>
      simp only [hd, Outcome.bind] at hdone
      cases hc : reorgConnect c (envAt env st) disk (pathAbove pindexNew b.length).reverse
          (d.1, []) with
      | thrown => simp [hc] at hdone
      | fail k => simp [hc] at hdone
      | done cn =>
        simp only [hc] at hdone
        cases hnew : pindexNew with
        | nil => rw [hnew] at hdone; simp at hdone
        | cons nNew restNew =>
          rw [hnew] at hdone
          simp only [Outcome.done.injEq] at hdone
          rw [← hnew] at hdone ⊢
          obtain ⟨blocksD, tsD, d1, d2, d3, d4, d5, d6⟩ :=
            reorgDisconnect_done env disk _ _ _ hd
          obtain ⟨blocksC, tsC, c1, c2, c3, c4, c5, c6⟩ :=
            reorgConnect_done c (envAt env st) disk _ _ _ hc
          rw [length_pathAbove] at d1 d2 d4 d5
          rw [List.length_reverse, length_pathAbove] at c1 c2 c4 c5
          simp only [List.nil_append] at d6 c6
          have htx : st2.txdb = cn.1 := by rw [← hdone]
          have hpool : st2.mempool = cn.2.foldl (fun pool tx => pool.remove env tx)
              (d.2.foldl
                (fun pool tx =>
                  (pool.accept c (envAt env st) pol cn.1
                    (st.pindexBest.map (fun x => x.index)) tx false false).pool)
                st.mempool) := by rw [← hdone]
          refine ⟨blocksD, blocksC, tsD, tsC, d1, c1, d3, ?_, ?_, ?_, ?_, ?_⟩
          · rw [c3, d4]
          · rw [c4, htx]
          · intro i hi
            obtain ⟨n, anc, block, t, t2, e1, e2, e3, e4, e5, e6⟩ := d5 i hi
            rw [getElem?_pathAbove _ _ _ hi] at e1
            exact ⟨n, anc, block, t, t2, Option.some.inj e1, e2, e3, e4, e5, e6⟩
          · intro j hj
            obtain ⟨n, anc, block, t, t2, e1, e2, e3, e4, e5, e6⟩ := c5 j hj
            rw [List.getElem?_reverse (by rw [length_pathAbove]; exact hj), length_pathAbove,
              getElem?_pathAbove _ _ _ (by omega)] at e1
            exact ⟨n, anc, block, t, t2, Option.some.inj e1, e2, e3, e4, e5, e6⟩
          · rw [hpool, htx, d6, c6]

/-- Witness of C17: for the best chain 101 -> 100 and the new tip 113 -> 111 -> 100,
`vDisconnect` is the node 101 and `vConnect` the nodes 111 and 113, in that order;
`Reorganize` returns true, so block 101 was disconnected, then 111 and 113
connected. -/
theorem C17_reorganize_order_witness :
    heightLinked (sampleChainState [100, 101]).pindexBest = true ∧
    heightLinked (samplePtr 113) = true ∧
    branchTo (samplePtr 100) (sampleChainState [100, 101]).pindexBest = [samplePtr 101] ∧
    (branchTo (samplePtr 100) (samplePtr 113)).reverse = [samplePtr 111, samplePtr 113] ∧
    (Reorganize sampleConsts sampleEnv samplePolicy sampleDisk (sampleChainState [100, 101])
      (samplePtr 113)).returnedTrue = true ∧
    ∃ a b, (sampleChainState [100, 101]).pindexBest = a ++ samplePtr 100 ∧
      samplePtr 113 = b ++ samplePtr 100 ∧
      branchTo (samplePtr 100) (sampleChainState [100, 101]).pindexBest =
        pathAbove (sampleChainState [100, 101]).pindexBest a.length ∧
      (branchTo (samplePtr 100) (samplePtr 113)).reverse =
        (pathAbove (samplePtr 113) b.length).reverse ∧
      (pathAbove (sampleChainState [100, 101]).pindexBest a.length).Pairwise
        (fun x y => ptrHeight x > ptrHeight y) ∧
      (pathAbove (samplePtr 113) b.length).reverse.Pairwise
        (fun x y => ptrHeight x < ptrHeight y) ∧
      Reorganize sampleConsts sampleEnv samplePolicy sampleDisk (sampleChainState [100, 101])
          (samplePtr 113) =
        reorganizeBranches sampleConsts sampleEnv samplePolicy sampleDisk
          (sampleChainState [100, 101]) (samplePtr 113)
          (pathAbove (sampleChainState [100, 101]).pindexBest a.length)
          (pathAbove (samplePtr 113) b.length).reverse ∧
      (∀ st2, Reorganize sampleConsts sampleEnv samplePolicy sampleDisk
          (sampleChainState [100, 101]) (samplePtr 113) = .done st2 →
        ∃ (blocksD blocksC : List CBlock) (tsD tsC : List (StdMap uint256 CTxIndex)),
          blocksD.length = a.length ∧ blocksC.length = b.length ∧
          tsD[0]? = some (sampleChainState [100, 101]).txdb ∧ tsC[0]? = tsD[a.length]? ∧
          tsC[b.length]? = some st2.txdb ∧
          (∀ i, i < a.length → ∃ n anc block t t2,
            (sampleChainState [100, 101]).pindexBest.drop i = n :: anc ∧
            blocksD[i]? = some block ∧ sampleDisk n.index = some block ∧
            tsD[i]? = some t ∧ tsD[i + 1]? = some t2 ∧
            DisconnectBlock sampleEnv t block n.index = some t2) ∧
          (∀ j, j < b.length → ∃ n anc block t t2,
            (samplePtr 113).drop (b.length - 1 - j) = n :: anc ∧
            blocksC[j]? = some block ∧ sampleDisk n.index = some block ∧
            tsC[j]? = some t ∧ tsC[j + 1]? = some t2 ∧
            ConnectBlock sampleConsts (envAt sampleEnv (sampleChainState [100, 101])) t block
              n.index (anc.map (fun x => x.index)) false = .done t2) ∧
          st2.mempool =
            (blocksC.flatMap (fun blk => blk.vtx)).foldl
              (fun pool tx => pool.remove sampleEnv tx)
              ((blocksD.flatMap
                  (fun blk => blk.vtx.filter (fun tx => !tx.IsCoinBase))).foldl
                (fun pool tx =>
                  (pool.accept sampleConsts (envAt sampleEnv (sampleChainState [100, 101]))
                    samplePolicy st2.txdb
                    ((sampleChainState [100, 101]).pindexBest.map (fun x => x.index)) tx
                    false false).pool)
                (sampleChainState [100, 101]).mempool)) :=
  ⟨by decide!, by decide!, by decide!, by decide!, by decide!,
    C17_reorganize_order sampleConsts sampleEnv samplePolicy sampleDisk
      (sampleChainState [100, 101]) (samplePtr 113) (samplePtr 100) (by decide!) (by decide!)
      (by decide!)⟩

/-! ## The `pnext` links after `Reorganize` -/

theorem find_unlinkStep (m : StdMap BlockPtr BlockPtr) (d k : BlockPtr) :
    (unlinkStep m d).find k = if k ≠ [] ∧ d.tail = k then none else m.find k := by
  match d with
  | [] =>
    have : ¬ (k ≠ [] ∧ ([] : BlockPtr).tail = k) := fun h => h.1 h.2.symm
    rw [if_neg this]
    rfl
  | [x] =>
    have : ¬ (k ≠ [] ∧ [x].tail = k) := fun h => h.1 h.2.symm
    rw [if_neg this]
    rfl
  | x :: p :: prest =>
    simp only [unlinkStep, List.tail_cons]
    by_cases hk : p :: prest = k
    · rw [if_pos ⟨by rw [← hk]; simp, hk⟩, ← hk]
      exact StdMap.find_erase_self _ _
    · rw [if_neg (fun h => hk h.2)]
      exact StdMap.find_erase_ne _ _ _ (fun h => hk h.symm)

theorem find_unlinkNext (l : List BlockPtr) (m : StdMap BlockPtr BlockPtr) (k : BlockPtr) :
    (unlinkNext l m).find k =
      if k ≠ [] ∧ ∃ d ∈ l, d.tail = k then none else m.find k := by
  induction l generalizing m with
  | nil => simp [unlinkNext]
  | cons d rest ih =>
    have hstep : unlinkNext (d :: rest) m = unlinkNext rest (unlinkStep m d) := rfl
    rw [hstep, ih, find_unlinkStep]
    by_cases hrest : k ≠ [] ∧ ∃ d2 ∈ rest, d2.tail = k
    · have hall : k ≠ [] ∧ ∃ d2 ∈ d :: rest, d2.tail = k := by
        obtain ⟨h1, d2, h2, h3⟩ := hrest
        exact ⟨h1, d2, List.mem_cons_of_mem _ h2, h3⟩
      rw [if_pos hrest, if_pos hall]
    · rw [if_neg hrest]
      by_cases hd : k ≠ [] ∧ d.tail = k
      · have hall : k ≠ [] ∧ ∃ d2 ∈ d :: rest, d2.tail = k :=
          ⟨hd.1, d, List.mem_cons_self _ _, hd.2⟩
        rw [if_pos hall, if_pos hd]
      · have hall : ¬ (k ≠ [] ∧ ∃ d2 ∈ d :: rest, d2.tail = k) := by
          rintro ⟨hk, d2, h2, h3⟩
          rcases List.mem_cons.mp h2 with h2 | h2
          · subst h2
            exact hd ⟨hk, h3⟩
          · exact hrest ⟨hk, d2, h2, h3⟩
        rw [if_neg hall, if_neg hd]

theorem find_linkStep_other (m : StdMap BlockPtr BlockPtr) (d k : BlockPtr)
    (hk : d.tail ≠ k ∨ k = []) : (linkStep m d).find k = m.find k := by
  match d, hk with
  | [], _ => rfl
  | [_], _ => rfl
  | n :: p :: prest, hk =>
    simp only [linkStep]
    have hne : k ≠ p :: prest := by
      intro h
      rcases hk with hk | hk
      · exact hk (by rw [h]; rfl)
      · rw [hk] at h
        exact absurd h (by simp)
    exact StdMap.find_set_ne _ _ _ _ hne

theorem find_linkStep_parent (m : StdMap BlockPtr BlockPtr) (d : BlockPtr)
    (htail : d.tail ≠ []) : (linkStep m d).find d.tail = some d := by
  match d, htail with
  | [], htail => exact absurd rfl htail
  | [_], htail => exact absurd rfl htail
  | n :: p :: prest, _ =>
    simp only [linkStep, List.tail_cons]
    exact StdMap.find_set_self _ _ _

theorem find_linkNext_other (l : List BlockPtr) (m : StdMap BlockPtr BlockPtr) (k : BlockPtr)
    (hk : ∀ d ∈ l, d.tail ≠ k ∨ k = []) : (linkNext l m).find k = m.find k := by
  induction l generalizing m with
  | nil => rfl
  | cons d rest ih =>
    have hstep : linkNext (d :: rest) m = linkNext rest (linkStep m d) := rfl
    rw [hstep, ih _ (fun d2 h2 => hk d2 (List.mem_cons_of_mem _ h2))]
    exact find_linkStep_other m d k (hk d (List.mem_cons_self _ _))

theorem find_linkNext_parent (l : List BlockPtr) (m : StdMap BlockPtr BlockPtr)
    (hnd : (l.map List.tail).Nodup) (cn : BlockPtr) (hc : cn ∈ l) (htail : cn.tail ≠ []) :
    (linkNext l m).find cn.tail = some cn := by
  induction l generalizing m with
  | nil => simp at hc
  | cons d rest ih =>
    rw [List.map_cons, List.nodup_cons] at hnd
    have hstep : linkNext (d :: rest) m = linkNext rest (linkStep m d) := rfl
    rw [hstep]
    rcases List.mem_cons.mp hc with hc | hc
    · subst hc
      rw [find_linkNext_other]
      · exact find_linkStep_parent m cn htail
      · intro d2 h2
        left
        intro h
        exact hnd.1 (h ▸ List.mem_map_of_mem List.tail h2)
    · exact ih _ hnd.2 hc

/-- A fork search that starts from a non-null `pindexBest` ends with a non-null
fork. -/
theorem findFork_ne_nil (best new f : BlockPtr) (hb : best ≠ [])
    (h : findFork best new = .done f) : f ≠ [] := by
  induction best generalizing new with
  | nil => exact absurd rfl hb
  | cons a r ih =>
    rw [findFork_cons] at h
    by_cases heq : a :: r = new
    · rw [if_pos heq] at h
      simp only [Outcome.done.injEq] at h
      rw [← h]
      simp
    · rw [if_neg heq] at h
      split at h
      · exact absurd h (by simp)
      · exact absurd h (by simp)
      · split at h
        · simp only [Outcome.done.injEq] at h
          rw [← h]
          simp
        · split at h
          · exact absurd h (by simp)
          · exact ih _ (by simp) h

/-- What a true return of the second part of `Reorganize` leaves of the index
links and the best-chain view. -/
theorem reorganizeBranches_done (c : Consts) (env : Env) (pol : Policy)
    (disk : CBlockIndex → Option CBlock) (st st2 : ChainState) (pindexNew : BlockPtr)
    (vDisconnect vConnect : List BlockPtr)
    (h : reorganizeBranches c env pol disk st pindexNew vDisconnect vConnect = .done st2) :
    st2.pnext = linkNext vConnect (unlinkNext vDisconnect st.pnext) ∧
    st2.mapBlockIndex = st.mapBlockIndex ∧ st2.pindexBest = st.pindexBest ∧
    st2.hashBestChain = st.hashBestChain ∧ st2.nBestHeight = st.nBestHeight ∧
    st2.bnBestChainWork = st.bnBestChainWork ∧ st2.bnBestInvalidWork = st.bnBestInvalidWork ∧
    st2.hashGenesisBlock = st.hashGenesisBlock ∧
    st2.pindexGenesisBlock = st.pindexGenesisBlock := by
  unfold reorganizeBranches at h
  cases hd : reorgDisconnect env disk vDisconnect (st.txdb, []) with
  | thrown => simp [hd, Outcome.bind] at h
  | fail n => simp [hd, Outcome.bind] at h
  | done d =>
    simp only [hd, Outcome.bind] at h
    cases hc : reorgConnect c (envAt env st) disk vConnect (d.1, []) with
    | thrown => simp [hc] at h
    | fail n => simp [hc] at h
    | done cn =>
      simp only [hc] at h
      cases pindexNew with
      | nil => simp at h
      | cons nNew rest =>
        simp only [Outcome.done.injEq] at h
        subst h
        exact ⟨rfl, rfl, rfl, rfl, rfl, rfl, rfl, rfl, rfl⟩

/-- A true return of `Reorganize`: the fork search ended and the second part
returned true. -/
theorem Reorganize_done (c : Consts) (env : Env) (pol : Policy)
    (disk : CBlockIndex → Option CBlock) (st st2 : ChainState) (pindexNew : BlockPtr)
    (h : Reorganize c env pol disk st pindexNew = .done st2) :
    ∃ pfork, findFork st.pindexBest pindexNew = .done pfork ∧
      reorganizeBranches c env pol disk st pindexNew (branchTo pfork st.pindexBest)
        (branchTo pfork pindexNew).reverse = .done st2 := by
  unfold Reorganize at h
  cases hf : findFork st.pindexBest pindexNew with
  | thrown => simp [hf, Outcome.bind] at h
  | fail n => simp [hf, Outcome.bind] at h
  | done pfork =>
    simp only [hf, Outcome.bind] at h
    exact ⟨pfork, rfl, h⟩

theorem tail_drop (p : BlockPtr) (i : Nat) : (p.drop i).tail = p.drop (i + 1) := by
  rw [← List.drop_one, List.drop_drop]

/-- Following the links set for the nodes above the fork, from the fork, visits
those nodes from the child of the fork upwards. -/
theorem followNext_branch (pnext : StdMap BlockPtr BlockPtr) (b f : BlockPtr)
    (hlink : ∀ i, i < b.length → pnext.find ((b ++ f).drop (i + 1)) = some ((b ++ f).drop i)) :
    followNext pnext b.length f = (pathAbove (b ++ f) b.length).reverse := by
  induction b using List.reverseRecOn generalizing f with
  | nil => rfl
  | append_singleton b x ih =>
    have hlen : (b ++ [x]).length = b.length + 1 := by simp
    have happ : b ++ [x] ++ f = b ++ (x :: f) := by simp
    rw [hlen, happ, pathAbove_concat, List.reverse_append]
    have hdrop : (b ++ (x :: f)).drop b.length = x :: f := by
      rw [List.drop_append_of_le_length (le_refl _)]
      simp
    have hdrop1 : (b ++ (x :: f)).drop (b.length + 1) = f := by
      rw [← List.drop_drop, hdrop]
      rfl
    have hfirst := hlink b.length (by rw [hlen]; omega)
    rw [happ, hdrop, hdrop1] at hfirst
    unfold followNext
    rw [hfirst, hdrop]
    simp only [List.reverse_cons, List.reverse_nil, List.nil_append, List.singleton_append]
    congr 1
    apply ih
    intro i hi
    have := hlink i (by rw [hlen]; omega)
    rw [happ] at this
    exact this

theorem pathAbove_tails_nodup (p : BlockPtr) (k : Nat) (hk : k ≤ p.length) :
    ((pathAbove p k).map List.tail).Nodup := by
  unfold pathAbove
  rw [List.map_map]
  apply List.Nodup.map_on _ (List.nodup_range k)
  intro i hi j hj heq
  simp only [Function.comp, tail_drop] at heq
  have hlen := congrArg List.length heq
  simp only [List.length_drop] at hlen
  rw [List.mem_range] at hi hj
  omega

/-- C19 (`Reorganize`, the `pnext` links). Let the `pprev` paths of a non-null
`pindexBest` and of `pindexNew` satisfy the height invariant and let the old tip
have a null `pnext`.  After a true return of `Reorganize`, with `pfork` the fork:
every node of `vDisconnect` has a null `pnext`; the parent of every node of
`vConnect` has that node as its `pnext`; following `pnext` from the fork visits the
nodes of `vConnect` in order, the last of them being `pindexNew`; and `pindexNew`
has a null `pnext` when it is an ancestor of the old tip or had a null `pnext`
before. -/
theorem C19_pnext_links (c : Consts) (env : Env) (pol : Policy)
    (disk : CBlockIndex → Option CBlock) (st st2 : ChainState) (pindexNew : BlockPtr)
    (hb : heightLinked st.pindexBest = true) (hn : heightLinked pindexNew = true)
    (hbne : st.pindexBest ≠ [])
    (htip : st.pnext.find st.pindexBest = none)
    (hre : Reorganize c env pol disk st pindexNew = .done st2) :
    ∃ pfork a b, findFork st.pindexBest pindexNew = .done pfork ∧
      st.pindexBest = a ++ pfork ∧ pindexNew = b ++ pfork ∧
      (∀ d ∈ branchTo pfork st.pindexBest, st2.pnext.find d = none) ∧
      (∀ cn ∈ (branchTo pfork pindexNew).reverse, st2.pnext.find cn.tail = some cn) ∧
      followNext st2.pnext b.length pfork = (branchTo pfork pindexNew).reverse ∧
      (b ≠ [] → (branchTo pfork pindexNew).reverse.getLast? = some pindexNew) ∧
      ((List.IsSuffix pindexNew st.pindexBest ∨ st.pnext.find pindexNew = none) →
        st2.pnext.find pindexNew = none) := by
  obtain ⟨pfork, hfork, hbr⟩ := Reorganize_done c env pol disk st st2 pindexNew hre
  obtain ⟨hpnext, _⟩ := reorganizeBranches_done c env pol disk st st2 pindexNew _ _ hbr
  obtain ⟨⟨a, ha⟩, ⟨b, hb2⟩⟩ := findFork_suffix st.pindexBest pindexNew pfork hfork
  have hfne : pfork ≠ [] := findFork_ne_nil _ _ _ hbne hfork
  have hflen : 0 < pfork.length := List.length_pos.mpr hfne
  have hmax : ∀ g, List.IsSuffix g st.pindexBest → List.IsSuffix g pindexNew →
      List.IsSuffix g pfork := by
    obtain ⟨f2, hf2, _, _, _, hm⟩ := findFork_highest st.pindexBest pindexNew hb hn
      ⟨pfork, hfne, ⟨a, ha⟩, ⟨b, hb2⟩⟩
    rw [hfork] at hf2
    simp only [Outcome.done.injEq] at hf2
    rw [hf2]
    exact hm
  have hblen : st.pindexBest.length = a.length + pfork.length := by
    rw [← ha, List.length_append]
  have hnlen : pindexNew.length = b.length + pfork.length := by
    rw [← hb2, List.length_append]
  have hvD : branchTo pfork st.pindexBest = pathAbove st.pindexBest a.length := by
    rw [← ha]
    exact branchTo_append a pfork
  have hvC : branchTo pfork pindexNew = pathAbove pindexNew b.length := by
    rw [← hb2]
    exact branchTo_append b pfork
  rw [hvD, hvC] at hpnext
  have hnd : (((pathAbove pindexNew b.length).reverse).map List.tail).Nodup := by
    rw [List.map_reverse, List.nodup_reverse]
    exact pathAbove_tails_nodup _ _ (by omega)
  have hlinks : ∀ cn ∈ (pathAbove pindexNew b.length).reverse,
      (linkNext (pathAbove pindexNew b.length).reverse
        (unlinkNext (pathAbove st.pindexBest a.length) st.pnext)).find cn.tail = some cn := by
    intro cn hcn
    apply find_linkNext_parent _ _ hnd cn hcn
    obtain ⟨j, hj, rfl⟩ := (mem_pathAbove _ _ _).mp (List.mem_reverse.mp hcn)
    rw [tail_drop]
    intro h
    have := congrArg List.length h
    simp only [List.length_drop, List.length_nil] at this
    omega
  refine ⟨pfork, a, b, hfork, ha.symm, hb2.symm, ?_⟩
  rw [hvD, hvC, hpnext]
  refine ⟨?_, hlinks, ?_, ?_, ?_⟩
  · intro d hd
    obtain ⟨i, hi, rfl⟩ := (mem_pathAbove _ _ _).mp hd
    rw [find_linkNext_other, find_unlinkNext]
    · by_cases hcond : st.pindexBest.drop i ≠ [] ∧
          ∃ d2 ∈ pathAbove st.pindexBest a.length, d2.tail = st.pindexBest.drop i
      · rw [if_pos hcond]
      · rw [if_neg hcond]
        cases i with
        | zero => exact htip
        | succ i =>
          exfalso
          apply hcond
          refine ⟨?_, st.pindexBest.drop i, (mem_pathAbove _ _ _).mpr ⟨i, by omega, rfl⟩,
            tail_drop _ _⟩
          intro h
          have := congrArg List.length h
          simp only [List.length_drop, List.length_nil] at this
          omega
    · intro cn hcn
      left
      obtain ⟨j, hj, rfl⟩ := (mem_pathAbove _ _ _).mp (List.mem_reverse.mp hcn)
      rw [tail_drop]
      intro h
      have hs1 : List.IsSuffix (st.pindexBest.drop i) st.pindexBest := List.drop_suffix _ _
      have hs2 : List.IsSuffix (st.pindexBest.drop i) pindexNew := by
        rw [← h]
        exact List.drop_suffix _ _
      have := (hmax _ hs1 hs2).length_le
      simp only [List.length_drop] at this
      omega
  · have := followNext_branch
      (linkNext (pathAbove pindexNew b.length).reverse
        (unlinkNext (pathAbove st.pindexBest a.length) st.pnext)) b pfork
      (by
        intro i hi
        rw [hb2]
        have := hlinks (pindexNew.drop i)
          (List.mem_reverse.mpr ((mem_pathAbove _ _ _).mpr ⟨i, hi, rfl⟩))
        rw [tail_drop] at this
        exact this)
    rw [hb2] at this
    exact this
  · intro hbne2
    have hpos : 0 < b.length := List.length_pos.mpr hbne2
    obtain ⟨k, hk⟩ : ∃ k, b.length = k + 1 := ⟨b.length - 1, by omega⟩
    rw [hk, List.getLast?_reverse]
    cases hp : pindexNew with
    | nil =>
      rw [hp] at hnlen
      simp at hnlen
      omega
    | cons n rest =>
      rw [pathAbove_succ]
      rfl
  · intro hcase
    rw [find_linkNext_other, find_unlinkNext]
    · by_cases hcond : pindexNew ≠ [] ∧
          ∃ d2 ∈ pathAbove st.pindexBest a.length, d2.tail = pindexNew
      · rw [if_pos hcond]
      · rw [if_neg hcond]
        rcases hcase with hsuf | hnone
        · have hle := (hmax _ hsuf (List.suffix_refl _)).length_le
          have hb0 : b = [] := by
            apply List.eq_nil_of_length_eq_zero
            omega
          have hnew : pindexNew = pfork := by
            rw [← hb2, hb0]
            rfl
          cases ha0 : a with
          | nil =>
            have hbest : st.pindexBest = pfork := by
              rw [← ha, ha0]
              rfl
            rw [hnew, ← hbest]
            exact htip
          | cons x a2 =>
            exfalso
            apply hcond
            have hal : a.length = a2.length + 1 := by rw [ha0]; rfl
            refine ⟨by rw [hnew]; exact hfne, st.pindexBest.drop a2.length,
              (mem_pathAbove _ _ _).mpr ⟨a2.length, by omega, rfl⟩, ?_⟩
            rw [tail_drop, hnew, ← hal, ← ha]
            simp
        · exact hnone
    · intro cn hcn
      by_cases hnil : pindexNew = []
      · right
        exact hnil
      · left
        obtain ⟨j, hj, rfl⟩ := (mem_pathAbove _ _ _).mp (List.mem_reverse.mp hcn)
        rw [tail_drop]
        intro h
        have := congrArg List.length h
        simp only [List.length_drop] at this
        have hpos : 0 < pindexNew.length := List.length_pos.mpr hnil
        omega

theorem Outcome.eq_done_getD {α : Type} (x : Outcome α) (d : α)
    (h : x.returnedTrue = true) : x = .done (x.getD d) := by
  cases x with
  | done a => rfl
  | fail n => simp [Outcome.returnedTrue] at h
  | thrown => simp [Outcome.returnedTrue] at h

/-- Witness of C19: the reorganization from 101 -> 100 to 113 -> 111 -> 100 returns
true, and following `pnext` from the genesis node then visits 111 and 113. -/
theorem C19_pnext_links_witness :
    heightLinked (sampleChainState [100, 101]).pindexBest = true ∧
    heightLinked (samplePtr 113) = true ∧
    (sampleChainState [100, 101]).pnext.find (sampleChainState [100, 101]).pindexBest = none ∧
    (Reorganize sampleConsts sampleEnv samplePolicy sampleDisk (sampleChainState [100, 101])
      (samplePtr 113)).returnedTrue = true ∧
    followNext
      ((Reorganize sampleConsts sampleEnv samplePolicy sampleDisk (sampleChainState [100, 101])
        (samplePtr 113)).getD initialChain).pnext 2 (samplePtr 100) =
      [samplePtr 111, samplePtr 113] ∧
    ∃ pfork a b,
      findFork (sampleChainState [100, 101]).pindexBest (samplePtr 113) = .done pfork ∧
      (sampleChainState [100, 101]).pindexBest = a ++ pfork ∧ samplePtr 113 = b ++ pfork ∧
      (∀ d ∈ branchTo pfork (sampleChainState [100, 101]).pindexBest,
        ((Reorganize sampleConsts sampleEnv samplePolicy sampleDisk
          (sampleChainState [100, 101]) (samplePtr 113)).getD initialChain).pnext.find d =
            none) ∧
      (∀ cn ∈ (branchTo pfork (samplePtr 113)).reverse,
        ((Reorganize sampleConsts sampleEnv samplePolicy sampleDisk
          (sampleChainState [100, 101]) (samplePtr 113)).getD initialChain).pnext.find cn.tail =
            some cn) ∧
      followNext
        ((Reorganize sampleConsts sampleEnv samplePolicy sampleDisk
          (sampleChainState [100, 101]) (samplePtr 113)).getD initialChain).pnext b.length
          pfork = (branchTo pfork (samplePtr 113)).reverse ∧
      (b ≠ [] → (branchTo pfork (samplePtr 113)).reverse.getLast? = some (samplePtr 113)) ∧
      ((List.IsSuffix (samplePtr 113) (sampleChainState [100, 101]).pindexBest ∨
          (sampleChainState [100, 101]).pnext.find (samplePtr 113) = none) →
        ((Reorganize sampleConsts sampleEnv samplePolicy sampleDisk
          (sampleChainState [100, 101]) (samplePtr 113)).getD initialChain).pnext.find
            (samplePtr 113) = none) :=
  ⟨by decide!, by decide!, by decide!, by decide!, by decide!,
    C19_pnext_links sampleConsts sampleEnv samplePolicy sampleDisk (sampleChainState [100, 101])
      _ (samplePtr 113) (by decide!) (by decide!) (by decide!) (by decide!)
      (Outcome.eq_done_getD _ initialChain (by decide!))⟩

/-! ## `SetBestChain` and `AddToBlockIndex` -/

theorem InvalidChainFound_fields (st : ChainState) (p : BlockPtr) :
    (InvalidChainFound st p).mapBlockIndex = st.mapBlockIndex ∧
    (InvalidChainFound st p).pindexBest = st.pindexBest ∧
    (InvalidChainFound st p).hashBestChain = st.hashBestChain ∧
    (InvalidChainFound st p).nBestHeight = st.nBestHeight ∧
    (InvalidChainFound st p).bnBestChainWork = st.bnBestChainWork := by
  unfold InvalidChainFound
  cases p with
  | nil => exact ⟨rfl, rfl, rfl, rfl, rfl⟩
  | cons n rest =>
    simp only
    split <;> exact ⟨rfl, rfl, rfl, rfl, rfl⟩

theorem SetBestChainInner_fields (c : Consts) (env : Env) (st : ChainState) (blk : CBlock)
    (p : BlockPtr) :
    (SetBestChainInner c env st blk p).st.mapBlockIndex = st.mapBlockIndex ∧
    (SetBestChainInner c env st blk p).st.pindexBest = st.pindexBest ∧
    (SetBestChainInner c env st blk p).st.hashBestChain = st.hashBestChain ∧
    (SetBestChainInner c env st blk p).st.nBestHeight = st.nBestHeight ∧
    (SetBestChainInner c env st blk p).st.bnBestChainWork = st.bnBestChainWork := by
  unfold SetBestChainInner
  cases p with
  | nil => exact ⟨rfl, rfl, rfl, rfl, rfl⟩
  | cons n ancestors =>
    simp only
    split
    · exact ⟨rfl, rfl, rfl, rfl, rfl⟩
    · exact InvalidChainFound_fields st _
    · split <;> exact ⟨rfl, rfl, rfl, rfl, rfl⟩

theorem reconnectLoop_fields (c : Consts) (env : Env) (disk : CBlockIndex → Option CBlock)
    (l : List BlockPtr) (st st3 : ChainState) (h : reconnectLoop c env disk l st = some st3) :
    st3.mapBlockIndex = st.mapBlockIndex ∧ st3.pindexBest = st.pindexBest ∧
    st3.hashBestChain = st.hashBestChain ∧ st3.nBestHeight = st.nBestHeight ∧
    st3.bnBestChainWork = st.bnBestChainWork := by
  induction l generalizing st with
  | nil =>
    simp only [reconnectLoop, Option.some.injEq] at h
    subst h
    exact ⟨rfl, rfl, rfl, rfl, rfl⟩
  | cons p rest ih =>
    unfold reconnectLoop at h
    cases p with
    | nil => simp at h
    | cons n anc =>
      simp only at h
      cases hd : disk n.index with
      | none =>
        simp only [hd, Option.some.injEq] at h
        subst h
        exact ⟨rfl, rfl, rfl, rfl, rfl⟩
      | some block =>
        simp only [hd] at h
        have hf := SetBestChainInner_fields c env st block (n :: anc)
        split at h
        · exact absurd h (by simp)
        · simp only [Option.some.injEq] at h
          subst h
          exact hf
        · obtain ⟨h1, h2, h3, h4, h5⟩ := ih _ h
          exact ⟨h1.trans hf.1, h2.trans hf.2.1, h3.trans hf.2.2.1, h4.trans hf.2.2.2.1,
            h5.trans hf.2.2.2.2⟩

/-- The part of `SetBestChain` before the update of the best-chain view leaves the
block index and the best-chain view as they were, however it ends. -/
theorem setBestChainBranch_fields (c : Consts) (env : Env) (pol : Policy)
    (disk : CBlockIndex → Option CBlock) (st : ChainState) (blk : CBlock) (p : BlockPtr) :
    (setBestChainBranch c env pol disk st blk p).st.mapBlockIndex = st.mapBlockIndex ∧
    (setBestChainBranch c env pol disk st blk p).st.pindexBest = st.pindexBest ∧
    (setBestChainBranch c env pol disk st blk p).st.hashBestChain = st.hashBestChain ∧
    (setBestChainBranch c env pol disk st blk p).st.nBestHeight = st.nBestHeight ∧
    (setBestChainBranch c env pol disk st blk p).st.bnBestChainWork = st.bnBestChainWork := by
  unfold setBestChainBranch
  dsimp only
  split
  · exact ⟨rfl, rfl, rfl, rfl, rfl⟩
  split
  · exact SetBestChainInner_fields c env st blk p
  split
  · exact ⟨rfl, rfl, rfl, rfl, rfl⟩
  · rename_i pindexIntermediate vpindexSecondary _
    split
    · exact ⟨rfl, rfl, rfl, rfl, rfl⟩
    · exact InvalidChainFound_fields st p
    · rename_i st2 hre
      obtain ⟨pfork, _, hbr⟩ := Reorganize_done c env pol disk st st2 _ hre
      obtain ⟨_, h1, h2, h3, h4, h5, _⟩ := reorganizeBranches_done c env pol disk st st2 _ _ _ hbr
      split
      · exact ⟨h1, h2, h3, h4, h5⟩
      · rename_i st3 hloop
        obtain ⟨g1, g2, g3, g4, g5⟩ := reconnectLoop_fields c env disk _ st2 st3 hloop
        exact ⟨g1.trans h1, g2.trans h2, g3.trans h3, g4.trans h4, g5.trans h5⟩

/-- The function `SetBestChain` does not touch the block index; a true return
makes `pindexNew` the best chain, any other end leaves the best-chain view as it
was. -/
theorem SetBestChain_fields (c : Consts) (env : Env) (pol : Policy)
    (disk : CBlockIndex → Option CBlock) (st : ChainState) (blk : CBlock) (p : BlockPtr) :
    (SetBestChain c env pol disk st blk p).st.mapBlockIndex = st.mapBlockIndex ∧
    ((SetBestChain c env pol disk st blk p).result = .done () →
      (SetBestChain c env pol disk st blk p).st.pindexBest = p ∧
      ∃ n rest, p = n :: rest ∧
        (SetBestChain c env pol disk st blk p).st.bnBestChainWork = n.bnChainWork ∧
        (SetBestChain c env pol disk st blk p).st.nBestHeight = n.index.nHeight ∧
        (SetBestChain c env pol disk st blk p).st.hashBestChain = env.GetBlockHash blk) ∧
    ((SetBestChain c env pol disk st blk p).result ≠ .done () →
      (SetBestChain c env pol disk st blk p).st.pindexBest = st.pindexBest ∧
      (SetBestChain c env pol disk st blk p).st.hashBestChain = st.hashBestChain ∧
      (SetBestChain c env pol disk st blk p).st.nBestHeight = st.nBestHeight ∧
      (SetBestChain c env pol disk st blk p).st.bnBestChainWork = st.bnBestChainWork) := by
  have hf := setBestChainBranch_fields c env pol disk st blk p
  generalize hr : SetBestChain c env pol disk st blk p = r
  unfold SetBestChain at hr
  dsimp only at hr
  cases hres : (setBestChainBranch c env pol disk st blk p).result with
  | thrown =>
    simp only [hres] at hr
    subst hr
    exact ⟨hf.1, fun h => by rw [hres] at h; exact absurd h (by simp), fun _ => hf.2⟩
  | fail n =>
    simp only [hres] at hr
    subst hr
    exact ⟨hf.1, fun h => by rw [hres] at h; exact absurd h (by simp), fun _ => hf.2⟩
  | done u =>
    simp only [hres] at hr
    cases p with
    | nil =>
      simp only at hr
      subst hr
      exact ⟨hf.1, fun h => absurd h (by simp), fun _ => hf.2⟩
    | cons n rest =>
      simp only at hr
      subst hr
      exact ⟨hf.1, fun _ => ⟨rfl, n, rest, rfl, rfl, rfl, rfl⟩, fun h => absurd rfl h⟩

/-- C15 (`AddToBlockIndex`). For a block that does not name itself as its
parent: when the hash is new and the chain work of the new node is not strictly
greater than `bnBestChainWork`, `SetBestChain` is not called, so the call returns
true and changes nothing but the block index, where it adds the node; and whenever
the call returns true, `bnBestChainWork` afterwards is at least its value before
and at least the chain work of the new node. -/
theorem C15_AddToBlockIndex_best_work (c : Consts) (env : Env) (pol : Policy)
    (disk : CBlockIndex → Option CBlock) (st : ChainState) (blk : CBlock)
    (nFile nBlockPos : Nat) (hself : blk.hashPrevBlock ≠ env.GetBlockHash blk) :
    ∃ r, AddToBlockIndex c env pol disk st blk nFile nBlockPos = some r ∧
      (st.mapBlockIndex.count (env.GetBlockHash blk) = false →
        st.mapBlockIndex.find blk.hashPrevBlock ≠ some [] →
        ¬ ((newBlockIndex env blk nFile nBlockPos
            ((st.mapBlockIndex.find blk.hashPrevBlock).getD [])).bnChainWork >
          st.bnBestChainWork) →
        r.result = .done () ∧
        r.st = { st with
          mapBlockIndex := st.mapBlockIndex.set (env.GetBlockHash blk)
            (newBlockIndex env blk nFile nBlockPos
                ((st.mapBlockIndex.find blk.hashPrevBlock).getD []) ::
              (st.mapBlockIndex.find blk.hashPrevBlock).getD []) }) ∧
      (r.result = .done () →
        st.bnBestChainWork ≤ r.st.bnBestChainWork ∧
        (newBlockIndex env blk nFile nBlockPos
          ((st.mapBlockIndex.find blk.hashPrevBlock).getD [])).bnChainWork ≤
            r.st.bnBestChainWork) := by
  unfold AddToBlockIndex
  dsimp only
  by_cases hcount : st.mapBlockIndex.count (env.GetBlockHash blk) = true
  · rw [if_pos hcount]
    refine ⟨_, rfl, fun h => ?_, fun h => absurd h (by simp)⟩
    rw [hcount] at h
    exact absurd h (by simp)
  rw [if_neg hcount, if_neg hself]
  cases hfind : st.mapBlockIndex.find blk.hashPrevBlock with
  | some p =>
    cases p with
    | nil =>
      exact ⟨_, rfl, fun _ h => absurd rfl h, fun h => absurd h (by simp)⟩
    | cons pn prest =>
      simp only [Option.getD_some]
      by_cases hwork : (newBlockIndex env blk nFile nBlockPos (pn :: prest)).bnChainWork >
          st.bnBestChainWork
      · rw [if_pos hwork]
        refine ⟨_, rfl, fun _ _ h => absurd hwork h, fun hdone => ?_⟩
        obtain ⟨_, n, rest, hp, hw, _⟩ := (SetBestChain_fields c env pol disk _ blk _).2.1 hdone
        simp only [List.cons.injEq] at hp
        rw [hw, ← hp.1]
        exact ⟨le_of_lt hwork, le_refl _⟩
      · rw [if_neg hwork]
        exact ⟨_, rfl, fun _ _ _ => ⟨rfl, rfl⟩, fun _ => ⟨le_refl _, not_lt.mp hwork⟩⟩
  | none =>
    simp only [Option.getD_none]
    by_cases hwork : (newBlockIndex env blk nFile nBlockPos []).bnChainWork > st.bnBestChainWork
    · rw [if_pos hwork]
      refine ⟨_, rfl, fun _ _ h => absurd hwork h, fun hdone => ?_⟩
      obtain ⟨_, n, rest, hp, hw, _⟩ := (SetBestChain_fields c env pol disk _ blk _).2.1 hdone
      simp only [List.cons.injEq] at hp
      rw [hw, ← hp.1]
      exact ⟨le_of_lt hwork, le_refl _⟩
    · rw [if_neg hwork]
      exact ⟨_, rfl, fun _ _ _ => ⟨rfl, rfl⟩, fun _ => ⟨le_refl _, not_lt.mp hwork⟩⟩

/-- Witness of C15: adding the block 111, whose chain work equals that of the best
chain 101 -> 100, returns true and leaves the best chain where it was. -/
theorem C15_AddToBlockIndex_best_work_witness :
    (chainBlock 100 111 1 49603174604).hashPrevBlock ≠
      sampleEnv.GetBlockHash (chainBlock 100 111 1 49603174604) ∧
    ∃ r, AddToBlockIndex sampleConsts sampleEnv samplePolicy sampleDisk
        (sampleChainState [100, 101]) (chainBlock 100 111 1 49603174604) 1 111 = some r ∧
      r.result = .done () ∧
      r.st.pindexBest = (sampleChainState [100, 101]).pindexBest ∧
      (sampleChainState [100, 101]).bnBestChainWork ≤ r.st.bnBestChainWork := by
  refine ⟨by decide, ?_⟩
  obtain ⟨r, hr, h1, h2⟩ := C15_AddToBlockIndex_best_work sampleConsts sampleEnv samplePolicy
    sampleDisk (sampleChainState [100, 101]) (chainBlock 100 111 1 49603174604) 1 111
    (by decide)
  have hd := h1 (by decide!) (by decide!) (by decide!)
  exact ⟨r, hr, hd.1, by rw [hd.2], (h2 hd.1).1⟩

theorem wrapInt32_bounds (x : Int) : -2 ^ 31 ≤ wrapInt32 x ∧ wrapInt32 x < 2 ^ 31 := by
  unfold wrapInt32
  have h1 := Int.emod_nonneg (x + 2 ^ 31) (by norm_num : (2 : Int) ^ 32 ≠ 0)
  have h2 := Int.emod_lt_of_pos (x + 2 ^ 31) (by norm_num : (0 : Int) < 2 ^ 32)
  constructor <;> omega

theorem wrapInt32_of_int_range (x : Int) (h0 : -2 ^ 31 ≤ x) (h1 : x < 2 ^ 31) :
    wrapInt32 x = x := by
  unfold wrapInt32
  rw [Int.emod_eq_of_lt (by omega) (by omega)]
  omega

/-- What a call of `AddToBlockIndex` does to the block index: nothing, or it adds
the new node, linked to the node found under `hashPrevBlock`, under a hash that
was not there. -/
theorem AddToBlockIndex_index (c : Consts) (env : Env) (pol : Policy)
    (disk : CBlockIndex → Option CBlock) (st : ChainState) (blk : CBlock)
    (nFile nBlockPos : Nat) (r : ChainStep)
    (h : AddToBlockIndex c env pol disk st blk nFile nBlockPos = some r) :
    r.st.mapBlockIndex = st.mapBlockIndex ∨
    (st.mapBlockIndex.find (env.GetBlockHash blk) = none ∧
      r.st.mapBlockIndex = st.mapBlockIndex.set (env.GetBlockHash blk)
        (newBlockIndex env blk nFile nBlockPos
            ((st.mapBlockIndex.find blk.hashPrevBlock).getD []) ::
          (st.mapBlockIndex.find blk.hashPrevBlock).getD [])) := by
  unfold AddToBlockIndex at h
  dsimp only at h
  by_cases hcount : st.mapBlockIndex.count (env.GetBlockHash blk) = true
  · rw [if_pos hcount] at h
    simp only [Option.some.injEq] at h
    subst h
    exact Or.inl rfl
  rw [if_neg hcount] at h
  have hnone : st.mapBlockIndex.find (env.GetBlockHash blk) = none :=
    (StdMap.count_eq_false_iff _ _).mp (by simpa using hcount)
  by_cases hself : blk.hashPrevBlock = env.GetBlockHash blk
  · rw [if_pos hself] at h
    exact absurd h (by simp)
  rw [if_neg hself] at h
  split at h
  · simp only [Option.some.injEq] at h
    subst h
    exact Or.inl rfl
  · split at h
    · simp only [Option.some.injEq] at h
      subst h
      exact Or.inr ⟨hnone, (SetBestChain_fields c env pol disk _ blk _).1⟩
    · simp only [Option.some.injEq] at h
      subst h
      exact Or.inr ⟨hnone, rfl⟩

theorem GetBlockWork_congr (env env2 : Env) (h : env2.SetCompact = env.SetCompact)
    (nBits : Nat) : GetBlockWork env2 nBits = GetBlockWork env nBits := by
  unfold GetBlockWork
  rw [h]

/-- The node that `AddToBlockIndex` constructs extends a linked path to a linked
path. -/
theorem pathLinked_new (env : Env) (blk : CBlock) (nFile nBlockPos : Nat) (pprev : BlockPtr)
    (h : pathLinked env pprev) :
    pathLinked env (newBlockIndex env blk nFile nBlockPos pprev :: pprev) := by
  cases pprev with
  | nil =>
    refine ⟨rfl, ?_⟩
    simp [newBlockIndex]
  | cons p rest => exact ⟨rfl, rfl, h⟩

/-- The chain work at the head of a linked path is the sum of the work of its
nodes. -/
theorem pathLinked_work (env : Env) (n : CBlockIndexNode) (rest : BlockPtr)
    (h : pathLinked env (n :: rest)) :
    n.bnChainWork = ((n :: rest).map (fun m => GetBlockWork env m.nBits)).sum := by
  induction rest generalizing n with
  | nil =>
    simp only [pathLinked] at h
    simp [h.2]
  | cons p rest ih =>
    simp only [pathLinked] at h
    rw [h.2.1, ih p h.2.2]
    simp only [List.map_cons, List.sum_cons]
    ring

/-- Every path stored in a reachable block index is linked. -/
theorem reachable_pathLinked (c : Consts) (env : Env) (pol : Policy) (st : ChainState)
    (hreach : IndexReachable c env pol st) :
    ∀ h p, st.mapBlockIndex.find h = some p → pathLinked env p := by
  induction hreach with
  | init st hempty =>
    intro h p hf
    rw [hempty, StdMap.find_empty] at hf
    exact absurd hf (by simp)
  | add st env2 disk blk nFile nBlockPos hsame _ ih =>
    intro h p hf
    unfold addBlock at hf
    cases hadd : AddToBlockIndex c env2 pol disk st blk nFile nBlockPos with
    | none =>
      rw [hadd] at hf
      exact ih h p hf
    | some r =>
      rw [hadd] at hf
      simp only at hf
      rcases AddToBlockIndex_index c env2 pol disk st blk nFile nBlockPos r hadd with
        hsame2 | ⟨_, hset⟩
      · rw [hsame2] at hf
        exact ih h p hf
      · rw [hset] at hf
        by_cases hh : h = env2.GetBlockHash blk
        · rw [hh, StdMap.find_set_self] at hf
          simp only [Option.some.injEq] at hf
          rw [← hf]
          have hprev : pathLinked env ((st.mapBlockIndex.find blk.hashPrevBlock).getD []) := by
            cases hp : st.mapBlockIndex.find blk.hashPrevBlock with
            | none => trivial
            | some q => exact ih _ q hp
          have hnew := pathLinked_new env blk nFile nBlockPos _ hprev
          have heq : newBlockIndex env2 blk nFile nBlockPos
              ((st.mapBlockIndex.find blk.hashPrevBlock).getD []) =
              { newBlockIndex env blk nFile nBlockPos
                  ((st.mapBlockIndex.find blk.hashPrevBlock).getD []) with
                index := (newBlockIndex env2 blk nFile nBlockPos
                  ((st.mapBlockIndex.find blk.hashPrevBlock).getD [])).index } := by
            simp only [newBlockIndex, GetBlockWork_congr env env2 hsame.2]
          rw [heq]
          cases hq : (st.mapBlockIndex.find blk.hashPrevBlock).getD [] with
          | nil =>
            rw [hq] at hnew
            exact ⟨rfl, hnew.2⟩
          | cons q qrest =>
            rw [hq] at hnew
            exact ⟨rfl, hnew.2.1, hnew.2.2⟩
        · rw [StdMap.find_set_ne _ _ _ _ hh] at hf
          exact ih h p hf

/-- C16 (`AddToBlockIndex`). In a block index reached from the empty one by
calls of `AddToBlockIndex`, every node with a parent has the height of the parent
plus one as an `int` (so plus one unless that leaves the range of `int`) and the
chain work of the parent plus its own work, and the chain work of every node is the
sum of the work of the node and of all its ancestors; a call on a block whose hash
is in the index returns false and leaves the state as it was. -/
theorem C16_index_invariant (c : Consts) (env : Env) (pol : Policy) (st : ChainState)
    (hreach : IndexReachable c env pol st) :
    (∀ h n ancestors, st.mapBlockIndex.find h = some (n :: ancestors) →
      (∀ p rest, ancestors = p :: rest →
        n.index.nHeight = wrapInt32 (p.index.nHeight + 1) ∧
        (-2 ^ 31 ≤ p.index.nHeight + 1 → p.index.nHeight + 1 < 2 ^ 31 →
          n.index.nHeight = p.index.nHeight + 1) ∧
        n.bnChainWork = p.bnChainWork + GetBlockWork env n.nBits) ∧
      n.bnChainWork = ((n :: ancestors).map (fun m => GetBlockWork env m.nBits)).sum) ∧
    (∀ disk blk nFile nBlockPos,
      st.mapBlockIndex.count (env.GetBlockHash blk) = true →
      AddToBlockIndex c env pol disk st blk nFile nBlockPos = some ⟨.fail 0, st⟩) := by
  constructor
  · intro h n ancestors hf
    have hl := reachable_pathLinked c env pol st hreach h _ hf
    refine ⟨?_, pathLinked_work env n ancestors hl⟩
    intro p rest hanc
    rw [hanc] at hl
    simp only [pathLinked] at hl
    refine ⟨hl.1, fun h0 h1 => ?_, hl.2.1⟩
    rw [hl.1]
    exact wrapInt32_of_int_range _ h0 h1
  · intro disk blk nFile nBlockPos hcount
    unfold AddToBlockIndex
    dsimp only
    rw [if_pos hcount]

theorem addBlocks_reachable (c : Consts) (env : Env) (pol : Policy)
    (disk : CBlockIndex → Option CBlock) (l : List CBlock) (st : ChainState)
    (h : IndexReachable c env pol st) : IndexReachable c env pol (addBlocks c env pol disk l st) := by
  induction l generalizing st with
  | nil => exact h
  | cons blk rest ih =>
    exact ih _ (IndexReachable.add st env disk blk 1 (env.GetBlockHash blk) ⟨rfl, rfl⟩ h)

/-- Witness of C16: after the blocks 100, 111 and 113 the best chain has height 2
and the work of three blocks, and adding 111 again fails and changes nothing. -/
theorem C16_index_invariant_witness :
    (sampleChainState [100, 111, 113]).bnBestChainWork =
      GetBlockWork sampleEnv 0 + GetBlockWork sampleEnv 0 + GetBlockWork sampleEnv 0 ∧
    (sampleChainState [100, 111, 113]).nBestHeight = 2 ∧
    (∀ h n ancestors,
      (sampleChainState [100, 111, 113]).mapBlockIndex.find h = some (n :: ancestors) →
      n.bnChainWork = ((n :: ancestors).map (fun m => GetBlockWork sampleEnv m.nBits)).sum) ∧
    AddToBlockIndex sampleConsts sampleEnv samplePolicy sampleDisk
      (sampleChainState [100, 111, 113]) (chainBlock 100 111 1 49603174604) 1 111 =
        some ⟨.fail 0, sampleChainState [100, 111, 113]⟩ :=
  have h := C16_index_invariant sampleConsts sampleEnv samplePolicy
    (sampleChainState [100, 111, 113])
    (addBlocks_reachable sampleConsts sampleEnv samplePolicy sampleDisk _ initialChain
      (IndexReachable.init initialChain rfl))
  ⟨by decide!, by decide!, fun k n ancestors hf => (h.1 k n ancestors hf).2,
    h.2 sampleDisk (chainBlock 100 111 1 49603174604) 1 111 (by decide!)⟩

/-- C14, the failing input. The best chain is the genesis block; the index also
holds the blocks 111 and 112 on top of it, 111 with more chain work than the best
chain.  `SetBestChain` on 112 postpones 112, reorganizes to 111, and then fails to
connect 112 (its coinbase pays the mandated destination nothing): the loop is left,
`bnBestInvalidWork` is raised to the work of 112, and the function still returns
true with `pindexBest`, `hashBestChain`, `nBestHeight` and `bnBestChainWork` set to
the block 112, while the database holds 111 as the best chain. -/
theorem C14_postponed_reconnect_failure :
    (SetBestChainInner sampleConsts sampleEnv
      ((Reorganize sampleConsts sampleEnv samplePolicy sampleDisk staleChain
        (samplePtr 111)).getD initialChain)
      (chainBlock 111 112 2 0) (samplePtr 112)).result = .fail 0 ∧
    (SetBestChain sampleConsts sampleEnv samplePolicy sampleDisk staleChain
      (chainBlock 111 112 2 0) (samplePtr 112)).result = .done () ∧
    (SetBestChain sampleConsts sampleEnv samplePolicy sampleDisk staleChain
      (chainBlock 111 112 2 0) (samplePtr 112)).st.pindexBest = samplePtr 112 ∧
    (SetBestChain sampleConsts sampleEnv samplePolicy sampleDisk staleChain
      (chainBlock 111 112 2 0) (samplePtr 112)).st.hashBestChain = 112 ∧
    (SetBestChain sampleConsts sampleEnv samplePolicy sampleDisk staleChain
      (chainBlock 111 112 2 0) (samplePtr 112)).st.nBestHeight = 2 ∧
    (SetBestChain sampleConsts sampleEnv samplePolicy sampleDisk staleChain
      (chainBlock 111 112 2 0) (samplePtr 112)).st.bnBestChainWork = 3 * 2 ^ 32 ∧
    (SetBestChain sampleConsts sampleEnv samplePolicy sampleDisk staleChain
      (chainBlock 111 112 2 0) (samplePtr 112)).st.bnBestInvalidWork = 3 * 2 ^ 32 ∧
    (SetBestChain sampleConsts sampleEnv samplePolicy sampleDisk staleChain
      (chainBlock 111 112 2 0) (samplePtr 112)).st.txdbHashBestChain = 111 ∧
    staleChain.bnBestChainWork = 2 ^ 32 := by
  decide!

/-! ## The filter coefficients -/

/-- C24 (`kFilterCoeff`). The table has `WINDOW` = 144 entries, and the entries sum
to exactly `2^31` = 2147483648. -/
theorem C24_filter_sum : kFilterCoeff.length = WINDOW ∧ kFilterCoeff.sum = 2 ^ 31 := by
  constructor
  · rfl
  · decide!

/-- C25, counterexample. The table is not symmetric: its first entry is -845859
and its last entry is -845858. -/
theorem C25_symmetry_counterexample :
    ¬ (∀ i, i < 144 → kFilterCoeff.getD i 0 = kFilterCoeff.getD (143 - i) 0) := by
  intro h
  have h0 := h 0 (by decide)
  revert h0
  decide!

/-- C25, amended. For every index `i < 144` the entries `i` and `143 - i` are equal,
except at the twelve indices 0, 23, 24, 47, 48, 71 and their mirror images, where
the two entries differ by exactly one. -/
theorem C25_symmetry_amended (i : Nat) (hi : i < 144) :
    if i ∈ [0, 23, 24, 47, 48, 71, 72, 95, 96, 119, 120, 143] then
      |kFilterCoeff.getD i 0 - kFilterCoeff.getD (143 - i) 0| = 1
    else kFilterCoeff.getD i 0 = kFilterCoeff.getD (143 - i) 0 := by
  have hall : ∀ j, j < 144 →
      if j ∈ [0, 23, 24, 47, 48, 71, 72, 95, 96, 119, 120, 143] then
        |kFilterCoeff.getD j 0 - kFilterCoeff.getD (143 - j) 0| = 1
      else kFilterCoeff.getD j 0 = kFilterCoeff.getD (143 - j) 0 := by
    decide!
  exact hall i hi

/-- Witness of C25: the entries 5 and 138 are equal, the entries 23 and 120 differ
by one. -/
theorem C25_symmetry_amended_witness :
    (5 < 144 ∧ kFilterCoeff.getD 5 0 = kFilterCoeff.getD (143 - 5) 0) ∧
    (23 < 144 ∧ |kFilterCoeff.getD 23 0 - kFilterCoeff.getD (143 - 23) 0| = 1) :=
  ⟨⟨by decide, by simpa using C25_symmetry_amended 5 (by decide)⟩,
   ⟨by decide, by simpa using C25_symmetry_amended 23 (by decide)⟩⟩

/-! ## The retarget: the window of inter-block times -/

theorem wrapInt64_of_int_range (x : Int) (h0 : -2 ^ 63 ≤ x) (h1 : x < 2 ^ 63) :
    wrapInt64 x = x := by
  unfold wrapInt64
  rw [Int.emod_eq_of_lt (by omega) (by omega)]
  omega

theorem wrappedDelta_short (p : BlockPtr) (hp : p.length ≤ 1) (i : Nat) :
    wrappedDelta p i = wrapInt32 nTargetSpacing := by
  unfold wrappedDelta
  have h : p[i + 1]? = none := List.getElem?_eq_none (by omega)
  rw [h]
  cases p[i]? <;> rfl

theorem map_const_range {α : Type} (a : α) (f : Nat → α) (n : Nat) (h : ∀ i, f i = a) :
    (List.range n).map f = List.replicate n a := by
  apply List.ext_getElem
  · simp
  · intro i h1 h2
    simp [h]

/-- The two loops that fill `vTimeDelta`, entry by entry. -/
theorem timeDeltaLoop_padded (n : Nat) (p : BlockPtr) :
    timeDeltaLoop n p ++
      List.replicate (n - (timeDeltaLoop n p).length) (wrapInt32 nTargetSpacing) =
    (List.range n).map (wrappedDelta p) := by
  induction n generalizing p with
  | zero => simp [timeDeltaLoop]
  | succ n ih =>
    match p with
    | [] =>
      rw [map_const_range _ _ _ (wrappedDelta_short [] (by simp))]
      simp [timeDeltaLoop]
    | [a] =>
      rw [map_const_range _ _ _ (wrappedDelta_short [a] (by simp))]
      simp [timeDeltaLoop]
    | a :: b :: rest =>
      rw [List.range_succ_eq_map, List.map_cons, List.map_map]
      have hstep : timeDeltaLoop (n + 1) (a :: b :: rest) =
          wrapInt32 (a.index.nTime - b.index.nTime) :: timeDeltaLoop n (b :: rest) := rfl
      rw [hstep, List.length_cons, Nat.add_sub_add_right, List.cons_append, ih (b :: rest)]
      congr 1
      · simp [wrappedDelta]
      · apply List.map_congr_left
        intro i _
        simp only [Function.comp, wrappedDelta, Nat.succ_eq_add_one, List.getElem?_cons_succ]

theorem vTimeDelta_eq (p : BlockPtr) : vTimeDelta p = (List.range 144).map (wrappedDelta p) :=
  timeDeltaLoop_padded 144 p

/-- The accumulation of `vFilteredTime` does not leave the `int64_t` range when the
entries of `vTimeDelta` are `int32_t` values: it is the exact sum. -/
theorem filteredTimeLoop_exact (cs ds : List Int) (acc : Int)
    (hd : ∀ d ∈ ds, -2 ^ 31 ≤ d ∧ d < 2 ^ 31)
    (hacc : |acc| + ((cs.map Int.natAbs).sum : Int) * 2 ^ 31 < 2 ^ 63) :
    filteredTimeLoop cs ds acc = acc + (List.zipWith (fun c d => c * d) cs ds).sum := by
  induction cs generalizing ds acc with
  | nil => simp [filteredTimeLoop]
  | cons c cs ih =>
    cases ds with
    | nil => simp [filteredTimeLoop]
    | cons d ds =>
      have hdr := hd d (List.mem_cons_self _ _)
      simp only [List.map_cons, List.sum_cons, Nat.cast_add] at hacc
      have hcd : |c * d| ≤ (c.natAbs : Int) * 2 ^ 31 := by
        rw [abs_mul, Int.abs_eq_natAbs c]
        apply mul_le_mul_of_nonneg_left _ (Int.natCast_nonneg _)
        rw [abs_le]
        constructor <;> omega
      have hsum : |acc + c * d| ≤ |acc| + (c.natAbs : Int) * 2 ^ 31 :=
        le_trans (abs_add _ _) (by omega)
      have hnn : (0 : Int) ≤ ((cs.map Int.natAbs).sum : Int) * 2 ^ 31 :=
        mul_nonneg (Int.natCast_nonneg _) (by norm_num)
      have hin : |acc + c * d| < 2 ^ 63 := by
        have h2 : ((c.natAbs : Int) + ((cs.map Int.natAbs).sum : Int)) * 2 ^ 31 =
            (c.natAbs : Int) * 2 ^ 31 + ((cs.map Int.natAbs).sum : Int) * 2 ^ 31 := by ring
        rw [h2] at hacc
        omega
      rw [abs_lt] at hin
      have hw : wrapInt64 (acc + c * d) = acc + c * d :=
        wrapInt64_of_int_range _ (by omega) hin.2
      unfold filteredTimeLoop
      rw [hw, ih ds (acc + c * d) (fun x hx => hd x (List.mem_cons_of_mem _ hx))]
      · simp only [List.zipWith_cons_cons, List.sum_cons]
        ring
      · have h2 : ((c.natAbs : Int) + ((cs.map Int.natAbs).sum : Int)) * 2 ^ 31 =
            (c.natAbs : Int) * 2 ^ 31 + ((cs.map Int.natAbs).sum : Int) * 2 ^ 31 := by ring
        rw [h2] at hacc
        omega

theorem zipWith_range (cs : List Int) (d : Nat → Int) :
    List.zipWith (fun c x => c * x) cs ((List.range cs.length).map d) =
      (List.range cs.length).map (fun i => cs.getD i 0 * d i) := by
  induction cs generalizing d with
  | nil => simp
  | cons c cs ih =>
    rw [List.length_cons, List.range_succ_eq_map, List.map_cons, List.map_cons, List.map_map,
      List.map_map, List.zipWith_cons_cons]
    congr 1
    exact ih (d ∘ Nat.succ)

/-- The value of `vFilteredTime`: the exact sum of coefficient times entry. -/
theorem filteredTime_eq (p : BlockPtr) :
    filteredTimeLoop kFilterCoeff (vTimeDelta p) 0 =
      ((List.range 144).map (fun i => kFilterCoeff.getD i 0 * wrappedDelta p i)).sum := by
  rw [vTimeDelta_eq]
  rw [filteredTimeLoop_exact kFilterCoeff _ 0]
  · have h := zipWith_range kFilterCoeff (wrappedDelta p)
    have hl : kFilterCoeff.length = 144 := rfl
    rw [hl] at h
    rw [h, zero_add]
  · intro d hd
    rw [List.mem_map] at hd
    obtain ⟨i, _, hi⟩ := hd
    rw [← hi]
    unfold wrappedDelta
    split
    · exact wrapInt32_bounds _
    · exact wrapInt32_bounds _
  · decide!

/-! ## The retarget: adjustment factor and new target -/

theorem filteredAdjustment_range (p : BlockPtr) :
    200 / 211 ≤ filteredAdjustment p ∧ filteredAdjustment p ≤ 211 / 200 := by
  unfold filteredAdjustment
  simp only [kLimiterUp, kLimiterDown]
  split
  · norm_num
  · rename_i h1
    split
    · norm_num
    · rename_i h2
      exact ⟨not_lt.mp h2, not_lt.mp h1⟩

/-- The truncating division of `bnNew` is the floor of `T / f` for a target that is
not negative and a positive factor. -/
theorem tdiv_den_num (T : Int) (f : ℚ) (hT : 0 ≤ T) (hf : 0 < f) :
    Int.tdiv (T * (f.den : Int)) f.num = ⌊(T : ℚ) / f⌋ := by
  have hnum : 0 < f.num := Rat.num_pos.mpr hf
  rw [Int.tdiv_eq_ediv (mul_nonneg hT (Int.natCast_nonneg _)) (le_of_lt hnum)]
  have hcast : (T : ℚ) / f = ((T * (f.den : Int) : Int) : ℚ) / ((f.num.toNat : Nat) : ℚ) := by
    have hn : ((f.num.toNat : Nat) : ℚ) = (f.num : ℚ) := by
      have : ((f.num.toNat : Nat) : Int) = f.num := Int.toNat_of_nonneg (le_of_lt hnum)
      exact_mod_cast this
    rw [hn]
    have hfd : f = (f.num : ℚ) / (f.den : ℚ) := (Rat.num_div_den f).symm
    have hden : (f.den : ℚ) ≠ 0 := by exact_mod_cast f.den_nz
    have hnumq : (f.num : ℚ) ≠ 0 := by exact_mod_cast (ne_of_gt hnum)
    conv_lhs => rw [hfd]
    push_cast
    field_simp
  rw [hcast, Rat.floor_intCast_div_natCast, Int.toNat_of_nonneg (le_of_lt hnum)]

/-- The new target for a target in `[0, limit]` and a factor in `[lo, hi]`. -/
theorem retargetBnNew_eq (env : Env) (nBits : Nat) (f : ℚ)
    (hT : 0 ≤ env.SetCompact nBits) (hf : 0 < f) :
    retargetBnNew env nBits f = min ⌊(env.SetCompact nBits : ℚ) / f⌋ bnProofOfWorkLimit := by
  unfold retargetBnNew
  simp only
  rw [tdiv_den_num _ _ hT hf]
  by_cases h : ⌊(env.SetCompact nBits : ℚ) / f⌋ > bnProofOfWorkLimit
  · rw [if_pos h, min_eq_right (le_of_lt h)]
  · rw [if_neg h, min_eq_left (not_lt.mp h)]

theorem retargetBnNew_bounds (env : Env) (nBits : Nat) (f lo hi : ℚ)
    (hT : 0 ≤ env.SetCompact nBits) (hlim : env.SetCompact nBits ≤ bnProofOfWorkLimit)
    (hlo : 0 < lo) (h1 : 1 ≤ hi) (hflo : lo ≤ f) (hfhi : f ≤ hi) :
    ⌊(env.SetCompact nBits : ℚ) / hi⌋ ≤ retargetBnNew env nBits f ∧
    (retargetBnNew env nBits f : ℚ) ≤ (env.SetCompact nBits : ℚ) / lo ∧
    retargetBnNew env nBits f ≤ bnProofOfWorkLimit := by
  have hf : 0 < f := lt_of_lt_of_le hlo hflo
  have hhi : 0 < hi := lt_of_lt_of_le hf hfhi
  have hTq : (0 : ℚ) ≤ (env.SetCompact nBits : ℚ) := by exact_mod_cast hT
  rw [retargetBnNew_eq env nBits f hT hf]
  refine ⟨?_, ?_, min_le_right _ _⟩
  · apply le_min
    · apply Int.floor_le_floor
      exact div_le_div_of_nonneg_left hTq hf hfhi
    · apply le_trans _ hlim
      have hmono : ⌊(env.SetCompact nBits : ℚ) / hi⌋ ≤ ⌊(env.SetCompact nBits : ℚ)⌋ :=
        Int.floor_mono (div_le_self hTq h1)
      rw [Int.floor_intCast] at hmono
      exact hmono
  · have h2 : ((min ⌊(env.SetCompact nBits : ℚ) / f⌋ bnProofOfWorkLimit : Int) : ℚ) ≤
        (⌊(env.SetCompact nBits : ℚ) / f⌋ : ℚ) := by
      exact_mod_cast min_le_left _ _
    apply le_trans h2
    apply le_trans (Int.floor_le _)
    exact div_le_div_of_nonneg_left hTq hlo hflo

/-- At an interval boundary, past the one-time override, `GetNextWorkRequired`
retargets: it returns the encoding of the new target for the factor of its mode. -/
theorem GetNextWorkRequired_boundary (c : Consts) (w : WorkParams) (env : Env)
    (last : CBlockIndexNode) (ancestors : BlockPtr) (pblock : CBlock)
    (hover : ¬ (env.fTestNet = false ∧ last.index.nHeight = c.DIFF_FILTER_THRESHOLD - 1))
    (hb : if fUseFilter c w env last.index.nHeight = true then (last.index.nHeight + 1) % 9 = 0
      else (last.index.nHeight + 1) % 2016 = 0) :
    GetNextWorkRequired c w env (last :: ancestors) pblock =
      (adjustmentOf (fUseFilter c w env last.index.nHeight)
        (if fUseFilter c w env last.index.nHeight = true then nFilteredInterval
          else nOriginalInterval)
        (if fUseFilter c w env last.index.nHeight = true then 1 * 24 * 60 * 60
          else nOriginalTargetTimespan) last ancestors).bind
        (fun f => Outcome.done (w.GetCompact (retargetBnNew env last.nBits f))) := by
  unfold GetNextWorkRequired
  have h1 : (!env.fTestNet && decide (last.index.nHeight = c.DIFF_FILTER_THRESHOLD - 1)) = false := by
    cases hT : env.fTestNet with
    | true => rfl
    | false =>
      simp only [Bool.not_false, Bool.true_and, decide_eq_false_iff_not]
      exact fun h => hover ⟨hT, h⟩
  simp only [h1, Bool.false_eq_true, if_false]
  cases hu : fUseFilter c w env last.index.nHeight with
  | true =>
    rw [hu] at hb
    simp only [if_true] at hb
    have hmod : (last.index.nHeight + 1).tmod nFilteredInterval = 0 :=
      Int.tmod_eq_zero_of_dvd (Int.dvd_of_emod_eq_zero hb)
    simp [hmod]
  | false =>
    rw [hu] at hb
    simp only [Bool.false_eq_true, if_false] at hb
    have hmod : (last.index.nHeight + 1).tmod 2016 = 0 :=
      Int.tmod_eq_zero_of_dvd (Int.dvd_of_emod_eq_zero hb)
    simp [hmod]

/-- The block the unfiltered branch measures the timespan from: 2016 blocks back,
or 2015 at the first retarget. -/
theorem legacyAdjustment_eq (last first : CBlockIndexNode) (ancestors : BlockPtr)
    (hfirst : (last :: ancestors)[(if last.index.nHeight + 1 = 2016 then 2015 else 2016 : Nat)]?
      = some first) :
    legacyAdjustment nOriginalInterval nOriginalTargetTimespan last ancestors =
      Outcome.done ((241920 : ℚ) /
        ((clampInt (last.index.nTime - first.index.nTime) 60480 967680 : Int) : ℚ)) := by
  unfold legacyAdjustment
  have hk : (if last.index.nHeight + 1 ≠ nOriginalInterval then nOriginalInterval
      else nOriginalInterval - 1).toNat =
      (if last.index.nHeight + 1 = 2016 then 2015 else 2016 : Nat) := by
    unfold nOriginalInterval
    by_cases h : last.index.nHeight + 1 = 2016
    · simp [h]
    · simp [h]
  simp only [hk]
  have hdrop : ∃ rest, (last :: ancestors).drop
      (if last.index.nHeight + 1 = 2016 then 2015 else 2016 : Nat) = first :: rest := by
    have hlt : (if last.index.nHeight + 1 = 2016 then 2015 else 2016 : Nat) <
        (last :: ancestors).length := by
      by_contra hge
      rw [List.getElem?_eq_none (not_lt.mp hge)] at hfirst
      exact absurd hfirst (by simp)
    refine ⟨(last :: ancestors).drop
      ((if last.index.nHeight + 1 = 2016 then 2015 else 2016 : Nat) + 1), ?_⟩
    rw [List.getElem?_eq_getElem hlt] at hfirst
    simp only [Option.some.injEq] at hfirst
    rw [← hfirst]
    exact List.drop_eq_getElem_cons hlt
  obtain ⟨rest, hrest⟩ := hdrop
  rw [hrest]
  simp only
  have h4 : Int.tdiv nOriginalTargetTimespan 4 = 60480 := by decide
  have hx4 : nOriginalTargetTimespan * 4 = 967680 := by decide
  have hts : ((nOriginalTargetTimespan : Int) : ℚ) = 241920 := by
    unfold nOriginalTargetTimespan nOriginalInterval nTargetSpacing
    norm_num
  rw [h4, hx4, hts]
  congr 3
  unfold clampInt
  generalize last.index.nTime - first.index.nTime = A
  by_cases ha : A < 60480
  · rw [if_pos ha, if_neg (by norm_num), min_eq_right (by omega), max_eq_left (by omega)]
  · rw [if_neg ha]
    by_cases hb : A > 967680
    · rw [if_pos hb, min_eq_left (by omega), max_eq_right (by norm_num)]
    · rw [if_neg hb, min_eq_right (by omega), max_eq_right (by omega)]

theorem clampInt_range (x lo hi : Int) (h : lo ≤ hi) :
    lo ≤ clampInt x lo hi ∧ clampInt x lo hi ≤ hi := by
  unfold clampInt
  exact ⟨le_max_left _ _, max_le h (min_le_left _ _)⟩

/-- A node of height `h` whose path reaches the genesis block has the block the
unfiltered branch looks back to. -/
theorem legacy_first_exists (last : CBlockIndexNode) (ancestors : BlockPtr)
    (hlen : (ancestors.length : Int) = last.index.nHeight)
    (hb : (last.index.nHeight + 1) % 2016 = 0) :
    ∃ first, (last :: ancestors)[(if last.index.nHeight + 1 = 2016 then 2015 else 2016 : Nat)]?
      = some first := by
  have hlt : (if last.index.nHeight + 1 = 2016 then 2015 else 2016 : Nat) <
      (last :: ancestors).length := by
    rw [List.length_cons]
    by_cases h : last.index.nHeight + 1 = 2016
    · rw [if_pos h]; omega
    · rw [if_neg h]; omega
  exact ⟨_, List.getElem?_eq_getElem hlt⟩

/-- Numerator and denominator of a positive rational `n / d` that is at most `hi`
are bounded through `d`. -/
theorem num_den_bounds (n d : Int) (hi : ℚ) (hd : 0 < d) (hpos : 0 < (n : ℚ) / (d : ℚ))
    (hle : (n : ℚ) / (d : ℚ) ≤ hi) :
    (((n : ℚ) / (d : ℚ)).den : Int) ≤ d ∧
    0 < ((n : ℚ) / (d : ℚ)).num ∧ ((((n : ℚ) / (d : ℚ)).num : Int) : ℚ) ≤ hi * (d : ℚ) := by
  have hdvd : ((((n : ℚ) / (d : ℚ)).den : Nat) : Int) ∣ d := by
    rw [← Rat.divInt_eq_div]
    exact Rat.den_dvd n d
  have hden : (((n : ℚ) / (d : ℚ)).den : Int) ≤ d := Int.le_of_dvd hd hdvd
  refine ⟨hden, Rat.num_pos.mpr hpos, ?_⟩
  have hnum : ((((n : ℚ) / (d : ℚ)).num : Int) : ℚ) =
      (n : ℚ) / (d : ℚ) * ((((n : ℚ) / (d : ℚ)).den : Nat) : ℚ) :=
    (Rat.mul_den_eq_num _).symm
  rw [hnum]
  have hdq : ((((n : ℚ) / (d : ℚ)).den : Nat) : ℚ) ≤ (d : ℚ) := by exact_mod_cast hden
  have hhi : 0 ≤ hi := le_trans (le_of_lt hpos) hle
  calc (n : ℚ) / (d : ℚ) * ((((n : ℚ) / (d : ℚ)).den : Nat) : ℚ)
      ≤ hi * ((((n : ℚ) / (d : ℚ)).den : Nat) : ℚ) :=
        mul_le_mul_of_nonneg_right hle (Nat.cast_nonneg _)
    _ ≤ hi * (d : ℚ) := mul_le_mul_of_nonneg_left hdq hhi

theorem legacy_clamp (x : Int) :
    60480 ≤ (if (if x < 60480 then 60480 else x) > 967680 then (967680 : Int)
      else if x < 60480 then 60480 else x) ∧
    (if (if x < 60480 then 60480 else x) > 967680 then (967680 : Int)
      else if x < 60480 then 60480 else x) ≤ 967680 := by
  split
  · omega
  · split <;> omega

/-- The factor of the unfiltered branch is 241920 over a timespan between 60480
and 967680. -/
theorem legacyAdjustment_done (last : CBlockIndexNode) (ancestors : BlockPtr) (f : ℚ)
    (h : legacyAdjustment nOriginalInterval nOriginalTargetTimespan last ancestors =
      Outcome.done f) :
    ∃ A : Int, 60480 ≤ A ∧ A ≤ 967680 ∧ f = (241920 : ℚ) / (A : ℚ) := by
  have h4 : Int.tdiv nOriginalTargetTimespan 4 = 60480 := by decide
  have hx4 : nOriginalTargetTimespan * 4 = 967680 := by decide
  have hts : ((nOriginalTargetTimespan : Int) : ℚ) = 241920 := by
    unfold nOriginalTargetTimespan nOriginalInterval nTargetSpacing
    norm_num
  unfold legacyAdjustment at h
  rw [h4, hx4, hts] at h
  dsimp only at h
  cases hl : List.drop (if last.index.nHeight + 1 ≠ nOriginalInterval then nOriginalInterval
    else nOriginalInterval - 1).toNat (last :: ancestors) with
  | nil =>
    rw [hl] at h
    exact absurd h (by simp)
  | cons pindexFirst rest =>
    rw [hl] at h
    simp only [Outcome.done.injEq] at h
    exact ⟨_, (legacy_clamp (last.index.nTime - pindexFirst.index.nTime)).1,
      (legacy_clamp (last.index.nTime - pindexFirst.index.nTime)).2, h.symm⟩

/-- The conversions `mpz_to_i64` of the retarget are applied to values of the
`int64` range: numerator and denominator of the factor of either branch are
positive and below `2^63`. -/
theorem adjustment_fits_int64 (fUse : Bool) (last : CBlockIndexNode) (ancestors : BlockPtr)
    (f : ℚ)
    (h : adjustmentOf fUse (if fUse = true then nFilteredInterval else nOriginalInterval)
      (if fUse = true then 1 * 24 * 60 * 60 else nOriginalTargetTimespan) last ancestors =
        Outcome.done f) :
    0 < f.num ∧ f.num < 2 ^ 63 ∧ (f.den : Int) < 2 ^ 63 := by
  cases fUse with
  | true =>
    simp only [adjustmentOf, if_true, Outcome.done.injEq] at h
    subst h
    unfold filteredAdjustment
    simp only [kGain, kLimiterUp, kLimiterDown, nTargetSpacing]
    generalize filteredTimeLoop kFilterCoeff (vTimeDelta (last :: ancestors)) 0 = v
    split
    · decide!
    · rename_i h1
      split
      · decide!
      · rename_i h2
        have hraw : (1 : ℚ) - 41 / 400 * ((v : ℚ) / 2147483648 - ((120 : Int) : ℚ)) /
            ((120 : Int) : ℚ) =
            ((103079215104000 - 41 * v + 10565619548160 : Int) : ℚ) /
              ((103079215104000 : Int) : ℚ) := by
          push_cast
          field_simp
          ring
        rw [hraw] at h1 h2 ⊢
        have hb := num_den_bounds (103079215104000 - 41 * v + 10565619548160) 103079215104000
          (211 / 200) (by norm_num) (lt_of_lt_of_le (by norm_num) (not_lt.mp h2))
          (not_lt.mp h1)
        refine ⟨hb.2.1, ?_, by omega⟩
        have hq : (((((103079215104000 - 41 * v + 10565619548160 : Int) : ℚ) /
            ((103079215104000 : Int) : ℚ)).num : Int) : ℚ) < ((2 ^ 63 : Int) : ℚ) := by
          apply lt_of_le_of_lt hb.2.2
          norm_num
        exact_mod_cast hq
  | false =>
    simp only [adjustmentOf, Bool.false_eq_true, if_false] at h
    obtain ⟨A, hA1, hA2, hf⟩ := legacyAdjustment_done last ancestors f h
    rw [hf]
    have hApos : (0 : ℚ) < (A : ℚ) := by exact_mod_cast (by omega : (0 : Int) < A)
    have hA1q : (60480 : ℚ) ≤ (A : ℚ) := by exact_mod_cast hA1
    have hA2q : (A : ℚ) ≤ 967680 := by exact_mod_cast hA2
    have hcast : (241920 : ℚ) / (A : ℚ) = ((241920 : Int) : ℚ) / (A : ℚ) := by norm_num
    rw [hcast]
    have hle : ((241920 : Int) : ℚ) / (A : ℚ) ≤ 4 := by
      rw [div_le_iff₀ hApos]
      push_cast
      linarith
    have hb := num_den_bounds 241920 A 4 (by omega)
      (div_pos (by norm_num) hApos) hle
    refine ⟨hb.2.1, ?_, by omega⟩
    have hq : (((((241920 : Int) : ℚ) / (A : ℚ)).num : Int) : ℚ) < ((2 ^ 63 : Int) : ℚ) := by
      apply lt_of_le_of_lt hb.2.2
      push_cast
      linarith
    exact_mod_cast hq

/-! ## The retarget: the three claims -/

/-- C23, counterexample. On the main network, for a last block of height 2015 whose
path reaches the genesis block with blocks 120 s apart, the function returns
0x1d00ffde, the encoding of the previous target times 241800/241920; the encoding
of the target computed with 14 days, as the claim has it, is 0x1c3fffc0. -/
theorem C23_legacy_retarget_counterexample :
    fUseFilter sampleConsts sampleWork compactEnv 2015 = false ∧
    GetNextWorkRequired sampleConsts sampleWork compactEnv
        (spacedNode 2015 120 0x1d00ffff :: spacedChain 2015 2014 120 0x1d00ffff)
        (chainBlock 0 1 2016 0) =
      Outcome.done 0x1d00ffde ∧
    sampleWork.GetCompact
        (legacyTargetClaimed (compactEnv.SetCompact 0x1d00ffff) (2015 * 120)) = 0x1c3fffc0 ∧
    GetNextWorkRequired sampleConsts sampleWork compactEnv
        (spacedNode 2015 120 0x1d00ffff :: spacedChain 2015 2014 120 0x1d00ffff)
        (chainBlock 0 1 2016 0) ≠
      Outcome.done (sampleWork.GetCompact
        (legacyTargetClaimed (compactEnv.SetCompact 0x1d00ffff) (2015 * 120))) := by
  refine ⟨?_, ?_, ?_, ?_⟩
  · decide
  · decide!
  · decide!
  · decide!

/-- C23, amended. In the unfiltered mode at a boundary of 2016 blocks, for a last
block whose path reaches the genesis block and a previous target `T` that is not
negative, the function returns the compact encoding of
`min(floor(T * A / 241920), proof-of-work limit)`, where 241920 s is 2016 times
the target spacing of 120 s and `A` is the time of the last block minus the time of
the block 2016 blocks back (2015 at the first retarget), clamped to
`[241920 / 4, 241920 * 4]`. -/
theorem C23_legacy_retarget_amended (c : Consts) (w : WorkParams) (env : Env)
    (last : CBlockIndexNode) (ancestors : BlockPtr) (pblock : CBlock)
    (hmode : fUseFilter c w env last.index.nHeight = false)
    (hb : (last.index.nHeight + 1) % 2016 = 0)
    (hlen : (ancestors.length : Int) = last.index.nHeight)
    (hT : 0 ≤ env.SetCompact last.nBits) :
    ∃ first,
      (last :: ancestors)[(if last.index.nHeight + 1 = 2016 then 2015 else 2016 : Nat)]?
        = some first ∧
      GetNextWorkRequired c w env (last :: ancestors) pblock =
        Outcome.done (w.GetCompact
          (min (env.SetCompact last.nBits *
              clampInt (last.index.nTime - first.index.nTime) (241920 / 4) (241920 * 4) / 241920)
            bnProofOfWorkLimit)) := by
  obtain ⟨first, hfirst⟩ := legacy_first_exists last ancestors hlen hb
  refine ⟨first, hfirst, ?_⟩
  have hover : ¬ (env.fTestNet = false ∧ last.index.nHeight = c.DIFF_FILTER_THRESHOLD - 1) := by
    rintro ⟨hnet, hheight⟩
    unfold fUseFilter at hmode
    rw [hnet, hheight] at hmode
    simp at hmode
  have hbound := GetNextWorkRequired_boundary c w env last ancestors pblock hover
    (by rw [hmode]; exact hb)
  rw [hbound, hmode]
  unfold adjustmentOf
  simp only [Bool.false_eq_true, if_false]
  rw [legacyAdjustment_eq last first ancestors hfirst]
  simp only [Outcome.bind]
  have hclamp := clampInt_range (last.index.nTime - first.index.nTime) 60480 967680
    (by norm_num)
  have e1 : (241920 / 4 : Int) = 60480 := by norm_num
  have e2 : (241920 * 4 : Int) = 967680 := by norm_num
  rw [e1, e2]
  generalize clampInt (last.index.nTime - first.index.nTime) 60480 967680 = A at hclamp ⊢
  have hApos : (0 : ℚ) < (A : ℚ) := by exact_mod_cast (by omega : (0 : Int) < A)
  have hf : (0 : ℚ) < 241920 / (A : ℚ) := div_pos (by norm_num) hApos
  rw [retargetBnNew_eq env last.nBits _ hT hf]
  have hq : (env.SetCompact last.nBits : ℚ) / (241920 / (A : ℚ)) =
      ((env.SetCompact last.nBits * A : Int) : ℚ) / ((241920 : Nat) : ℚ) := by
    push_cast
    field_simp
  rw [hq, Rat.floor_intCast_div_natCast]
  norm_num

/-- Witness of C23: the path of 2016 nodes spaced 120 s apart, with the last block
at height 2015 on the main network. -/
theorem C23_legacy_retarget_amended_witness :
    ∃ first,
      (spacedNode 2015 120 0x1d00ffff :: spacedChain 2015 2014 120 0x1d00ffff)[
          (if (spacedNode 2015 120 0x1d00ffff).index.nHeight + 1 = 2016 then 2015
            else 2016 : Nat)]? = some first ∧
      GetNextWorkRequired sampleConsts sampleWork compactEnv
          (spacedNode 2015 120 0x1d00ffff :: spacedChain 2015 2014 120 0x1d00ffff)
          (chainBlock 0 1 2016 0) =
        Outcome.done (sampleWork.GetCompact
          (min (compactEnv.SetCompact (spacedNode 2015 120 0x1d00ffff).nBits *
              clampInt ((spacedNode 2015 120 0x1d00ffff).index.nTime - first.index.nTime)
                (241920 / 4) (241920 * 4) / 241920)
            bnProofOfWorkLimit)) :=
  C23_legacy_retarget_amended sampleConsts sampleWork compactEnv
    (spacedNode 2015 120 0x1d00ffff) (spacedChain 2015 2014 120 0x1d00ffff)
    (chainBlock 0 1 2016 0) (by decide) (by decide) (by decide!) (by decide!)

/-- C21 (`GetNextWorkRequired`). When the function retargets at an interval boundary
from a previous target `T` with `0 ≤ T ≤ proof-of-work limit`, the new target `T2`
(the value it encodes) is within the clamp of its mode: `floor(T / 4) ≤ T2 ≤ 4 * T`
in the unfiltered mode, `floor(T * 200 / 211) ≤ T2 ≤ T * 211 / 200` in the filtered
mode; and `T2` is at most the proof-of-work limit in both. -/
theorem C21_retarget_clamp (c : Consts) (w : WorkParams) (env : Env)
    (last : CBlockIndexNode) (ancestors : BlockPtr) (pblock : CBlock)
    (hover : ¬ (env.fTestNet = false ∧ last.index.nHeight = c.DIFF_FILTER_THRESHOLD - 1))
    (hb : if fUseFilter c w env last.index.nHeight = true then (last.index.nHeight + 1) % 9 = 0
      else (last.index.nHeight + 1) % 2016 = 0)
    (hlen : fUseFilter c w env last.index.nHeight = false →
      (ancestors.length : Int) = last.index.nHeight)
    (hT : 0 ≤ env.SetCompact last.nBits)
    (hlim : env.SetCompact last.nBits ≤ bnProofOfWorkLimit) :
    ∃ f,
      adjustmentOf (fUseFilter c w env last.index.nHeight)
        (if fUseFilter c w env last.index.nHeight = true then nFilteredInterval
          else nOriginalInterval)
        (if fUseFilter c w env last.index.nHeight = true then 1 * 24 * 60 * 60
          else nOriginalTargetTimespan) last ancestors = Outcome.done f ∧
      GetNextWorkRequired c w env (last :: ancestors) pblock =
        Outcome.done (w.GetCompact (retargetBnNew env last.nBits f)) ∧
      (fUseFilter c w env last.index.nHeight = false →
        env.SetCompact last.nBits / 4 ≤ retargetBnNew env last.nBits f ∧
        retargetBnNew env last.nBits f ≤ 4 * env.SetCompact last.nBits) ∧
      (fUseFilter c w env last.index.nHeight = true →
        env.SetCompact last.nBits * 200 / 211 ≤ retargetBnNew env last.nBits f ∧
        (retargetBnNew env last.nBits f : ℚ) ≤ (env.SetCompact last.nBits : ℚ) * 211 / 200) ∧
      retargetBnNew env last.nBits f ≤ bnProofOfWorkLimit := by
  have hbound := GetNextWorkRequired_boundary c w env last ancestors pblock hover hb
  cases hu : fUseFilter c w env last.index.nHeight with
  | true =>
    rw [hu] at hbound
    have hrange := filteredAdjustment_range (last :: ancestors)
    have hbnd := retargetBnNew_bounds env last.nBits (filteredAdjustment (last :: ancestors))
      (200 / 211) (211 / 200) hT hlim (by norm_num) (by norm_num) hrange.1 hrange.2
    refine ⟨filteredAdjustment (last :: ancestors), ?_, ?_, ?_, ?_, hbnd.2.2⟩
    · simp [adjustmentOf]
    · rw [hbound]
      simp [adjustmentOf, Outcome.bind]
    · intro h
      exact absurd h (by simp)
    · intro _
      constructor
      · have hq : (env.SetCompact last.nBits : ℚ) / (211 / 200) =
            ((env.SetCompact last.nBits * 200 : Int) : ℚ) / ((211 : Nat) : ℚ) := by
          push_cast
          field_simp
        have h1 := hbnd.1
        rw [hq, Rat.floor_intCast_div_natCast] at h1
        exact_mod_cast h1
      · have h2 := hbnd.2.1
        have hq : (env.SetCompact last.nBits : ℚ) / (200 / 211) =
            (env.SetCompact last.nBits : ℚ) * 211 / 200 := by
          field_simp
        rw [hq] at h2
        exact h2
  | false =>
    rw [hu] at hbound hb
    simp only [Bool.false_eq_true, if_false] at hb
    obtain ⟨first, hfirst⟩ := legacy_first_exists last ancestors (hlen hu) hb
    have hadj := legacyAdjustment_eq last first ancestors hfirst
    have hclamp := clampInt_range (last.index.nTime - first.index.nTime) 60480 967680
      (by norm_num)
    generalize clampInt (last.index.nTime - first.index.nTime) 60480 967680 = A at hclamp hadj
    have hApos : (0 : ℚ) < (A : ℚ) := by exact_mod_cast (by omega : (0 : Int) < A)
    have hA1 : (60480 : ℚ) ≤ (A : ℚ) := by exact_mod_cast hclamp.1
    have hA2 : (A : ℚ) ≤ 967680 := by exact_mod_cast hclamp.2
    have hflo : (1 / 4 : ℚ) ≤ 241920 / (A : ℚ) := by
      rw [le_div_iff₀ hApos]
      linarith
    have hfhi : 241920 / (A : ℚ) ≤ 4 := by
      rw [div_le_iff₀ hApos]
      linarith
    have hbnd := retargetBnNew_bounds env last.nBits (241920 / (A : ℚ)) (1 / 4) 4 hT hlim
      (by norm_num) (by norm_num) hflo hfhi
    refine ⟨241920 / (A : ℚ), ?_, ?_, ?_, ?_, hbnd.2.2⟩
    · simp only [adjustmentOf, Bool.false_eq_true, if_false]
      exact hadj
    · rw [hbound]
      simp only [adjustmentOf, Bool.false_eq_true, if_false]
      rw [hadj]
      rfl
    · intro _
      constructor
      · have hq : (env.SetCompact last.nBits : ℚ) / 4 =
            ((env.SetCompact last.nBits : Int) : ℚ) / ((4 : Nat) : ℚ) := by
          push_cast
          rfl
        have h1 := hbnd.1
        rw [hq, Rat.floor_intCast_div_natCast] at h1
        exact_mod_cast h1
      · have h2 := hbnd.2.1
        have hq : (env.SetCompact last.nBits : ℚ) / (1 / 4) =
            ((4 * env.SetCompact last.nBits : Int) : ℚ) := by
          push_cast
          field_simp
          ring
        rw [hq] at h2
        exact_mod_cast h2
    · intro h
      exact absurd h (by simp)

/-- Witness of C21: the filtered retarget on the path of 150 nodes spaced 100 s
apart. -/
theorem C21_retarget_clamp_witness :
    ∃ f,
      adjustmentOf
        (fUseFilter sampleConsts sampleWork compactEnv
          (spacedNode 28340 100 0x1c00ffff).index.nHeight)
        (if fUseFilter sampleConsts sampleWork compactEnv
            (spacedNode 28340 100 0x1c00ffff).index.nHeight = true then nFilteredInterval
          else nOriginalInterval)
        (if fUseFilter sampleConsts sampleWork compactEnv
            (spacedNode 28340 100 0x1c00ffff).index.nHeight = true then 1 * 24 * 60 * 60
          else nOriginalTargetTimespan) (spacedNode 28340 100 0x1c00ffff)
        (spacedChain 149 28339 100 0x1c00ffff) = Outcome.done f ∧
      GetNextWorkRequired sampleConsts sampleWork compactEnv
          (spacedNode 28340 100 0x1c00ffff :: spacedChain 149 28339 100 0x1c00ffff)
          (chainBlock 0 1 28341 0) =
        Outcome.done (sampleWork.GetCompact
          (retargetBnNew compactEnv (spacedNode 28340 100 0x1c00ffff).nBits f)) ∧
      (fUseFilter sampleConsts sampleWork compactEnv
          (spacedNode 28340 100 0x1c00ffff).index.nHeight = false →
        compactEnv.SetCompact (spacedNode 28340 100 0x1c00ffff).nBits / 4 ≤
          retargetBnNew compactEnv (spacedNode 28340 100 0x1c00ffff).nBits f ∧
        retargetBnNew compactEnv (spacedNode 28340 100 0x1c00ffff).nBits f ≤
          4 * compactEnv.SetCompact (spacedNode 28340 100 0x1c00ffff).nBits) ∧
      (fUseFilter sampleConsts sampleWork compactEnv
          (spacedNode 28340 100 0x1c00ffff).index.nHeight = true →
        compactEnv.SetCompact (spacedNode 28340 100 0x1c00ffff).nBits * 200 / 211 ≤
          retargetBnNew compactEnv (spacedNode 28340 100 0x1c00ffff).nBits f ∧
        (retargetBnNew compactEnv (spacedNode 28340 100 0x1c00ffff).nBits f : ℚ) ≤
          (compactEnv.SetCompact (spacedNode 28340 100 0x1c00ffff).nBits : ℚ) * 211 / 200) ∧
      retargetBnNew compactEnv (spacedNode 28340 100 0x1c00ffff).nBits f ≤ bnProofOfWorkLimit :=
  C21_retarget_clamp sampleConsts sampleWork compactEnv (spacedNode 28340 100 0x1c00ffff)
    (spacedChain 149 28339 100 0x1c00ffff) (chainBlock 0 1 28341 0)
    (by decide) (by decide) (by decide) (by decide!) (by decide!)

/-! ## `CheckBlock` -/

/-- An `unsigned int` accumulation that stays below `2^32` is the exact sum. -/
theorem foldl_wrap_eq_sum {α : Type} (f : α → Nat) (l : List α) (a : Nat)
    (h : a + (l.map f).sum < 2 ^ 32) :
    l.foldl (fun n x => (n + f x) % 2 ^ 32) a = a + (l.map f).sum := by
  induction l generalizing a with
  | nil => simp
  | cons x rest ih =>
    simp only [List.map_cons, List.sum_cons] at h
    simp only [List.foldl_cons, List.map_cons, List.sum_cons]
    have hx : (a + f x) % 2 ^ 32 = a + f x := Nat.mod_eq_of_lt (by omega)
    rw [hx, ih (a + f x) (by omega)]
    omega

/-- The `unsigned int` count of `GetLegacySigOpCount` is the exact count when that
is below `2^32`. -/
theorem GetLegacySigOpCount_eq (env : Env) (tx : CTransaction)
    (h : legacySigOps env tx < 2 ^ 32) : GetLegacySigOpCount env tx = legacySigOps env tx := by
  unfold legacySigOps at h
  unfold GetLegacySigOpCount legacySigOps
  simp only
  rw [foldl_wrap_eq_sum (fun txin : CTxIn => env.GetSigOpCount txin.scriptSig) tx.vin 0
    (by omega)]
  rw [foldl_wrap_eq_sum (fun txout : CTxOut => env.GetSigOpCount txout.scriptPubKey) tx.vout _
    (by omega)]
  omega

theorem sum_map_le_of_mem {α : Type} (f : α → Nat) (l : List α) (x : α) (hx : x ∈ l) :
    f x ≤ (l.map f).sum := by
  induction l with
  | nil => simp at hx
  | cons y rest ih =>
    simp only [List.map_cons, List.sum_cons]
    rcases List.mem_cons.mp hx with h | h
    · subst h; omega
    · have := ih h; omega

/-- The `unsigned int` total of `CheckBlock` is the exact total when that is below
`2^32`. -/
theorem blockSigOps_eq (env : Env) (blk : CBlock) (h : blockSigOps env blk < 2 ^ 32) :
    blk.vtx.foldl (fun n tx => (n + GetLegacySigOpCount env tx) % 2 ^ 32) 0 =
      blockSigOps env blk := by
  have hmap : blk.vtx.map (GetLegacySigOpCount env) = blk.vtx.map (legacySigOps env) := by
    apply List.map_congr_left
    intro tx htx
    apply GetLegacySigOpCount_eq
    have := sum_map_le_of_mem (legacySigOps env) blk.vtx tx htx
    unfold blockSigOps at h
    omega
  rw [foldl_wrap_eq_sum (GetLegacySigOpCount env) blk.vtx 0 (by rw [hmap]; unfold blockSigOps at h; omega)]
  rw [hmap]
  unfold blockSigOps
  omega

theorem checkTransactions_none_iff (c : Consts) (env : Env) (l : List CTransaction) :
    checkTransactions c env l = none ↔ ∀ tx ∈ l, (CheckTransaction c env tx).ok = true := by
  induction l with
  | nil => simp [checkTransactions]
  | cons tx rest ih =>
    unfold checkTransactions
    by_cases h : (CheckTransaction c env tx).ok = true
    · simp [h, ih]
    · simp [h]

theorem dedup_length_iff {α : Type} [DecidableEq α] (l : List α) :
    l.dedup.length = l.length ↔ l.Nodup := by
  constructor
  · intro h
    have hsub : l.dedup.Sublist l := List.dedup_sublist l
    have := hsub.eq_of_length h
    rw [← this]
    exact List.nodup_dedup l
  · intro h
    rw [List.Nodup.dedup h]

/-- C26 (`CBlock::CheckBlock`, `CheckProofOfWork`). `CheckBlock(true, true)` returns
true exactly when the block has at least one and at most `MAX_BLOCK_SIZE`
transactions and a serialized size of at most `MAX_BLOCK_SIZE`, `CheckProofOfWork`
holds for its hash and bits, its time is at most the adjusted time plus 7200 s, its
first transaction is a coinbase and no other is, every transaction passes
`CheckTransaction`, the transaction hashes are pairwise distinct, the total
legacy signature-operation count is at most `MAX_BLOCK_SIGOPS`, and
`hashMerkleRoot` is the merkle root built from `vtx`.  (The total count of a block
within the size limit fits an `unsigned int`.) -/
theorem C26_CheckBlock_iff (c : Consts) (env : Env) (blk : CBlock)
    (hsig : env.GetBlockSerializeSize blk ≤ c.MAX_BLOCK_SIZE → blockSigOps env blk < 2 ^ 32) :
    (CheckBlock c env blk true true).ok = true ↔
      (1 ≤ blk.vtx.length ∧ blk.vtx.length ≤ c.MAX_BLOCK_SIZE ∧
        env.GetBlockSerializeSize blk ≤ c.MAX_BLOCK_SIZE) ∧
      CheckProofOfWork env (env.GetBlockHash blk) blk.nBits = true ∧
      blk.nTime ≤ env.nAdjustedTime + 7200 ∧
      (∃ vtx0 rest, blk.vtx = vtx0 :: rest ∧ vtx0.IsCoinBase = true ∧
        ∀ tx ∈ rest, tx.IsCoinBase = false) ∧
      (∀ tx ∈ blk.vtx, (CheckTransaction c env tx).ok = true) ∧
      (blk.vtx.map env.GetHash).Nodup ∧
      blockSigOps env blk ≤ c.MAX_BLOCK_SIGOPS ∧
      blk.hashMerkleRoot = env.BuildMerkleTree blk := by
  generalize hr : CheckBlock c env blk true true = r
  unfold CheckBlock at hr
  by_cases h1 : (blk.vtx.isEmpty || decide (blk.vtx.length > c.MAX_BLOCK_SIZE) ||
      decide (env.GetBlockSerializeSize blk > c.MAX_BLOCK_SIZE)) = true
  · rw [if_pos h1] at hr
    subst hr
    simp only [Bool.false_eq_true, false_iff]
    rintro ⟨⟨ha, hb, hc⟩, _⟩
    simp only [Bool.or_eq_true, List.isEmpty_iff, decide_eq_true_eq] at h1
    rcases h1 with (h1 | h1) | h1
    · rw [h1] at ha; simp at ha
    · omega
    · omega
  rw [if_neg h1] at hr
  simp only [Bool.or_eq_true, List.isEmpty_iff, decide_eq_true_eq, not_or, not_lt] at h1
  obtain ⟨⟨hne, hlen⟩, hsize⟩ := h1
  have hsize2 : env.GetBlockSerializeSize blk ≤ c.MAX_BLOCK_SIZE := by omega
  have hlen2 : blk.vtx.length ≤ c.MAX_BLOCK_SIZE := by omega
  have hpos : 1 ≤ blk.vtx.length := by
    cases hv : blk.vtx with
    | nil => exact absurd hv hne
    | cons a l => simp
  have htotal := hsig hsize2
  by_cases h2 : CheckProofOfWork env (env.GetBlockHash blk) blk.nBits = true
  swap
  · rw [if_pos (by simp [h2])] at hr
    subst hr
    simp only [Bool.false_eq_true, false_iff]
    rintro ⟨_, hb, _⟩
    exact h2 hb
  rw [if_neg (by simp [h2])] at hr
  by_cases h3 : blk.nTime > env.nAdjustedTime + 2 * 60 * 60
  · rw [if_pos h3] at hr
    subst hr
    simp only [Bool.false_eq_true, false_iff]
    rintro ⟨_, _, hc, _⟩
    omega
  rw [if_neg h3] at hr
  have htime : blk.nTime ≤ env.nAdjustedTime + 7200 := by omega
  cases hv : blk.vtx with
  | nil => exact absurd hv hne
  | cons vtx0 others =>
    rw [hv] at hr
    simp only at hr
    by_cases h4 : vtx0.IsCoinBase = true
    swap
    · rw [if_pos (by simp [h4])] at hr
      subst hr
      simp only [Bool.false_eq_true, false_iff]
      rintro ⟨_, _, _, ⟨a, l, hal, ha, _⟩, _⟩
      rw [List.cons.injEq] at hal
      rw [hal.1] at h4
      exact h4 ha
    rw [if_neg (by simp [h4])] at hr
    by_cases h5 : others.any (fun tx => tx.IsCoinBase) = true
    · rw [if_pos h5] at hr
      subst hr
      simp only [Bool.false_eq_true, false_iff]
      rintro ⟨_, _, _, ⟨a, l, hal, _, hl⟩, _⟩
      rw [List.cons.injEq] at hal
      rw [List.any_eq_true] at h5
      obtain ⟨tx, htx, hcb⟩ := h5
      have := hl tx (hal.2 ▸ htx)
      rw [this] at hcb
      exact absurd hcb (by decide)
    rw [if_neg h5] at hr
    have hothers : ∀ tx ∈ others, tx.IsCoinBase = false := by
      intro tx htx
      by_contra hcb
      exact h5 (List.any_eq_true.mpr ⟨tx, htx, by simpa using hcb⟩)
    cases h6 : checkTransactions c env (vtx0 :: others) with
    | some v =>
      rw [h6] at hr
      simp only at hr
      subst hr
      simp only [Bool.false_eq_true, false_iff]
      rintro ⟨_, _, _, _, hall, _⟩
      have := (checkTransactions_none_iff c env (vtx0 :: others)).mpr hall
      rw [h6] at this
      exact absurd this (by simp)
    | none =>
      rw [h6] at hr
      simp only at hr
      have hall := (checkTransactions_none_iff c env (vtx0 :: others)).mp h6
      by_cases h7 : (List.map env.GetHash (vtx0 :: others)).dedup.length ≠
          (vtx0 :: others).length
      · rw [if_pos h7] at hr
        subst hr
        simp only [Bool.false_eq_true, false_iff]
        rintro ⟨_, _, _, _, _, hnd, _⟩
        apply h7
        rw [(dedup_length_iff _).mpr hnd, List.length_map]
      rw [if_neg h7] at hr
      have hnd : (List.map env.GetHash (vtx0 :: others)).Nodup := by
        apply (dedup_length_iff _).mp
        rw [List.length_map]
        exact not_not.mp h7
      have hcount := blockSigOps_eq env blk htotal
      rw [hv] at hcount
      rw [hcount] at hr
      by_cases h8 : blockSigOps env blk > c.MAX_BLOCK_SIGOPS
      · rw [if_pos h8] at hr
        subst hr
        simp only [Bool.false_eq_true, false_iff]
        rintro ⟨_, _, _, _, _, _, hs, _⟩
        omega
      rw [if_neg h8] at hr
      by_cases h9 : blk.hashMerkleRoot ≠ env.BuildMerkleTree blk
      · rw [if_pos (by simp [h9])] at hr
        subst hr
        simp only [Bool.false_eq_true, false_iff]
        rintro ⟨_, _, _, _, _, _, _, hm⟩
        exact h9 hm
      rw [if_neg (by simp [h9])] at hr
      subst hr
      simp only [true_iff]
      refine ⟨⟨?_, ?_, hsize2⟩, h2, htime, ⟨vtx0, others, rfl, h4, hothers⟩, hall, hnd,
        by omega, not_not.mp h9⟩
      · simp
      · rw [hv] at hlen2; exact hlen2

/-- Witness of C26: the sample block passes `CheckBlock`, so it meets every
condition of the list. -/
theorem C26_CheckBlock_iff_witness :
    (sampleBlockEnv.GetBlockSerializeSize (sampleBlock (sampleCoinbase 5 [0])) ≤
        sampleConsts.MAX_BLOCK_SIZE →
      blockSigOps sampleBlockEnv (sampleBlock (sampleCoinbase 5 [0])) < 2 ^ 32) ∧
    (CheckBlock sampleConsts sampleBlockEnv (sampleBlock (sampleCoinbase 5 [0])) true true).ok
      = true ∧
    ((sampleBlock (sampleCoinbase 5 [0])).vtx.map sampleBlockEnv.GetHash).Nodup ∧
    blockSigOps sampleBlockEnv (sampleBlock (sampleCoinbase 5 [0])) ≤
      sampleConsts.MAX_BLOCK_SIGOPS :=
  ⟨fun _ => by decide, by decide!,
    ((C26_CheckBlock_iff sampleConsts sampleBlockEnv (sampleBlock (sampleCoinbase 5 [0]))
      (fun _ => by decide)).mp (by decide!)).2.2.2.2.2.1,
    ((C26_CheckBlock_iff sampleConsts sampleBlockEnv (sampleBlock (sampleCoinbase 5 [0]))
      (fun _ => by decide)).mp (by decide!)).2.2.2.2.2.2.1⟩

/-! ## `FetchInputs`: invalid against missing -/

/-- One round of the first loop of `FetchInputs`, in terms of `locatePrev`. -/
theorem fetchLoop_cons (env : Env) (txdb pool : StdMap uint256 CTxIndex) (fBlock fMiner : Bool)
    (txin : CTxIn) (rest : List CTxIn) (acc : MapPrevTx) :
    (acc.count txin.prevout.hash = true ∧
      fetchLoop env txdb pool fBlock fMiner (txin :: rest) acc =
        fetchLoop env txdb pool fBlock fMiner rest acc) ∨
    (acc.find txin.prevout.hash = none ∧
      locatePrev env txdb pool fBlock fMiner txin.prevout.hash = none ∧
      (fetchLoop env txdb pool fBlock fMiner (txin :: rest) acc).1 = false) ∨
    (acc.find txin.prevout.hash = none ∧
      ∃ e, locatePrev env txdb pool fBlock fMiner txin.prevout.hash = some e ∧
        fetchLoop env txdb pool fBlock fMiner (txin :: rest) acc =
          fetchLoop env txdb pool fBlock fMiner rest (acc.set txin.prevout.hash e)) := by
  by_cases hc : acc.count txin.prevout.hash = true
  · left
    refine ⟨hc, ?_⟩
    rw [fetchLoop]
    simp only [hc, if_true]
  right
  have hnone : acc.find txin.prevout.hash = none := by
    unfold StdMap.count at hc
    cases hf : acc.find txin.prevout.hash with
    | none => rfl
    | some e => rw [hf] at hc; simp at hc
  rw [fetchLoop]
  simp only [hc, Bool.false_eq_true, if_false]
  unfold locatePrev
  by_cases hbm : (fBlock || fMiner) = true
  · simp only [hbm, if_true, Bool.true_and]
    cases hp : pool.find txin.prevout.hash with
    | some txindex =>
      have hcount : pool.count txin.prevout.hash = true := by
        unfold StdMap.count; rw [hp]; rfl
      simp only [hcount, if_true, Option.getD_some, Bool.not_true, Bool.false_and,
        Bool.false_eq_true, if_false, Bool.false_or, decide_eq_true_eq]
      by_cases hpos : txindex.pos = ⟨1, 1, 1⟩
      · simp only [hpos, if_true]
        cases hm : env.mempoolTx txin.prevout.hash with
        | none => left; exact ⟨hnone, rfl, rfl⟩
        | some txPrev => right; exact ⟨hnone, _, rfl, rfl⟩
      · simp only [hpos, if_false]
        cases hd : env.ReadFromDisk txindex.pos with
        | none => left; exact ⟨hnone, rfl, rfl⟩
        | some txPrev => right; exact ⟨hnone, _, rfl, rfl⟩
    | none =>
      have hcount : pool.count txin.prevout.hash = false := by
        unfold StdMap.count; rw [hp]; rfl
      simp only [hcount, Bool.false_eq_true, if_false]
      cases hd : txdb.find txin.prevout.hash with
      | none =>
        simp only [Bool.not_false, Bool.true_and, hbm, if_true]
        left; exact ⟨hnone, trivial, trivial⟩
      | some txindex =>
        simp only [Bool.not_true, Bool.false_and, Bool.false_eq_true, if_false, Bool.false_or,
          decide_eq_true_eq]
        by_cases hpos : txindex.pos = ⟨1, 1, 1⟩
        · simp only [hpos, if_true]
          cases hm : env.mempoolTx txin.prevout.hash with
          | none => left; exact ⟨hnone, rfl, rfl⟩
          | some txPrev => right; exact ⟨hnone, _, rfl, rfl⟩
        · simp only [hpos, if_false]
          cases hdk : env.ReadFromDisk txindex.pos with
          | none => left; exact ⟨hnone, rfl, rfl⟩
          | some txPrev => right; exact ⟨hnone, _, rfl, rfl⟩
  · simp only [hbm, Bool.false_and, Bool.false_eq_true, if_false, Bool.and_false]
    cases hd : txdb.find txin.prevout.hash with
    | none =>
      simp only [Bool.not_false, Bool.true_or, if_true]
      cases hm : env.mempoolTx txin.prevout.hash with
      | none => left; exact ⟨hnone, rfl, rfl⟩
      | some txPrev =>
        right
        refine ⟨hnone, _, rfl, ?_⟩
        simp [CTxIndex.null, resizeSpent, CDiskTxPos.null]
    | some txindex =>
      simp only [Bool.not_true, Bool.false_or, decide_eq_true_eq]
      by_cases hpos : txindex.pos = ⟨1, 1, 1⟩
      · simp only [hpos, if_true]
        cases hm : env.mempoolTx txin.prevout.hash with
        | none => left; exact ⟨hnone, rfl, rfl⟩
        | some txPrev => right; exact ⟨hnone, _, rfl, rfl⟩
      · simp only [hpos, if_false]
        cases hdk : env.ReadFromDisk txindex.pos with
        | none => left; exact ⟨hnone, rfl, rfl⟩
        | some txPrev => right; exact ⟨hnone, _, rfl, rfl⟩

theorem prevEntry_of_some (env : Env) (txdb pool : StdMap uint256 CTxIndex) (fBlock fMiner : Bool)
    (acc : MapPrevTx) (g : uint256) (h : (acc.find g).isSome = true) :
    prevEntry env txdb pool fBlock fMiner acc g = acc.find g := by
  unfold prevEntry
  cases hf : acc.find g with
  | none => rw [hf] at h; simp at h
  | some e => rfl

theorem prevEntry_set (env : Env) (txdb pool : StdMap uint256 CTxIndex) (fBlock fMiner : Bool)
    (acc : MapPrevTx) (h : uint256) (e : CTxIndex × CTransaction)
    (hnone : acc.find h = none)
    (hloc : locatePrev env txdb pool fBlock fMiner h = some e) (g : uint256) :
    prevEntry env txdb pool fBlock fMiner (acc.set h e) g =
      prevEntry env txdb pool fBlock fMiner acc g := by
  unfold prevEntry
  by_cases hg : g = h
  · subst hg
    rw [StdMap.find_set_self, hnone, hloc]
  · rw [StdMap.find_set_ne _ _ _ _ hg]

/-- The first loop of `FetchInputs` runs to its end exactly when every input has an
entry, and then `inputsRet` holds that entry for every input. -/
theorem fetchLoop_spec (env : Env) (txdb pool : StdMap uint256 CTxIndex) (fBlock fMiner : Bool)
    (ins : List CTxIn) (acc : MapPrevTx) :
    ((fetchLoop env txdb pool fBlock fMiner ins acc).1 = true ↔
      ∀ txin ∈ ins, (prevEntry env txdb pool fBlock fMiner acc txin.prevout.hash).isSome = true) ∧
    ((fetchLoop env txdb pool fBlock fMiner ins acc).1 = true →
      ∀ g, ((∃ txin ∈ ins, txin.prevout.hash = g) ∨ (acc.find g).isSome = true) →
        (fetchLoop env txdb pool fBlock fMiner ins acc).2.find g =
          prevEntry env txdb pool fBlock fMiner acc g) := by
  induction ins generalizing acc with
  | nil =>
    constructor
    · simp [fetchLoop]
    · intro _ g hg
      rcases hg with ⟨txin, hmem, _⟩ | hg
      · simp at hmem
      · simp only [fetchLoop]
        exact (prevEntry_of_some env txdb pool fBlock fMiner acc g hg).symm
  | cons txin rest ih =>
    rcases fetchLoop_cons env txdb pool fBlock fMiner txin rest acc with
      ⟨hc, heq⟩ | ⟨hnone, hloc, hfalse⟩ | ⟨hnone, e, hloc, heq⟩
    · have hsome : (acc.find txin.prevout.hash).isSome = true := hc
      rw [heq]
      obtain ⟨ih1, ih2⟩ := ih acc
      constructor
      · rw [ih1]
        constructor
        · intro h t ht
          rcases List.mem_cons.mp ht with ht | ht
          · subst ht
            rw [prevEntry_of_some env txdb pool fBlock fMiner acc _ hsome]
            exact hsome
          · exact h t ht
        · intro h t ht
          exact h t (List.mem_cons_of_mem _ ht)
      · intro hok g hg
        apply ih2 hok
        rcases hg with ⟨t, ht, htg⟩ | hg
        · rcases List.mem_cons.mp ht with ht | ht
          · subst ht
            right
            rw [← htg]
            exact hsome
          · exact Or.inl ⟨t, ht, htg⟩
        · exact Or.inr hg
    · constructor
      · rw [hfalse]
        simp only [Bool.false_eq_true, false_iff]
        intro h
        have := h txin (List.mem_cons_self _ _)
        unfold prevEntry at this
        rw [hnone, hloc] at this
        simp at this
      · intro hok
        rw [hfalse] at hok
        exact absurd hok (by decide)
    · rw [heq]
      obtain ⟨ih1, ih2⟩ := ih (acc.set txin.prevout.hash e)
      have hsame := prevEntry_set env txdb pool fBlock fMiner acc txin.prevout.hash e hnone hloc
      have hthis : prevEntry env txdb pool fBlock fMiner acc txin.prevout.hash = some e := by
        unfold prevEntry
        rw [hnone, hloc]
      constructor
      · rw [ih1]
        constructor
        · intro h t ht
          rcases List.mem_cons.mp ht with ht | ht
          · subst ht
            rw [hthis]
            rfl
          · rw [← hsame]
            exact h t ht
        · intro h t ht
          rw [hsame]
          exact h t (List.mem_cons_of_mem _ ht)
      · intro hok g hg
        rw [← hsame g]
        apply ih2 hok
        rcases hg with ⟨t, ht, htg⟩ | hg
        · rcases List.mem_cons.mp ht with ht | ht
          · subst ht
            right
            rw [← htg, StdMap.find_set_self]
            rfl
          · exact Or.inl ⟨t, ht, htg⟩
        · by_cases hgh : g = txin.prevout.hash
          · right
            rw [hgh, StdMap.find_set_self]
            rfl
          · right
            rw [StdMap.find_set_ne _ _ _ _ hgh]
            exact hg

/-- The second loop of `FetchInputs` on a map that has an entry for every input:
the `assert` holds, and the loop returns false exactly when an output number is
out of range. -/
theorem fetchRangeOk_spec (m : MapPrevTx) (ins : List CTxIn)
    (hall : ∀ txin ∈ ins, (m.find txin.prevout.hash).isSome = true) :
    ∃ b, fetchRangeOk m ins = some b ∧
      (b = false ↔ ∃ txin ∈ ins, ∃ e, m.find txin.prevout.hash = some e ∧
        outOfRange e txin.prevout.n) := by
  induction ins with
  | nil => exact ⟨true, rfl, by simp⟩
  | cons txin rest ih =>
    obtain ⟨b, hb, hiff⟩ := ih (fun t ht => hall t (List.mem_cons_of_mem _ ht))
    have hsome := hall txin (List.mem_cons_self _ _)
    cases hf : m.find txin.prevout.hash with
    | none => rw [hf] at hsome; simp at hsome
    | some e =>
      obtain ⟨txindex, txPrev⟩ := e
      unfold fetchRangeOk
      rw [hf]
      simp only
      by_cases hr : (decide (txin.prevout.n ≥ txPrev.vout.length) ||
          decide (txin.prevout.n ≥ txindex.vSpent.length)) = true
      · rw [if_pos hr]
        refine ⟨false, rfl, ?_⟩
        simp only [true_iff]
        refine ⟨txin, List.mem_cons_self _ _, (txindex, txPrev), hf, ?_⟩
        simpa [outOfRange] using hr
      · rw [if_neg hr]
        refine ⟨b, hb, ?_⟩
        rw [hiff]
        constructor
        · rintro ⟨t, ht, e, he, ho⟩
          exact ⟨t, List.mem_cons_of_mem _ ht, e, he, ho⟩
        · rintro ⟨t, ht, e, he, ho⟩
          rcases List.mem_cons.mp ht with ht | ht
          · subst ht
            rw [hf] at he
            cases he
            exfalso
            apply hr
            simpa [outOfRange] using ho
          · exact ⟨t, ht, e, he, ho⟩

/-- The three ways `FetchInputs` ends on a transaction that is not a coinbase: an
input without an entry (false, not invalid); every input with an entry and an
output number out of range (false, invalid); or every input with an entry and
every output number in range (true). -/
theorem FetchInputs_cases (env : Env) (txdb pool : StdMap uint256 CTxIndex) (fBlock fMiner : Bool)
    (tx : CTransaction) (inputs0 : MapPrevTx) (hcb : tx.IsCoinBase = false) :
    ∃ r, FetchInputs env txdb pool fBlock fMiner tx inputs0 = some r ∧
      (((∃ txin ∈ tx.vin,
            prevEntry env txdb pool fBlock fMiner inputs0 txin.prevout.hash = none) ∧
          r.ok = false ∧ r.fInvalid = false) ∨
       ((∀ txin ∈ tx.vin,
            (prevEntry env txdb pool fBlock fMiner inputs0 txin.prevout.hash).isSome = true) ∧
          (∃ txin ∈ tx.vin, ∃ e,
            prevEntry env txdb pool fBlock fMiner inputs0 txin.prevout.hash = some e ∧
              outOfRange e txin.prevout.n) ∧
          r.ok = false ∧ r.fInvalid = true) ∨
       ((∀ txin ∈ tx.vin,
            (prevEntry env txdb pool fBlock fMiner inputs0 txin.prevout.hash).isSome = true) ∧
          (¬ ∃ txin ∈ tx.vin, ∃ e,
            prevEntry env txdb pool fBlock fMiner inputs0 txin.prevout.hash = some e ∧
              outOfRange e txin.prevout.n) ∧
          r.ok = true ∧ r.fInvalid = false)) := by
  obtain ⟨hloop1, hloop2⟩ := fetchLoop_spec env txdb pool fBlock fMiner tx.vin inputs0
  unfold FetchInputs
  rw [hcb]
  simp only [Bool.false_eq_true, if_false]
  by_cases hok : (fetchLoop env txdb pool fBlock fMiner tx.vin inputs0).1 = true
  · have hall := hloop1.mp hok
    have hfind : ∀ txin ∈ tx.vin,
        (fetchLoop env txdb pool fBlock fMiner tx.vin inputs0).2.find txin.prevout.hash =
          prevEntry env txdb pool fBlock fMiner inputs0 txin.prevout.hash :=
      fun txin ht => hloop2 hok _ (Or.inl ⟨txin, ht, rfl⟩)
    obtain ⟨b, hb, hiff⟩ := fetchRangeOk_spec
      (fetchLoop env txdb pool fBlock fMiner tx.vin inputs0).2 tx.vin
      (fun txin ht => by rw [hfind txin ht]; exact hall txin ht)
    have hiff2 : b = false ↔ ∃ txin ∈ tx.vin, ∃ e,
        prevEntry env txdb pool fBlock fMiner inputs0 txin.prevout.hash = some e ∧
          outOfRange e txin.prevout.n := by
      rw [hiff]
      constructor
      · rintro ⟨t, ht, e, he, ho⟩
        exact ⟨t, ht, e, by rw [← hfind t ht]; exact he, ho⟩
      · rintro ⟨t, ht, e, he, ho⟩
        exact ⟨t, ht, e, by rw [hfind t ht]; exact he, ho⟩
    rw [hok, hb]
    simp only [Bool.not_true, Bool.false_eq_true, if_false]
    cases b with
    | false =>
      exact ⟨_, rfl, Or.inr (Or.inl ⟨hall, hiff2.mp rfl, rfl, rfl⟩)⟩
    | true =>
      refine ⟨_, rfl, Or.inr (Or.inr ⟨hall, ?_, rfl, rfl⟩)⟩
      intro h
      exact absurd (hiff2.mpr h) (by decide)
  · have hnot : ¬ ∀ txin ∈ tx.vin,
        (prevEntry env txdb pool fBlock fMiner inputs0 txin.prevout.hash).isSome = true :=
      fun h => hok (hloop1.mpr h)
    have hfalse : (fetchLoop env txdb pool fBlock fMiner tx.vin inputs0).1 = false := by
      simpa using hok
    rw [hfalse]
    simp only [Bool.not_false, if_true]
    refine ⟨_, rfl, Or.inl ⟨?_, rfl, rfl⟩⟩
    by_contra hno
    apply hnot
    intro txin ht
    cases hp : prevEntry env txdb pool fBlock fMiner inputs0 txin.prevout.hash with
    | none => exact absurd ⟨txin, ht, hp⟩ hno
    | some e => rfl

/-- The block `if (fCheckInputs)` of `accept` sets `*pfMissingInputs` only where
`FetchInputs` returned false without `fInvalid`; the block then ends with false. -/
theorem acceptCheckInputs_missing (c : Consts) (env : Env) (pol : Policy)
    (txdb : StdMap uint256 CTxIndex) (pindexBest : List CBlockIndex) (tx : CTransaction)
    (fRateLimited : Bool)
    (h : (acceptCheckInputs c env pol txdb pindexBest tx fRateLimited).2 = true) :
    ∃ fetched, FetchInputs env txdb StdMap.empty false false tx StdMap.empty = some fetched ∧
      fetched.ok = false ∧ fetched.fInvalid = false ∧
      (acceptCheckInputs c env pol txdb pindexBest tx fRateLimited).1 =
        Outcome.fail fetched.nDoS := by
  generalize hr : acceptCheckInputs c env pol txdb pindexBest tx fRateLimited = r at h ⊢
  unfold acceptCheckInputs at hr
  cases hfi : FetchInputs env txdb StdMap.empty false false tx StdMap.empty with
  | none =>
    rw [hfi] at hr
    simp only at hr
    subst hr
    exact absurd h (by simp)
  | some fetched =>
    rw [hfi] at hr
    simp only at hr
    by_cases hok : (!fetched.ok) = true
    · rw [if_pos hok] at hr
      by_cases hinv : fetched.fInvalid = true
      · rw [if_pos hinv] at hr
        subst hr
        exact absurd h (by simp)
      · rw [if_neg hinv] at hr
        subst hr
        exact ⟨fetched, rfl, by simpa using hok, by simpa using hinv, rfl⟩
    · rw [if_neg hok] at hr
      exfalso
      revert hr
      cases AreInputsStandard pol tx fetched.inputsRet with
      | none => intro hr; subst hr; exact absurd h (by simp)
      | some fStandard =>
        simp only
        split
        · intro hr; subst hr; exact absurd h (by simp)
        · cases GetValueIn c tx fetched.inputsRet with
          | none => intro hr; subst hr; exact absurd h (by simp)
          | some qValueIn =>
            simp only
            split
            · intro hr; subst hr; exact absurd h (by simp)
            · split
              · intro hr; subst hr; exact absurd h (by simp)
              · split <;> (intro hr; subst hr; exact absurd h (by simp))

/-- The flag `*pfMissingInputs` is true after `accept` only when the call checked
the inputs, `FetchInputs` returned false there without `fInvalid`, and `accept`
returned false. -/
theorem accept_missing (c : Consts) (env : Env) (pol : Policy) (txdb : StdMap uint256 CTxIndex)
    (pindexBest : List CBlockIndex) (pool : CTxMemPool) (tx : CTransaction)
    (fCheckInputs fRateLimited : Bool)
    (h : (pool.accept c env pol txdb pindexBest tx fCheckInputs fRateLimited).fMissingInputs
      = true) :
    tx.IsCoinBase = false ∧ fCheckInputs = true ∧
    (∃ n, (pool.accept c env pol txdb pindexBest tx fCheckInputs fRateLimited).result
      = Outcome.fail n) ∧
    ∃ fetched, FetchInputs { env with mempoolTx := fun g => pool.mapTx.find g } txdb StdMap.empty
        false false tx StdMap.empty = some fetched ∧
      fetched.ok = false ∧ fetched.fInvalid = false := by
  generalize hr : pool.accept c env pol txdb pindexBest tx fCheckInputs fRateLimited = r at h ⊢
  unfold CTxMemPool.accept at hr
  dsimp only at hr
  by_cases h1 : (!(CheckTransaction c env tx).ok) = true
  · rw [if_pos h1] at hr; subst hr; exact absurd h (by simp)
  rw [if_neg h1] at hr
  by_cases h2 : tx.nRefHeight > wrapInt32 (env.nBestHeight + 20)
  · rw [if_pos h2] at hr; subst hr; exact absurd h (by simp)
  rw [if_neg h2] at hr
  by_cases h3 : tx.IsCoinBase = true
  · rw [if_pos h3] at hr; subst hr; exact absurd h (by simp)
  rw [if_neg h3] at hr
  by_cases h4 : (tx.nLockTime : Int) > 2 ^ 31 - 1
  · rw [if_pos h4] at hr; subst hr; exact absurd h (by simp)
  rw [if_neg h4] at hr
  by_cases h5 : (!env.fTestNet && !tx.IsStandard pol) = true
  · rw [if_pos h5] at hr; subst hr; exact absurd h (by simp)
  rw [if_neg h5] at hr
  by_cases h6 : pool.mapTx.count (env.GetHash tx) = true
  · rw [if_pos h6] at hr; subst hr; exact absurd h (by simp)
  rw [if_neg h6] at hr
  by_cases h7 : (fCheckInputs && txdb.count (env.GetHash tx)) = true
  · rw [if_pos h7] at hr; subst hr; exact absurd h (by simp)
  rw [if_neg h7] at hr
  by_cases h8 : tx.vin.any (fun txin => pool.mapNextTx.count txin.prevout) = true
  · rw [if_pos h8] at hr; subst hr; exact absurd h (by simp)
  rw [if_neg h8] at hr
  have hcb : tx.IsCoinBase = false := by simpa using h3
  cases hf : fCheckInputs with
  | false =>
    rw [hf] at hr
    simp only [Bool.false_eq_true, if_false] at hr
    subst hr
    exact absurd h (by simp)
  | true =>
    rw [hf] at hr
    simp only [if_true] at hr
    have hflag : (acceptCheckInputs c { env with mempoolTx := fun g => pool.mapTx.find g } pol
        txdb pindexBest tx fRateLimited).2 = true := by
      revert hr
      cases (acceptCheckInputs c { env with mempoolTx := fun g => pool.mapTx.find g } pol
        txdb pindexBest tx fRateLimited).1 with
      | thrown => intro hr; subst hr; exact h
      | fail n => intro hr; subst hr; exact h
      | done u => intro hr; subst hr; exact absurd h (by simp)
    obtain ⟨fetched, hfi, hok, hinv, hres⟩ :=
      acceptCheckInputs_missing c _ pol txdb pindexBest tx fRateLimited hflag
    rw [hres] at hr
    simp only at hr
    subst hr
    exact ⟨hcb, rfl, ⟨_, rfl⟩, fetched, hfi, hok, hinv⟩

/-- C27 (`CTransaction::FetchInputs`, `CTxMemPool::accept`). On a transaction that
is not a coinbase `FetchInputs` returns; it returns false with `fInvalid` set
exactly when every referenced previous transaction was located and some input has
an output number that is at least the output count of its previous transaction or
at least the length of its spent vector; when a referenced previous transaction
cannot be located it returns false with `fInvalid` clear.  `accept` sets
`*pfMissingInputs` only when a previous transaction of an input cannot be located,
and it returns false then. -/
theorem C27_FetchInputs_invalid (c : Consts) (env : Env) (pol : Policy)
    (txdb mapTestPool : StdMap uint256 CTxIndex) (fBlock fMiner : Bool) (tx : CTransaction)
    (inputsRet : MapPrevTx) (pindexBest : List CBlockIndex) (pool : CTxMemPool)
    (fCheckInputs fRateLimited : Bool) (hcb : tx.IsCoinBase = false) :
    (∃ r, FetchInputs env txdb mapTestPool fBlock fMiner tx inputsRet = some r ∧
      ((r.ok = false ∧ r.fInvalid = true) ↔
        ((∀ txin ∈ tx.vin,
            (prevEntry env txdb mapTestPool fBlock fMiner inputsRet
              txin.prevout.hash).isSome = true) ∧
          ∃ txin ∈ tx.vin, ∃ e,
            prevEntry env txdb mapTestPool fBlock fMiner inputsRet txin.prevout.hash = some e ∧
              outOfRange e txin.prevout.n)) ∧
      ((∃ txin ∈ tx.vin,
          prevEntry env txdb mapTestPool fBlock fMiner inputsRet txin.prevout.hash = none) →
        r.ok = false ∧ r.fInvalid = false)) ∧
    ((pool.accept c env pol txdb pindexBest tx fCheckInputs fRateLimited).fMissingInputs = true →
      (pool.accept c env pol txdb pindexBest tx fCheckInputs fRateLimited).result.returnedTrue
        = false ∧
      ∃ txin ∈ tx.vin,
        locatePrev { env with mempoolTx := fun g => pool.mapTx.find g } txdb StdMap.empty
          false false txin.prevout.hash = none) := by
  constructor
  · obtain ⟨r, hr, hcases⟩ :=
      FetchInputs_cases env txdb mapTestPool fBlock fMiner tx inputsRet hcb
    refine ⟨r, hr, ?_, ?_⟩
    · rcases hcases with ⟨⟨t, ht, hnone⟩, hok, hinv⟩ | ⟨hall, hout, hok, hinv⟩ |
        ⟨hall, hout, hok, hinv⟩
      · constructor
        · rintro ⟨_, h⟩
          rw [hinv] at h
          exact absurd h (by decide)
        · rintro ⟨hall, _⟩
          have := hall t ht
          rw [hnone] at this
          exact absurd this (by decide)
      · exact ⟨fun _ => ⟨hall, hout⟩, fun _ => ⟨hok, hinv⟩⟩
      · constructor
        · rintro ⟨h, _⟩
          rw [hok] at h
          exact absurd h (by decide)
        · rintro ⟨_, h⟩
          exact absurd h hout
    · rintro ⟨t, ht, hnone⟩
      rcases hcases with ⟨_, hok, hinv⟩ | ⟨hall, _, _, _⟩ | ⟨hall, _, _, _⟩
      · exact ⟨hok, hinv⟩
      · have := hall t ht
        rw [hnone] at this
        exact absurd this (by decide)
      · have := hall t ht
        rw [hnone] at this
        exact absurd this (by decide)
  · intro hflag
    obtain ⟨_, _, ⟨n, hres⟩, fetched, hfi, hok, hinv⟩ :=
      accept_missing c env pol txdb pindexBest pool tx fCheckInputs fRateLimited hflag
    refine ⟨by rw [hres]; rfl, ?_⟩
    obtain ⟨r, hr, hcases⟩ :=
      FetchInputs_cases { env with mempoolTx := fun g => pool.mapTx.find g } txdb StdMap.empty
        false false tx StdMap.empty hcb
    rw [hfi] at hr
    cases hr
    rcases hcases with ⟨⟨t, ht, hnone⟩, _, _⟩ | ⟨_, _, _, hinv2⟩ | ⟨_, _, hok2, _⟩
    · refine ⟨t, ht, ?_⟩
      unfold prevEntry at hnone
      rw [StdMap.find_empty] at hnone
      exact hnone
    · rw [hinv] at hinv2
      exact absurd hinv2 (by decide)
    · rw [hok] at hok2
      exact absurd hok2 (by decide)

/-- Witness of C27: the sample transaction offered to an empty pool over an empty
tx index; its previous transaction cannot be located. -/
theorem C27_FetchInputs_invalid_witness :
    sampleTx.IsCoinBase = false ∧
    (emptyPool.accept sampleConsts sampleEnv samplePolicy StdMap.empty [] sampleTx true
      false).fMissingInputs = true ∧
    (emptyPool.accept sampleConsts sampleEnv samplePolicy StdMap.empty [] sampleTx true
      false).result.returnedTrue = false ∧
    ∃ txin ∈ sampleTx.vin,
      locatePrev { sampleEnv with mempoolTx := fun g => emptyPool.mapTx.find g } StdMap.empty
        StdMap.empty false false txin.prevout.hash = none :=
  ⟨by decide, by decide,
    (C27_FetchInputs_invalid sampleConsts sampleEnv samplePolicy StdMap.empty StdMap.empty
      false false sampleTx StdMap.empty [] emptyPool true false (by decide)).2 (by decide)⟩

/-! ## The DoS score of `CheckTransaction` and the price-out step of `GetMinFee` -/

/-- A call of `CheckTransaction` that returns false without a DoS score has found
two inputs with the same outpoint: every other failing exit sets a score. -/
theorem CheckTransaction_unscored (c : Consts) (env : Env) (tx : CTransaction)
    (hok : (CheckTransaction c env tx).ok = false)
    (hdos : (CheckTransaction c env tx).nDoS = 0) :
    ¬ (tx.vin.map (fun i => i.prevout)).Nodup := by
  have hdup := checkInOutPoints_iff tx.vin []
  simp only [List.not_mem_nil, not_false_eq_true, implies_true, and_true] at hdup
  intro hnodup
  have hpts : checkInOutPoints tx.vin [] = true := hdup.mpr hnodup
  revert hok hdos
  unfold CheckTransaction
  by_cases h1 : tx.vin.isEmpty = true
  · rw [if_pos h1]; intro _ h; exact absurd h (by decide)
  rw [if_neg h1]
  by_cases h2 : tx.vout.isEmpty = true
  · rw [if_pos h2]; intro _ h; exact absurd h (by decide)
  rw [if_neg h2]
  by_cases h3 : env.GetSerializeSize tx > c.MAX_BLOCK_SIZE
  · rw [if_pos h3]; intro _ h; exact absurd h (by decide)
  rw [if_neg h3]
  by_cases h4 : tx.nRefHeight < 0
  · rw [if_pos h4]; intro _ h; exact absurd h (by decide)
  rw [if_neg h4]
  by_cases h5 : (!checkValueOut c tx.vout 0) = true
  · rw [if_pos h5]; intro _ h; exact absurd h (by decide)
  rw [if_neg h5]
  rw [hpts]
  simp only [Bool.not_true, Bool.false_eq_true, if_false]
  by_cases h6 : tx.IsCoinBase = true
  · rw [if_pos h6]
    split
    · intro h; exact absurd h (by decide)
    · split
      · intro _ h; exact absurd h (by decide)
      · intro h; exact absurd h (by decide)
  rw [if_neg h6]
  split
  · intro _ h; exact absurd h (by decide)
  · intro h; exact absurd h (by decide)

/-- C28, the failing input. `CheckTransaction` returns false on a transaction whose
two inputs spend the same outpoint and leaves its DoS score at 0; `accept` on an
empty pool then returns false with the score still 0, so that the peer that sent
the transaction is not scored. -/
theorem C28_duplicate_inputs_unscored :
    (CheckTransaction sampleConsts sampleEnv sampleDuplicate).ok = false ∧
    (CheckTransaction sampleConsts sampleEnv sampleDuplicate).nDoS = 0 ∧
    (emptyPool.accept sampleConsts sampleEnv samplePolicy StdMap.empty [] sampleDuplicate
      true false).result = Outcome.fail 0 := by
  refine ⟨?_, ?_, ?_⟩
  · decide
  · decide
  · decide

/-- C29, counterexample. With `MAX_BLOCK_SIZE_GEN` = 500000, a base fee of 5 and a
transaction of 60 bytes added to a block of 299940 bytes, the projected size is
300000 and the fee before the price-out step is 5; the exact rational
`5 * 500000 / 200000` is 25/2, while `GetMinFee` returns 10. -/
theorem C29_price_out_counterexample :
    samplePolicy.MAX_BLOCK_SIZE_GEN / 2 ≤ 299940 + sampleEnv.GetSerializeSize sampleTx ∧
    299940 + sampleEnv.GetSerializeSize sampleTx < samplePolicy.MAX_BLOCK_SIZE_GEN ∧
    GetMinFee sampleConsts sampleEnv samplePolicy sampleTx 299940 false
        GetMinFee_mode.GMF_BLOCK = 10 ∧
    GetMinFee sampleConsts sampleEnv samplePolicy sampleTx 299940 false
        GetMinFee_mode.GMF_BLOCK ≠
      min (feeBeforePriceOut sampleEnv samplePolicy sampleTx GetMinFee_mode.GMF_BLOCK *
            (samplePolicy.MAX_BLOCK_SIZE_GEN : ℚ) /
            ((samplePolicy.MAX_BLOCK_SIZE_GEN : ℚ) -
              ((299940 + sampleEnv.GetSerializeSize sampleTx : Nat) : ℚ)))
        sampleConsts.MPQ_MAX_MONEY := by
  refine ⟨?_, ?_, ?_, ?_⟩
  · decide
  · decide
  · decide!
  · decide!

/-- C29, amended. For a projected size `s = nBlockSize + b` (an `unsigned int`) with
`nBlockSize ≠ 1`: when `MAX_BLOCK_SIZE_GEN / 2 ≤ s < MAX_BLOCK_SIZE_GEN`, `GetMinFee`
returns the smaller of `MPQ_MAX_MONEY` and `m` times the integer quotient
`MAX_BLOCK_SIZE_GEN / (MAX_BLOCK_SIZE_GEN - s)`, where `m = (1 + b / 1000) * B` is
the fee before the price-out step; when `s ≥ MAX_BLOCK_SIZE_GEN` it returns
`MPQ_MAX_MONEY`.  (The base fees are not negative and the free area of 27000
bytes ends below half of `MAX_BLOCK_SIZE_GEN`.) -/
theorem C29_price_out_amended (c : Consts) (env : Env) (pol : Policy) (tx : CTransaction)
    (nBlockSize : Nat) (fAllowFree : Bool) (mode : GetMinFee_mode)
    (hfee : 0 ≤ pol.MIN_TX_FEE ∧ 0 ≤ pol.MIN_RELAY_TX_FEE)
    (hfree : 27000 ≤ pol.MAX_BLOCK_SIZE_GEN / 2)
    (hs : nBlockSize + env.GetSerializeSize tx < 2 ^ 32)
    (h1 : nBlockSize ≠ 1) :
    (pol.MAX_BLOCK_SIZE_GEN / 2 ≤ nBlockSize + env.GetSerializeSize tx →
      nBlockSize + env.GetSerializeSize tx < pol.MAX_BLOCK_SIZE_GEN →
      GetMinFee c env pol tx nBlockSize fAllowFree mode =
        min (feeBeforePriceOut env pol tx mode *
              ((pol.MAX_BLOCK_SIZE_GEN /
                (pol.MAX_BLOCK_SIZE_GEN - (nBlockSize + env.GetSerializeSize tx)) : Nat) : ℚ))
          c.MPQ_MAX_MONEY) ∧
    (pol.MAX_BLOCK_SIZE_GEN ≤ nBlockSize + env.GetSerializeSize tx →
      GetMinFee c env pol tx nBlockSize fAllowFree mode = c.MPQ_MAX_MONEY) := by
  have hb : env.GetSerializeSize tx % 2 ^ 32 = env.GetSerializeSize tx :=
    Nat.mod_eq_of_lt (by omega)
  have hs2 : (nBlockSize + env.GetSerializeSize tx) % 2 ^ 32 =
      nBlockSize + env.GetSerializeSize tx := Nat.mod_eq_of_lt hs
  have hk : (1 + env.GetSerializeSize tx / 1000) % 2 ^ 32 = 1 + env.GetSerializeSize tx / 1000 :=
    Nat.mod_eq_of_lt (by omega)
  have hB : (0 : ℚ) ≤
      (if mode = GetMinFee_mode.GMF_RELAY then pol.MIN_RELAY_TX_FEE else pol.MIN_TX_FEE) := by
    split
    · exact hfee.2
    · exact hfee.1
  have hm : (if mode = GetMinFee_mode.GMF_RELAY then pol.MIN_RELAY_TX_FEE else pol.MIN_TX_FEE) ≤
      feeBeforePriceOut env pol tx mode := by
    unfold feeBeforePriceOut
    have h1k : (1 : ℚ) ≤ ((1 + env.GetSerializeSize tx / 1000 : Nat) : ℚ) := by
      exact_mod_cast Nat.le_add_right 1 _
    nlinarith
  constructor
  · intro hlo hhi
    unfold GetMinFee
    simp only [hb, hs2, hk]
    have hnotfree : ¬ nBlockSize + env.GetSerializeSize tx < 27000 := by omega
    have hstep1 : (if fAllowFree = true then
          if nBlockSize = 1 then
            (if env.GetSerializeSize tx < 10000 then (0 : ℚ)
              else ((1 + env.GetSerializeSize tx / 1000 : Nat) : ℚ) *
                (if mode = GetMinFee_mode.GMF_RELAY then pol.MIN_RELAY_TX_FEE
                  else pol.MIN_TX_FEE))
          else
            (if nBlockSize + env.GetSerializeSize tx < 27000 then (0 : ℚ)
              else ((1 + env.GetSerializeSize tx / 1000 : Nat) : ℚ) *
                (if mode = GetMinFee_mode.GMF_RELAY then pol.MIN_RELAY_TX_FEE
                  else pol.MIN_TX_FEE))
        else ((1 + env.GetSerializeSize tx / 1000 : Nat) : ℚ) *
          (if mode = GetMinFee_mode.GMF_RELAY then pol.MIN_RELAY_TX_FEE else pol.MIN_TX_FEE)) =
        feeBeforePriceOut env pol tx mode := by
      unfold feeBeforePriceOut
      rw [if_neg h1, if_neg hnotfree]
      split <;> rfl
    rw [hstep1]
    rw [if_neg (not_lt.mpr hm)]
    rw [if_pos ⟨h1, hlo⟩, if_neg (not_le.mpr hhi)]
    have hnn : (0 : ℚ) ≤ feeBeforePriceOut env pol tx mode *
        ((pol.MAX_BLOCK_SIZE_GEN /
          (pol.MAX_BLOCK_SIZE_GEN - (nBlockSize + env.GetSerializeSize tx)) : Nat) : ℚ) :=
      mul_nonneg (le_trans hB hm) (Nat.cast_nonneg _)
    unfold MoneyRange
    by_cases hle : feeBeforePriceOut env pol tx mode *
        ((pol.MAX_BLOCK_SIZE_GEN /
          (pol.MAX_BLOCK_SIZE_GEN - (nBlockSize + env.GetSerializeSize tx)) : Nat) : ℚ) ≤
        c.MPQ_MAX_MONEY
    · simp only [hnn, hle, decide_True, Bool.and_self, Bool.not_true, Bool.false_eq_true,
        if_false]
      exact (min_eq_left hle).symm
    · simp only [hnn, hle, decide_True, decide_False, Bool.and_false, Bool.not_false, if_true]
      exact (min_eq_right (le_of_lt (not_le.mp hle))).symm
  · intro hge
    unfold GetMinFee
    simp only [hb, hs2, hk]
    have hhalf : pol.MAX_BLOCK_SIZE_GEN / 2 ≤ nBlockSize + env.GetSerializeSize tx :=
      le_trans (Nat.div_le_self _ _) hge
    rw [if_pos ⟨h1, hhalf⟩, if_pos hge]

/-- Witness of C29: the sample transaction added to a block of 299940 bytes. -/
theorem C29_price_out_amended_witness :
    GetMinFee sampleConsts sampleEnv samplePolicy sampleTx 299940 false
        GetMinFee_mode.GMF_BLOCK =
      min (feeBeforePriceOut sampleEnv samplePolicy sampleTx GetMinFee_mode.GMF_BLOCK *
            ((samplePolicy.MAX_BLOCK_SIZE_GEN /
              (samplePolicy.MAX_BLOCK_SIZE_GEN -
                (299940 + sampleEnv.GetSerializeSize sampleTx)) : Nat) : ℚ))
        sampleConsts.MPQ_MAX_MONEY :=
  (C29_price_out_amended sampleConsts sampleEnv samplePolicy sampleTx 299940 false
    GetMinFee_mode.GMF_BLOCK (by decide!) (by decide) (by decide) (by decide)).1
    (by decide) (by decide)

/-! ## The orphan transaction pool: `LimitOrphanTxSize` -/

theorem minKey_eq_none (l : List uint256) (h : minKey l = none) : l = [] := by
  cases l with
  | nil => rfl
  | cons k rest =>
    unfold minKey at h
    cases hm : minKey rest with
    | none => rw [hm] at h; simp at h
    | some m =>
      rw [hm] at h
      simp only at h
      split at h <;> simp at h

theorem minKey_spec (l : List uint256) (m : uint256) (h : minKey l = some m) :
    m ∈ l ∧ ∀ x ∈ l, m ≤ x := by
  induction l generalizing m with
  | nil => simp [minKey] at h
  | cons k rest ih =>
    unfold minKey at h
    cases hm : minKey rest with
    | none =>
      rw [hm] at h
      simp only [Option.some.injEq] at h
      subst h
      have := minKey_eq_none rest hm
      subst this
      simp
    | some m2 =>
      rw [hm] at h
      simp only at h
      obtain ⟨hmem, hle⟩ := ih m2 hm
      by_cases hk : k ≤ m2
      · rw [if_pos hk] at h
        simp only [Option.some.injEq] at h
        subst h
        refine ⟨List.mem_cons_self _ _, ?_⟩
        intro x hx
        rcases List.mem_cons.mp hx with hx | hx
        · subst hx; exact le_refl _
        · exact le_trans hk (hle x hx)
      · rw [if_neg hk] at h
        simp only [Option.some.injEq] at h
        subst h
        refine ⟨List.mem_cons_of_mem _ hmem, ?_⟩
        intro x hx
        rcases List.mem_cons.mp hx with hx | hx
        · subst hx; exact le_of_lt (not_le.mp hk)
        · exact hle x hx

theorem mem_keys_iff {V : Type} (m : StdMap uint256 V) (k : uint256) :
    k ∈ m.entries.map Prod.fst ↔ (m.find k).isSome = true := by
  have h := StdMap.lookupL_eq_none_iff k m.entries
  unfold StdMap.find
  cases hl : StdMap.lookupL k m.entries with
  | none =>
    rw [hl] at h
    simp only [true_iff] at h
    simp [h]
  | some v =>
    rw [hl] at h
    simp only [false_iff, not_not, reduceCtorEq] at h
    simp [h]

theorem length_filter_ne {V : Type} (k : uint256) (l : List (uint256 × V))
    (hnd : (l.map Prod.fst).Nodup) (hk : k ∈ l.map Prod.fst) :
    (l.filter (fun e => decide (e.1 ≠ k))).length + 1 = l.length := by
  induction l with
  | nil => simp at hk
  | cons e es ih =>
    rw [List.map_cons, List.nodup_cons] at hnd
    by_cases he : e.1 = k
    · have hnot : k ∉ es.map Prod.fst := he ▸ hnd.1
      have hall : es.filter (fun e => decide (e.1 ≠ k)) = es := by
        apply List.filter_eq_self.mpr
        intro a ha
        have : a.1 ≠ k := fun h => hnot (h ▸ List.mem_map_of_mem Prod.fst ha)
        simpa using this
      have hdec : decide (e.1 ≠ k) = false := by simp [he]
      rw [List.filter_cons, hdec]
      simp only [Bool.false_eq_true, if_false]
      rw [hall]
      simp
    · have hk2 : k ∈ es.map Prod.fst := by
        rw [List.map_cons] at hk
        rcases List.mem_cons.mp hk with h | h
        · exact absurd h.symm he
        · exact h
      have := ih hnd.2 hk2
      have hdec : decide (e.1 ≠ k) = true := by simp [he]
      rw [List.filter_cons, hdec]
      simp only [if_true, List.length_cons]
      omega

/-- Erasing a stored key makes the map one entry smaller. -/
theorem size_erase {V : Type} (m : StdMap uint256 V) (k : uint256)
    (hk : (m.find k).isSome = true) : (m.erase k).size + 1 = m.size :=
  length_filter_ne k m.entries m.nodup ((mem_keys_iff m k).mpr hk)

/-- The iterator that `LimitOrphanTxSize` dereferences points to the victim of the
random hash. -/
theorem victim_of_lower_bound (m : StdMap uint256 CDataStream) (r key : uint256)
    (h : (match m.lower_bound r with
          | some key => some key
          | none => m.begin) = some key) : IsVictim m r key := by
  cases hlb : m.lower_bound r with
  | some k2 =>
    rw [hlb] at h
    simp only [Option.some.injEq] at h
    subst h
    unfold StdMap.lower_bound at hlb
    obtain ⟨hmem, hmin⟩ := minKey_spec _ _ hlb
    rw [List.mem_filter] at hmem
    refine ⟨(mem_keys_iff m k2).mp hmem.1, Or.inl ⟨by simpa using hmem.2, ?_⟩⟩
    intro k hk hrk
    apply hmin
    rw [List.mem_filter]
    exact ⟨(mem_keys_iff m k).mpr hk, by simpa using hrk⟩
  | none =>
    rw [hlb] at h
    simp only at h
    unfold StdMap.lower_bound at hlb
    have hempty := minKey_eq_none _ hlb
    unfold StdMap.begin at h
    obtain ⟨hmem, hmin⟩ := minKey_spec _ _ h
    refine ⟨(mem_keys_iff m key).mp hmem, Or.inr ⟨?_, ?_⟩⟩
    · intro k hk
      by_contra hnot
      have : k ∈ (m.entries.map Prod.fst).filter (fun x => decide (r ≤ x)) := by
        rw [List.mem_filter]
        exact ⟨(mem_keys_iff m k).mpr hk, by simpa using hnot⟩
      rw [hempty] at this
      simp at this
    · intro k hk
      exact hmin k ((mem_keys_iff m k).mpr hk)

/-- A map that is not empty has a victim for every random hash. -/
theorem lower_bound_or_begin (m : StdMap uint256 CDataStream) (r : uint256)
    (h : 0 < m.size) :
    ∃ key, (match m.lower_bound r with
          | some key => some key
          | none => m.begin) = some key := by
  cases hlb : m.lower_bound r with
  | some k2 => exact ⟨k2, rfl⟩
  | none =>
    simp only
    cases hb : m.begin with
    | some k => exact ⟨k, rfl⟩
    | none =>
      unfold StdMap.begin at hb
      have := minKey_eq_none _ hb
      unfold StdMap.size at h
      have hl : m.entries = [] := by simpa using this
      rw [hl] at h
      simp at h

theorem EraseOrphanTx_map (U : CDataStream → CTransaction) (pool : OrphanPool) (key : uint256)
    (hk : (pool.mapOrphanTransactions.find key).isSome = true) :
    (EraseOrphanTx U pool key).mapOrphanTransactions = pool.mapOrphanTransactions.erase key := by
  unfold EraseOrphanTx
  cases hf : pool.mapOrphanTransactions.find key with
  | none => rw [hf] at hk; simp at hk
  | some pvMsg => rfl

/-- C30 (`EraseOrphanTx`, `LimitOrphanTxSize`). For every pool of fewer than `2^32`
orphans, every bound `N` and every sequence of random hashes, `LimitOrphanTxSize(N)`
terminates (any fuel above `size - N` is enough), returns `size - N` (0 when the
pool holds at most `N` orphans) and leaves at most `N` entries in
`mapOrphanTransactions`; the map it leaves is the end of an eviction run, in which
each round removes the stored orphan with the smallest hash not below the random
hash, or the one with the smallest hash of all when there is none; and every orphan
that remains was stored before under the same hash with the same bytes. -/
theorem C30_LimitOrphanTxSize (U : CDataStream → CTransaction) (rand : Nat → uint256)
    (pool : OrphanPool) (N fuel : Nat)
    (hsize : pool.mapOrphanTransactions.size < 2 ^ 32)
    (hfuel : pool.mapOrphanTransactions.size - N < fuel) :
    ∃ pool2 victims,
      LimitOrphanTxSize U rand fuel pool N =
        some (pool.mapOrphanTransactions.size - N, pool2) ∧
      pool2.mapOrphanTransactions.size ≤ N ∧
      EvictionRun N rand 0 pool.mapOrphanTransactions victims pool2.mapOrphanTransactions ∧
      victims.length = pool.mapOrphanTransactions.size - N ∧
      ∀ h vMsg, pool2.mapOrphanTransactions.find h = some vMsg →
        pool.mapOrphanTransactions.find h = some vMsg := by
  have key : ∀ (fuel k : Nat) (pool : OrphanPool) (nEvicted : Nat),
      pool.mapOrphanTransactions.size - N < fuel →
      nEvicted + (pool.mapOrphanTransactions.size - N) < 2 ^ 32 →
      ∃ pool2 victims,
        limitLoop U rand N fuel k pool nEvicted =
          some (nEvicted + (pool.mapOrphanTransactions.size - N), pool2) ∧
        pool2.mapOrphanTransactions.size ≤ N ∧
        EvictionRun N rand k pool.mapOrphanTransactions victims pool2.mapOrphanTransactions ∧
        victims.length = pool.mapOrphanTransactions.size - N ∧
        ∀ h vMsg, pool2.mapOrphanTransactions.find h = some vMsg →
          pool.mapOrphanTransactions.find h = some vMsg := by
    intro fuel
    induction fuel with
    | zero => intro k pool nEvicted hf; exact absurd hf (Nat.not_lt_zero _)
    | succ fuel ih =>
      intro k pool nEvicted hf hn
      unfold limitLoop
      by_cases hgt : pool.mapOrphanTransactions.size > N
      · rw [if_pos hgt]
        obtain ⟨key, hkey⟩ := lower_bound_or_begin pool.mapOrphanTransactions (rand k)
          (by omega)
        have hvictim := victim_of_lower_bound pool.mapOrphanTransactions (rand k) key hkey
        simp only [hkey]
        have hmap := EraseOrphanTx_map U pool key hvictim.1
        have hsz := size_erase pool.mapOrphanTransactions key hvictim.1
        have hwrap : (nEvicted + 1) % 2 ^ 32 = nEvicted + 1 := Nat.mod_eq_of_lt (by omega)
        rw [hwrap]
        obtain ⟨pool2, victims, hrun, hle, hev, hlen, hkeep⟩ :=
          ih (k + 1) (EraseOrphanTx U pool key) (nEvicted + 1)
            (by rw [hmap]; omega) (by rw [hmap]; omega)
        rw [hmap] at hrun hev hlen hkeep
        refine ⟨pool2, key :: victims, ?_, hle, ?_, ?_, ?_⟩
        · rw [hrun]
          congr 2
          omega
        · exact EvictionRun.evict k _ _ key victims hgt hvictim hev
        · rw [List.length_cons, hlen]
          omega
        · intro h vMsg hfound
          have h1 := hkeep h vMsg hfound
          by_cases hh : h = key
          · subst hh
            rw [StdMap.find_erase_self] at h1
            exact absurd h1 (by simp)
          · rw [StdMap.find_erase_ne _ _ _ hh] at h1
            exact h1
      · rw [if_neg hgt]
        have hzero : pool.mapOrphanTransactions.size - N = 0 := by omega
        refine ⟨pool, [], ?_, by omega, EvictionRun.stop k _ (by omega), ?_, fun _ _ h => h⟩
        · rw [hzero]
          rfl
        · rw [hzero]
          rfl
  obtain ⟨pool2, victims, hrun, hrest⟩ := key fuel 0 pool 0 hfuel (by omega)
  refine ⟨pool2, victims, ?_, hrest⟩
  unfold LimitOrphanTxSize
  rw [hrun, Nat.zero_add]

/-- Witness of C30: the sample pool of four orphans limited to two, with the random
hashes 25 and 50: the orphans 31 and 11 are removed, the orphans 21 and 41 remain. -/
theorem C30_LimitOrphanTxSize_witness :
    sampleOrphans.mapOrphanTransactions.size < 2 ^ 32 ∧
    sampleOrphans.mapOrphanTransactions.size - 2 < 5 ∧
    (LimitOrphanTxSize sampleUnserialize (fun k => if k = 0 then 25 else 50) 5 sampleOrphans
        2).map (fun r => (r.1, r.2.mapOrphanTransactions.entries.map Prod.fst)) =
      some (2, [21, 41]) ∧
    ∃ pool2 victims,
      LimitOrphanTxSize sampleUnserialize (fun k => if k = 0 then 25 else 50) 5 sampleOrphans 2 =
        some (sampleOrphans.mapOrphanTransactions.size - 2, pool2) ∧
      pool2.mapOrphanTransactions.size ≤ 2 ∧
      EvictionRun 2 (fun k => if k = 0 then 25 else 50) 0 sampleOrphans.mapOrphanTransactions
        victims pool2.mapOrphanTransactions ∧
      victims.length = sampleOrphans.mapOrphanTransactions.size - 2 ∧
      ∀ h vMsg, pool2.mapOrphanTransactions.find h = some vMsg →
        sampleOrphans.mapOrphanTransactions.find h = some vMsg :=
  ⟨by decide, by decide, by decide,
    C30_LimitOrphanTxSize sampleUnserialize (fun k => if k = 0 then 25 else 50) sampleOrphans
      2 5 (by decide) (by decide)⟩

/-! ## Units of the wallet front end -/

/-- C33 (`XcoinUnits`). A unit is valid exactly when it is `XCN`, `mXCN` or `uXCN`;
for a valid unit `factor` is `10 ^ decimals` and `amountDigits + decimals` is 16;
`factor` is `10^8`, `10^5` and `10^2` for the three units; and `format` of a unit
that is not valid is the empty string. -/
theorem C33_units (unit : Int) (COIN : ℚ) (FormatMoney : ℚ → Bool → String) (n : ℚ)
    (fPlus : Bool) :
    (XcoinUnits.valid unit = true ↔
      unit = XcoinUnits.XCN ∨ unit = XcoinUnits.mXCN ∨ unit = XcoinUnits.uXCN) ∧
    (XcoinUnits.valid unit = true →
      XcoinUnits.factor unit = 10 ^ (XcoinUnits.decimals unit).toNat ∧
      XcoinUnits.amountDigits unit + XcoinUnits.decimals unit = 16) ∧
    (XcoinUnits.valid unit = false →
      XcoinUnits.format COIN FormatMoney unit n fPlus = some "") ∧
    XcoinUnits.factor XcoinUnits.XCN = 10 ^ 8 ∧
    XcoinUnits.factor XcoinUnits.mXCN = 10 ^ 5 ∧
    XcoinUnits.factor XcoinUnits.uXCN = 10 ^ 2 := by
  have hiff : XcoinUnits.valid unit = true ↔
      unit = XcoinUnits.XCN ∨ unit = XcoinUnits.mXCN ∨ unit = XcoinUnits.uXCN := by
    unfold XcoinUnits.valid
    by_cases h0 : unit = XcoinUnits.XCN
    · simp [h0]
    by_cases h1 : unit = XcoinUnits.mXCN
    · simp [h1]
    by_cases h2 : unit = XcoinUnits.uXCN
    · simp [h2]
    simp [h0, h1, h2]
  refine ⟨hiff, ?_, ?_, ?_, ?_, ?_⟩
  · intro hv
    rcases hiff.mp hv with h | h | h
    · subst h
      constructor
      · decide!
      · decide
    · subst h
      constructor
      · decide!
      · decide
    · subst h
      constructor
      · decide!
      · decide
  · intro hv
    unfold XcoinUnits.format
    rw [hv]
    rfl
  · decide!
  · decide!
  · decide!

/-- Witness of C33: the unit `mXCN` is valid, with the factor `10^5` and 11 + 5
digits; the unit number 7 is not valid and is formatted as the empty string. -/
theorem C33_units_witness :
    (XcoinUnits.valid XcoinUnits.mXCN = true ∧
      XcoinUnits.factor XcoinUnits.mXCN = 10 ^ (XcoinUnits.decimals XcoinUnits.mXCN).toNat ∧
      XcoinUnits.amountDigits XcoinUnits.mXCN + XcoinUnits.decimals XcoinUnits.mXCN = 16) ∧
    (XcoinUnits.valid 7 = false ∧
      XcoinUnits.format 100000000 (fun _ _ => "0.00") 7 5 false = some "") :=
  ⟨⟨by decide,
    (C33_units XcoinUnits.mXCN 100000000 (fun _ _ => "0.00") 5 false).2.1 (by decide)⟩,
   ⟨by decide, (C33_units 7 100000000 (fun _ _ => "0.00") 5 false).2.2.1 (by decide)⟩⟩

/-! ## The filtered retarget: fixed point and machine ranges -/

/-- The factor of the filtered branch is the clamped factor of its accumulator. -/
theorem filteredAdjustment_clamped (p : BlockPtr) :
    filteredAdjustment p = clampedFactor (filteredTimeLoop kFilterCoeff (vTimeDelta p) 0) := by
  unfold filteredAdjustment clampedFactor
  generalize filteredTimeLoop kFilterCoeff (vTimeDelta p) 0 = v
  simp only [kGain, kLimiterUp, kLimiterDown, nTargetSpacing]
  have h31 : ((2 : ℚ) ^ 31) = 2147483648 := by norm_num
  have h120 : (((120 : Int) : ℚ)) = 120 := by norm_num
  rw [h31, h120]
  generalize (1 : ℚ) - 41 / 400 * ((v : ℚ) / 2147483648 - 120) / 120 = x
  by_cases h1 : x > 211 / 200
  · rw [if_pos h1, min_eq_left (le_of_lt h1), max_eq_right (by norm_num)]
  · rw [if_neg h1, min_eq_right (not_lt.mp h1)]
    by_cases h2 : x < 200 / 211
    · rw [if_pos h2, max_eq_left (le_of_lt h2)]
    · rw [if_neg h2, max_eq_right (not_lt.mp h2)]

/-- Numerator and denominator of the clamped factor, in lowest terms, are positive
and below `2^63`, whatever the accumulator. -/
theorem clampedFactor_fits (v : Int) :
    0 < (clampedFactor v).num ∧ (clampedFactor v).num < 2 ^ 63 ∧
    ((clampedFactor v).den : Int) < 2 ^ 63 := by
  unfold clampedFactor
  have h31 : ((2 : ℚ) ^ 31) = 2147483648 := by norm_num
  rw [h31]
  by_cases h1 : (1 : ℚ) - 41 / 400 * ((v : ℚ) / 2147483648 - 120) / 120 > 211 / 200
  · rw [min_eq_left (le_of_lt h1), max_eq_right (by norm_num)]
    decide!
  rw [min_eq_right (not_lt.mp h1)]
  by_cases h2 : (1 : ℚ) - 41 / 400 * ((v : ℚ) / 2147483648 - 120) / 120 < 200 / 211
  · rw [max_eq_left (le_of_lt h2)]
    decide!
  rw [max_eq_right (not_lt.mp h2)]
  have hraw : (1 : ℚ) - 41 / 400 * ((v : ℚ) / 2147483648 - 120) / 120 =
      ((103079215104000 - 41 * v + 10565619548160 : Int) : ℚ) /
        ((103079215104000 : Int) : ℚ) := by
    push_cast
    field_simp
    ring
  rw [hraw] at h1 h2 ⊢
  have hb := num_den_bounds (103079215104000 - 41 * v + 10565619548160) 103079215104000
    (211 / 200) (by norm_num) (lt_of_lt_of_le (by norm_num) (not_lt.mp h2))
    (not_lt.mp h1)
  refine ⟨hb.2.1, ?_, by omega⟩
  have hq : (((((103079215104000 - 41 * v + 10565619548160 : Int) : ℚ) /
      ((103079215104000 : Int) : ℚ)).num : Int) : ℚ) < ((2 ^ 63 : Int) : ℚ) := by
    apply lt_of_le_of_lt hb.2.2
    norm_num
  exact_mod_cast hq

/-- The sum of coefficient times delta is bounded by the sum of the absolute
coefficients times `2^31`. -/
theorem abs_sum_zipWith_le (cs ds : List Int) (hd : ∀ d ∈ ds, -2 ^ 31 ≤ d ∧ d < 2 ^ 31) :
    |(List.zipWith (fun c d => c * d) cs ds).sum| ≤
      ((cs.map Int.natAbs).sum : Int) * 2 ^ 31 := by
  induction cs generalizing ds with
  | nil => simp
  | cons c cs ih =>
    cases ds with
    | nil =>
      simp only [List.zipWith_nil_right, List.sum_nil, abs_zero]
      exact mul_nonneg (Int.natCast_nonneg _) (by norm_num)
    | cons d ds =>
      have hdr := hd d (List.mem_cons_self _ _)
      have hcd : |c * d| ≤ (c.natAbs : Int) * 2 ^ 31 := by
        rw [abs_mul, Int.abs_eq_natAbs c]
        apply mul_le_mul_of_nonneg_left _ (Int.natCast_nonneg _)
        rw [abs_le]
        constructor <;> omega
      have hrest := ih ds (fun x hx => hd x (List.mem_cons_of_mem _ hx))
      simp only [List.zipWith_cons_cons, List.sum_cons, List.map_cons, Nat.cast_add]
      have h2 : ((c.natAbs : Int) + ((cs.map Int.natAbs).sum : Int)) * 2 ^ 31 =
          (c.natAbs : Int) * 2 ^ 31 + ((cs.map Int.natAbs).sum : Int) * 2 ^ 31 := by ring
      rw [h2]
      exact le_trans (abs_add _ _) (add_le_add hcd hrest)

theorem sum_natAbs_take_le (cs : List Int) (k : Nat) :
    ((cs.take k).map Int.natAbs).sum ≤ (cs.map Int.natAbs).sum := by
  induction cs generalizing k with
  | nil => simp
  | cons c cs ih =>
    cases k with
    | zero => simp
    | succ k =>
      simp only [List.take_succ_cons, List.map_cons, List.sum_cons]
      have := ih k
      omega

/-- C36 (`kFilterCoeff`, `GetNextWorkRequired`). For time deltas that are 32-bit
signed integers, the sum of the absolute coefficients times `2^31` is below `2^63`,
every partial sum of coefficient times delta is in the `int64_t` range, and the
accumulation of `vFilteredTime` is the exact sum; the entries of `vTimeDelta` are
32-bit signed integers for every chain; and numerator and denominator of the
clamped adjustment factor, in lowest terms, are positive and below `2^63` for
every value of the accumulator, so for the factor of every chain. -/
theorem C36_retarget_no_overflow (ds : List Int) (pindexLast : BlockPtr) (v : Int)
    (hd : ∀ d ∈ ds, -2 ^ 31 ≤ d ∧ d < 2 ^ 31) :
    ((kFilterCoeff.map Int.natAbs).sum : Int) * 2 ^ 31 < 2 ^ 63 ∧
    (∀ k, -2 ^ 63 ≤ (List.zipWith (fun c d => c * d) (kFilterCoeff.take k) ds).sum ∧
      (List.zipWith (fun c d => c * d) (kFilterCoeff.take k) ds).sum < 2 ^ 63) ∧
    filteredTimeLoop kFilterCoeff ds 0 = (List.zipWith (fun c d => c * d) kFilterCoeff ds).sum ∧
    (∀ d ∈ vTimeDelta pindexLast, -2 ^ 31 ≤ d ∧ d < 2 ^ 31) ∧
    (0 < (clampedFactor v).num ∧ (clampedFactor v).num < 2 ^ 63 ∧
      ((clampedFactor v).den : Int) < 2 ^ 63) ∧
    (0 < (filteredAdjustment pindexLast).num ∧ (filteredAdjustment pindexLast).num < 2 ^ 63 ∧
      ((filteredAdjustment pindexLast).den : Int) < 2 ^ 63) := by
  have htotal : ((kFilterCoeff.map Int.natAbs).sum : Int) * 2 ^ 31 < 2 ^ 63 := by decide!
  refine ⟨htotal, ?_, ?_, ?_, clampedFactor_fits v, ?_⟩
  · intro k
    have hb := abs_sum_zipWith_le (kFilterCoeff.take k) ds hd
    have hk : (((kFilterCoeff.take k).map Int.natAbs).sum : Int) ≤
        ((kFilterCoeff.map Int.natAbs).sum : Int) := by
      exact_mod_cast sum_natAbs_take_le kFilterCoeff k
    have hle : (((kFilterCoeff.take k).map Int.natAbs).sum : Int) * 2 ^ 31 ≤
        ((kFilterCoeff.map Int.natAbs).sum : Int) * 2 ^ 31 :=
      mul_le_mul_of_nonneg_right hk (by norm_num)
    have habs := le_trans hb hle
    rw [abs_le] at habs
    constructor <;> omega
  · rw [filteredTimeLoop_exact kFilterCoeff ds 0 hd (by rw [abs_zero, zero_add]; exact htotal),
      zero_add]
  · intro d hmem
    rw [vTimeDelta_eq, List.mem_map] at hmem
    obtain ⟨i, _, hi⟩ := hmem
    rw [← hi]
    unfold wrappedDelta
    split
    · exact wrapInt32_bounds _
    · exact wrapInt32_bounds _
  · rw [filteredAdjustment_clamped]
    exact clampedFactor_fits _

/-- Witness of C36: 144 deltas of `2^31 - 1` seconds each, the sample chain of 150
nodes, and the accumulator value `-2^63`. -/
theorem C36_retarget_no_overflow_witness :
    (∀ d ∈ List.replicate 144 ((2 : Int) ^ 31 - 1), -2 ^ 31 ≤ d ∧ d < 2 ^ 31) ∧
    filteredTimeLoop kFilterCoeff (List.replicate 144 ((2 : Int) ^ 31 - 1)) 0 =
      (List.zipWith (fun c d => c * d) kFilterCoeff
        (List.replicate 144 ((2 : Int) ^ 31 - 1))).sum ∧
    (0 < (clampedFactor (-2 ^ 63)).num ∧ (clampedFactor (-2 ^ 63)).num < 2 ^ 63 ∧
      ((clampedFactor (-2 ^ 63)).den : Int) < 2 ^ 63) :=
  ⟨by decide!,
    (C36_retarget_no_overflow (List.replicate 144 ((2 : Int) ^ 31 - 1))
      (spacedNode 28340 100 0x1c00ffff :: spacedChain 149 28339 100 0x1c00ffff) (-2 ^ 63)
      (by decide!)).2.2.1,
    (C36_retarget_no_overflow (List.replicate 144 ((2 : Int) ^ 31 - 1))
      (spacedNode 28340 100 0x1c00ffff :: spacedChain 149 28339 100 0x1c00ffff) (-2 ^ 63)
      (by decide!)).2.2.2.2.1⟩


/-- C35 (`GetNextWorkRequired`, filtered branch). In the filtered mode at a boundary
of 9 blocks, past the one-time override, when every inter-block time of the window
(after padding) is the target spacing of 120 s: the accumulator is `120 * 2^31`,
so the filtered interval is exactly 120; the adjustment factor is exactly 1; and
the new target is the target decoded from the bits of the last block, capped at
the proof-of-work limit. -/
theorem C35_filtered_fixed_point (c : Consts) (w : WorkParams) (env : Env)
    (last : CBlockIndexNode) (ancestors : BlockPtr) (pblock : CBlock)
    (hmode : fUseFilter c w env last.index.nHeight = true)
    (hover : ¬ (env.fTestNet = false ∧ last.index.nHeight = c.DIFF_FILTER_THRESHOLD - 1))
    (hb : (last.index.nHeight + 1) % 9 = 0)
    (hall : ∀ i, i < 144 → interBlockTime (last :: ancestors) i = 120) :
    ((filteredTimeLoop kFilterCoeff (vTimeDelta (last :: ancestors)) 0 : Int) : ℚ) /
      2147483648 = 120 ∧
    filteredAdjustment (last :: ancestors) = 1 ∧
    retargetBnNew env last.nBits (filteredAdjustment (last :: ancestors)) =
      min (env.SetCompact last.nBits) bnProofOfWorkLimit ∧
    GetNextWorkRequired c w env (last :: ancestors) pblock =
      Outcome.done (w.GetCompact (min (env.SetCompact last.nBits) bnProofOfWorkLimit)) := by
  have hconst : ∀ i ∈ List.range 144,
      kFilterCoeff.getD i 0 * wrappedDelta (last :: ancestors) i = kFilterCoeff.getD i 0 * 120 := by
    intro i hi
    have hlt : i < 144 := List.mem_range.mp hi
    have hr := hall i hlt
    congr 1
    unfold wrappedDelta
    unfold interBlockTime at hr
    split
    · rename_i a b ha hb
      rw [ha, hb] at hr
      simp only at hr
      rw [hr]
      decide
    · decide
  have hacc : filteredTimeLoop kFilterCoeff (vTimeDelta (last :: ancestors)) 0 =
      257698037760 := by
    rw [filteredTime_eq, List.map_congr_left hconst]
    decide!
  have hfactor : filteredAdjustment (last :: ancestors) = 1 := by
    rw [filteredAdjustment_clamped, hacc]
    decide!
  have hnew : retargetBnNew env last.nBits (filteredAdjustment (last :: ancestors)) =
      min (env.SetCompact last.nBits) bnProofOfWorkLimit := by
    rw [hfactor]
    unfold retargetBnNew
    simp only [Rat.den_one, Rat.num_one, Nat.cast_one, mul_one, Int.tdiv_one]
    by_cases h : env.SetCompact last.nBits > bnProofOfWorkLimit
    · rw [if_pos h, min_eq_right (le_of_lt h)]
    · rw [if_neg h, min_eq_left (not_lt.mp h)]
  refine ⟨?_, hfactor, hnew, ?_⟩
  · rw [hacc]
    norm_num
  · have hbound := GetNextWorkRequired_boundary c w env last ancestors pblock hover
      (by rw [if_pos hmode]; exact hb)
    rw [hbound, hmode]
    unfold adjustmentOf
    simp only [if_true, Outcome.bind]
    rw [hnew]

/-- Witness of C35: a path of 150 nodes spaced 120 s apart, with the last block at
height 28340 on the main network. -/
theorem C35_filtered_fixed_point_witness :
    filteredAdjustment (spacedNode 28340 120 0x1c00ffff :: spacedChain 149 28339 120 0x1c00ffff)
      = 1 ∧
    GetNextWorkRequired sampleConsts sampleWork compactEnv
        (spacedNode 28340 120 0x1c00ffff :: spacedChain 149 28339 120 0x1c00ffff)
        (chainBlock 0 1 28341 0) =
      Outcome.done (sampleWork.GetCompact
        (min (compactEnv.SetCompact (spacedNode 28340 120 0x1c00ffff).nBits)
          bnProofOfWorkLimit)) :=
  ⟨(C35_filtered_fixed_point sampleConsts sampleWork compactEnv
      (spacedNode 28340 120 0x1c00ffff) (spacedChain 149 28339 120 0x1c00ffff)
      (chainBlock 0 1 28341 0) (by decide) (by decide) (by decide) (by decide!)).2.1,
   (C35_filtered_fixed_point sampleConsts sampleWork compactEnv
      (spacedNode 28340 120 0x1c00ffff) (spacedChain 149 28339 120 0x1c00ffff)
      (chainBlock 0 1 28341 0) (by decide) (by decide) (by decide) (by decide!)).2.2.2⟩

/-! ## The memory pool: `addUnchecked` followed by `remove` -/

theorem StdMap.eq_of_entries {K V : Type} (m1 m2 : StdMap K V) (h : m1.entries = m2.entries) :
    m1 = m2 := by
  cases m1
  cases m2
  simp only [StdMap.mk.injEq]
  exact h

theorem StdMap.setL_fresh {K V : Type} [DecidableEq K] (k : K) (v : V) (l : List (K × V))
    (h : k ∉ l.map Prod.fst) : StdMap.setL k v l = l ++ [(k, v)] := by
  induction l with
  | nil => rfl
  | cons e es ih =>
    rw [List.map_cons, List.mem_cons, not_or] at h
    have hne : ¬ e.1 = k := fun h2 => h.1 h2.symm
    simp only [StdMap.setL, hne, if_false, List.cons_append, ih h.2]

theorem StdMap.entries_set_fresh {K V : Type} [DecidableEq K] (m : StdMap K V) (k : K) (v : V)
    (h : m.find k = none) : (m.set k v).entries = m.entries ++ [(k, v)] :=
  StdMap.setL_fresh k v m.entries ((StdMap.lookupL_eq_none_iff k m.entries).mp h)

theorem StdMap.entries_foldl_erase {K V α : Type} [DecidableEq K] (f : α → K) (l : List α)
    (m : StdMap K V) :
    (l.foldl (fun m a => m.erase (f a)) m).entries =
      m.entries.filter (fun e => decide (e.1 ∉ l.map f)) := by
  induction l generalizing m with
  | nil => simp
  | cons a rest ih =>
    rw [List.foldl_cons, ih]
    simp only [StdMap.erase, StdMap.filter, List.filter_filter, List.map_cons, List.mem_cons,
      not_or]
    apply List.filter_congr
    intro e _
    by_cases h1 : e.1 = f a
    · simp [h1]
    · simp [h1]

/-- The entries that `addUnchecked` adds to `mapNextTx` for inputs that are not yet
keys follow the old entries, and their keys are outpoints of the inputs. -/
theorem entries_addNextLoop (hash : uint256) (ins : List CTxIn) (i : Nat)
    (m : StdMap COutPoint (uint256 × Nat))
    (hnd : (ins.map (fun t => t.prevout)).Nodup)
    (hfresh : ∀ t ∈ ins, m.find t.prevout = none) :
    ∃ added, (addNextLoop hash ins i m).entries = m.entries ++ added ∧
      ∀ e ∈ added, e.1 ∈ ins.map (fun t => t.prevout) := by
  induction ins generalizing i m with
  | nil => exact ⟨[], by simp [addNextLoop], by simp⟩
  | cons t rest ih =>
    rw [List.map_cons, List.nodup_cons] at hnd
    have hset := StdMap.entries_set_fresh m t.prevout (hash, i) (hfresh t (List.mem_cons_self _ _))
    have hfresh2 : ∀ u ∈ rest, (m.set t.prevout (hash, i)).find u.prevout = none := by
      intro u hu
      have hne : u.prevout ≠ t.prevout := by
        intro heq
        exact hnd.1 (heq ▸ List.mem_map_of_mem (fun t => t.prevout) hu)
      rw [StdMap.find_set_ne _ _ _ _ hne]
      exact hfresh u (List.mem_cons_of_mem _ hu)
    obtain ⟨added, hadd, hkeys⟩ := ih (i + 1) (m.set t.prevout (hash, i)) hnd.2 hfresh2
    refine ⟨(t.prevout, (hash, i)) :: added, ?_, ?_⟩
    · unfold addNextLoop
      rw [hadd, hset, List.append_assoc]
      rfl
    · intro e he
      rcases List.mem_cons.mp he with he | he
      · rw [he]
        exact List.mem_cons_self _ _
      · exact List.mem_cons_of_mem _ (hkeys e he)

/-- C38 (`CTxMemPool::addUnchecked`, `CTxMemPool::remove`). For a transaction with
pairwise distinct input outpoints whose hash is not a key of `mapTx` and none of
whose input outpoints is a key of `mapNextTx`, `remove(tx)` after
`addUnchecked(hash(tx), tx)` leaves `mapTx` and `mapNextTx` exactly as they were
before; and `remove(tx)` on any pool that does not hold the hash of `tx` leaves
the pool as it is. -/
theorem C38_add_then_remove (env : Env) (pool pool2 : CTxMemPool) (tx : CTransaction)
    (hnd : (tx.vin.map (fun t => t.prevout)).Nodup)
    (hhash : pool.mapTx.find (env.GetHash tx) = none)
    (hnext : ∀ t ∈ tx.vin, pool.mapNextTx.find t.prevout = none)
    (habsent : pool2.mapTx.find (env.GetHash tx) = none) :
    ((pool.addUnchecked (env.GetHash tx) tx).remove env tx).mapTx = pool.mapTx ∧
    ((pool.addUnchecked (env.GetHash tx) tx).remove env tx).mapNextTx = pool.mapNextTx ∧
    pool2.remove env tx = pool2 := by
  have hcount : (pool.addUnchecked (env.GetHash tx) tx).mapTx.count (env.GetHash tx) = true := by
    unfold CTxMemPool.addUnchecked StdMap.count
    simp only
    rw [StdMap.find_set_self]
    rfl
  have hkeys : ∀ e ∈ pool.mapTx.entries, e.1 ≠ env.GetHash tx := by
    intro e he heq
    have := (StdMap.lookupL_eq_none_iff (env.GetHash tx) pool.mapTx.entries).mp hhash
    exact this (heq ▸ List.mem_map_of_mem Prod.fst he)
  refine ⟨?_, ?_, ?_⟩
  · unfold CTxMemPool.remove
    simp only [hcount, if_true]
    apply StdMap.eq_of_entries
    unfold CTxMemPool.addUnchecked
    simp only [StdMap.erase, StdMap.filter]
    rw [StdMap.entries_set_fresh _ _ _ hhash, List.filter_append]
    have h1 : pool.mapTx.entries.filter (fun e => decide (e.1 ≠ env.GetHash tx)) =
        pool.mapTx.entries := by
      apply List.filter_eq_self.mpr
      intro e he
      simpa using hkeys e he
    rw [h1]
    simp
  · unfold CTxMemPool.remove
    simp only [hcount, if_true]
    apply StdMap.eq_of_entries
    rw [StdMap.entries_foldl_erase (fun t : CTxIn => t.prevout)]
    obtain ⟨added, hadd, hadded⟩ :=
      entries_addNextLoop (env.GetHash tx) tx.vin 0 pool.mapNextTx hnd hnext
    have hentries : (pool.addUnchecked (env.GetHash tx) tx).mapNextTx.entries =
        pool.mapNextTx.entries ++ added := hadd
    rw [hentries, List.filter_append]
    have h1 : pool.mapNextTx.entries.filter
        (fun e => decide (e.1 ∉ tx.vin.map (fun t => t.prevout))) = pool.mapNextTx.entries := by
      apply List.filter_eq_self.mpr
      intro e he
      simp only [decide_eq_true_eq]
      intro hmem
      rw [List.mem_map] at hmem
      obtain ⟨t, ht, hte⟩ := hmem
      have hnone := hnext t ht
      have hkey := (StdMap.lookupL_eq_none_iff t.prevout pool.mapNextTx.entries).mp hnone
      exact hkey (hte ▸ List.mem_map_of_mem Prod.fst he)
    have h2 : added.filter (fun e => decide (e.1 ∉ tx.vin.map (fun t => t.prevout))) = [] := by
      apply List.filter_eq_nil_iff.mpr
      intro e he
      simpa using hadded e he
    rw [h1, h2, List.append_nil]
  · unfold CTxMemPool.remove
    have hc : pool2.mapTx.count (env.GetHash tx) = false := by
      unfold StdMap.count
      rw [habsent]
      rfl
    simp only [hc, Bool.false_eq_true, if_false]

/-- Witness of C38: the sample transaction added to the empty pool and removed
again. -/
theorem C38_add_then_remove_witness :
    (sampleTx.vin.map (fun t => t.prevout)).Nodup ∧
    emptyPool.mapTx.find (sampleEnv.GetHash sampleTx) = none ∧
    ((emptyPool.addUnchecked (sampleEnv.GetHash sampleTx) sampleTx).remove sampleEnv
      sampleTx).mapTx = emptyPool.mapTx ∧
    ((emptyPool.addUnchecked (sampleEnv.GetHash sampleTx) sampleTx).remove sampleEnv
      sampleTx).mapNextTx = emptyPool.mapNextTx ∧
    emptyPool.remove sampleEnv sampleTx = emptyPool :=
  ⟨by decide, by decide,
    C38_add_then_remove sampleEnv emptyPool emptyPool sampleTx (by decide) (by decide)
      (by decide) (by decide)⟩

/-! ## The test pool of `ConnectInputs` -/

/-- With `fBlock` and `fMiner` clear the second loop of `ConnectInputs` never
writes to `mapTestPool`. -/
theorem connectMarkLoop_unflagged (env : Env) (tx : CTransaction) (pos : CDiskTxPos)
    (fStrict : Bool) (ins : List CTxIn) (i : Nat)
    (st st2 : MapPrevTx × StdMap uint256 CTxIndex)
    (h : connectMarkLoop env tx pos false false fStrict ins i st = .done st2) :
    st2.2 = st.2 := by
  induction ins generalizing i st with
  | nil =>
    simp only [connectMarkLoop, Outcome.done.injEq] at h
    subst h
    rfl
  | cons t rest ih =>
    obtain ⟨txindex, txPrev, _, _, _, hrest⟩ :=
      connectMarkLoop_cons env tx pos false false fStrict t rest i st st2 h
    simp only [Bool.or_false, Bool.false_eq_true, if_false] at hrest
    have := ih (i + 1) (_, st.2) hrest
    exact this

/-- What a completed second loop of `ConnectInputs` leaves when `fBlock` or
`fMiner` is set: every entry of the input map with the slots of the inputs marked,
and in `mapTestPool` the marked entry of every previous transaction of an input. -/
theorem connectMarkLoop_flagged (env : Env) (tx : CTransaction) (pos : CDiskTxPos)
    (fBlock fMiner fStrict : Bool) (hflag : (fBlock || fMiner) = true)
    (ins : List CTxIn) (i : Nat)
    (st st2 : MapPrevTx × StdMap uint256 CTxIndex)
    (h : connectMarkLoop env tx pos fBlock fMiner fStrict ins i st = .done st2) :
    (∀ g, st2.1.find g = (st.1.find g).map (fun e => (markIndex pos g ins e.1, e.2))) ∧
    (∀ g, st2.2.find g =
      if g ∈ ins.map (fun t => t.prevout.hash) then (st2.1.find g).map Prod.fst
      else st.2.find g) := by
  induction ins generalizing i st with
  | nil =>
    simp only [connectMarkLoop, Outcome.done.injEq] at h
    subst h
    refine ⟨fun g => ?_, fun g => by simp⟩
    cases st.1.find g with
    | none => rfl
    | some e => simp [markIndex_nil]
  | cons t rest ih =>
    obtain ⟨txindex, txPrev, hfind, _, _, hrest⟩ :=
      connectMarkLoop_cons env tx pos fBlock fMiner fStrict t rest i st st2 h
    rw [if_pos hflag] at hrest
    obtain ⟨iha, ihb⟩ := ih (i + 1) _ hrest
    have ha : ∀ g, st2.1.find g =
        (st.1.find g).map (fun e => (markIndex pos g (t :: rest) e.1, e.2)) := by
      intro g
      rw [iha g]
      by_cases hg : g = t.prevout.hash
      · subst hg
        rw [StdMap.find_set_self, hfind]
        simp only [Option.map_some']
        rw [markIndex_cons_same]
      · rw [StdMap.find_set_ne _ _ _ _ hg]
        cases st.1.find g with
        | none => rfl
        | some e =>
          simp only [Option.map_some']
          rw [markIndex_cons_other _ _ _ _ _ (fun h2 => hg h2.symm)]
    refine ⟨ha, fun g => ?_⟩
    rw [ihb g]
    by_cases hmem : g ∈ rest.map (fun t => t.prevout.hash)
    · rw [if_pos hmem, if_pos (by rw [List.map_cons]; exact List.mem_cons_of_mem _ hmem)]
    · rw [if_neg hmem]
      by_cases hg : g = t.prevout.hash
      · subst hg
        rw [if_pos (by rw [List.map_cons]; exact List.mem_cons_self _ _)]
        rw [iha]
        simp only [StdMap.find_set_self, Option.map_some']
        rw [markIndex_other]
        intro t2 ht2 heq
        exact hmem (List.mem_map.mpr ⟨t2, ht2, heq⟩)
      · rw [if_neg (by
          rw [List.map_cons, List.mem_cons, not_or]
          exact ⟨hg, hmem⟩)]
        exact StdMap.find_set_ne _ _ _ _ hg

/-- C32, the claim as worded fails on the call made by `CTxMemPool::accept`
(`fBlock` and `fMiner` both false): the sample transaction connects, the call
returns true, and the test pool handed in empty has no entry for the previous
transaction of its input afterwards. -/
theorem C32_test_pool_counterexample :
    (ConnectInputs sampleConsts sampleEnv sampleTx sampleInputs StdMap.empty ⟨1, 1, 1⟩
      sampleChain false false true).returnedTrue = true ∧
    (∃ txin ∈ sampleTx.vin,
      ((ConnectInputs sampleConsts sampleEnv sampleTx sampleInputs StdMap.empty ⟨1, 1, 1⟩
        sampleChain false false true).getD StdMap.empty).find txin.prevout.hash = none) :=
  ⟨by decide!, ⟨⟨⟨7, 0⟩, [1, 2, 3], 0⟩, by decide, by decide!⟩⟩

/-- C32, amended: a call of `ConnectInputs` on a non-coinbase transaction that
returns true with `fBlock` or `fMiner` set leaves a test pool that maps the
previous-transaction hash of every input to an index entry with the position of
the supplied input map, as many slots, slot `prevout.n` equal to `posThisTx`, and
every slot no input of the transaction refers to as in the supplied input map;
hashes that are not a previous transaction of an input keep their entry.  With
both flags clear the test pool is returned as it was supplied. -/
theorem C32_test_pool_amended (c : Consts) (env : Env) (tx : CTransaction) (inputs : MapPrevTx)
    (mapTestPool q : StdMap uint256 CTxIndex) (posThisTx : CDiskTxPos)
    (chain : List CBlockIndex) (fBlock fMiner fStrict : Bool) (hcb : tx.IsCoinBase = false)
    (h : ConnectInputs c env tx inputs mapTestPool posThisTx chain fBlock fMiner fStrict
      = .done q) :
    ((fBlock || fMiner) = true →
      (∀ txin ∈ tx.vin, ∃ txindex txPrev idx,
        inputs.find txin.prevout.hash = some (txindex, txPrev) ∧
        q.find txin.prevout.hash = some idx ∧
        idx.pos = txindex.pos ∧
        idx.vSpent.length = txindex.vSpent.length ∧
        idx.vSpent[txin.prevout.n]? = some posThisTx ∧
        ∀ k, (¬ ∃ t ∈ tx.vin, t.prevout.hash = txin.prevout.hash ∧ t.prevout.n = k) →
          idx.vSpent[k]? = txindex.vSpent[k]?) ∧
      (∀ g, g ∉ tx.vin.map (fun t => t.prevout.hash) → q.find g = mapTestPool.find g)) ∧
    ((fBlock || fMiner) = false → q = mapTestPool) := by
  obtain ⟨hrange, st2, hmark, hq⟩ :=
    ConnectInputs_done_inv c env tx inputs mapTestPool q posThisTx chain fBlock fMiner fStrict
      hcb h
  subst hq
  constructor
  · intro hflag
    obtain ⟨ha, hb⟩ := connectMarkLoop_flagged env tx posThisTx fBlock fMiner fStrict hflag
      tx.vin 0 (inputs, mapTestPool) st2 hmark
    constructor
    · intro txin hin
      obtain ⟨txindex, txPrev, hfind, _, hlen, _⟩ :=
        connectRangeLoop_done c inputs chain tx.vin hrange txin hin
      refine ⟨txindex, txPrev, markIndex posThisTx txin.prevout.hash tx.vin txindex, hfind,
        ?_, rfl, ?_, ?_, ?_⟩
      · rw [hb, if_pos (List.mem_map.mpr ⟨txin, hin, rfl⟩), ha]
        simp only [hfind, Option.map_some']
      · simp only [markIndex, setSlots_length]
      · simp only [markIndex]
        rw [setSlots_getElem?, if_pos ⟨⟨txin, hin, rfl, rfl⟩, hlen⟩]
      · intro k hk
        simp only [markIndex]
        rw [setSlots_getElem?, if_neg (fun hh => hk hh.1)]
    · intro g hg
      rw [hb, if_neg hg]
  · intro hflag
    rw [Bool.or_eq_false_iff] at hflag
    obtain ⟨h1, h2⟩ := hflag
    subst h1
    subst h2
    exact connectMarkLoop_unflagged env tx posThisTx fStrict tx.vin 0 (inputs, mapTestPool)
      st2 hmark

/-- Witness of the amended C32: the sample transaction connected as part of a
block; the test pool then holds the entry of transaction 7 with slot 0 marked. -/
theorem C32_test_pool_amended_witness :
    sampleTx.IsCoinBase = false ∧
    (ConnectInputs sampleConsts sampleEnv sampleTx sampleInputs StdMap.empty ⟨1, 1, 1⟩
      sampleChain true false true).returnedTrue = true ∧
    (∀ txin ∈ sampleTx.vin, ∃ txindex txPrev idx,
        sampleInputs.find txin.prevout.hash = some (txindex, txPrev) ∧
        ((ConnectInputs sampleConsts sampleEnv sampleTx sampleInputs StdMap.empty ⟨1, 1, 1⟩
          sampleChain true false true).getD StdMap.empty).find txin.prevout.hash = some idx ∧
        idx.pos = txindex.pos ∧
        idx.vSpent.length = txindex.vSpent.length ∧
        idx.vSpent[txin.prevout.n]? = some ⟨1, 1, 1⟩ ∧
        ∀ k, (¬ ∃ t ∈ sampleTx.vin, t.prevout.hash = txin.prevout.hash ∧ t.prevout.n = k) →
          idx.vSpent[k]? = txindex.vSpent[k]?) :=
  ⟨by decide, by decide!,
   ((C32_test_pool_amended sampleConsts sampleEnv sampleTx sampleInputs StdMap.empty _ ⟨1, 1, 1⟩
      sampleChain true false true (by decide)
      (Outcome.eq_done_getD _ StdMap.empty (by decide!))).1 rfl).1⟩

/-! ## The orphan transaction pool: the invariant of its two maps -/

theorem find_none_of_isEmpty {V : Type} (m : StdMap uint256 V) (k : uint256)
    (h : m.entries.isEmpty = true) : m.find k = none := by
  have : m.entries = [] := List.isEmpty_iff.mp h
  unfold StdMap.find
  rw [this]
  rfl

theorem orphanListed_addStep (hash : uint256) (pvMsg : CDataStream)
    (byPrev : StdMap uint256 (StdMap uint256 CDataStream)) (txin : CTxIn) (p h : uint256) :
    orphanListed (addByPrevStep hash pvMsg byPrev txin) p h =
      (orphanListed byPrev p h || (decide (p = txin.prevout.hash) && decide (h = hash))) := by
  unfold orphanListed addByPrevStep
  simp only
  by_cases hp : p = txin.prevout.hash
  · subst hp
    rw [StdMap.find_set_self]
    simp only [Option.getD_some, decide_True, Bool.true_and]
    by_cases hc : ((byPrev.find txin.prevout.hash).getD StdMap.empty).count hash = true
    · rw [if_pos hc]
      by_cases hh : h = hash
      · subst hh
        simp [hc]
      · simp [hh]
    · rw [if_neg hc]
      by_cases hh : h = hash
      · subst hh
        simp [StdMap.count, StdMap.find_set_self]
      · simp [StdMap.count, StdMap.find_set_ne _ _ _ _ hh, hh]
  · rw [StdMap.find_set_ne _ _ _ _ hp]
    simp [hp]

theorem orphanListed_addFold (hash : uint256) (pvMsg : CDataStream) (ins : List CTxIn)
    (byPrev : StdMap uint256 (StdMap uint256 CDataStream)) (p h : uint256) :
    orphanListed (ins.foldl (addByPrevStep hash pvMsg) byPrev) p h =
      (orphanListed byPrev p h ||
        (decide (p ∈ ins.map (fun t => t.prevout.hash)) && decide (h = hash))) := by
  induction ins generalizing byPrev with
  | nil => simp
  | cons t rest ih =>
    rw [List.foldl_cons, ih, orphanListed_addStep]
    by_cases hh : h = hash
    · by_cases hp : p = t.prevout.hash
      · simp [hh, hp]
      · simp [hh, hp]
    · simp [hh]

theorem orphanListed_eraseStep (hash : uint256)
    (byPrev : StdMap uint256 (StdMap uint256 CDataStream)) (txin : CTxIn) (p h : uint256) :
    orphanListed (eraseByPrevStep hash byPrev txin) p h =
      (orphanListed byPrev p h && !(decide (p = txin.prevout.hash) && decide (h = hash))) := by
  unfold orphanListed eraseByPrevStep
  simp only
  by_cases hempty :
      (((byPrev.find txin.prevout.hash).getD StdMap.empty).erase hash).entries.isEmpty = true
  · rw [if_pos hempty]
    by_cases hp : p = txin.prevout.hash
    · subst hp
      rw [StdMap.find_erase_self]
      by_cases hh : h = hash
      · subst hh
        simp [StdMap.count, StdMap.find_empty]
      · have hnone := find_none_of_isEmpty _ h hempty
        rw [StdMap.find_erase_ne _ _ _ hh] at hnone
        simp [StdMap.count, StdMap.find_empty, hnone]
    · rw [StdMap.find_erase_ne _ _ _ hp]
      simp [hp]
  · rw [if_neg hempty]
    by_cases hp : p = txin.prevout.hash
    · subst hp
      rw [StdMap.find_set_self]
      simp only [Option.getD_some, decide_True, Bool.true_and]
      by_cases hh : h = hash
      · subst hh
        simp [StdMap.count, StdMap.find_erase_self]
      · simp [StdMap.count, StdMap.find_erase_ne _ _ _ hh, hh]
    · rw [StdMap.find_set_ne _ _ _ _ hp]
      simp [hp]

theorem orphanListed_eraseFold (hash : uint256) (ins : List CTxIn)
    (byPrev : StdMap uint256 (StdMap uint256 CDataStream)) (p h : uint256) :
    orphanListed (ins.foldl (eraseByPrevStep hash) byPrev) p h =
      (orphanListed byPrev p h &&
        !(decide (p ∈ ins.map (fun t => t.prevout.hash)) && decide (h = hash))) := by
  induction ins generalizing byPrev with
  | nil => simp
  | cons t rest ih =>
    rw [List.foldl_cons, ih, orphanListed_eraseStep]
    by_cases hh : h = hash
    · by_cases hp : p = t.prevout.hash
      · simp [hh, hp]
      · simp [hh, hp]
    · simp [hh]

theorem OrphanInv_empty (Unserialize : CDataStream → CTransaction) :
    OrphanInv Unserialize ⟨StdMap.empty, StdMap.empty⟩ := by
  refine ⟨?_, ?_, ?_⟩
  · intro h m hf
    simp [StdMap.find_empty] at hf
  · intro h m hf
    simp [StdMap.find_empty] at hf
  · intro p h hl
    simp [orphanListed, StdMap.find_empty, StdMap.count] at hl

/-- The two early exits of `AddOrphanTx`. -/
theorem AddOrphanTx_rejected (env : Env) (Unserialize : CDataStream → CTransaction)
    (pool : OrphanPool) (vMsg : CDataStream)
    (h : pool.mapOrphanTransactions.count (env.GetHash (Unserialize vMsg)) = true ∨
      vMsg.length > 5000) :
    AddOrphanTx env Unserialize pool vMsg = (false, pool) := by
  unfold AddOrphanTx
  simp only
  by_cases hc : pool.mapOrphanTransactions.count (env.GetHash (Unserialize vMsg)) = true
  · rw [if_pos hc]
  · rw [if_neg hc]
    rcases h with h | h
    · exact absurd h hc
    · rw [if_pos h]

/-- The early exit of `EraseOrphanTx`. -/
theorem EraseOrphanTx_absent (Unserialize : CDataStream → CTransaction) (pool : OrphanPool)
    (hash : uint256) (h : pool.mapOrphanTransactions.count hash = false) :
    EraseOrphanTx Unserialize pool hash = pool := by
  have hnone : pool.mapOrphanTransactions.find hash = none :=
    (StdMap.count_eq_false_iff _ _).mp h
  unfold EraseOrphanTx
  rw [hnone]

theorem OrphanInv_add (env : Env) (Unserialize : CDataStream → CTransaction)
    (pool : OrphanPool) (vMsg : CDataStream) (hinv : OrphanInv Unserialize pool) :
    OrphanInv Unserialize (AddOrphanTx env Unserialize pool vMsg).2 := by
  obtain ⟨h1, h2, h3⟩ := hinv
  unfold AddOrphanTx
  simp only
  by_cases hc : pool.mapOrphanTransactions.count (env.GetHash (Unserialize vMsg)) = true
  · rw [if_pos hc]
    exact ⟨h1, h2, h3⟩
  rw [if_neg hc]
  by_cases hlen : vMsg.length > 5000
  · rw [if_pos hlen]
    exact ⟨h1, h2, h3⟩
  rw [if_neg hlen]
  have hnone : pool.mapOrphanTransactions.find (env.GetHash (Unserialize vMsg)) = none := by
    apply (StdMap.count_eq_false_iff _ _).mp
    simpa using hc
  refine ⟨?_, ?_, ?_⟩
  · intro h m hf
    simp only at hf
    by_cases hh : h = env.GetHash (Unserialize vMsg)
    · subst hh
      rw [StdMap.find_set_self] at hf
      simp only [Option.some.injEq] at hf
      subst hf
      exact not_lt.mp hlen
    · rw [StdMap.find_set_ne _ _ _ _ hh] at hf
      exact h1 h m hf
  · intro h m hf txin hin
    simp only at hf ⊢
    rw [orphanListed_addFold]
    by_cases hh : h = env.GetHash (Unserialize vMsg)
    · subst hh
      rw [StdMap.find_set_self] at hf
      simp only [Option.some.injEq] at hf
      subst hf
      have : txin.prevout.hash ∈ (Unserialize vMsg).vin.map (fun t => t.prevout.hash) :=
        List.mem_map.mpr ⟨txin, hin, rfl⟩
      simp [this]
    · rw [StdMap.find_set_ne _ _ _ _ hh] at hf
      rw [h2 h m hf txin hin]
      rfl
  · intro p h hl
    simp only at hl ⊢
    rw [orphanListed_addFold] at hl
    by_cases hh : h = env.GetHash (Unserialize vMsg)
    · subst hh
      refine ⟨vMsg, StdMap.find_set_self _ _ _, ?_⟩
      rcases Bool.or_eq_true_iff.mp hl with hold | hnew
      · obtain ⟨m, hm, _⟩ := h3 p _ hold
        rw [hnone] at hm
        exact absurd hm (by simp)
      · simp only [Bool.and_eq_true, decide_eq_true_eq] at hnew
        exact hnew.1
    · have hold : orphanListed pool.mapOrphanTransactionsByPrev p h = true := by
        simpa [hh] using hl
      obtain ⟨m, hm, hp⟩ := h3 p h hold
      exact ⟨m, by rw [StdMap.find_set_ne _ _ _ _ hh]; exact hm, hp⟩

theorem OrphanInv_erase (Unserialize : CDataStream → CTransaction)
    (pool : OrphanPool) (hash : uint256) (hinv : OrphanInv Unserialize pool) :
    OrphanInv Unserialize (EraseOrphanTx Unserialize pool hash) := by
  obtain ⟨h1, h2, h3⟩ := hinv
  unfold EraseOrphanTx
  cases hfind : pool.mapOrphanTransactions.find hash with
  | none => exact ⟨h1, h2, h3⟩
  | some pvMsg =>
    simp only
    refine ⟨?_, ?_, ?_⟩
    · intro h m hf
      by_cases hh : h = hash
      · subst hh
        rw [StdMap.find_erase_self] at hf
        exact absurd hf (by simp)
      · rw [StdMap.find_erase_ne _ _ _ hh] at hf
        exact h1 h m hf
    · intro h m hf txin hin
      by_cases hh : h = hash
      · subst hh
        rw [StdMap.find_erase_self] at hf
        exact absurd hf (by simp)
      · rw [StdMap.find_erase_ne _ _ _ hh] at hf
        rw [orphanListed_eraseFold, h2 h m hf txin hin]
        simp [hh]
    · intro p h hl
      rw [orphanListed_eraseFold] at hl
      simp only [Bool.and_eq_true, Bool.not_eq_true', Bool.and_eq_false_imp,
        decide_eq_true_eq, decide_eq_false_iff_not] at hl
      obtain ⟨hold, hnot⟩ := hl
      obtain ⟨m, hm, hp⟩ := h3 p h hold
      have hh : h ≠ hash := by
        intro heq
        subst heq
        rw [hfind] at hm
        simp only [Option.some.injEq] at hm
        subst hm
        exact hnot hp rfl
      exact ⟨m, by rw [StdMap.find_erase_ne _ _ _ hh]; exact hm, hp⟩

theorem OrphanInv_limitLoop (Unserialize : CDataStream → CTransaction)
    (GetRandHash : Nat → uint256) (nMaxOrphans fuel k : Nat) (pool : OrphanPool) (nEvicted : Nat)
    (r : Nat × OrphanPool) (hinv : OrphanInv Unserialize pool)
    (h : limitLoop Unserialize GetRandHash nMaxOrphans fuel k pool nEvicted = some r) :
    OrphanInv Unserialize r.2 := by
  induction fuel generalizing k pool nEvicted with
  | zero => simp [limitLoop] at h
  | succ fuel ih =>
    unfold limitLoop at h
    by_cases hsz : pool.mapOrphanTransactions.size > nMaxOrphans
    · rw [if_pos hsz] at h
      simp only at h
      cases hlb : pool.mapOrphanTransactions.lower_bound (GetRandHash k) with
      | none =>
        rw [hlb] at h
        simp only at h
        cases hb : pool.mapOrphanTransactions.begin with
        | none => rw [hb] at h; simp at h
        | some key =>
          rw [hb] at h
          exact ih (k + 1) _ _ (OrphanInv_erase Unserialize pool key hinv) h
      | some key =>
        rw [hlb] at h
        exact ih (k + 1) _ _ (OrphanInv_erase Unserialize pool key hinv) h
    · rw [if_neg hsz] at h
      simp only [Option.some.injEq] at h
      subst h
      exact hinv

theorem OrphanInv_reachable (env : Env) (Unserialize : CDataStream → CTransaction)
    (pool : OrphanPool) (h : OrphanReachable env Unserialize pool) :
    OrphanInv Unserialize pool := by
  induction h with
  | empty => exact OrphanInv_empty Unserialize
  | add pool vMsg _ ih => exact OrphanInv_add env Unserialize pool vMsg ih
  | erase pool hash _ ih => exact OrphanInv_erase Unserialize pool hash ih
  | limit pool GetRandHash fuel nMaxOrphans r _ hr ih =>
    exact OrphanInv_limitLoop Unserialize GetRandHash nMaxOrphans fuel 0 pool 0 r ih hr

theorem sampleOrphans_reachable : OrphanReachable sampleEnv sampleUnserialize sampleOrphans :=
  OrphanReachable.add _ [40] (OrphanReachable.add _ [30] (OrphanReachable.add _ [20]
    (OrphanReachable.add _ [10] OrphanReachable.empty)))

/-- C37 (`AddOrphanTx`, `EraseOrphanTx`, `LimitOrphanTxSize`, `main.cpp` 165-229).
In every state of the orphan pool reached from the empty pool by the three
functions: a stored message has at most 5000 bytes; for a stored orphan and each
input of its transaction, the map stored in `mapOrphanTransactionsByPrev` under the
hash of the previous transaction has an entry for the hash of the orphan; a hash
with an entry in any map stored in `mapOrphanTransactionsByPrev` is a key of
`mapOrphanTransactions`.  In such a state `AddOrphanTx` returns false and leaves
the pool as it is when the hash is stored already or the message has more than
5000 bytes, and `EraseOrphanTx` of a hash that is not stored leaves the pool as it
is. -/
theorem C37_orphan_pool_invariant (env : Env) (Unserialize : CDataStream → CTransaction)
    (pool : OrphanPool) (hreach : OrphanReachable env Unserialize pool) :
    (∀ h m, pool.mapOrphanTransactions.find h = some m → m.length ≤ 5000) ∧
    (∀ h m, pool.mapOrphanTransactions.find h = some m →
      ∀ txin ∈ (Unserialize m).vin,
        ∃ inner, pool.mapOrphanTransactionsByPrev.find txin.prevout.hash = some inner ∧
          inner.count h = true) ∧
    (∀ p inner h, pool.mapOrphanTransactionsByPrev.find p = some inner →
      inner.count h = true → pool.mapOrphanTransactions.count h = true) ∧
    (∀ vMsg, (pool.mapOrphanTransactions.count (env.GetHash (Unserialize vMsg)) = true ∨
        vMsg.length > 5000) →
      AddOrphanTx env Unserialize pool vMsg = (false, pool)) ∧
    (∀ hash, pool.mapOrphanTransactions.count hash = false →
      EraseOrphanTx Unserialize pool hash = pool) := by
  obtain ⟨h1, h2, h3⟩ := OrphanInv_reachable env Unserialize pool hreach
  refine ⟨h1, ?_, ?_, ?_, ?_⟩
  · intro h m hf txin hin
    have hl := h2 h m hf txin hin
    unfold orphanListed at hl
    cases hfp : pool.mapOrphanTransactionsByPrev.find txin.prevout.hash with
    | none =>
      rw [hfp] at hl
      simp [StdMap.count, StdMap.find_empty] at hl
    | some inner =>
      rw [hfp] at hl
      exact ⟨inner, rfl, hl⟩
  · intro p inner h hfp hc
    have hl : orphanListed pool.mapOrphanTransactionsByPrev p h = true := by
      unfold orphanListed
      rw [hfp]
      exact hc
    obtain ⟨m, hm, _⟩ := h3 p h hl
    unfold StdMap.count
    rw [hm]
    rfl
  · intro vMsg h
    exact AddOrphanTx_rejected env Unserialize pool vMsg h
  · intro hash h
    exact EraseOrphanTx_absent Unserialize pool hash h

/-- Witness of C37: the sample pool of four orphans is reached by four calls of
`AddOrphanTx`; the orphan 11 spends transaction 10 and is listed under it. -/
theorem C37_orphan_pool_invariant_witness :
    OrphanReachable sampleEnv sampleUnserialize sampleOrphans ∧
    sampleOrphans.mapOrphanTransactions.find 11 = some [10] ∧
    (∀ txin ∈ (sampleUnserialize [10]).vin,
        ∃ inner, sampleOrphans.mapOrphanTransactionsByPrev.find txin.prevout.hash = some inner ∧
          inner.count 11 = true) ∧
    AddOrphanTx sampleEnv sampleUnserialize sampleOrphans [10] = (false, sampleOrphans) ∧
    EraseOrphanTx sampleUnserialize sampleOrphans 12 = sampleOrphans :=
  ⟨sampleOrphans_reachable, by decide!,
   (C37_orphan_pool_invariant sampleEnv sampleUnserialize sampleOrphans
      sampleOrphans_reachable).2.1 11 [10] (by decide!),
   (C37_orphan_pool_invariant sampleEnv sampleUnserialize sampleOrphans
      sampleOrphans_reachable).2.2.2.1 [10] (Or.inl (by decide!)),
   (C37_orphan_pool_invariant sampleEnv sampleUnserialize sampleOrphans
      sampleOrphans_reachable).2.2.2.2 12 (by decide!)⟩

/-! ## Supermajority rules of `AcceptBlock` -/

theorem acceptedHashes_length (accept : ChainState → CBlock → ChainStep)
    (hashOf : CBlock → uint256) (l : List CBlock) (st : ChainState) :
    (acceptedHashes accept hashOf l st).length ≤ l.length := by
  induction l generalizing st with
  | nil => simp [acceptedHashes]
  | cons b rest ih =>
    have := ih (accept st b).st
    simp only [acceptedHashes, List.length_append, List.length_cons]
    split
    · simp only [List.length_singleton]; omega
    · simp only [List.length_nil]; omega

end Xcoin
